import Mathlib

/-!
# Flattened device tree reader (`bare-metal/library/fdt`)

A shallow embedding of the read-only FDT walker of `fdt.c` / `fdt_r.c`, and the
properties of it that are checked against the specification.

Conventions of the embedding

* The blob is reached through the pointer `fdt`; the functions never learn its
  real length, so memory is a total map from addresses *relative to `fdt`* to
  bytes (`Mem`).  Addresses are integers: a pointer computed from a negative
  offset lies below `fdt`.
* A C `int` is an `Int` in `[-2^31, 2^31)`; every operation whose C result is
  converted to `int` goes through `toInt32`, every conversion to
  `unsigned int` through `toU32`.
* A pointer result is `Option`: `none` is `NULL`, `some a` the address `fdt + a`.
* Loops whose trip count is not bounded by the code itself take a `fuel`
  argument and answer `none` when it runs out.
-/

namespace Fdt

/-! ## Machine integers and memory -/

/-- Memory relative to the `fdt` pointer: `m a` is the byte stored at `fdt + a`. -/
abbrev Mem := Int → Nat

/-- The `unsigned char` read `*(uint8_t *)(fdt + a)`. -/
def byteAt (m : Mem) (a : Int) : Nat := m a % 256

/-- Conversion of an integer value to `unsigned int` (32 bits). -/
def toU32 (x : Int) : Nat := (x % 4294967296).toNat

/-- Conversion of an integer value to `int` (32 bits, two's complement). -/
def toInt32 (x : Int) : Int := (x + 2147483648) % 4294967296 - 2147483648

/-- The values an `int` can hold. -/
def isInt32 (x : Int) : Prop := -2147483648 ≤ x ∧ x < 2147483648

instance (x : Int) : Decidable (isInt32 x) := by unfold isInt32; infer_instance

/-- The big-endian load `fdt32_to_cpu(*(fdt32_t *)(fdt + a))` of `fdt_env.h`:
`(uint32_t)((b0 << 24) | (b1 << 16) | (b2 << 8) | b3)`. -/
def fdt32_to_cpu (m : Mem) (a : Int) : Nat :=
  ((byteAt m a <<< 24) ||| (byteAt m (a + 1) <<< 16) ||| (byteAt m (a + 2) <<< 8)
    ||| byteAt m (a + 3)) % 4294967296

/-! ## Constants of `fdt.h` and `fdt_api.h` -/

def FDT_VALID_MAGIC : Nat := 0xd00dfeed
def FDT_TAGSIZE : Nat := 4
def FDT_BEGIN_NODE : Nat := 0x1
def FDT_END_NODE : Nat := 0x2
def FDT_PROPERTY : Nat := 0x3
def FDT_NOP : Nat := 0x4
def FDT_END : Nat := 0x9

def FDT_FIRST_SUPPORTED_VERSION : Nat := 0x10
def FDT_LAST_SUPPORTED_VERSION : Nat := 0x11

def FDT_ERR_NOTFOUND : Int := 1
def FDT_ERR_EXISTS : Int := 2
def FDT_ERR_NOSPACE : Int := 3
def FDT_ERR_BADOFFSET : Int := 4
def FDT_ERR_BADPATH : Int := 5
def FDT_ERR_BADPHANDLE : Int := 6
def FDT_ERR_BADSTATE : Int := 7
def FDT_ERR_TRUNCATED : Int := 8
def FDT_ERR_BADMAGIC : Int := 9
def FDT_ERR_BADVERSION : Int := 10
def FDT_ERR_BADSTRUCTURE : Int := 11
def FDT_ERR_BADLAYOUT : Int := 12
def FDT_ERR_INTERNAL : Int := 13
def FDT_ERR_BADNCELLS : Int := 14
def FDT_ERR_BADVALUE : Int := 15
def FDT_ERR_MAX : Int := 15

/-! ## Header accessors (`fetch_fdt_field`) -/

def FDT_MAGIC (m : Mem) : Nat := fdt32_to_cpu m 0
def FDT_TOTALSIZE (m : Mem) : Nat := fdt32_to_cpu m 4
def FDT_STRUCT (m : Mem) : Nat := fdt32_to_cpu m 8
def FDT_STRING (m : Mem) : Nat := fdt32_to_cpu m 12
def FDT_RSVMEM (m : Mem) : Nat := fdt32_to_cpu m 16
def FDT_VERSION (m : Mem) : Nat := fdt32_to_cpu m 20
def FDT_LAST_COMP_VERSION (m : Mem) : Nat := fdt32_to_cpu m 24

/-! ## `fdt.c`: low-level functions -/

/-- The function `fdt_check_header`. -/
def fdt_check_header (m : Mem) : Int :=
  if FDT_MAGIC m = FDT_VALID_MAGIC then
    if FDT_VERSION m < FDT_FIRST_SUPPORTED_VERSION then -FDT_ERR_BADVERSION
    else if FDT_LAST_COMP_VERSION m > FDT_LAST_SUPPORTED_VERSION then -FDT_ERR_BADVERSION
    else 0
  else -FDT_ERR_BADMAGIC

/-- The function `fdt_offset_to_ptr`.  `offset` is an `int`, `len` is converted to
`unsigned int` on entry; all sums and comparisons are the unsigned 32-bit ones
of the C expressions (`offset` is converted to `unsigned` wherever it meets an
unsigned operand).  The result is the address `fdt + FDT_STRUCT(fdt) + offset`,
computed with the signed `offset`. -/
def fdt_offset_to_ptr (m : Mem) (offset : Int) (len : Nat) : Option Int :=
  let len := len % 4294967296
  let abs_offset := (toU32 offset + FDT_STRUCT m) % 4294967296
  if fdt_check_header m < 0 then none
  else if (toU32 offset + len) % 4294967296 < toU32 offset
      ∨ (toU32 offset + len) % 4294967296 > FDT_TOTALSIZE m then none
  else if abs_offset < toU32 offset ∨ (abs_offset + len) % 4294967296 < abs_offset
      ∨ (abs_offset + len) % 4294967296 > FDT_TOTALSIZE m then none
  else some ((FDT_STRUCT m : Int) + offset)

/-- The macro `FDT_TAGALIGN(x)`, i.e. `(x + 4 - 1) & ~(4 - 1)`, stored into an `int`. -/
def FDT_TAGALIGN (x : Int) : Int := toInt32 ((x + 3) / 4 * 4)

/-- The loop `do { p = fdt_offset_to_ptr(fdt, offset++, 1); } while (p && (*p != 0))`
of `fdt_tag_next_offset`, entered with `offset`.  The answer is `none` when the
loop leaves with `p == NULL`, and otherwise the value of `offset` after the loop
(one past the NUL).  Every round that goes on has `toU32 offset < FDT_TOTALSIZE`
and the next round sees `toU32 offset + 1`, so `FDT_TOTALSIZE + 1` rounds always
suffice (`skip_name_fuel`). -/
def skip_name (m : Mem) : Nat → Int → Option Int
  | 0, _ => none
  | fuel + 1, offset =>
    match fdt_offset_to_ptr m offset 1 with
    | none => none
    | some p =>
      if byteAt m p ≠ 0 then skip_name m fuel (toInt32 (offset + 1))
      else some (toInt32 (offset + 1))

/-- The function `fdt_tag_next_offset` called with a non-NULL `next_offset`.
`prev` is the value `*next_offset` holds before the call; the result is the
returned tag and the value `*next_offset` holds afterwards. -/
def fdt_tag_next_offset (m : Mem) (offset : Int) (prev : Int) : Nat × Int :=
  match fdt_offset_to_ptr m offset FDT_TAGSIZE with
  | none => (FDT_END, prev)
  | some ptag =>
    let tag := fdt32_to_cpu m ptag
    let offset := toInt32 (offset + 4)
    if tag = FDT_BEGIN_NODE then
      match skip_name m (FDT_TOTALSIZE m + 1) offset with
      | none => (FDT_END, -FDT_ERR_BADSTRUCTURE)
      | some offset => (tag, FDT_TAGALIGN offset)
    else if tag = FDT_PROPERTY then
      match fdt_offset_to_ptr m offset 4 with
      | none => (FDT_END, -FDT_ERR_BADSTRUCTURE)
      | some plen => (tag, FDT_TAGALIGN (toInt32 (offset + (12 - 4) + fdt32_to_cpu m plen)))
    else if tag = FDT_END_NODE ∨ tag = FDT_END ∨ tag = FDT_NOP then
      (tag, FDT_TAGALIGN offset)
    else (FDT_END, -FDT_ERR_BADSTRUCTURE)

/-- The function `fdt_tag_next_offset` called with `next_offset == NULL`. -/
def fdt_tag_only (m : Mem) (offset : Int) : Nat :=
  match fdt_offset_to_ptr m offset FDT_TAGSIZE with
  | none => FDT_END
  | some ptag => fdt32_to_cpu m ptag

/-- The function `node_next_offset`. -/
def node_next_offset (m : Mem) (offset : Int) : Int :=
  if offset < 0 ∨ offset % 4 ≠ 0 ∨ (fdt_tag_next_offset m offset offset).1 ≠ FDT_BEGIN_NODE then
    -FDT_ERR_BADOFFSET
  else (fdt_tag_next_offset m offset offset).2

/-- The function `property_next_offset`. -/
def property_next_offset (m : Mem) (offset : Int) : Int :=
  if offset < 0 ∨ offset % 4 ≠ 0 ∨ (fdt_tag_next_offset m offset offset).1 ≠ FDT_PROPERTY then
    -FDT_ERR_BADOFFSET
  else (fdt_tag_next_offset m offset offset).2

/-! ## `fdt.c`: node traversal -/

/-- The `do … while (tag != FDT_BEGIN_NODE)` loop of `fdt_next_node`, entered with
the local `next_offset`.  `track` says whether `pdepth` is non-NULL and `depth`
is `*pdepth` (left alone when `track` is false).  The result is the returned
value and the final `*pdepth`. -/
def next_node_loop (m : Mem) (track : Bool) : Nat → Int → Int → Option (Int × Int)
  | 0, _, _ => none
  | fuel + 1, next_offset, depth =>
    let offset := next_offset
    let tag := (fdt_tag_next_offset m offset next_offset).1
    let next_offset := (fdt_tag_next_offset m offset next_offset).2
    if tag = FDT_PROPERTY ∨ tag = FDT_NOP then next_node_loop m track fuel next_offset depth
    else if tag = FDT_BEGIN_NODE then
      some (offset, if track then toInt32 (depth + 1) else depth)
    else if tag = FDT_END_NODE then
      if track then
        if toInt32 (depth - 1) < 0 then some (next_offset, toInt32 (depth - 1))
        else next_node_loop m track fuel next_offset (toInt32 (depth - 1))
      else next_node_loop m track fuel next_offset depth
    else if tag = FDT_END then
      if next_offset ≥ 0 ∨ (next_offset = -FDT_ERR_TRUNCATED ∧ track = false) then
        some (-FDT_ERR_NOTFOUND, depth)
      else some (next_offset, depth)
    else next_node_loop m track fuel next_offset depth

/-- The function `fdt_next_node`; `fuel` bounds the rounds of its loop. -/
def fdt_next_node (m : Mem) (fuel : Nat) (offset : Int) (track : Bool) (depth : Int) :
    Option (Int × Int) :=
  if offset ≥ 0 then
    if node_next_offset m offset < 0 then some (node_next_offset m offset, depth)
    else next_node_loop m track fuel (node_next_offset m offset) depth
  else next_node_loop m track fuel 0 depth

/-- The function `fdt_first_child_node`. -/
def fdt_first_child_node (m : Mem) (fuel : Nat) (offset : Int) : Option Int :=
  match fdt_next_node m fuel offset true 0 with
  | none => none
  | some (offset, depth) =>
    if offset < 0 ∨ depth ≠ 1 then some (-FDT_ERR_NOTFOUND) else some offset

/-- The `do … while (depth > 1)` loop of `fdt_next_sibling_node`; the first
argument bounds its rounds, `fuel` those of each `fdt_next_node`. -/
def next_sibling_loop (m : Mem) (fuel : Nat) : Nat → Int → Int → Option Int
  | 0, _, _ => none
  | rounds + 1, offset, depth =>
    match fdt_next_node m fuel offset true depth with
    | none => none
    | some (offset, depth) =>
      if offset < 0 ∨ depth < 1 then some (-FDT_ERR_NOTFOUND)
      else if depth > 1 then next_sibling_loop m fuel rounds offset depth
      else some offset

/-- The function `fdt_next_sibling_node`. -/
def fdt_next_sibling_node (m : Mem) (fuel : Nat) (offset : Int) : Option Int :=
  next_sibling_loop m fuel fuel offset 1

/-! ## `fdt.c`: property traversal -/

/-- The function `fdt_property_entry` called with a non-NULL `pvaluelen`: the
returned pointer and the value left in `*pvaluelen`. -/
def fdt_property_entry (m : Mem) (offset : Int) : Option Int × Int :=
  if property_next_offset m offset < 0 then (none, property_next_offset m offset)
  else
    let entry := (FDT_STRUCT m : Int) + offset
    (some entry, toInt32 (fdt32_to_cpu m (entry + 4)))

/-- The `do … while (tag == FDT_NOP)` loop of `lookup_valid_property` together
with the classification that follows it.  `next_offset` is the current value of
the local of that name, which the function never initialises: on the first
round it is whatever the stack held.  `fdt_tag_next_offset` returns a `uint32_t`,
so the test `tag < 0` never holds. -/
def lookup_valid_property_loop (m : Mem) : Nat → Int → Int → Option Int
  | 0, _, _ => none
  | fuel + 1, offset, next_offset =>
    let tag := (fdt_tag_next_offset m offset next_offset).1
    let next_offset := (fdt_tag_next_offset m offset next_offset).2
    if tag = FDT_PROPERTY then some offset
    else
      let offset := next_offset
      if tag = FDT_NOP then lookup_valid_property_loop m fuel offset next_offset
      else if tag = FDT_END then
        if offset > 0 then some (-FDT_ERR_BADSTRUCTURE) else some offset
      else some (-FDT_ERR_NOTFOUND)

/-- The function `lookup_valid_property`; `uninit` is the indeterminate initial
value of its local `next_offset`. -/
def lookup_valid_property (m : Mem) (fuel : Nat) (offset : Int) (uninit : Int) : Option Int :=
  lookup_valid_property_loop m fuel offset uninit

/-- The function `fdt_first_property`. -/
def fdt_first_property (m : Mem) (fuel : Nat) (node_offset : Int) (uninit : Int) : Option Int :=
  if node_next_offset m node_offset < 0 then some (node_next_offset m node_offset)
  else lookup_valid_property m fuel (node_next_offset m node_offset) uninit

/-- The function `fdt_next_property`. -/
def fdt_next_property (m : Mem) (fuel : Nat) (offset : Int) (uninit : Int) : Option Int :=
  if property_next_offset m offset < 0 then some (property_next_offset m offset)
  else lookup_valid_property m fuel (property_next_offset m offset) uninit

/-! ## `fdt_env.h`: strings -/

/-- A `const char *`: the byte at each index from the pointer on.  Readers
reduce every element to an `unsigned char`. -/
abbrev CStr := Nat → Nat

/-- The string a pointer `fdt + a` into the blob's memory designates. -/
def memStr (m : Mem) (a : Int) : CStr := fun i => byteAt m (a + i)

/-- The string with the bytes of `l`, NUL-terminated (zero from its end on). -/
def strOfBytes (l : List Nat) : CStr := fun i => l.getD i 0

/-- The loop of `strlen`, at index `i`; `none` when no NUL is met within `fuel` bytes. -/
def strlen_loop (s : CStr) : Nat → Nat → Option Nat
  | 0, _ => none
  | fuel + 1, i => if s i % 256 ≠ 0 then strlen_loop s fuel (i + 1) else some i

/-- The function `strlen` (it returns an `int`). -/
def strlen (s : CStr) (fuel : Nat) : Option Int :=
  match strlen_loop s fuel 0 with
  | none => none
  | some n => some (toInt32 n)

/-- The loop of `memcmp`, at index `i` with `n` bytes left. -/
def memcmp_loop (cs ct : CStr) : Nat → Nat → Int
  | 0, _ => 0
  | n + 1, i =>
    if (cs i % 256 : Int) - (ct i % 256 : Int) ≠ 0 then (cs i % 256 : Int) - (ct i % 256 : Int)
    else memcmp_loop cs ct n (i + 1)

/-- The function `memcmp`; `count` is the `int`-typed `size_t` of `fdt_env.h`, and
the loop runs while `0 < count`. -/
def memcmp (cs ct : CStr) (count : Int) : Int := memcmp_loop cs ct count.toNat 0

/-- The loop of `memchr`, at index `i` with `n` rounds left: the index of the
first byte equal to `c`. -/
def memchr_loop (s : CStr) (c : Nat) : Nat → Nat → Option Nat
  | 0, _ => none
  | n + 1, i => if c % 256 = s i % 256 then some i else memchr_loop s c n (i + 1)

/-- The function `memchr`: the index of the hit, `none` for `NULL`.  The loop is
`while (n-- != 0)` on an `int`, which makes `toU32 n` rounds. -/
def memchr (s : CStr) (c : Nat) (n : Int) : Option Nat := memchr_loop s c (toU32 n) 0

/-! ## `fdt.c`: names and strings -/

/-- The function `fdt_string`: the address `fdt + FDT_STRING(fdt) + stroffset`. -/
def fdt_string (m : Mem) (stroffset : Int) : Int := (FDT_STRING m : Int) + stroffset

/-- The function `fdt_nodename_equal`. -/
def fdt_nodename_equal (m : Mem) (offset : Int) (s : CStr) (len : Int) : Int :=
  match fdt_offset_to_ptr m (toInt32 (offset + 4)) (toU32 (toInt32 (len + 1))) with
  | none => 0
  | some p =>
    if memcmp (memStr m p) s len ≠ 0 then 0
    else if byteAt m (p + len) = 0 then 1
    else if byteAt m (p + len) = 64 ∧ memchr s 64 len = none then 1
    else 0

/-! ## `fdt_r.c`: lookups -/

/-- The `while (offset > 0)` loop of `fdt_lookup_child_node_by_namelen`. -/
def lookup_child_loop (m : Mem) (fuel : Nat) (name : CStr) (namelen : Int) :
    Nat → Int → Option Int
  | 0, _ => none
  | rounds + 1, offset =>
    if offset > 0 then
      if fdt_nodename_equal m offset name namelen ≠ 0 then some offset
      else
        match fdt_next_sibling_node m fuel offset with
        | none => none
        | some offset => lookup_child_loop m fuel name namelen rounds offset
    else some offset

/-- The function `fdt_lookup_child_node_by_namelen`. -/
def fdt_lookup_child_node_by_namelen (m : Mem) (fuel : Nat) (offset : Int) (name : CStr)
    (namelen : Int) : Option Int :=
  match fdt_first_child_node m fuel offset with
  | none => none
  | some offset => lookup_child_loop m fuel name namelen fuel offset

/-- The `while (offset > 0)` loop of `fdt_lookup_property_entry_by_namelen` and the
two statements after it: the returned pointer and the value left in `*pvaluelen`. -/
def lookup_property_loop (m : Mem) (fuel : Nat) (name : CStr) (namelen : Int) (uninit : Int) :
    Nat → Int → Option (Option Int × Int)
  | 0, _ => none
  | rounds + 1, offset =>
    if offset > 0 then
      match (fdt_property_entry m offset).1 with
      | none => some (none, -FDT_ERR_INTERNAL)
      | some pentry =>
        let prop_name := memStr m (fdt_string m (toInt32 (fdt32_to_cpu m (pentry + 8))))
        match strlen prop_name fuel with
        | none => none
        | some l =>
          if l = namelen ∧ memcmp prop_name name namelen = 0 then
            some (some pentry, (fdt_property_entry m offset).2)
          else
            match fdt_next_property m fuel offset uninit with
            | none => none
            | some offset => lookup_property_loop m fuel name namelen uninit rounds offset
    else some (none, offset)

/-- The function `fdt_lookup_property_entry_by_namelen`. -/
def fdt_lookup_property_entry_by_namelen (m : Mem) (fuel : Nat) (offset : Int) (name : CStr)
    (namelen : Int) (uninit : Int) : Option (Option Int × Int) :=
  match fdt_first_property m fuel offset uninit with
  | none => none
  | some offset => lookup_property_loop m fuel name namelen uninit fuel offset

/-- The function `fdt_lookup_property_value_by_namelen`: `prop->value` is 12 bytes
into the record. -/
def fdt_lookup_property_value_by_namelen (m : Mem) (fuel : Nat) (nodeoffset : Int) (name : CStr)
    (namelen : Int) (uninit : Int) : Option (Option Int × Int) :=
  match fdt_lookup_property_entry_by_namelen m fuel nodeoffset name namelen uninit with
  | none => none
  | some (none, len) => some (none, len)
  | some (some prop, len) => some (some (prop + 12), len)

/-- The inner loop `while (*path == '/') { path++; if (path == end) return offset; }`
of `fdt_lookup_node_by_pathlen`: `Sum.inl` is the early return, `Sum.inr` the
position at which the loop stops. -/
def skip_slashes (path : CStr) (pend : Int) : Nat → Nat → Option (Unit ⊕ Nat)
  | 0, _ => none
  | fuel + 1, pos =>
    if path pos % 256 = 47 then
      if ((pos + 1 : Nat) : Int) = pend then some (Sum.inl ()) else skip_slashes path pend fuel (pos + 1)
    else some (Sum.inr pos)

/-- The loop `while (path < end)` of `fdt_lookup_node_by_pathlen`, with `path` at
index `pos` of the caller's string and `end` at index `pend`. -/
def path_walk (m : Mem) (fuel : Nat) (path : CStr) (pend : Int) : Nat → Nat → Int → Option Int
  | 0, _, _ => none
  | rounds + 1, pos, offset =>
    if (pos : Int) < pend then
      match skip_slashes path pend fuel pos with
      | none => none
      | some (Sum.inl _) => some offset
      | some (Sum.inr pos) =>
        let slash : Int :=
          match memchr (fun i => path (pos + i)) 47 (toInt32 (pend - pos)) with
          | none => pend
          | some i => ((pos + i : Nat) : Int)
        match fdt_lookup_child_node_by_namelen m fuel offset (fun i => path (pos + i))
            (toInt32 (slash - pos)) with
        | none => none
        | some offset =>
          if offset < 0 then some offset else path_walk m fuel path pend rounds slash.toNat offset
    else some offset

/-- The string literal `"/aliases"`. -/
def aliasesPath : CStr := strOfBytes [47, 97, 108, 105, 97, 115, 101, 115]

/-- The functions `fdt_lookup_node_by_pathlen` and, inside its alias branch,
`fdt_lookup_alias_value_by_namelen` (which calls back with `"/aliases", 8` and
then looks the property up with a NULL `pvaluelen`).  The first `Nat` bounds the
depth of the recursion through alias values. -/
def fdt_lookup_node_by_pathlen (m : Mem) (fuel : Nat) (uninit : Int) :
    Nat → CStr → Int → Option Int
  | 0, _, _ => none
  | depth + 1, path, pathlen =>
    if path 0 % 256 ≠ 47 then
      let slash : Int :=
        match memchr path 47 pathlen with
        | none => pathlen
        | some i => (i : Int)
      match fdt_lookup_node_by_pathlen m fuel uninit depth aliasesPath 8 with
      | none => none
      | some aliasoffset =>
        if aliasoffset < 0 then some (-FDT_ERR_BADPATH)
        else
          match fdt_lookup_property_value_by_namelen m fuel aliasoffset path (toInt32 slash)
              uninit with
          | none => none
          | some (none, _) => some (-FDT_ERR_BADPATH)
          | some (some alias_path, _) =>
            match strlen (memStr m alias_path) fuel with
            | none => none
            | some l =>
              match fdt_lookup_node_by_pathlen m fuel uninit depth (memStr m alias_path) l with
              | none => none
              | some offset =>
                if offset < 0 then some offset
                else path_walk m fuel path pathlen fuel slash.toNat offset
    else path_walk m fuel path pathlen fuel 0 0

/-! ## Concrete blobs -/

/-- The four bytes of a big-endian 32-bit word. -/
def word (w : Nat) : List Nat := [w / 16777216 % 256, w / 65536 % 256, w / 256 % 256, w % 256]

/-- Memory holding the bytes `l` from `fdt` on and zero everywhere else. -/
def memOfBytes (l : List Nat) : Mem := fun a => if a < 0 then 0 else l.getD a.toNat 0

/-- A version-17 header: `totalsize`, `off_dt_struct`, `off_dt_strings`, and
`off_mem_rsvmap = 0x28`, followed by the three later-version fields. -/
def header (magic totalsize off_struct off_strings : Nat) : List Nat :=
  word magic ++ word totalsize ++ word off_struct ++ word off_strings ++ word 0x28
    ++ word 17 ++ word 16 ++ word 0 ++ word 0 ++ word 0

/-- A tree that is only a root node: `BEGIN_NODE ""`, `END_NODE`, `END`. -/
def rootOnlyBlob : Mem :=
  memOfBytes (header 0xd00dfeed 0x38 0x28 0x38 ++ word 1 ++ word 0 ++ word 2 ++ word 9)

/-- The blob `rootOnlyBlob` with its magic zeroed, as in scenario S2. -/
def rejectedBlob : Mem :=
  memOfBytes (header 0 0x38 0x28 0x38 ++ word 1 ++ word 0 ++ word 2 ++ word 9)

/-- An accepted header that declares `totalsize = 0xffffffff`. -/
def hugeBlob : Mem := memOfBytes (header 0xd00dfeed 0xffffffff 0x28 0x38)

/-- A root node whose only property declares 100 value bytes although the blob
ends right after the `len` word. -/
def shortPropBlob : Mem :=
  memOfBytes (header 0xd00dfeed 0x38 0x28 0x38 ++ word 1 ++ word 0 ++ word 3 ++ word 100)

/-- A root node whose property declares `len = 0xffffff00`. -/
def wrapLenBlob : Mem :=
  memOfBytes (header 0xd00dfeed 0x48 0x28 0x48 ++ word 1 ++ word 0 ++ word 3 ++ word 0xffffff00
    ++ word 0 ++ word 2 ++ word 9)

/-- A root node whose property declares `len = 0xfffffff4`. -/
def negLenBlob : Mem :=
  memOfBytes (header 0xd00dfeed 0x48 0x28 0x48 ++ word 1 ++ word 0 ++ word 3 ++ word 0xfffffff4
    ++ word 0 ++ word 2 ++ word 9)

/-- A blob that ends inside the name of its root node: `BEGIN_NODE "abcd…`. -/
def openNameBlob : Mem :=
  memOfBytes (header 0xd00dfeed 0x30 0x28 0x30 ++ word 1 ++ [97, 98, 99, 100])

/-- A blob cut right after the root's `END_NODE`: `BEGIN_NODE ""`, `END_NODE`. -/
def cutBlob : Mem :=
  memOfBytes (header 0xd00dfeed 0x34 0x28 0x34 ++ word 1 ++ word 0 ++ word 2)

/-- An accepted header whose structure block starts where the blob ends. -/
def emptyStructBlob : Mem := memOfBytes (header 0xd00dfeed 0x28 0x28 0x28)

/-- The tree of scenario S4: `BEGIN_NODE ""`, `BEGIN_NODE "cpu@0"`, `END_NODE`,
`END_NODE`, `END`. -/
def childBlob : Mem :=
  memOfBytes (header 0xd00dfeed 0x4c 0x28 0x4c ++ word 1 ++ word 0 ++ word 1
    ++ [99, 112, 117, 64, 48, 0, 0, 0] ++ word 2 ++ word 2 ++ word 9)

/-! ## Well-formed blobs

The structure block of a well-formed blob is described by the list of its
records.  Only what decides the layout is kept: the length of a node name and
the length of a property value. -/

/-- One record of the structure block: `BEGIN_NODE` with a name of `namelen`
non-NUL bytes, `END_NODE`, `PROPERTY` with `len` value bytes, or `NOP`. -/
inductive Tok where
  | beginNode (namelen : Nat)
  | endNode
  | prop (len : Nat)
  | nop
  deriving DecidableEq

/-- The tag word of a record. -/
def Tok.tag : Tok → Nat
  | .beginNode _ => FDT_BEGIN_NODE
  | .endNode => FDT_END_NODE
  | .prop _ => FDT_PROPERTY
  | .nop => FDT_NOP

/-- The bytes a record occupies, padding to the next multiple of 4 included:
tag and NUL-terminated name; tag; tag, `len`, `nameoff` and value; tag. -/
def Tok.size : Tok → Nat
  | .beginNode namelen => (4 + namelen + 1 + 3) / 4 * 4
  | .endNode => 4
  | .prop len => (12 + len + 3) / 4 * 4
  | .nop => 4

/-- The bytes a list of records occupies. -/
def streamSize : List Tok → Nat
  | [] => 0
  | t :: ts => t.size + streamSize ts

/-- The record `t` is stored at structure offset `o` of the blob. -/
def tokAt (m : Mem) (o : Nat) : Tok → Prop
  | .beginNode namelen =>
    fdt32_to_cpu m ((FDT_STRUCT m + o : Nat) : Int) = FDT_BEGIN_NODE ∧
    (∀ i, i < namelen → byteAt m ((FDT_STRUCT m + o + 4 + i : Nat) : Int) ≠ 0) ∧
    byteAt m ((FDT_STRUCT m + o + 4 + namelen : Nat) : Int) = 0
  | .endNode => fdt32_to_cpu m ((FDT_STRUCT m + o : Nat) : Int) = FDT_END_NODE
  | .prop len =>
    fdt32_to_cpu m ((FDT_STRUCT m + o : Nat) : Int) = FDT_PROPERTY ∧
    fdt32_to_cpu m ((FDT_STRUCT m + o + 4 : Nat) : Int) = len
  | .nop => fdt32_to_cpu m ((FDT_STRUCT m + o : Nat) : Int) = FDT_NOP

instance (m : Mem) (o : Nat) (t : Tok) : Decidable (tokAt m o t) := by
  cases t <;> unfold tokAt <;> infer_instance

/-- The records `ts` are stored back to back from structure offset `o` on and
are followed by the `END` tag. -/
def streamAt (m : Mem) : Nat → List Tok → Prop
  | o, [] => fdt32_to_cpu m ((FDT_STRUCT m + o : Nat) : Int) = FDT_END
  | o, t :: ts => tokAt m o t ∧ streamAt m (o + t.size) ts

instance (m : Mem) (o : Nat) (ts : List Tok) : Decidable (streamAt m o ts) := by
  induction ts generalizing o with
  | nil => unfold streamAt; infer_instance
  | cons t ts ih => unfold streamAt; infer_instance

/-- Proper nesting of a record list entered with `opened` nodes open: no
`END_NODE` without an open node, and no node left open at the end. -/
def properlyNested : Nat → List Tok → Bool
  | opened, [] => opened == 0
  | opened, .beginNode _ :: ts => properlyNested (opened + 1) ts
  | 0, .endNode :: _ => false
  | opened + 1, .endNode :: ts => properlyNested opened ts
  | opened, .prop _ :: ts => properlyNested opened ts
  | opened, .nop :: ts => properlyNested opened ts

/-- A well-formed blob with structure block `ts`: the header is accepted, the
root node starts at structure offset 0, the records and the terminating `END`
tag are stored from `off_dt_struct` on and lie inside `totalsize`, and the
records are properly nested. -/
structure WellFormed (m : Mem) (ts : List Tok) : Prop where
  header : fdt_check_header m = 0
  root : ∃ namelen rest, ts = Tok.beginNode namelen :: rest
  stream : streamAt m 0 ts
  inside : FDT_STRUCT m + streamSize ts + 4 ≤ FDT_TOTALSIZE m
  nested : properlyNested 0 ts = true

/-- The structure offsets of the `BEGIN_NODE` records of `ts`, laid out from `o`,
in document order. -/
def beginOffsets : Nat → List Tok → List Nat
  | _, [] => []
  | o, .beginNode namelen :: ts =>
    o :: beginOffsets (o + (Tok.beginNode namelen).size) ts
  | o, t :: ts => beginOffsets (o + t.size) ts

/-- The direct children met when reading the records `ts`, laid out from `o`,
`lvl` nodes below the node whose children are wanted: the offsets of the
`BEGIN_NODE` records found at level 0, up to the `END_NODE` that closes that node. -/
def childOffsets : Nat → Nat → List Tok → List Nat
  | _, _, [] => []
  | o, 0, .beginNode namelen :: ts =>
    o :: childOffsets (o + (Tok.beginNode namelen).size) 1 ts
  | o, lvl + 1, .beginNode namelen :: ts =>
    childOffsets (o + (Tok.beginNode namelen).size) (lvl + 2) ts
  | _, 0, .endNode :: _ => []
  | o, lvl + 1, .endNode :: ts => childOffsets (o + 4) lvl ts
  | o, lvl, .prop len :: ts => childOffsets (o + (Tok.prop len).size) lvl ts
  | o, lvl, .nop :: ts => childOffsets (o + 4) lvl ts

/-! ## The iterations the specification speaks of -/

/-- The offsets obtained by calling `fdt_next_node` at `offset` and again at each
returned offset, threading the depth, until it returns NotFound; at most
`rounds` calls are made. -/
def node_sequence (m : Mem) (fuel : Nat) (track : Bool) : Nat → Int → Int → Option (List Int)
  | 0, _, _ => none
  | rounds + 1, offset, depth =>
    match fdt_next_node m fuel offset track depth with
    | none => none
    | some (r, depth) =>
      if r = -FDT_ERR_NOTFOUND then some []
      else
        match node_sequence m fuel track rounds r depth with
        | none => none
        | some l => some (r :: l)

/-- The offsets `c`, `fdt_next_sibling_node(c)`, … up to the first NotFound. -/
def sibling_chain (m : Mem) (fuel : Nat) : Nat → Int → Option (List Int)
  | 0, _ => none
  | rounds + 1, c =>
    if c = -FDT_ERR_NOTFOUND then some []
    else
      match fdt_next_sibling_node m fuel c with
      | none => none
      | some c2 =>
        match sibling_chain m fuel rounds c2 with
        | none => none
        | some l => some (c :: l)

/-- The offsets `fdt_first_child_node(n)`, `fdt_next_sibling_node` of it, … up to
the first NotFound. -/
def child_sequence (m : Mem) (fuel : Nat) (n : Int) : Option (List Int) :=
  match fdt_first_child_node m fuel n with
  | none => none
  | some c => sibling_chain m fuel fuel c

/-- What `fdt_first_child_node` makes of the result of `fdt_next_node`. -/
def first_child_step (res : Option (Int × Int)) : Option Int :=
  match res with
  | none => none
  | some (offset, depth) =>
    if offset < 0 ∨ depth ≠ 1 then some (-FDT_ERR_NOTFOUND) else some offset

/-- What one round of `next_sibling_loop` makes of the result of `fdt_next_node`. -/
def sibling_step (m : Mem) (fuel rounds : Nat) (res : Option (Int × Int)) : Option Int :=
  match res with
  | none => none
  | some (offset, depth) =>
    if offset < 0 ∨ depth < 1 then some (-FDT_ERR_NOTFOUND)
    else if depth > 1 then next_sibling_loop m fuel rounds offset depth
    else some offset

/-- What one round of `node_sequence` makes of the result of `fdt_next_node`. -/
def sequence_step (m : Mem) (fuel : Nat) (track : Bool) (rounds : Nat)
    (res : Option (Int × Int)) : Option (List Int) :=
  match res with
  | none => none
  | some (r, depth) =>
    if r = -FDT_ERR_NOTFOUND then some []
    else
      match node_sequence m fuel track rounds r depth with
      | none => none
      | some l => some (r :: l)

/-- The records `ts` followed by `END` are stored from the 4-aligned structure
offset `o` on, inside `totalsize`, and end below offset `2^31`, in a blob whose
header is accepted. -/
structure Laid (m : Mem) (o : Nat) (ts : List Tok) : Prop where
  header : fdt_check_header m = 0
  aligned : o % 4 = 0
  stream : streamAt m o ts
  inside : FDT_STRUCT m + o + streamSize ts + 4 ≤ FDT_TOTALSIZE m
  small : o + streamSize ts + 4 < 2147483648

/-- The first offset of a list as an `int`, NotFound when there is none. -/
def firstOr : List Nat → Int
  | [] => -FDT_ERR_NOTFOUND
  | x :: _ => (x : Int)

/-- A list of structure offsets as the `int`s the functions return. -/
def asInts (l : List Nat) : List Int := l.map Int.ofNat

/-- The records of `childBlob`. -/
def childToks : List Tok := [.beginNode 0, .beginNode 5, .endNode, .endNode]

/-- A tree with a grandchild: root, child "a" holding a property (after a NOP)
and a child "b", then child "c" of the root. -/
def familyBlob : Mem :=
  memOfBytes (header 0xd00dfeed 0x80 0x28 0x80 ++ word 1 ++ word 0
    ++ word 1 ++ [97, 0, 0, 0] ++ word 4 ++ word 3 ++ word 5 ++ word 0 ++ [1, 2, 3, 4, 5, 0, 0, 0]
    ++ word 1 ++ [98, 0, 0, 0] ++ word 2 ++ word 2
    ++ word 1 ++ [99, 0, 0, 0] ++ word 2 ++ word 2 ++ word 9)

/-- The records of `familyBlob`. -/
def familyToks : List Tok :=
  [.beginNode 0, .beginNode 1, .nop, .prop 5, .beginNode 1, .endNode, .endNode,
   .beginNode 1, .endNode, .endNode]

/-- A blob of more than 2 GiB: the root node holds a property with a value of
0x7ffffff0 bytes (all zero) and, after it, one child node, which therefore
starts at structure offset 0x80000004. -/
def giantBlob : Mem := fun a =>
  if a < 0 then 0
  else if a < 56 then
    (header 0xd00dfeed 0x80000040 0x28 0x80000040 ++ word 1 ++ word 0 ++ word 3
      ++ word 0x7ffffff0).getD a.toNat 0
  else if a = 40 + 0x80000004 + 3 then 1
  else if a = 40 + 0x8000000c + 3 then 2
  else if a = 40 + 0x80000010 + 3 then 2
  else if a = 40 + 0x80000014 + 3 then 9
  else 0

/-- The records of `giantBlob`. -/
def giantToks : List Tok := [.beginNode 0, .prop 0x7ffffff0, .beginNode 0, .endNode, .endNode]

/-! ## `fdt_r.c`: the remaining lookups by name, path and phandle -/

/-- The function `fdt_lookup_child_node_by_name`. -/
def fdt_lookup_child_node_by_name (m : Mem) (fuel : Nat) (offset : Int) (name : CStr) :
    Option Int :=
  match strlen name fuel with
  | none => none
  | some l => fdt_lookup_child_node_by_namelen m fuel offset name l

/-- The function `fdt_lookup_node_by_path`. -/
def fdt_lookup_node_by_path (m : Mem) (fuel : Nat) (uninit : Int) (depth : Nat) (path : CStr) :
    Option Int :=
  match strlen path fuel with
  | none => none
  | some l => fdt_lookup_node_by_pathlen m fuel uninit depth path l

/-- The string literal `"phandle"`. -/
def phandleName : CStr := strOfBytes [112, 104, 97, 110, 100, 108, 101]

/-- The string literal `"linux,phandle"`. -/
def linuxPhandleName : CStr :=
  strOfBytes [108, 105, 110, 117, 120, 44, 112, 104, 97, 110, 100, 108, 101]

/-- The function `fdt_fetch_phandle`.  The test `len != sizeof(*php)` compares
`len`, converted to an unsigned type, with 4. -/
def fdt_fetch_phandle (m : Mem) (fuel : Nat) (nodeoffset : Int) (uninit : Int) : Option Nat :=
  match fdt_lookup_property_value_by_namelen m fuel nodeoffset phandleName 7 uninit with
  | none => none
  | some (some php, 4) => some (fdt32_to_cpu m php)
  | some (_, _) =>
    match fdt_lookup_property_value_by_namelen m fuel nodeoffset linuxPhandleName 13 uninit with
    | none => none
    | some (some php, 4) => some (fdt32_to_cpu m php)
    | some (_, _) => some 0

/-- The `for` loop of `fdt_lookup_node_by_phandle`, entered with `offset`. -/
def phandle_loop (m : Mem) (fuel : Nat) (phandle : Nat) (uninit : Int) : Nat → Int → Option Int
  | 0, _ => none
  | rounds + 1, offset =>
    if offset ≥ 0 then
      match fdt_fetch_phandle m fuel offset uninit with
      | none => none
      | some ph =>
        if ph = phandle then some offset
        else
          match fdt_next_node m fuel offset false 0 with
          | none => none
          | some (offset, _) => phandle_loop m fuel phandle uninit rounds offset
    else some offset

/-- The function `fdt_lookup_node_by_phandle`; `phandle` is a `uint32_t`, and the
test `phandle == -1` compares it with `0xffffffff`. -/
def fdt_lookup_node_by_phandle (m : Mem) (fuel : Nat) (phandle : Nat) (uninit : Int) :
    Option Int :=
  if phandle % 4294967296 = 0 ∨ phandle % 4294967296 = 4294967295 then some (-FDT_ERR_BADPHANDLE)
  else
    match fdt_next_node m fuel (-1) false 0 with
    | none => none
    | some (offset, _) => phandle_loop m fuel (phandle % 4294967296) uninit fuel offset

/-! ## The tags `fdt_next_node` scans -/

/-- The loop of `fdt_next_node` (`next_node_loop`) made to report what it scanned:
the returned value, the final `*pdepth`, the tag at which it returned, and the
tags it passed over before that one, in order. -/
def next_node_scan (m : Mem) (track : Bool) :
    Nat → Int → Int → List Nat → Option (Int × Int × Nat × List Nat)
  | 0, _, _, _ => none
  | fuel + 1, next_offset, depth, seen =>
    let offset := next_offset
    let tag := (fdt_tag_next_offset m offset next_offset).1
    let next_offset := (fdt_tag_next_offset m offset next_offset).2
    if tag = FDT_PROPERTY ∨ tag = FDT_NOP then
      next_node_scan m track fuel next_offset depth (seen ++ [tag])
    else if tag = FDT_BEGIN_NODE then
      some (offset, if track then toInt32 (depth + 1) else depth, tag, seen)
    else if tag = FDT_END_NODE then
      if track then
        if toInt32 (depth - 1) < 0 then some (next_offset, toInt32 (depth - 1), tag, seen)
        else next_node_scan m track fuel next_offset (toInt32 (depth - 1)) (seen ++ [tag])
      else next_node_scan m track fuel next_offset depth (seen ++ [tag])
    else if tag = FDT_END then
      if next_offset ≥ 0 ∨ (next_offset = -FDT_ERR_TRUNCATED ∧ track = false) then
        some (-FDT_ERR_NOTFOUND, depth, tag, seen)
      else some (next_offset, depth, tag, seen)
    else next_node_scan m track fuel next_offset depth (seen ++ [tag])

/-- The function `fdt_next_node` made to report what its loop scanned (nothing,
with tag 0, when it returns before the loop). -/
def fdt_next_node_scan (m : Mem) (fuel : Nat) (offset : Int) (track : Bool) (depth : Int) :
    Option (Int × Int × Nat × List Nat) :=
  if offset ≥ 0 then
    if node_next_offset m offset < 0 then some (node_next_offset m offset, depth, 0, [])
    else next_node_scan m track fuel (node_next_offset m offset) depth []
  else next_node_scan m track fuel 0 depth []

/-- A root node with one child named "uart@9000000". -/
def uartBlob : Mem :=
  memOfBytes (header 0xd00dfeed 0x54 0x28 0x54 ++ word 1 ++ word 0 ++ word 1
    ++ [117, 97, 114, 116, 64, 57, 48, 48, 48, 48, 48, 48, 0, 0, 0, 0]
    ++ word 2 ++ word 2 ++ word 9)

/-! ## Paths as lists of components -/

/-- The bytes of `l` before its first '/', and the non-empty components after it. -/
def splitSlash : List Nat → List Nat × List (List Nat)
  | [] => ([], [])
  | b :: rest =>
    if b % 256 = 47 then
      ([], if (splitSlash rest).1 = [] then (splitSlash rest).2
        else (splitSlash rest).1 :: (splitSlash rest).2)
    else (b :: (splitSlash rest).1, (splitSlash rest).2)

/-- The components of a path: its maximal non-empty runs of bytes other than '/'. -/
def components (l : List Nat) : List (List Nat) :=
  if (splitSlash l).1 = [] then (splitSlash l).2 else (splitSlash l).1 :: (splitSlash l).2

/-- Descending from `offset` through the components `cs` with
`fdt_lookup_child_node_by_namelen`, stopping at the first negative result. -/
def descend (m : Mem) (fuel : Nat) : Int → List (List Nat) → Option Int
  | offset, [] => some offset
  | offset, c :: cs =>
    match fdt_lookup_child_node_by_namelen m fuel offset (strOfBytes c) c.length with
    | none => none
    | some offset => if offset < 0 then some offset else descend m fuel offset cs

/-- The first of the offsets `l` at which `fdt_nodename_equal` accepts the name,
NotFound when there is none. -/
def firstMatch (m : Mem) (name : CStr) (namelen : Int) : List Nat → Int
  | [] => -FDT_ERR_NOTFOUND
  | x :: xs =>
    if fdt_nodename_equal m (x : Int) name namelen ≠ 0 then (x : Int)
    else firstMatch m name namelen xs

/-! ## The properties of a node -/

/-- The offsets of the `PROPERTY` records that open the body of a node: those
met, `NOP`s apart, before the first other record.  The records `ts` are laid out
from `o`, the offset after the node's name. -/
def propOffsets : Nat → List Tok → List Nat
  | o, .prop len :: ts => o :: propOffsets (o + (Tok.prop len).size) ts
  | o, .nop :: ts => propOffsets (o + 4) ts
  | _, _ => []

/-- The address, in the strings block, of the name of the property record at
structure offset `x`: `off_dt_strings` plus the record's `nameoff`. -/
def propNameAddr (m : Mem) (x : Nat) : Int :=
  (FDT_STRING m : Int) + fdt32_to_cpu m ((FDT_STRUCT m : Int) + x + 8)

/-- The `len` field of the property record at structure offset `x`. -/
def propLen (m : Mem) (x : Nat) : Nat := fdt32_to_cpu m ((FDT_STRUCT m : Int) + x + 4)

/-- The address of the value of the property record at structure offset `x`. -/
def propValueAddr (m : Mem) (x : Nat) : Int := (FDT_STRUCT m : Int) + x + 12

/-- The NUL-terminated string stored at address `a` is `name[0..n)`. -/
def nameIs (m : Mem) (a : Int) (name : CStr) (n : Nat) : Bool :=
  (List.range n).all (fun i => byteAt m (a + i) == name i % 256 && byteAt m (a + i) != 0)
    && byteAt m (a + n) == 0

/-- The first of the property records at the offsets `l` whose name is
`name[0..n)`. -/
def findProp (m : Mem) (name : CStr) (n : Nat) : List Nat → Option Nat
  | [] => none
  | x :: xs => if nameIs m (propNameAddr m x) name n then some x else findProp m name n xs

/-- The names of the property records at the offsets `l` are found at a name
offset below `2^31` and end with a NUL less than `bound` and less than `2^31`
bytes on. -/
def NamesTerminated (m : Mem) (bound : Nat) (l : List Nat) : Prop :=
  ∀ x ∈ l, fdt32_to_cpu m ((FDT_STRUCT m : Int) + x + 8) < 2147483648 ∧
    ∃ L, L < bound ∧ L < 2147483648 ∧ byteAt m (propNameAddr m x + L) = 0

/-- The phandle of a node whose properties are at the offsets `props`: the
big-endian word that is the value of the property `phandle` when there is one
of length 4, else that of `linux,phandle` when there is one of length 4, else 0. -/
def fetch_phandle_spec (m : Mem) (props : List Nat) : Nat :=
  match findProp m phandleName 7 props with
  | some x =>
    if propLen m x = 4 then fdt32_to_cpu m (propValueAddr m x)
    else
      match findProp m linuxPhandleName 13 props with
      | some y => if propLen m y = 4 then fdt32_to_cpu m (propValueAddr m y) else 0
      | none => 0
  | none =>
    match findProp m linuxPhandleName 13 props with
    | some y => if propLen m y = 4 then fdt32_to_cpu m (propValueAddr m y) else 0
    | none => 0

/-- The nodes of the records `ts`, laid out from `o`, in document order, each
with the offsets of its properties. -/
def nodesWithProps : Nat → List Tok → List (Nat × List Nat)
  | _, [] => []
  | o, .beginNode namelen :: ts =>
    (o, propOffsets (o + (Tok.beginNode namelen).size) ts)
      :: nodesWithProps (o + (Tok.beginNode namelen).size) ts
  | o, t :: ts => nodesWithProps (o + t.size) ts

/-- The first of the nodes `l` whose phandle is `ph`, NotFound when there is none. -/
def firstWithPhandle (m : Mem) (ph : Nat) : List (Nat × List Nat) → Int
  | [] => -FDT_ERR_NOTFOUND
  | (x, props) :: rest =>
    if fetch_phandle_spec m props = ph then (x : Int) else firstWithPhandle m ph rest

/-- A tree with an alias and a phandle: the root holds the node "aliases", with
the property `serial0 = "/soc/uart@9000000"`, and the node "soc", whose child
"uart@9000000" has the property `phandle = 00 00 00 07`.  The strings block
holds "serial0" and "phandle". -/
def aliasBlob : Mem :=
  memOfBytes (header 0xd00dfeed 0xac 0x28 0x9c ++ word 1 ++ word 0
    ++ word 1 ++ [97, 108, 105, 97, 115, 101, 115, 0]
    ++ word 3 ++ word 18 ++ word 0
    ++ [47, 115, 111, 99, 47, 117, 97, 114, 116, 64, 57, 48, 48, 48, 48, 48, 48, 0, 0, 0]
    ++ word 2
    ++ word 1 ++ [115, 111, 99, 0]
    ++ word 1 ++ [117, 97, 114, 116, 64, 57, 48, 48, 48, 48, 48, 48, 0, 0, 0, 0]
    ++ word 3 ++ word 4 ++ word 8 ++ word 7
    ++ word 2 ++ word 2 ++ word 2 ++ word 9
    ++ [115, 101, 114, 105, 97, 108, 48, 0, 112, 104, 97, 110, 100, 108, 101, 0])

/-- The records of `aliasBlob`. -/
def aliasToks : List Tok :=
  [.beginNode 0, .beginNode 7, .prop 18, .endNode, .beginNode 3, .beginNode 12, .prop 4,
   .endNode, .endNode, .endNode]

/-- A blob of more than 2 GiB with properties: the root holds a property "s" with
a value of 0x7ffffff0 bytes (all zero), then the property `phandle = 00 00 00 07`
at structure offset 0x80000004, then the node "aliases" at 0x80000014 with the
property `s = "/"`.  The strings block, before the structure block, holds
"phandle" and "s". -/
def giantTreeBlob : Mem := fun a =>
  if a < 0 then 0
  else if a < 88 then
    (header 0xd00dfeed 0x80000080 0x44 0x38 ++ [0, 0, 0, 0, 0, 0, 0, 0, 0, 0, 0, 0, 0, 0, 0, 0]
      ++ [112, 104, 97, 110, 100, 108, 101, 0, 115, 0, 0, 0]
      ++ word 1 ++ word 0 ++ word 3 ++ word 0x7ffffff0 ++ word 8).getD a.toNat 0
  else if a < 68 + 0x80000004 then 0
  else
    (word 3 ++ word 4 ++ word 0 ++ word 7
      ++ word 1 ++ [97, 108, 105, 97, 115, 101, 115, 0]
      ++ word 3 ++ word 2 ++ word 8 ++ [47, 0, 0, 0]
      ++ word 2 ++ word 2 ++ word 9).getD (a - (68 + 0x80000004)).toNat 0

/-- The records of `giantTreeBlob`. -/
def giantTreeToks : List Tok :=
  [.beginNode 0, .prop 0x7ffffff0, .prop 4, .beginNode 7, .prop 2, .endNode, .endNode]

/-- A tree whose node "aliases" holds two properties with unusual names:
`s/t = "/"` and, with the empty name, `"" = "/aliases"`.  The strings block is
"s/t" and its NUL. -/
def slashAliasBlob : Mem :=
  memOfBytes (header 0xd00dfeed 0x74 0x28 0x70 ++ word 1 ++ word 0
    ++ word 1 ++ [97, 108, 105, 97, 115, 101, 115, 0]
    ++ word 3 ++ word 2 ++ word 0 ++ [47, 0, 0, 0]
    ++ word 3 ++ word 9 ++ word 3 ++ [47, 97, 108, 105, 97, 115, 101, 115, 0, 0, 0, 0]
    ++ word 2 ++ word 2 ++ word 9
    ++ [115, 47, 116, 0])

/-- The records of `slashAliasBlob`. -/
def slashAliasToks : List Tok := [.beginNode 0, .beginNode 7, .prop 2, .prop 9, .endNode, .endNode]

/-! ## `fdt_env.h`: `strnlen` -/

/-- The loop of `strnlen`, at index `i` with `n` rounds left. -/
def strnlen_loop (s : CStr) : Nat → Nat → Nat
  | 0, i => i
  | n + 1, i => if s i % 256 ≠ 0 then strnlen_loop s n (i + 1) else i

/-- The function `strnlen`.  Its `size_t` is an `int`; the loop
`for (…; count-- && *sc != 0; …)` makes at most `toU32 count` rounds. -/
def strnlen (s : CStr) (count : Int) : Int := toInt32 (strnlen_loop s (toU32 count) 0)

/-! ## `fdt_r.c`: lookups of a property by its whole name -/

/-- The function `fdt_lookup_property_entry_by_name`. -/
def fdt_lookup_property_entry_by_name (m : Mem) (fuel : Nat) (nodeoffset : Int) (name : CStr)
    (uninit : Int) : Option (Option Int × Int) :=
  match strlen name fuel with
  | none => none
  | some l => fdt_lookup_property_entry_by_namelen m fuel nodeoffset name l uninit

/-- The function `fdt_lookup_property_value_by_name`. -/
def fdt_lookup_property_value_by_name (m : Mem) (fuel : Nat) (nodeoffset : Int) (name : CStr)
    (uninit : Int) : Option (Option Int × Int) :=
  match strlen name fuel with
  | none => none
  | some l => fdt_lookup_property_value_by_namelen m fuel nodeoffset name l uninit

/-! ## `fdt.c`: string lists -/

/-- The loop of `fdt_stringlist_contains`, with `strlist` at index `pos` of the
caller's buffer. -/
def stringlist_contains_loop (strlist : CStr) (str : CStr) (len : Int) :
    Nat → Nat → Int → Option Int
  | 0, _, _ => none
  | fuel + 1, pos, listlen =>
    if listlen ≥ len then
      if memcmp str (fun i => strlist (pos + i)) (toInt32 (len + 1)) = 0 then some 1
      else
        match memchr (fun i => strlist (pos + i)) 0 listlen with
        | none => some 0
        | some i =>
          stringlist_contains_loop strlist str len fuel (pos + i + 1)
            (toInt32 (listlen - (toInt32 ((i : Int) + 1))))
    else some 0

/-- The function `fdt_stringlist_contains`. -/
def fdt_stringlist_contains (strlist : CStr) (listlen : Int) (str : CStr) (fuel : Nat) :
    Option Int :=
  match strlen str fuel with
  | none => none
  | some len => stringlist_contains_loop strlist str len fuel 0 listlen

/-- The loop of `fdt_stringlist_count`; `list` and `endp` are addresses. -/
def stringlist_count_loop (m : Mem) (endp : Int) : Nat → Int → Int → Option Int
  | 0, _, _ => none
  | fuel + 1, list, count =>
    if list < endp then
      let length := toInt32 (strnlen (memStr m list) (toInt32 (endp - list)) + 1)
      if list + length > endp then some (-FDT_ERR_BADVALUE)
      else stringlist_count_loop m endp fuel (list + length) (toInt32 (count + 1))
    else some count

/-- The function `fdt_stringlist_count`.  Without the property it returns
`-length`, the negation of what the lookup left in `length`. -/
def fdt_stringlist_count (m : Mem) (fuel : Nat) (nodeoffset : Int) (property : CStr)
    (uninit : Int) : Option Int :=
  match fdt_lookup_property_value_by_name m fuel nodeoffset property uninit with
  | none => none
  | some (none, length) => some (toInt32 (-length))
  | some (some list, length) => stringlist_count_loop m (list + length) fuel list 0

/-- The loop of `fdt_stringlist_search`; `len` is `strlen(string) + 1`. -/
def stringlist_search_loop (m : Mem) (endp : Int) (string : CStr) (len : Int) :
    Nat → Int → Int → Option Int
  | 0, _, _ => none
  | fuel + 1, list, idx =>
    if list < endp then
      let length := toInt32 (strnlen (memStr m list) (toInt32 (endp - list)) + 1)
      if list + length > endp then some (-FDT_ERR_BADVALUE)
      else if length = len ∧ memcmp (memStr m list) string length = 0 then some idx
      else stringlist_search_loop m endp string len fuel (list + length) (toInt32 (idx + 1))
    else some (-FDT_ERR_NOTFOUND)

/-- The function `fdt_stringlist_search`. -/
def fdt_stringlist_search (m : Mem) (fuel : Nat) (nodeoffset : Int) (property : CStr)
    (string : CStr) (uninit : Int) : Option Int :=
  match fdt_lookup_property_value_by_name m fuel nodeoffset property uninit with
  | none => none
  | some (none, length) => some (toInt32 (-length))
  | some (some list, length) =>
    match strlen string fuel with
    | none => none
    | some l => stringlist_search_loop m (list + length) string (toInt32 (l + 1)) fuel list 0

/-- The loop of `fdt_stringlist_get` and the statements after it: the returned
pointer and the value left in `*lenp`. -/
def stringlist_get_loop (m : Mem) (endp : Int) : Nat → Int → Int → Option (Option Int × Int)
  | 0, _, _ => none
  | fuel + 1, list, idx =>
    if list < endp then
      let length := toInt32 (strnlen (memStr m list) (toInt32 (endp - list)) + 1)
      if list + length > endp then some (none, -FDT_ERR_BADVALUE)
      else if idx = 0 then some (some list, toInt32 (length - 1))
      else stringlist_get_loop m endp fuel (list + length) (toInt32 (idx - 1))
    else some (none, -FDT_ERR_NOTFOUND)

/-- The function `fdt_stringlist_get` called with a non-NULL `lenp`. -/
def fdt_stringlist_get (m : Mem) (fuel : Nat) (nodeoffset : Int) (property : CStr) (idx : Int)
    (uninit : Int) : Option (Option Int × Int) :=
  match fdt_lookup_property_value_by_name m fuel nodeoffset property uninit with
  | none => none
  | some (none, length) => some (none, length)
  | some (some list, length) => stringlist_get_loop m (list + length) fuel list idx

/-! ## `fdt_r.c`: lookups by property value and by `compatible` -/

/-- The string literal `"compatible"`. -/
def compatibleName : CStr := strOfBytes [99, 111, 109, 112, 97, 116, 105, 98, 108, 101]

/-- The function `fdt_node_check_compatible`. -/
def fdt_node_check_compatible (m : Mem) (fuel : Nat) (nodeoffset : Int) (compatible : CStr)
    (uninit : Int) : Option Int :=
  match fdt_lookup_property_value_by_name m fuel nodeoffset compatibleName uninit with
  | none => none
  | some (none, len) => some len
  | some (some prop, len) =>
    match fdt_stringlist_contains (memStr m prop) len compatible fuel with
    | none => none
    | some r => some (if r = 0 then 1 else 0)

/-- The test `val && (len == proplen) && (memcmp(val, propval, len) == 0)` of
`fdt_lookup_node_by_property_value`. -/
def propvalue_match (m : Mem) (propval : CStr) (proplen : Int) : Option Int → Int → Bool
  | none, _ => false
  | some v, len => decide (len = proplen ∧ memcmp (memStr m v) propval len = 0)

/-- The `for` loop of `fdt_lookup_node_by_property_value`, entered with the result
of the first `fdt_next_node`, and the `return offset` after it. -/
def propvalue_loop (m : Mem) (fuel : Nat) (propname : CStr) (propval : CStr) (proplen : Int)
    (uninit : Int) : Nat → Int → Option Int
  | 0, _ => none
  | rounds + 1, offset =>
    if offset ≥ 0 then
      match strlen propname fuel with
      | none => none
      | some l =>
        match fdt_lookup_property_value_by_namelen m fuel offset propname l uninit with
        | none => none
        | some (val, len) =>
          if propvalue_match m propval proplen val len = true then some offset
          else
            match fdt_next_node m fuel offset false 0 with
            | none => none
            | some (offset, _) =>
              propvalue_loop m fuel propname propval proplen uninit rounds offset
    else some offset

/-- The function `fdt_lookup_node_by_property_value`. -/
def fdt_lookup_node_by_property_value (m : Mem) (fuel : Nat) (startoffset : Int)
    (propname : CStr) (propval : CStr) (proplen : Int) (uninit : Int) : Option Int :=
  match fdt_next_node m fuel startoffset false 0 with
  | none => none
  | some (offset, _) => propvalue_loop m fuel propname propval proplen uninit fuel offset

/-- The `for` loop of `fdt_lookup_node_by_compatible`, entered with the result of
the first `fdt_next_node`, and the `return offset` after it. -/
def compatible_loop (m : Mem) (fuel : Nat) (compatible : CStr) (uninit : Int) :
    Nat → Int → Option Int
  | 0, _ => none
  | rounds + 1, offset =>
    if offset ≥ 0 then
      match fdt_node_check_compatible m fuel offset compatible uninit with
      | none => none
      | some err =>
        if err < 0 ∧ err ≠ -FDT_ERR_NOTFOUND then some err
        else if err = 0 then some offset
        else
          match fdt_next_node m fuel offset false 0 with
          | none => none
          | some (offset, _) => compatible_loop m fuel compatible uninit rounds offset
    else some offset

/-- The function `fdt_lookup_node_by_compatible`. -/
def fdt_lookup_node_by_compatible (m : Mem) (fuel : Nat) (startoffset : Int)
    (compatible : CStr) (uninit : Int) : Option Int :=
  match fdt_next_node m fuel startoffset false 0 with
  | none => none
  | some (offset, _) => compatible_loop m fuel compatible uninit fuel offset

/-! ## More concrete blobs -/

/-- A tree with string lists.  The root has `compatible = "foo\0bar\0"`; its
child "a" (offset 28) has `compatible = "bar"` of length 3, without a NUL, the
property `empty` of length 0, and `tail = "foo\0ba"` of length 6.  The strings
block holds "compatible", "empty" and "tail". -/
def listBlob : Mem :=
  memOfBytes (header 0xd00dfeed 0xa0 0x28 0x88 ++ word 1 ++ word 0
    ++ word 3 ++ word 8 ++ word 0 ++ [102, 111, 111, 0, 98, 97, 114, 0]
    ++ word 1 ++ [97, 0, 0, 0]
    ++ word 3 ++ word 3 ++ word 0 ++ [98, 97, 114, 0]
    ++ word 3 ++ word 0 ++ word 11
    ++ word 3 ++ word 6 ++ word 17 ++ [102, 111, 111, 0, 98, 97, 0, 0]
    ++ word 2 ++ word 2 ++ word 9
    ++ [99, 111, 109, 112, 97, 116, 105, 98, 108, 101, 0, 101, 109, 112, 116, 121, 0,
        116, 97, 105, 108, 0, 0, 0])

/-- The records of `listBlob`. -/
def listToks : List Tok :=
  [.beginNode 0, .prop 8, .beginNode 1, .prop 3, .prop 0, .prop 6, .endNode, .endNode]

/-- A blob of more than 2 GiB with a string list: the root holds a property "s"
with a value of 0x7ffffff0 bytes (all zero) and then, at structure offset
0x80000004, `compatible = "foo\0bar\0"`.  The strings block, before the
structure block, holds "compatible" and "s". -/
def giantListBlob : Mem := fun a =>
  if a < 0 then 0
  else if a < 92 then
    (header 0xd00dfeed 0x80000068 0x48 0x38 ++ [0, 0, 0, 0, 0, 0, 0, 0, 0, 0, 0, 0, 0, 0, 0, 0]
      ++ [99, 111, 109, 112, 97, 116, 105, 98, 108, 101, 0, 115, 0, 0, 0, 0]
      ++ word 1 ++ word 0 ++ word 3 ++ word 0x7ffffff0 ++ word 11).getD a.toNat 0
  else if a < 72 + 0x80000004 then 0
  else
    (word 3 ++ word 8 ++ word 0 ++ [102, 111, 111, 0, 98, 97, 114, 0]
      ++ word 2 ++ word 9).getD (a - (72 + 0x80000004)).toNat 0

/-- The records of `giantListBlob`. -/
def giantListToks : List Tok := [.beginNode 0, .prop 0x7ffffff0, .prop 8, .endNode]

/-- A blob with a property length that wraps the offset back to the root: the
root holds `compatible = "x"` (offset 8) and then, at offset 24, a property
whose `len` field is 0xFFFFFFDC, so that the offset after it is
24 + 12 + 0xFFFFFFDC = 2^32, which is 0 as an `int`. -/
def wrapRootBlob : Mem :=
  memOfBytes (header 0xd00dfeed 0x60 0x28 0x54 ++ word 1 ++ word 0
    ++ word 3 ++ word 2 ++ word 0 ++ [120, 0, 0, 0]
    ++ word 3 ++ word 0xffffffdc ++ word 10
    ++ word 2 ++ word 9
    ++ [99, 111, 109, 112, 97, 116, 105, 98, 108, 101, 0, 0])

/-- What `fdt_lookup_property_entry_by_namelen` returns for the property found at
structure offset `y`, or for none: the address of the record with the decoded
`len`, or NULL with NotFound. -/
def entryResult (m : Mem) : Option Nat → Option Int × Int
  | some y => (some ((FDT_STRUCT m : Int) + y), (propLen m y : Int))
  | none => (none, -FDT_ERR_NOTFOUND)

/-- The property record at structure offset `y` has a value of `vallen` bytes
equal to `val[0..vallen)`. -/
def valueIs (m : Mem) (y : Nat) (val : CStr) (vallen : Nat) : Bool :=
  propLen m y == vallen &&
    (List.range vallen).all (fun i => byteAt m (propValueAddr m y + i) == val i % 256)

/-- A node whose properties are at the offsets `props` has the property named
`name[0..n)` with the value `val[0..vallen)`. -/
def nodeHasValue (m : Mem) (name : CStr) (n : Nat) (val : CStr) (vallen : Nat)
    (props : List Nat) : Bool :=
  match findProp m name n props with
  | some y => valueIs m y val vallen
  | none => false

/-- The first of the nodes `l` that has the named property with the given value,
NotFound when there is none. -/
def firstWithValue (m : Mem) (name : CStr) (n : Nat) (val : CStr) (vallen : Nat) :
    List (Nat × List Nat) → Int
  | [] => -FDT_ERR_NOTFOUND
  | (x, props) :: rest =>
    if nodeHasValue m name n val vallen props = true then (x : Int)
    else firstWithValue m name n val vallen rest

/-! ## String lists as lists of bytes -/

/-- The `L` bytes of memory from address `a` on. -/
def memBytes (m : Mem) (a : Int) (L : Nat) : List Nat :=
  (List.range L).map (fun i => byteAt m (a + Int.ofNat i))

/-- The value of the property record at structure offset `y`, as a list of bytes. -/
def valueBytes (m : Mem) (y : Nat) : List Nat := memBytes m (propValueAddr m y) (propLen m y)

/-- The first NUL-terminated string of `l`: its bytes, and what follows its NUL;
nothing when `l` holds no NUL. -/
def firstEntry : List Nat → Option (List Nat × List Nat)
  | [] => none
  | b :: rest =>
    if b = 0 then some ([], rest)
    else
      match firstEntry rest with
      | none => none
      | some (e, r) => some (b :: e, r)

/-- The NUL-terminated strings `l` starts with, each with the index of its first
byte, `pos` being the index of the first byte of `l`; at most `f` of them. -/
def entriesFrom : Nat → Nat → List Nat → List (Nat × List Nat)
  | 0, _, _ => []
  | f + 1, pos, l =>
    match firstEntry l with
    | none => []
    | some (e, r) => (pos, e) :: entriesFrom f (pos + e.length + 1) r

/-- The NUL-terminated entries of a string list, in order, each with the index of
its first byte. -/
def stringEntries (l : List Nat) : List (Nat × List Nat) := entriesFrom l.length 0 l

/-- The list is not empty and its last byte is not NUL: it ends with an
unterminated tail. -/
def unterminated : List Nat → Bool
  | [] => false
  | [b] => b != 0
  | _ :: c :: rest => unterminated (c :: rest)

/-- The index of the first of the entries `es` equal to `s`, counting from `i`. -/
def indexFrom (s : List Nat) : Nat → List (Nat × List Nat) → Option Nat
  | _, [] => none
  | i, e :: es => if e.2 = s then some i else indexFrom s (i + 1) es

/-- What `fdt_stringlist_search` is to return, counting from `i`, on the entries
`es` of a list that is unterminated or not: the index of the first entry equal
to `s`, else BadValue for an unterminated list and NotFound for a terminated one. -/
def searchResult (s : List Nat) (i : Nat) (es : List (Nat × List Nat)) (unterm : Bool) : Int :=
  match indexFrom s i es with
  | some j => (j : Int)
  | none => if unterm = true then -FDT_ERR_BADVALUE else -FDT_ERR_NOTFOUND

/-- What `fdt_stringlist_get` is to return for the entry `e` found at some index
of a list stored at address `a`, or for none: the address of the entry with its
length, else NULL with BadValue for an unterminated list and NotFound for a
terminated one. -/
def getResult (a : Int) (unterm : Bool) : Option (Nat × List Nat) → Option Int × Int
  | some e => (some (a + e.1), (e.2.length : Int))
  | none => (none, if unterm = true then -FDT_ERR_BADVALUE else -FDT_ERR_NOTFOUND)

/-! ## `fdt.c`: moving the blob -/

/-- The store `*(char *)(fdt + a) = v`. -/
def store (m : Mem) (a : Int) (v : Nat) : Mem := fun x => if x = a then v else m x

/-- The loop `while (count--) *tmp++ = *s++;` of `memmove`; `count` is an `int`
(`size_t` is `int` in `fdt_env.h`). -/
def memmove_up : Nat → Mem → Int → Int → Int → Option Mem
  | 0, _, _, _, _ => none
  | fuel + 1, m, count, tmp, s =>
    if count ≠ 0 then
      memmove_up fuel (store m tmp (byteAt m s)) (toInt32 (count - 1)) (tmp + 1) (s + 1)
    else some m

/-- The loop `while (count--) *--tmp = *--s;` of `memmove`. -/
def memmove_down : Nat → Mem → Int → Int → Int → Option Mem
  | 0, _, _, _, _ => none
  | fuel + 1, m, count, tmp, s =>
    if count ≠ 0 then
      memmove_down fuel (store m (tmp - 1) (byteAt m (s - 1))) (toInt32 (count - 1)) (tmp - 1)
        (s - 1)
    else some m

/-- The function `memmove` of `fdt_env.h`: the memory after the call.  `dest` and
`src` are addresses relative to `fdt`. -/
def memmove (m : Mem) (dest src : Int) (count : Int) (fuel : Nat) : Option Mem :=
  if dest ≤ src then memmove_up fuel m count dest src
  else memmove_down fuel m count (dest + count) (src + count)

/-- The function `fdt_move`: the returned value and the memory after the call.
`buf` is the address of the buffer relative to `fdt`; `FDT_TOTALSIZE(fdt) > bufsize`
compares a `uint32_t` with an `int`, which is converted to `unsigned`; the count
handed to `memmove` is converted to its `int` parameter. -/
def fdt_move (m : Mem) (buf : Int) (bufsize : Int) (fuel : Nat) : Option (Int × Mem) :=
  if fdt_check_header m ≠ 0 then some (fdt_check_header m, m)
  else if FDT_TOTALSIZE m > toU32 bufsize then some (-FDT_ERR_NOSPACE, m)
  else
    match memmove m buf 0 (toInt32 (FDT_TOTALSIZE m)) fuel with
    | none => none
    | some m2 => some (0, m2)

/-! ## `fdt.c`: strings block and reserved memory -/

/-- The pointer `fdt_string` returns, as a pointer result: the function has a
single `return`, of `fdt + FDT_STRING(fdt) + stroffset`. -/
def fdt_string_ptr (m : Mem) (stroffset : Int) : Option Int := some (fdt_string m stroffset)

/-- The function `fdt_property_value` called with non-NULL `pname` and
`pvaluelen`: the returned pointer, the value of `*pname` afterwards (`pname_prev`
when it is not written) and the value of `*pvaluelen`. -/
def fdt_property_value (m : Mem) (offset : Int) (pname_prev : Option Int) :
    Option Int × Option Int × Int :=
  match (fdt_property_entry m offset).1 with
  | none => (none, pname_prev, (fdt_property_entry m offset).2)
  | some prop =>
    (some (prop + 12), fdt_string_ptr m (toInt32 (fdt32_to_cpu m (prop + 8))),
      (fdt_property_entry m offset).2)

/-- The big-endian load `fdt64_to_cpu(*(fdt64_t *)(fdt + a))` of `fdt_env.h`. -/
def fdt64_to_cpu (m : Mem) (a : Int) : Nat :=
  ((byteAt m a <<< 56) ||| (byteAt m (a + 1) <<< 48) ||| (byteAt m (a + 2) <<< 40)
    ||| (byteAt m (a + 3) <<< 32) ||| (byteAt m (a + 4) <<< 24) ||| (byteAt m (a + 5) <<< 16)
    ||| (byteAt m (a + 6) <<< 8) ||| byteAt m (a + 7)) % 18446744073709551616

/-- The address of `FDT_RSVMEM_ENTRY(fdt, n)`, relative to `fdt`: entries are 16
bytes, `address` at 0 and `size` at 8. -/
def FDT_RSVMEM_ENTRY (m : Mem) (n : Int) : Int := (FDT_RSVMEM m : Int) + 16 * n

/-- The function `fdt_rsvmem_entry`: the returned value and the values of
`*address` and `*size` afterwards (`address` and `size` are what they held
before the call). -/
def fdt_rsvmem_entry (m : Mem) (n : Int) (address size : Nat) : Int × Nat × Nat :=
  if fdt_check_header m < 0 then (-FDT_ERR_BADMAGIC, address, size)
  else (0, fdt64_to_cpu m (FDT_RSVMEM_ENTRY m n), fdt64_to_cpu m (FDT_RSVMEM_ENTRY m n + 8))

/-- The loop `while (fdt64_to_cpu(FDT_RSVMEM_ENTRY(fdt, i)->size) != 0) i++;` of
`fdt_num_mem_rsv`. -/
def num_mem_rsv_loop (m : Mem) : Nat → Int → Option Int
  | 0, _ => none
  | fuel + 1, i =>
    if fdt64_to_cpu m (FDT_RSVMEM_ENTRY m i + 8) ≠ 0 then num_mem_rsv_loop m fuel (toInt32 (i + 1))
    else some i

/-- The function `fdt_num_mem_rsv`. -/
def fdt_num_mem_rsv (m : Mem) (fuel : Nat) : Option Int := num_mem_rsv_loop m fuel 0

/-! ## The specification's words for values and checks -/

/-- The big-endian unsigned 64-bit number stored in the 8 bytes from address `a`. -/
def be64 (m : Mem) (a : Int) : Nat :=
  ((List.range 8).map (fun i => byteAt m (a + Int.ofNat i))).foldl (fun acc b => acc * 256 + b) 0

/-- Checked addition of unsigned 32-bit numbers: nothing when the sum does not
fit 32 bits. -/
def checkedAdd (a b : Nat) : Option Nat := if a + b < 4294967296 then some (a + b) else none

/-- The projection `offset_to_view` worded with checked arithmetic: `u` is the
offset as an unsigned 32-bit number; nothing when the header is rejected, when
`u + len` overflows or exceeds `totalsize`, or when `abs + len`, with
`abs = off_dt_struct + u`, overflows or exceeds `totalsize`; otherwise the view
at `fdt + off_dt_struct + off`. -/
def offset_to_view_checked (m : Mem) (off : Int) (len : Nat) : Option Int :=
  if fdt_check_header m ≠ 0 then none
  else
    match checkedAdd (toU32 off) len with
    | none => none
    | some e1 =>
      if e1 > FDT_TOTALSIZE m then none
      else
        match checkedAdd (FDT_STRUCT m) (toU32 off) with
        | none => none
        | some abs =>
          match checkedAdd abs len with
          | none => none
          | some e2 =>
            if e2 > FDT_TOTALSIZE m then none else some ((FDT_STRUCT m : Int) + off)

/-- The next multiple of 4 at or above `x`, in exact arithmetic. -/
def align4 (x : Int) : Int := (x + 3) / 4 * 4

/-! ## Blobs for the reserved-memory map, the tag walker and aliases -/

/-- A blob with a memory reservation map at 0x28: the entry
`(0x40000000, 0x00100000)` and the terminating `(0, 0)`; the structure block, a
root node only, follows at 0x48. -/
def rsvBlob : Mem :=
  memOfBytes (header 0xd00dfeed 0x58 0x48 0x58
    ++ word 0 ++ word 0x40000000 ++ word 0 ++ word 0x00100000
    ++ word 0 ++ word 0 ++ word 0 ++ word 0
    ++ word 1 ++ word 0 ++ word 2 ++ word 9)

/-- The blob `rsvBlob` with a terminating entry whose address is not zero:
`(0x1234, 0)`. -/
def rsvSentinelBlob : Mem :=
  memOfBytes (header 0xd00dfeed 0x58 0x48 0x58
    ++ word 0 ++ word 0x40000000 ++ word 0 ++ word 0x00100000
    ++ word 0 ++ word 0x1234 ++ word 0 ++ word 0
    ++ word 1 ++ word 0 ++ word 2 ++ word 9)

/-- A root node with one property `p` of 8 bytes, `01 00 00 00 04 00 00 00`: the
four bytes at the unaligned structure offset 21 read as the tag `NOP`. -/
def unalignedBlob : Mem :=
  memOfBytes (header 0xd00dfeed 0x50 0x28 0x4c ++ word 1 ++ word 0
    ++ word 3 ++ word 8 ++ word 0 ++ [1, 0, 0, 0, 4, 0, 0, 0]
    ++ word 2 ++ word 9 ++ [112, 0, 0, 0])

/-- An accepted blob of more than 2 GiB that holds, at structure offset
0x7ffffff8, the tag `BEGIN_NODE` followed by the name "abc" and its NUL, which
is the byte at structure offset 0x7fffffff. -/
def giantNameBlob : Mem := fun a =>
  if a < 0 then 0
  else if a < 40 then (header 0xd00dfeed 0x80000040 0x28 0x80000040).getD a.toNat 0
  else if a = 40 + 0x7ffffff8 + 3 then 1
  else if a = 40 + 0x7ffffffc then 97
  else if a = 40 + 0x7ffffffd then 98
  else if a = 40 + 0x7ffffffe then 99
  else 0

/-- A root node whose property has the name offset 0x1000, far beyond the
strings block of the 0x48-byte blob. -/
def farNameBlob : Mem :=
  memOfBytes (header 0xd00dfeed 0x48 0x28 0x44 ++ word 1 ++ word 0
    ++ word 3 ++ word 0 ++ word 0x1000 ++ word 2 ++ word 9 ++ [112, 0, 0, 0])

/-- The records of `farNameBlob`. -/
def farNameToks : List Tok := [.beginNode 0, .prop 0, .endNode]

/-- A tree whose node "aliases" holds the property `a = "a"`: an alias whose
value is its own name.  The strings block is "a" and its NUL. -/
def selfAliasBlob : Mem :=
  memOfBytes (header 0xd00dfeed 0x5c 0x28 0x58 ++ word 1 ++ word 0
    ++ word 1 ++ [97, 108, 105, 97, 115, 101, 115, 0]
    ++ word 3 ++ word 2 ++ word 0 ++ [97, 0, 0, 0]
    ++ word 2 ++ word 2 ++ word 9
    ++ [97, 0, 0, 0])

/-- The records of `selfAliasBlob`. -/
def selfAliasToks : List Tok := [.beginNode 0, .beginNode 7, .prop 2, .endNode, .endNode]

/-! ## Enumerating the properties of a node -/

/-- The offsets `p`, `fdt_next_property(p)`, … for as long as they are not
negative, and the negative value that ends them; at most `rounds` calls. -/
def property_chain (m : Mem) (fuel : Nat) (uninit : Int) : Nat → Int → Option (List Int × Int)
  | 0, _ => none
  | rounds + 1, p =>
    if p < 0 then some ([], p)
    else
      match fdt_next_property m fuel p uninit with
      | none => none
      | some p2 =>
        match property_chain m fuel uninit rounds p2 with
        | none => none
        | some (l, e) => some (p :: l, e)

/-- The offsets `fdt_first_property(n)`, `fdt_next_property` of it, … for as long
as they are not negative, and the negative value that ends them. -/
def property_sequence (m : Mem) (fuel : Nat) (uninit : Int) (n : Int) :
    Option (List Int × Int) :=
  match fdt_first_property m fuel n uninit with
  | none => none
  | some p => property_chain m fuel uninit fuel p

/-- What a caller reads of the property at `offset` through `fdt_property_value`:
the bytes of the name up to its NUL and the `*pvaluelen` bytes of the value;
nothing when the call fails. -/
def property_content (m : Mem) (fuel : Nat) (offset : Int) : Option (List Nat × List Nat) :=
  match fdt_property_value m offset none with
  | (some v, some name, len) =>
    match strlen (memStr m name) fuel with
    | none => none
    | some l => some (memBytes m name l.toNat, memBytes m v len.toNat)
  | _ => none

/-- The names and values read at the offsets of `property_sequence`, and the
value that ends the sequence. -/
def property_contents (m : Mem) (fuel : Nat) (uninit : Int) (n : Int) :
    Option (List (Option (List Nat × List Nat)) × Int) :=
  match property_sequence m fuel uninit n with
  | none => none
  | some (l, e) => some (l.map (property_content m fuel), e)

/-- A record of the structure block with what it holds: the name of a node, the
name and the value of a property. -/
inductive Rec where
  | node (name : List Nat)
  | endNode
  | prop (name : List Nat) (value : List Nat)
  | nop
  deriving DecidableEq

/-- The bytes of the string stored at address `a`: those before the first NUL,
among the first `bound` bytes. -/
def stringAt (m : Mem) (bound : Nat) (a : Int) : List Nat :=
  (memBytes m a bound).takeWhile (fun b => b != 0)

/-- The records `ts`, laid out from structure offset `o`, with what the blob
holds for each of them. -/
def recordsAt (m : Mem) (bound : Nat) : Nat → List Tok → List Rec
  | _, [] => []
  | o, .beginNode k :: ts =>
    Rec.node (memBytes m ((FDT_STRUCT m : Int) + o + 4) k)
      :: recordsAt m bound (o + (Tok.beginNode k).size) ts
  | o, .endNode :: ts => Rec.endNode :: recordsAt m bound (o + 4) ts
  | o, .prop len :: ts =>
    Rec.prop (stringAt m bound (propNameAddr m o)) (valueBytes m o)
      :: recordsAt m bound (o + (Tok.prop len).size) ts
  | o, .nop :: ts => Rec.nop :: recordsAt m bound (o + 4) ts

/-- A list of records without its `NOP`s. -/
def eraseNops (l : List Rec) : List Rec := l.filter (fun r => decide (r ≠ Rec.nop))

/-- The names and values of the `PROPERTY` records a list of records starts with. -/
def leadingProps : List Rec → List (List Nat × List Nat)
  | .prop name value :: rs => (name, value) :: leadingProps rs
  | _ => []

/-- What ends the properties of a node whose body is `ts`: NotFound when a
`BEGIN_NODE` or `END_NODE` record follows them, BadStructure when the `END` tag
does. -/
def closing : List Tok → Int
  | [] => -FDT_ERR_BADSTRUCTURE
  | .prop _ :: ts => closing ts
  | .nop :: ts => closing ts
  | _ => -FDT_ERR_NOTFOUND

/-- What ends the properties at the head of a list of records: NotFound when a
node or the end of a node follows them, BadStructure when the list runs out. -/
def closingRecs : List Rec → Int
  | [] => -FDT_ERR_BADSTRUCTURE
  | .prop _ _ :: rs => closingRecs rs
  | .nop :: rs => closingRecs rs
  | _ => -FDT_ERR_NOTFOUND

/-- A root node with the properties `a = 01 02 03 04` and `bb = "x"`.  The
strings block holds "a" and "bb". -/
def plainPropsBlob : Mem :=
  memOfBytes (header 0xd00dfeed 0x60 0x28 0x58 ++ word 1 ++ word 0
    ++ word 3 ++ word 4 ++ word 0 ++ [1, 2, 3, 4]
    ++ word 3 ++ word 2 ++ word 2 ++ [120, 0, 0, 0]
    ++ word 2 ++ word 9
    ++ [97, 0, 98, 98, 0, 0, 0, 0])

/-- The records of `plainPropsBlob`. -/
def plainPropsToks : List Tok := [.beginNode 0, .prop 4, .prop 2, .endNode]

/-- The tree of `plainPropsBlob` with `NOP` tags before, between and after the
two properties. -/
def nopPropsBlob : Mem :=
  memOfBytes (header 0xd00dfeed 0x70 0x28 0x68 ++ word 1 ++ word 0
    ++ word 4
    ++ word 3 ++ word 4 ++ word 0 ++ [1, 2, 3, 4]
    ++ word 4 ++ word 4
    ++ word 3 ++ word 2 ++ word 2 ++ [120, 0, 0, 0]
    ++ word 4
    ++ word 2 ++ word 9
    ++ [97, 0, 98, 98, 0, 0, 0, 0])

/-- The records of `nopPropsBlob`. -/
def nopPropsToks : List Tok :=
  [.beginNode 0, .nop, .prop 4, .nop, .nop, .prop 2, .nop, .endNode]

/-- A structure block that ends inside its root node: `BEGIN_NODE ""`, `NOP`, the
property `a = 01 02 03 04`, and then the `END` tag. -/
def openNodeBlob : Mem :=
  memOfBytes (header 0xd00dfeed 0x4c 0x28 0x48 ++ word 1 ++ word 0
    ++ word 4
    ++ word 3 ++ word 4 ++ word 0 ++ [1, 2, 3, 4]
    ++ word 9
    ++ [97, 0, 0, 0])

/-- The records of `openNodeBlob`. -/
def openNodeToks : List Tok := [.beginNode 0, .nop, .prop 4]

/-! ## Claim C1: header validation -/

/-- C1: `fdt_check_header` returns -9 (BadMagic) exactly when the big-endian word
at byte 0 is not 0xD00DFEED, -10 (BadVersion) exactly when the magic is right and
`version < 0x10` or `last_comp_version > 0x11`, 0 in every other case, and never
anything else. -/
theorem fdt_check_header_spec (m : Mem) :
    (fdt_check_header m = -9 ↔ fdt32_to_cpu m 0 ≠ 0xd00dfeed) ∧
    (fdt_check_header m = -10 ↔
      fdt32_to_cpu m 0 = 0xd00dfeed ∧ (FDT_VERSION m < 0x10 ∨ FDT_LAST_COMP_VERSION m > 0x11)) ∧
    (fdt_check_header m = 0 ↔
      fdt32_to_cpu m 0 = 0xd00dfeed ∧ ¬ (FDT_VERSION m < 0x10 ∨ FDT_LAST_COMP_VERSION m > 0x11)) ∧
    (fdt_check_header m = -9 ∨ fdt_check_header m = -10 ∨ fdt_check_header m = 0) := by
  unfold fdt_check_header FDT_MAGIC FDT_VALID_MAGIC FDT_FIRST_SUPPORTED_VERSION
    FDT_LAST_SUPPORTED_VERSION FDT_ERR_BADVERSION FDT_ERR_BADMAGIC
  by_cases h1 : fdt32_to_cpu m 0 = 0xd00dfeed
  · by_cases h2 : FDT_VERSION m < 0x10
    · simp [h1, h2]
    · by_cases h3 : FDT_LAST_COMP_VERSION m > 0x11
      · simp [h1, h2, h3]
      · simp [h1, h2, h3]
  · simp [h1]

/-! ## Machine arithmetic -/

theorem toInt32_range (x : Int) : isInt32 (toInt32 x) := by
  unfold isInt32 toInt32; omega

theorem toInt32_id {x : Int} (h : isInt32 x) : toInt32 x = x := by
  unfold isInt32 at h; unfold toInt32; omega

theorem toU32_lt (x : Int) : toU32 x < 4294967296 := by
  unfold toU32; omega

theorem toU32_toInt32 (x : Int) : toU32 (toInt32 x) = toU32 x := by
  unfold toU32 toInt32; omega

theorem toU32_of_nonneg {x : Int} (h0 : 0 ≤ x) (h : isInt32 x) : (toU32 x : Int) = x := by
  unfold isInt32 at h; unfold toU32; omega

theorem toU32_of_neg {x : Int} (h0 : x < 0) (h : isInt32 x) :
    (toU32 x : Int) = x + 4294967296 := by
  unfold isInt32 at h; unfold toU32; omega

theorem fdt32_to_cpu_lt (m : Mem) (a : Int) : fdt32_to_cpu m a < 4294967296 := by
  unfold fdt32_to_cpu; omega

theorem FDT_TOTALSIZE_lt (m : Mem) : FDT_TOTALSIZE m < 4294967296 := fdt32_to_cpu_lt m 4

theorem FDT_STRUCT_lt (m : Mem) : FDT_STRUCT m < 4294967296 := fdt32_to_cpu_lt m 8

/-! ## Bounded pointer projection -/

/-- The wrapping checks of `fdt_offset_to_ptr`, in exact arithmetic. -/
theorem fdt_offset_to_ptr_eq_some (m : Mem) (off : Int) (len : Nat) (p : Int) :
    fdt_offset_to_ptr m off len = some p ↔
      (¬ fdt_check_header m < 0 ∧ toU32 off + len % 4294967296 ≤ FDT_TOTALSIZE m ∧
        toU32 off + FDT_STRUCT m + len % 4294967296 ≤ FDT_TOTALSIZE m ∧
        p = (FDT_STRUCT m : Int) + off) := by
  have hT := FDT_TOTALSIZE_lt m
  have hS := FDT_STRUCT_lt m
  have hU := toU32_lt off
  unfold fdt_offset_to_ptr
  simp only []
  split_ifs with h1 h2 h3
  · simp [h1]
  · simp only [false_iff, not_and]; intro _ _; omega
  · simp only [false_iff, not_and]; intro _ _; omega
  · simp only [Option.some.injEq]
    constructor
    · intro h; refine ⟨h1, ?_, ?_, h.symm⟩ <;> omega
    · intro h; exact h.2.2.2.symm

/-- A tag word can only be projected at an offset below `2^32 - 4` (unsigned). -/
theorem tag_ptr_bound {m : Mem} {off p : Int} (h : fdt_offset_to_ptr m off FDT_TAGSIZE = some p) :
    toU32 off + FDT_STRUCT m + 4 ≤ FDT_TOTALSIZE m ∧ p = (FDT_STRUCT m : Int) + off := by
  rw [fdt_offset_to_ptr_eq_some] at h
  simp only [FDT_TAGSIZE] at h
  omega

/-! ## The tag walker -/

theorem fdt_tag_next_offset_of_none {m : Mem} {off : Int} (prev : Int)
    (h : fdt_offset_to_ptr m off FDT_TAGSIZE = none) :
    fdt_tag_next_offset m off prev = (FDT_END, prev) := by
  simp [fdt_tag_next_offset, h]

/-- Once the tag word is projected the old content of `*next_offset` is irrelevant. -/
theorem fdt_tag_next_offset_prev {m : Mem} {off p : Int} (prev prev2 : Int)
    (h : fdt_offset_to_ptr m off FDT_TAGSIZE = some p) :
    fdt_tag_next_offset m off prev = fdt_tag_next_offset m off prev2 := by
  simp [fdt_tag_next_offset, h]

/-- The fuel `fdt_tag_next_offset` gives the name loop is enough: once the fuel
covers the bytes left below `totalsize`, more fuel does not change the result. -/
theorem skip_name_fuel (m : Mem) :
    ∀ (f1 f2 : Nat) (offset : Int), FDT_TOTALSIZE m + 1 ≤ f1 + toU32 offset →
      FDT_TOTALSIZE m + 1 ≤ f2 + toU32 offset → skip_name m f1 offset = skip_name m f2 offset := by
  have hT := FDT_TOTALSIZE_lt m
  have hnone : ∀ offset : Int, FDT_TOTALSIZE m + 1 ≤ toU32 offset →
      fdt_offset_to_ptr m offset 1 = none := by
    intro offset h
    cases hp : fdt_offset_to_ptr m offset 1 with
    | none => rfl
    | some p => rw [fdt_offset_to_ptr_eq_some] at hp; omega
  intro f1
  induction f1 with
  | zero =>
    intro f2 offset h1 _
    cases f2 with
    | zero => rfl
    | succ j => simp [skip_name, hnone offset (by omega)]
  | succ k ih =>
    intro f2 offset h1 h2
    cases f2 with
    | zero => simp [skip_name, hnone offset (by omega)]
    | succ j =>
      unfold skip_name
      cases hp : fdt_offset_to_ptr m offset 1 with
      | none => rfl
      | some p =>
        simp only []
        rw [fdt_offset_to_ptr_eq_some] at hp
        have hu : toU32 (toInt32 (offset + 1)) = toU32 offset + 1 := by
          have := hp.2.1
          unfold toU32 toInt32 at *
          omega
        rw [ih j (toInt32 (offset + 1)) (by omega) (by omega)]

/-! ## The traversal functions on a rejected blob -/

theorem fdt_offset_to_ptr_rejected {m : Mem} (h : fdt_check_header m < 0) (o : Int) (len : Nat) :
    fdt_offset_to_ptr m o len = none := by
  simp [fdt_offset_to_ptr, h]

theorem fdt_tag_next_offset_rejected {m : Mem} (h : fdt_check_header m < 0) (o prev : Int) :
    fdt_tag_next_offset m o prev = (FDT_END, prev) :=
  fdt_tag_next_offset_of_none prev (fdt_offset_to_ptr_rejected h o _)

/-- On a blob that `fdt_check_header` rejects, the node and property iterators and
the child lookup all fail: `fdt_next_node` returns BadOffset (for `offset ≥ 0`) or
NotFound, `fdt_first_child_node`, `fdt_next_sibling_node` and
`fdt_lookup_child_node_by_namelen` return NotFound, `fdt_first_property` and
`fdt_next_property` return BadOffset, and `fdt_property_entry` returns NULL. -/
theorem traversal_of_rejected_blob {m : Mem} (h : fdt_check_header m < 0) (fuel : Nat)
    (off : Int) :
    (∀ track d, fdt_next_node m (fuel + 1) off track d
      = some (if off ≥ 0 then -FDT_ERR_BADOFFSET else -FDT_ERR_NOTFOUND, d)) ∧
    fdt_first_child_node m (fuel + 1) off = some (-FDT_ERR_NOTFOUND) ∧
    fdt_next_sibling_node m (fuel + 1) off = some (-FDT_ERR_NOTFOUND) ∧
    (∀ uninit, fdt_first_property m fuel off uninit = some (-FDT_ERR_BADOFFSET)) ∧
    (∀ uninit, fdt_next_property m fuel off uninit = some (-FDT_ERR_BADOFFSET)) ∧
    fdt_property_entry m off = (none, -FDT_ERR_BADOFFSET) ∧
    (∀ name namelen, fdt_lookup_child_node_by_namelen m (fuel + 1) off name namelen
      = some (-FDT_ERR_NOTFOUND)) := by
  have hn : ∀ o, node_next_offset m o = -FDT_ERR_BADOFFSET := by
    intro o
    simp [node_next_offset, fdt_tag_next_offset_rejected h, FDT_END, FDT_BEGIN_NODE]
  have hp : ∀ o, property_next_offset m o = -FDT_ERR_BADOFFSET := by
    intro o
    simp [property_next_offset, fdt_tag_next_offset_rejected h, FDT_END, FDT_PROPERTY]
  have hnext : ∀ track d, fdt_next_node m (fuel + 1) off track d
      = some (if off ≥ 0 then -FDT_ERR_BADOFFSET else -FDT_ERR_NOTFOUND, d) := by
    intro track d
    unfold fdt_next_node
    split_ifs with h1 h2
    · rw [hn]
    · exact absurd (by rw [hn]; decide) h2
    · simp [next_node_loop, fdt_tag_next_offset_rejected h, FDT_END, FDT_PROPERTY, FDT_NOP,
        FDT_BEGIN_NODE, FDT_END_NODE]
  have hneg : (if off ≥ 0 then -FDT_ERR_BADOFFSET else -FDT_ERR_NOTFOUND) < 0 := by
    split_ifs <;> decide
  have hfirst : fdt_first_child_node m (fuel + 1) off = some (-FDT_ERR_NOTFOUND) := by
    simp [fdt_first_child_node, hnext, hneg]
  refine ⟨hnext, hfirst, ?_, ?_, ?_, ?_, ?_⟩
  · simp [fdt_next_sibling_node, next_sibling_loop, hnext, hneg]
  · intro uninit
    have : node_next_offset m off < 0 := by rw [hn]; decide
    unfold fdt_first_property
    rw [if_pos this, hn]
  · intro uninit
    have : property_next_offset m off < 0 := by rw [hp]; decide
    unfold fdt_next_property
    rw [if_pos this, hp]
  · have : property_next_offset m off < 0 := by rw [hp]; decide
    unfold fdt_property_entry
    rw [if_pos this, hp]
  · intro name namelen
    simp [fdt_lookup_child_node_by_namelen, hfirst, lookup_child_loop, FDT_ERR_NOTFOUND]

/-! ## Claims C2, C3, C4, C6, C7, C8: the code at the failing inputs -/

/-- C2 (the code at the failing input): on `rejectedBlob`, whose magic is zero and
which `fdt_check_header` rejects with BadMagic, `fdt_lookup_node_by_pathlen` given the
path "/" answers 0, the root, and not an error, whatever the fuel. -/
theorem lookup_root_of_rejected_blob (fuel depth : Nat) (uninit : Int) :
    fdt_check_header rejectedBlob = -9 ∧
    fdt_lookup_node_by_pathlen rejectedBlob (fuel + 1) uninit (depth + 1) (strOfBytes [47]) 1
      = some 0 := by
  refine ⟨by decide, ?_⟩
  simp [fdt_lookup_node_by_pathlen, path_walk, skip_slashes, strOfBytes]

/-- C3 (the code at the failing input): with an accepted header declaring
`totalsize = 0xffffffff` and `off_dt_struct = 40`, `fdt_offset_to_ptr` accepts the
negative offset -44 with length 1 and returns the address `fdt - 4`, below the blob. -/
theorem fdt_offset_to_ptr_negative_offset :
    fdt_check_header hugeBlob = 0 ∧ FDT_STRUCT hugeBlob = 40 ∧
    FDT_TOTALSIZE hugeBlob = 0xffffffff ∧
    fdt_offset_to_ptr hugeBlob (-44) 1 = some (-4) := by decide

/-- C4 (the code at the failing input): the property at offset 8 of `shortPropBlob`
is handed out by `fdt_first_property` and `fdt_property_entry` succeeds on it with
value length 100, although the record would end at byte 160 of a 56-byte blob. -/
theorem fdt_property_entry_beyond_totalsize (fuel : Nat) (uninit : Int) :
    fdt_check_header shortPropBlob = 0 ∧
    fdt_first_property shortPropBlob (fuel + 1) 0 uninit = some 8 ∧
    fdt_property_entry shortPropBlob 8 = (some 48, 100) ∧
    FDT_TOTALSIZE shortPropBlob = 56 ∧
    FDT_STRUCT shortPropBlob + 8 + 12 + 100 = 160 := by
  refine ⟨by decide, ?_, by decide, by decide, by decide⟩
  have h : node_next_offset shortPropBlob 0 = 8 := by decide
  have h2 : fdt_tag_next_offset shortPropBlob 8 uninit = (3, 120) := by
    rw [fdt_tag_next_offset_prev uninit 0 (show _ = some 48 by decide)]; decide
  simp [fdt_first_property, h, lookup_valid_property, lookup_valid_property_loop, h2,
    FDT_PROPERTY]

/-- C6 (the code at the failing input): on `wrapLenBlob`, whose property declares
`len = 0xffffff00`, `fdt_next_property`, `fdt_next_node` and the length
out-parameter of `fdt_property_entry` all yield -236, which is no error code. -/
theorem negative_result_outside_error_codes (fuel : Nat) (uninit : Int) :
    fdt_check_header wrapLenBlob = 0 ∧
    fdt_next_property wrapLenBlob fuel 8 uninit = some (-236) ∧
    fdt_next_node wrapLenBlob (fuel + 2) 0 false 0 = some (-236, 0) ∧
    fdt_property_entry wrapLenBlob 8 = (none, -236) ∧
    ¬ (-FDT_ERR_MAX ≤ (-236 : Int)) := by
  refine ⟨by decide, ?_, ?_, by decide, by decide⟩
  · have h : property_next_offset wrapLenBlob 8 = -236 := by decide
    simp [fdt_next_property, h]
  · have h : node_next_offset wrapLenBlob 0 = 8 := by decide
    have h1 : fdt_tag_next_offset wrapLenBlob 8 8 = (3, -236) := by decide
    have h2 : fdt_tag_next_offset wrapLenBlob (-236) (-236) = (9, -236) := by decide
    simp [fdt_next_node, h, next_node_loop, h1, h2, FDT_PROPERTY, FDT_NOP, FDT_BEGIN_NODE,
      FDT_END_NODE, FDT_END, FDT_ERR_TRUNCATED]

/-- C7 (the code at the failing input): on `negLenBlob`, whose property record holds
the big-endian `len` field 0xfffffff4, `fdt_property_entry` returns the record
and reports the value length -12. -/
theorem fdt_property_entry_negative_length :
    fdt_check_header negLenBlob = 0 ∧
    fdt_property_entry negLenBlob 8 = (some 48, -12) ∧
    fdt32_to_cpu negLenBlob (48 + 4) = 0xfffffff4 := by decide

/-- C8 (the code at the failing input): when the tag word cannot be projected
(offset 16 of `rootOnlyBlob`) `fdt_tag_next_offset` returns END and leaves
`*next_offset` as it found it; when the blob ends inside a node name
(`openNameBlob`) it returns END with -11 (BadStructure).  Neither is -8. -/
theorem fdt_tag_next_offset_truncated (prev : Int) :
    fdt_check_header rootOnlyBlob = 0 ∧
    fdt_offset_to_ptr rootOnlyBlob 16 FDT_TAGSIZE = none ∧
    fdt_tag_next_offset rootOnlyBlob 16 prev = (FDT_END, prev) ∧
    fdt_check_header openNameBlob = 0 ∧
    fdt32_to_cpu openNameBlob (FDT_STRUCT openNameBlob + 0) = FDT_BEGIN_NODE ∧
    fdt_tag_next_offset openNameBlob 0 prev = (FDT_END, -11) := by
  refine ⟨by decide, by decide, fdt_tag_next_offset_of_none prev (by decide), by decide,
    by decide, ?_⟩
  rw [fdt_tag_next_offset_prev prev 0 (show _ = some 40 by decide)]; decide

/-! ## Alignment and bounds of the returned offsets -/

theorem FDT_TAGALIGN_mod (x : Int) : FDT_TAGALIGN x % 4 = 0 := by
  unfold FDT_TAGALIGN toInt32; omega

theorem FDT_TAGALIGN_range (x : Int) : isInt32 (FDT_TAGALIGN x) := toInt32_range _

/-- The shapes of a result of `fdt_tag_next_offset`. -/
theorem fdt_tag_next_offset_cases (m : Mem) (o prev : Int) :
    (fdt_offset_to_ptr m o FDT_TAGSIZE = none ∧ fdt_tag_next_offset m o prev = (FDT_END, prev)) ∨
    (∃ p, fdt_offset_to_ptr m o FDT_TAGSIZE = some p ∧
      (fdt_tag_next_offset m o prev = (FDT_END, -FDT_ERR_BADSTRUCTURE) ∨
       (∃ x, fdt_tag_next_offset m o prev = (FDT_BEGIN_NODE, FDT_TAGALIGN x)) ∨
       (∃ x, fdt_tag_next_offset m o prev = (FDT_PROPERTY, FDT_TAGALIGN x)) ∨
       fdt_tag_next_offset m o prev = (FDT_END_NODE, FDT_TAGALIGN (toInt32 (o + 4))) ∨
       fdt_tag_next_offset m o prev = (FDT_NOP, FDT_TAGALIGN (toInt32 (o + 4))) ∨
       fdt_tag_next_offset m o prev = (FDT_END, FDT_TAGALIGN (toInt32 (o + 4))))) := by
  cases hp : fdt_offset_to_ptr m o FDT_TAGSIZE with
  | none => exact Or.inl ⟨rfl, fdt_tag_next_offset_of_none prev hp⟩
  | some p =>
    refine Or.inr ⟨p, rfl, ?_⟩
    unfold fdt_tag_next_offset
    simp only [hp]
    split_ifs with h1 h2 h3
    · cases hs : skip_name m (FDT_TOTALSIZE m + 1) (toInt32 (o + 4)) with
      | none => simp
      | some x => right; left; exact ⟨x, by simp [h1]⟩
    · cases hs : fdt_offset_to_ptr m (toInt32 (o + 4)) 4 with
      | none => simp
      | some q =>
        right; right; left
        exact ⟨toInt32 (toInt32 (o + 4) + (12 - 4) + fdt32_to_cpu m q), by simp [h2]⟩
    · rcases h3 with h | h | h
      · simp [h]
      · simp [h]
      · simp [h]
    · simp

theorem next_node_loop_bound (m : Mem) (track : Bool) :
    ∀ (fuel : Nat) (no d r d' : Int), no % 4 = 0 → isInt32 no →
      next_node_loop m track fuel no d = some (r, d') → 0 ≤ r →
      r % 4 = 0 ∧ (r < (FDT_TOTALSIZE m : Int) - FDT_STRUCT m ∨
        (track = true ∧ d' < 0 ∧ r ≤ (FDT_TOTALSIZE m : Int) - FDT_STRUCT m)) := by
  intro fuel
  induction fuel with
  | zero => intro no d r d' _ _ h; simp [next_node_loop] at h
  | succ k ih =>
    intro no d r d' hal hrg h hr0
    unfold next_node_loop at h
    simp only [] at h
    have hA := FDT_TAGALIGN_mod
    have hR := FDT_TAGALIGN_range
    rcases fdt_tag_next_offset_cases m no no with
      ⟨_, ht⟩ | ⟨p, hp, ht | ⟨x, ht⟩ | ⟨x, ht⟩ | ht | ht | ht⟩
    · simp only [ht, FDT_END, FDT_PROPERTY, FDT_NOP, FDT_BEGIN_NODE, FDT_END_NODE] at h
      simp only [Nat.reduceEqDiff, or_self, if_false, if_true] at h
      split_ifs at h with hc
      · simp [FDT_ERR_NOTFOUND] at h; omega
      · simp only [Option.some.injEq, Prod.mk.injEq] at h
        exact absurd (Or.inl (h.1 ▸ hr0)) hc
    · simp only [ht, FDT_END, FDT_PROPERTY, FDT_NOP, FDT_BEGIN_NODE, FDT_END_NODE] at h
      simp only [Nat.reduceEqDiff, or_self, if_false, if_true] at h
      split_ifs at h with hc
      · simp [FDT_ERR_NOTFOUND] at h; omega
      · simp [FDT_ERR_BADSTRUCTURE] at h; omega
    · -- BEGIN_NODE
      simp only [ht, FDT_END, FDT_PROPERTY, FDT_NOP, FDT_BEGIN_NODE, FDT_END_NODE] at h
      simp only [Nat.reduceEqDiff, or_self, if_false, if_true] at h
      simp only [Option.some.injEq, Prod.mk.injEq] at h
      obtain ⟨rfl, _⟩ := h
      have hb := tag_ptr_bound hp
      have := toU32_of_nonneg hr0 hrg
      exact ⟨hal, Or.inl (by omega)⟩
    · -- PROPERTY
      simp only [ht, FDT_END, FDT_PROPERTY, FDT_NOP, FDT_BEGIN_NODE, FDT_END_NODE] at h
      simp only [Nat.reduceEqDiff, or_self, or_true, true_or, if_false, if_true] at h
      exact ih _ _ _ _ (hA x) (hR x) h hr0
    · -- END_NODE
      simp only [ht, FDT_END, FDT_PROPERTY, FDT_NOP, FDT_BEGIN_NODE, FDT_END_NODE] at h
      simp only [Nat.reduceEqDiff, or_self, if_false, if_true] at h
      have hb := tag_ptr_bound hp
      split_ifs at h with h1 h2
      · simp only [Option.some.injEq, Prod.mk.injEq] at h
        obtain ⟨rfl, rfl⟩ := h
        refine ⟨hA _, Or.inr ⟨h1, h2, ?_⟩⟩
        unfold FDT_TAGALIGN toInt32 at hr0 ⊢
        unfold isInt32 at hrg
        unfold toU32 at hb
        have hT := FDT_TOTALSIZE_lt m
        omega
      · exact ih _ _ _ _ (hA _) (hR _) h hr0
      · exact ih _ _ _ _ (hA _) (hR _) h hr0
    · -- NOP
      simp only [ht, FDT_END, FDT_PROPERTY, FDT_NOP, FDT_BEGIN_NODE, FDT_END_NODE] at h
      simp only [Nat.reduceEqDiff, or_self, or_true, true_or, if_false, if_true] at h
      exact ih _ _ _ _ (hA _) (hR _) h hr0
    · -- END
      simp only [ht, FDT_END, FDT_PROPERTY, FDT_NOP, FDT_BEGIN_NODE, FDT_END_NODE] at h
      simp only [Nat.reduceEqDiff, or_self, if_false, if_true] at h
      split_ifs at h with hc
      · simp [FDT_ERR_NOTFOUND] at h; omega
      · simp only [Option.some.injEq, Prod.mk.injEq] at h
        exact absurd (Or.inl (h.1 ▸ hr0)) hc

/-- A successful `node_next_offset` / `property_next_offset` is an aligned `int`
and shows a tag word readable at a non-negative offset. -/
theorem node_next_offset_nonneg {m : Mem} {o : Int} (h : ¬ node_next_offset m o < 0) :
    node_next_offset m o % 4 = 0 ∧ isInt32 (node_next_offset m o) ∧
      (4 : Int) ≤ (FDT_TOTALSIZE m : Int) - FDT_STRUCT m := by
  unfold node_next_offset at h ⊢
  split_ifs at h ⊢ with hc
  · simp [FDT_ERR_BADOFFSET] at h
  · have h0 : ¬ o < 0 := fun hx => hc (Or.inl hx)
    have ht : (fdt_tag_next_offset m o o).1 = FDT_BEGIN_NODE := by
      by_contra hx; exact hc (Or.inr (Or.inr hx))
    rcases fdt_tag_next_offset_cases m o o with
      ⟨_, hn⟩ | ⟨p, hp, hn | ⟨x, hn⟩ | ⟨x, hn⟩ | hn | hn | hn⟩ <;>
      simp only [hn, FDT_END, FDT_PROPERTY, FDT_NOP, FDT_BEGIN_NODE, FDT_END_NODE] at ht ⊢ <;>
      first
        | (exact absurd ht (by decide))
        | (have hb := tag_ptr_bound hp
           exact ⟨FDT_TAGALIGN_mod x, FDT_TAGALIGN_range x, by omega⟩)

theorem property_next_offset_nonneg {m : Mem} {o : Int} (h : ¬ property_next_offset m o < 0) :
    property_next_offset m o % 4 = 0 ∧ isInt32 (property_next_offset m o) ∧
      (4 : Int) ≤ (FDT_TOTALSIZE m : Int) - FDT_STRUCT m := by
  unfold property_next_offset at h ⊢
  split_ifs at h ⊢ with hc
  · simp [FDT_ERR_BADOFFSET] at h
  · have h0 : ¬ o < 0 := fun hx => hc (Or.inl hx)
    have ht : (fdt_tag_next_offset m o o).1 = FDT_PROPERTY := by
      by_contra hx; exact hc (Or.inr (Or.inr hx))
    rcases fdt_tag_next_offset_cases m o o with
      ⟨_, hn⟩ | ⟨p, hp, hn | ⟨x, hn⟩ | ⟨x, hn⟩ | hn | hn | hn⟩ <;>
      simp only [hn, FDT_END, FDT_PROPERTY, FDT_NOP, FDT_BEGIN_NODE, FDT_END_NODE] at ht ⊢ <;>
      first
        | (exact absurd ht (by decide))
        | (have hb := tag_ptr_bound hp
           exact ⟨FDT_TAGALIGN_mod x, FDT_TAGALIGN_range x, by omega⟩)

theorem fdt_next_node_bound (m : Mem) (fuel : Nat) (off : Int) (track : Bool) (d r d' : Int)
    (h : fdt_next_node m fuel off track d = some (r, d')) (hr0 : 0 ≤ r) :
    r % 4 = 0 ∧ (r < (FDT_TOTALSIZE m : Int) - FDT_STRUCT m ∨
      (track = true ∧ d' < 0 ∧ r ≤ (FDT_TOTALSIZE m : Int) - FDT_STRUCT m)) := by
  unfold fdt_next_node at h
  split_ifs at h with h1 h2
  · simp only [Option.some.injEq, Prod.mk.injEq] at h
    omega
  · have hn := node_next_offset_nonneg h2
    exact next_node_loop_bound m track fuel _ d r d' hn.1 hn.2.1 h hr0
  · exact next_node_loop_bound m track fuel 0 d r d' (by decide) (by decide) h hr0

theorem fdt_first_child_node_bound (m : Mem) (fuel : Nat) (off r : Int)
    (h : fdt_first_child_node m fuel off = some r) (hr0 : 0 ≤ r) :
    r % 4 = 0 ∧ r < (FDT_TOTALSIZE m : Int) - FDT_STRUCT m := by
  unfold fdt_first_child_node at h
  cases hn : fdt_next_node m fuel off true 0 with
  | none => simp [hn] at h
  | some res =>
    obtain ⟨o, d'⟩ := res
    simp only [hn] at h
    split_ifs at h with hc
    · simp [FDT_ERR_NOTFOUND] at h; omega
    · simp only [Option.some.injEq] at h
      subst h
      have hd : d' = 1 := by by_contra hx; exact hc (Or.inr hx)
      have := fdt_next_node_bound m fuel off true 0 o d' hn hr0
      omega

theorem next_sibling_loop_bound (m : Mem) (fuel : Nat) :
    ∀ (rounds : Nat) (off d r : Int), next_sibling_loop m fuel rounds off d = some r → 0 ≤ r →
      r % 4 = 0 ∧ r < (FDT_TOTALSIZE m : Int) - FDT_STRUCT m := by
  intro rounds
  induction rounds with
  | zero => intro off d r h; simp [next_sibling_loop] at h
  | succ k ih =>
    intro off d r h hr0
    unfold next_sibling_loop at h
    cases hn : fdt_next_node m fuel off true d with
    | none => simp [hn] at h
    | some res =>
      obtain ⟨o, d'⟩ := res
      simp only [hn] at h
      split_ifs at h with hc h2
      · simp [FDT_ERR_NOTFOUND] at h; omega
      · exact ih _ _ _ h hr0
      · simp only [Option.some.injEq] at h
        subst h
        have := fdt_next_node_bound m fuel off true d o d' hn hr0
        have : ¬ d' < 1 := fun hx => hc (Or.inr hx)
        omega

theorem fdt_next_sibling_node_bound (m : Mem) (fuel : Nat) (off r : Int)
    (h : fdt_next_sibling_node m fuel off = some r) (hr0 : 0 ≤ r) :
    r % 4 = 0 ∧ r < (FDT_TOTALSIZE m : Int) - FDT_STRUCT m :=
  next_sibling_loop_bound m fuel fuel off 1 r h hr0


theorem lookup_valid_property_loop_bound (m : Mem)
    (hB : (0 : Int) < (FDT_TOTALSIZE m : Int) - FDT_STRUCT m) :
    ∀ (fuel : Nat) (o prev r : Int), o % 4 = 0 → isInt32 o →
      lookup_valid_property_loop m fuel o prev = some r → 0 ≤ r →
      r % 4 = 0 ∧ r < (FDT_TOTALSIZE m : Int) - FDT_STRUCT m := by
  intro fuel
  induction fuel with
  | zero => intro o prev r _ _ h; simp [lookup_valid_property_loop] at h
  | succ k ih =>
    intro o prev r hal hrg h hr0
    unfold lookup_valid_property_loop at h
    simp only [] at h
    have hA := FDT_TAGALIGN_mod
    have hR := FDT_TAGALIGN_range
    rcases fdt_tag_next_offset_cases m o prev with
      ⟨_, ht⟩ | ⟨p, hp, ht | ⟨x, ht⟩ | ⟨x, ht⟩ | ht | ht | ht⟩
    · simp only [ht, FDT_END, FDT_PROPERTY, FDT_NOP, FDT_BEGIN_NODE, FDT_END_NODE] at h
      simp only [Nat.reduceEqDiff, if_false, if_true] at h
      split_ifs at h with hc
      · simp [FDT_ERR_BADSTRUCTURE] at h; omega
      · simp only [Option.some.injEq] at h; omega
    · simp only [ht, FDT_END, FDT_PROPERTY, FDT_NOP, FDT_BEGIN_NODE, FDT_END_NODE] at h
      simp only [Nat.reduceEqDiff, if_false, if_true] at h
      split_ifs at h with hc
      · simp [FDT_ERR_BADSTRUCTURE] at h; omega
      · simp [FDT_ERR_BADSTRUCTURE] at h; omega
    · simp only [ht, FDT_END, FDT_PROPERTY, FDT_NOP, FDT_BEGIN_NODE, FDT_END_NODE] at h
      simp only [Nat.reduceEqDiff, if_false, if_true] at h
      simp [FDT_ERR_NOTFOUND] at h; omega
    · simp only [ht, FDT_END, FDT_PROPERTY, FDT_NOP, FDT_BEGIN_NODE, FDT_END_NODE] at h
      simp only [Nat.reduceEqDiff, if_false, if_true] at h
      simp only [Option.some.injEq] at h
      subst h
      have hb := tag_ptr_bound hp
      have := toU32_of_nonneg hr0 hrg
      exact ⟨hal, by omega⟩
    · simp only [ht, FDT_END, FDT_PROPERTY, FDT_NOP, FDT_BEGIN_NODE, FDT_END_NODE] at h
      simp only [Nat.reduceEqDiff, if_false, if_true] at h
      simp [FDT_ERR_NOTFOUND] at h; omega
    · simp only [ht, FDT_END, FDT_PROPERTY, FDT_NOP, FDT_BEGIN_NODE, FDT_END_NODE] at h
      simp only [Nat.reduceEqDiff, if_false, if_true] at h
      exact ih _ _ _ (hA _) (hR _) h hr0
    · simp only [ht, FDT_END, FDT_PROPERTY, FDT_NOP, FDT_BEGIN_NODE, FDT_END_NODE] at h
      simp only [Nat.reduceEqDiff, if_false, if_true] at h
      split_ifs at h with hc
      · simp [FDT_ERR_BADSTRUCTURE] at h; omega
      · simp only [Option.some.injEq] at h; omega

theorem fdt_first_property_bound (m : Mem) (fuel : Nat) (off uninit r : Int)
    (h : fdt_first_property m fuel off uninit = some r) (hr0 : 0 ≤ r) :
    r % 4 = 0 ∧ r < (FDT_TOTALSIZE m : Int) - FDT_STRUCT m := by
  unfold fdt_first_property at h
  split_ifs at h with h1
  · simp only [Option.some.injEq] at h; omega
  · have hn := node_next_offset_nonneg h1
    exact lookup_valid_property_loop_bound m (by omega) fuel _ uninit r hn.1 hn.2.1 h hr0

theorem fdt_next_property_bound (m : Mem) (fuel : Nat) (off uninit r : Int)
    (h : fdt_next_property m fuel off uninit = some r) (hr0 : 0 ≤ r) :
    r % 4 = 0 ∧ r < (FDT_TOTALSIZE m : Int) - FDT_STRUCT m := by
  unfold fdt_next_property at h
  split_ifs at h with h1
  · simp only [Option.some.injEq] at h; omega
  · have hn := property_next_offset_nonneg h1
    exact lookup_valid_property_loop_bound m (by omega) fuel _ uninit r hn.1 hn.2.1 h hr0

theorem lookup_child_loop_bound (m : Mem) (fuel : Nat) (name : CStr) (namelen : Int) :
    ∀ (rounds : Nat) (off r : Int),
      (0 ≤ off → off % 4 = 0 ∧ off < (FDT_TOTALSIZE m : Int) - FDT_STRUCT m) →
      lookup_child_loop m fuel name namelen rounds off = some r → 0 ≤ r →
      r % 4 = 0 ∧ r < (FDT_TOTALSIZE m : Int) - FDT_STRUCT m := by
  intro rounds
  induction rounds with
  | zero => intro off r _ h; simp [lookup_child_loop] at h
  | succ k ih =>
    intro off r hoff h hr0
    unfold lookup_child_loop at h
    split_ifs at h with h1 h2
    · simp only [Option.some.injEq] at h; subst h; exact hoff hr0
    · cases hs : fdt_next_sibling_node m fuel off with
      | none => simp [hs] at h
      | some o =>
        simp only [hs] at h
        exact ih o r (fdt_next_sibling_node_bound m fuel off o hs) h hr0
    · simp only [Option.some.injEq] at h; subst h; exact hoff hr0

theorem fdt_lookup_child_node_by_namelen_bound (m : Mem) (fuel : Nat) (off : Int) (name : CStr)
    (namelen r : Int) (h : fdt_lookup_child_node_by_namelen m fuel off name namelen = some r)
    (hr0 : 0 ≤ r) : r % 4 = 0 ∧ r < (FDT_TOTALSIZE m : Int) - FDT_STRUCT m := by
  unfold fdt_lookup_child_node_by_namelen at h
  cases hs : fdt_first_child_node m fuel off with
  | none => simp [hs] at h
  | some o =>
    simp only [hs] at h
    exact lookup_child_loop_bound m fuel name namelen fuel o r
      (fdt_first_child_node_bound m fuel off o hs) h hr0

theorem path_walk_bound (m : Mem) (fuel : Nat) (path : CStr) (pend : Int) :
    ∀ (rounds pos : Nat) (off r : Int),
      (0 ≤ off → off % 4 = 0 ∧ (off = 0 ∨ off < (FDT_TOTALSIZE m : Int) - FDT_STRUCT m)) →
      path_walk m fuel path pend rounds pos off = some r → 0 ≤ r →
      r % 4 = 0 ∧ (r = 0 ∨ r < (FDT_TOTALSIZE m : Int) - FDT_STRUCT m) := by
  intro rounds
  induction rounds with
  | zero => intro pos off r _ h; simp [path_walk] at h
  | succ k ih =>
    intro pos off r hoff h hr0
    unfold path_walk at h
    split_ifs at h with h1
    · cases hs : skip_slashes path pend fuel pos with
      | none => simp [hs] at h
      | some v =>
        cases v with
        | inl u => simp only [hs, Option.some.injEq] at h; subst h; exact hoff hr0
        | inr pos2 =>
          simp only [hs] at h
          generalize hsl : (match memchr (fun i => path (pos2 + i)) 47 (toInt32 (pend - pos2)) with
            | none => pend
            | some i => ((pos2 + i : Nat) : Int)) = slash at h
          cases hc : fdt_lookup_child_node_by_namelen m fuel off (fun i => path (pos2 + i))
              (toInt32 (slash - pos2)) with
          | none => simp [hc] at h
          | some o =>
            simp only [hc] at h
            split_ifs at h with h2
            · simp only [Option.some.injEq] at h; omega
            · refine ih _ o r (fun ho => ?_) h hr0
              have := fdt_lookup_child_node_by_namelen_bound m fuel off _ _ o hc ho
              exact ⟨this.1, Or.inr this.2⟩
    · simp only [Option.some.injEq] at h; subst h; exact hoff hr0

theorem fdt_lookup_node_by_pathlen_bound (m : Mem) (fuel : Nat) (uninit : Int) :
    ∀ (depth : Nat) (path : CStr) (pathlen r : Int),
      fdt_lookup_node_by_pathlen m fuel uninit depth path pathlen = some r → 0 ≤ r →
      r % 4 = 0 ∧ (r = 0 ∨ r < (FDT_TOTALSIZE m : Int) - FDT_STRUCT m) := by
  intro depth
  induction depth with
  | zero => intro path pathlen r h; simp [fdt_lookup_node_by_pathlen] at h
  | succ k ih =>
    intro path pathlen r h hr0
    unfold fdt_lookup_node_by_pathlen at h
    split_ifs at h with h1
    · simp only [] at h
      cases ha : fdt_lookup_node_by_pathlen m fuel uninit k aliasesPath 8 with
      | none => simp [ha] at h
      | some ao =>
        simp only [ha] at h
        split_ifs at h with h2
        · simp [FDT_ERR_BADPATH] at h; omega
        · generalize hsl : (match memchr path 47 pathlen with
            | none => pathlen
            | some i => (i : Int)) = slash at h
          cases hv : fdt_lookup_property_value_by_namelen m fuel ao path (toInt32 slash) uninit with
          | none => simp [hv] at h
          | some v =>
            obtain ⟨vp, vl⟩ := v
            cases vp with
            | none => simp [hv, FDT_ERR_BADPATH] at h; omega
            | some ap =>
              simp only [hv] at h
              cases hl : strlen (memStr m ap) fuel with
              | none => simp [hl] at h
              | some l =>
                simp only [hl] at h
                cases hr : fdt_lookup_node_by_pathlen m fuel uninit k (memStr m ap) l with
                | none => simp [hr] at h
                | some o =>
                  simp only [hr] at h
                  split_ifs at h with h3
                  · simp only [Option.some.injEq] at h; omega
                  · exact path_walk_bound m fuel path pathlen fuel _ o r
                      (fun ho => ih _ _ _ hr ho) h hr0
    · exact path_walk_bound m fuel path pathlen fuel 0 0 r (fun _ => ⟨by decide, Or.inl rfl⟩)
        h hr0

/-! ## Claim C5: returned offsets are aligned and inside the structure block -/

/-- C5 (counterexample): on `cutBlob`, which `fdt_check_header` accepts and which
ends right after the root's `END_NODE`, `fdt_next_node` with depth tracking from
depth 0 returns 12 = totalsize - off_dt_struct, which is not below that bound;
and on `emptyStructBlob`, whose structure block is empty, the path "/" resolves
to offset 0 although totalsize - off_dt_struct = 0. -/
theorem returned_offset_not_below_bound :
    (fdt_check_header cutBlob = 0 ∧ fdt_next_node cutBlob 2 0 true 0 = some (12, -1) ∧
      ¬ ((12 : Int) < (FDT_TOTALSIZE cutBlob : Int) - FDT_STRUCT cutBlob)) ∧
    (fdt_check_header emptyStructBlob = 0 ∧
      fdt_lookup_node_by_pathlen emptyStructBlob 2 0 1 (strOfBytes [47]) 1 = some 0 ∧
      ¬ ((0 : Int) < (FDT_TOTALSIZE emptyStructBlob : Int) - FDT_STRUCT emptyStructBlob)) := by
  decide

/-- C5 (amended): on a blob accepted by `fdt_check_header`, every offset `r ≥ 0`
returned by `fdt_next_node`, `fdt_first_child_node`, `fdt_next_sibling_node`,
`fdt_first_property`, `fdt_next_property`, `fdt_lookup_child_node_by_namelen` or
`fdt_lookup_node_by_pathlen` is a multiple of 4 and lies strictly below
`totalsize - off_dt_struct`, with two exceptions: when `fdt_next_node` tracks the
depth and returns because it dropped below 0, the offset just past the `END_NODE`
is only `≤ totalsize - off_dt_struct`; and `fdt_lookup_node_by_pathlen` may
return the root offset 0 without having read the blob. -/
theorem traversal_offsets_aligned_bounded (m : Mem) (_hdr : fdt_check_header m = 0) :
    (∀ (fuel : Nat) (off : Int) (track : Bool) (d r d' : Int),
      fdt_next_node m fuel off track d = some (r, d') → 0 ≤ r →
        r % 4 = 0 ∧ (r < (FDT_TOTALSIZE m : Int) - FDT_STRUCT m ∨
          (track = true ∧ d' < 0 ∧ r ≤ (FDT_TOTALSIZE m : Int) - FDT_STRUCT m))) ∧
    (∀ (fuel : Nat) (off r : Int), fdt_first_child_node m fuel off = some r → 0 ≤ r →
        r % 4 = 0 ∧ r < (FDT_TOTALSIZE m : Int) - FDT_STRUCT m) ∧
    (∀ (fuel : Nat) (off r : Int), fdt_next_sibling_node m fuel off = some r → 0 ≤ r →
        r % 4 = 0 ∧ r < (FDT_TOTALSIZE m : Int) - FDT_STRUCT m) ∧
    (∀ (fuel : Nat) (off uninit r : Int), fdt_first_property m fuel off uninit = some r → 0 ≤ r →
        r % 4 = 0 ∧ r < (FDT_TOTALSIZE m : Int) - FDT_STRUCT m) ∧
    (∀ (fuel : Nat) (off uninit r : Int), fdt_next_property m fuel off uninit = some r → 0 ≤ r →
        r % 4 = 0 ∧ r < (FDT_TOTALSIZE m : Int) - FDT_STRUCT m) ∧
    (∀ (fuel : Nat) (off : Int) (name : CStr) (namelen r : Int),
      fdt_lookup_child_node_by_namelen m fuel off name namelen = some r → 0 ≤ r →
        r % 4 = 0 ∧ r < (FDT_TOTALSIZE m : Int) - FDT_STRUCT m) ∧
    (∀ (fuel : Nat) (uninit : Int) (depth : Nat) (path : CStr) (pathlen r : Int),
      fdt_lookup_node_by_pathlen m fuel uninit depth path pathlen = some r → 0 ≤ r →
        r % 4 = 0 ∧ (r = 0 ∨ r < (FDT_TOTALSIZE m : Int) - FDT_STRUCT m)) :=
  ⟨fun fuel off track d r d' => fdt_next_node_bound m fuel off track d r d',
   fun fuel off r => fdt_first_child_node_bound m fuel off r,
   fun fuel off r => fdt_next_sibling_node_bound m fuel off r,
   fun fuel off uninit r => fdt_first_property_bound m fuel off uninit r,
   fun fuel off uninit r => fdt_next_property_bound m fuel off uninit r,
   fun fuel off name namelen r => fdt_lookup_child_node_by_namelen_bound m fuel off name namelen r,
   fun fuel uninit depth path pathlen r =>
     fdt_lookup_node_by_pathlen_bound m fuel uninit depth path pathlen r⟩

/-- C5 (witness): on the tree of scenario S4 the header is accepted, the first
child of the root is found at offset 8, and that offset is aligned and below
`totalsize - off_dt_struct`. -/
theorem traversal_offsets_aligned_bounded_witness :
    fdt_check_header childBlob = 0 ∧ fdt_first_child_node childBlob 4 0 = some 8 ∧
    ((8 : Int) % 4 = 0 ∧ (8 : Int) < (FDT_TOTALSIZE childBlob : Int) - FDT_STRUCT childBlob) :=
  ⟨by decide, by decide,
   (traversal_offsets_aligned_bounded childBlob (by decide)).2.1 4 0 8 (by decide) (by decide)⟩

/-! ## The tag walker on stored records -/

theorem toU32_natCast {o : Nat} (h : o < 4294967296) : toU32 (o : Int) = o := by
  unfold toU32; omega

theorem toInt32_natCast {o : Nat} (h : o < 2147483648) : toInt32 (o : Int) = o := by
  unfold toInt32; omega

theorem FDT_TAGALIGN_natCast {x : Nat} (h : x + 3 < 2147483648) :
    FDT_TAGALIGN (x : Int) = (((x + 3) / 4 * 4 : Nat) : Int) := by
  unfold FDT_TAGALIGN toInt32; omega

theorem Tok.size_spec (t : Tok) : 4 ≤ t.size ∧ t.size % 4 = 0 := by
  cases t <;> simp only [Tok.size] <;> first | omega | decide

/-- Inside the blob and below `2^31` the projection succeeds. -/
theorem fdt_offset_to_ptr_inside {m : Mem} (hdr : fdt_check_header m = 0) {o len : Nat}
    (hin : FDT_STRUCT m + o + len ≤ FDT_TOTALSIZE m) :
    fdt_offset_to_ptr m (o : Int) len = some ((FDT_STRUCT m + o : Nat) : Int) := by
  have hT := FDT_TOTALSIZE_lt m
  rw [fdt_offset_to_ptr_eq_some]
  have hu : toU32 (o : Int) = o := toU32_natCast (by omega)
  have hl : len % 4294967296 = len := Nat.mod_eq_of_lt (by omega)
  rw [hu, hl, hdr]
  refine ⟨by decide, by omega, by omega, by push_cast; ring⟩

theorem skip_name_tok {m : Mem} (hdr : fdt_check_header m = 0) {o k : Nat}
    (hnz : ∀ i, i < k → byteAt m ((FDT_STRUCT m + o + 4 + i : Nat) : Int) ≠ 0)
    (hz : byteAt m ((FDT_STRUCT m + o + 4 + k : Nat) : Int) = 0)
    (hin : FDT_STRUCT m + o + 4 + k + 1 ≤ FDT_TOTALSIZE m)
    (h31 : o + 4 + k + 1 < 2147483648) :
    ∀ j, j ≤ k → ∀ fuel, j + 1 ≤ fuel →
      skip_name m fuel ((o + 4 + (k - j) : Nat) : Int) = some ((o + 4 + k + 1 : Nat) : Int) := by
  intro j
  induction j with
  | zero =>
    intro _ fuel hf
    obtain ⟨f, rfl⟩ : ∃ f, fuel = f + 1 := ⟨fuel - 1, by omega⟩
    unfold skip_name
    rw [fdt_offset_to_ptr_inside hdr (by omega)]
    simp only [Nat.sub_zero]
    have hz2 : byteAt m ((FDT_STRUCT m + (o + 4 + k) : Nat) : Int) = 0 := by
      rw [← hz]; congr 2; omega
    simp only [hz2, ne_eq, not_true_eq_false, if_false]
    simp only [Option.some.injEq]
    unfold toInt32; omega
  | succ j ih =>
    intro hj fuel hf
    obtain ⟨f, rfl⟩ : ∃ f, fuel = f + 1 := ⟨fuel - 1, by omega⟩
    unfold skip_name
    rw [fdt_offset_to_ptr_inside hdr (by omega)]
    have hnz2 : byteAt m ((FDT_STRUCT m + (o + 4 + (k - (j + 1))) : Nat) : Int) ≠ 0 := by
      have := hnz (k - (j + 1)) (by omega)
      intro hx; apply this; rw [← hx]; congr 2; omega
    simp only [hnz2, ne_eq, not_false_eq_true, if_true]
    have hstep : toInt32 (((o + 4 + (k - (j + 1)) : Nat) : Int) + 1)
        = ((o + 4 + (k - j) : Nat) : Int) := by
      unfold toInt32; omega
    rw [hstep]
    exact ih (by omega) f (by omega)

theorem align_step {o x : Nat} (hal : o % 4 = 0) (h31 : o + (x + 3) / 4 * 4 < 2147483648) :
    o + x + 3 < 2147483648 ∧ (o + x + 3) / 4 * 4 = o + (x + 3) / 4 * 4 := by
  omega

/-- On a record stored inside the blob the tag walker returns the record's tag
and the offset of the record that follows. -/
theorem fdt_tag_next_offset_tok {m : Mem} (hdr : fdt_check_header m = 0) {o : Nat} {t : Tok}
    (ht : tokAt m o t) (hal : o % 4 = 0)
    (hin : FDT_STRUCT m + o + t.size ≤ FDT_TOTALSIZE m) (h31 : o + t.size < 2147483648)
    (prev : Int) :
    fdt_tag_next_offset m (o : Int) prev = (t.tag, ((o + t.size : Nat) : Int)) := by
  have hsz := t.size_spec
  have hp : fdt_offset_to_ptr m (o : Int) FDT_TAGSIZE = some ((FDT_STRUCT m + o : Nat) : Int) :=
    fdt_offset_to_ptr_inside hdr (by simp only [FDT_TAGSIZE]; omega)
  have h4 : toInt32 ((o : Int) + 4) = ((o + 4 : Nat) : Int) := by unfold toInt32; omega
  unfold fdt_tag_next_offset
  simp only [hp, h4]
  cases t with
  | beginNode k =>
    obtain ⟨htag, hnz, hz⟩ := ht
    simp only [Tok.size] at hin h31 hsz ⊢
    have hk : 4 + k + 1 ≤ (4 + k + 1 + 3) / 4 * 4 := by omega
    have ha := align_step (x := 4 + k + 1) hal h31
    have hs := skip_name_tok hdr hnz hz (by omega) (by omega) k (le_refl k)
      (FDT_TOTALSIZE m + 1) (by omega)
    simp only [Nat.sub_self, Nat.add_zero] at hs
    simp only [htag, if_true, hs, Tok.tag]
    rw [FDT_TAGALIGN_natCast (by omega)]
    simp only [Prod.mk.injEq, true_and, Nat.cast_inj]
    rw [← ha.2]
    simp only [Nat.add_assoc]
  | endNode =>
    simp only [tokAt] at ht
    simp only [Tok.size] at hin h31 ⊢
    simp only [ht, Tok.tag, FDT_END_NODE, FDT_BEGIN_NODE, FDT_PROPERTY, FDT_END, FDT_NOP]
    simp only [Nat.reduceEqDiff, if_false, true_or, if_true]
    rw [FDT_TAGALIGN_natCast (by omega)]
    simp only [Prod.mk.injEq, true_and, Nat.cast_inj]; omega
  | prop len =>
    obtain ⟨htag, hlen⟩ := ht
    simp only [Tok.size] at hin h31 hsz ⊢
    have hk : 12 + len ≤ (12 + len + 3) / 4 * 4 := by omega
    have ha := align_step (x := 12 + len) hal h31
    have hp2 : fdt_offset_to_ptr m ((o + 4 : Nat) : Int) 4
        = some ((FDT_STRUCT m + (o + 4) : Nat) : Int) :=
      fdt_offset_to_ptr_inside hdr (by omega)
    have hlen2 : fdt32_to_cpu m ((FDT_STRUCT m + (o + 4) : Nat) : Int) = len := by
      rw [← hlen, Nat.add_assoc]
    simp only [htag, Tok.tag, FDT_END_NODE, FDT_BEGIN_NODE, FDT_PROPERTY, FDT_END, FDT_NOP]
    simp only [Nat.reduceEqDiff, if_false, if_true, hp2, hlen2]
    have hb : o + (12 + len) < 2147483648 := by omega
    have h5 : toInt32 (((o + 4 : Nat) : Int) + (12 - 4) + (len : Int))
        = ((o + (12 + len) : Nat) : Int) := by
      clear hin h31 hsz hal ha hk
      unfold toInt32; omega
    rw [h5, FDT_TAGALIGN_natCast ha.1]
    simp only [Prod.mk.injEq, true_and, Nat.cast_inj]
    exact ha.2
  | nop =>
    simp only [tokAt] at ht
    simp only [Tok.size] at hin h31 ⊢
    simp only [ht, Tok.tag, FDT_END_NODE, FDT_BEGIN_NODE, FDT_PROPERTY, FDT_END, FDT_NOP]
    simp only [Nat.reduceEqDiff, if_false, or_true, if_true]
    rw [FDT_TAGALIGN_natCast (by omega)]
    simp only [Prod.mk.injEq, true_and, Nat.cast_inj]; omega

/-- On the `END` tag the tag walker returns `END` and the offset just past it. -/
theorem fdt_tag_next_offset_end {m : Mem} (hdr : fdt_check_header m = 0) {o : Nat}
    (he : fdt32_to_cpu m ((FDT_STRUCT m + o : Nat) : Int) = FDT_END) (hal : o % 4 = 0)
    (hin : FDT_STRUCT m + o + 4 ≤ FDT_TOTALSIZE m) (h31 : o + 4 < 2147483648) (prev : Int) :
    fdt_tag_next_offset m (o : Int) prev = (FDT_END, ((o + 4 : Nat) : Int)) := by
  have hp : fdt_offset_to_ptr m (o : Int) FDT_TAGSIZE = some ((FDT_STRUCT m + o : Nat) : Int) :=
    fdt_offset_to_ptr_inside hdr (by simp only [FDT_TAGSIZE]; omega)
  have h4 : toInt32 ((o : Int) + 4) = ((o + 4 : Nat) : Int) := by unfold toInt32; omega
  unfold fdt_tag_next_offset
  simp only [hp, h4]
  simp only [he, FDT_END_NODE, FDT_BEGIN_NODE, FDT_PROPERTY, FDT_END, FDT_NOP]
  simp only [Nat.reduceEqDiff, if_false, true_or, or_true, if_true]
  rw [FDT_TAGALIGN_natCast (by omega)]
  simp only [Prod.mk.injEq, true_and, Nat.cast_inj]; omega

/-! ## The walker on a well-formed structure block -/

theorem streamSize_append (pre ts : List Tok) :
    streamSize (pre ++ ts) = streamSize pre + streamSize ts := by
  induction pre with
  | nil => simp [streamSize]
  | cons t pre ih => simp [streamSize, ih, Nat.add_assoc]

theorem streamSize_mod (ts : List Tok) : streamSize ts % 4 = 0 := by
  induction ts with
  | nil => rfl
  | cons t ts ih => have := t.size_spec; simp only [streamSize]; omega

theorem length_le_streamSize (ts : List Tok) : 4 * ts.length ≤ streamSize ts := by
  induction ts with
  | nil => simp [streamSize]
  | cons t ts ih => have := t.size_spec; simp only [streamSize, List.length_cons]; omega

theorem Laid.tail {m : Mem} {o : Nat} {t : Tok} {ts : List Tok} (h : Laid m o (t :: ts)) :
    Laid m (o + t.size) ts := by
  have hs := t.size_spec
  have h1 := h.inside
  have h2 := h.small
  have h3 := h.aligned
  simp only [streamSize] at h1 h2
  exact ⟨h.header, by omega, h.stream.2, by omega, by omega⟩

theorem Laid.drop {m : Mem} {o : Nat} (pre : List Tok) {ts : List Tok}
    (h : Laid m o (pre ++ ts)) : Laid m (o + streamSize pre) ts := by
  induction pre generalizing o with
  | nil => simpa [streamSize] using h
  | cons t pre ih =>
    have := ih (o := o + t.size) (by simpa using h.tail)
    simpa [streamSize, Nat.add_assoc] using this

theorem WellFormed.laid {m : Mem} {ts : List Tok} (wf : WellFormed m ts)
    (h31 : streamSize ts + 4 < 2147483648) : Laid m 0 ts :=
  ⟨wf.header, rfl, wf.stream, by have := wf.inside; omega, by omega⟩

theorem Laid.tag {m : Mem} {o : Nat} {t : Tok} {ts : List Tok} (h : Laid m o (t :: ts))
    (prev : Int) : fdt_tag_next_offset m (o : Int) prev = (t.tag, ((o + t.size : Nat) : Int)) := by
  have h1 := h.inside
  have h2 := h.small
  simp only [streamSize] at h1 h2
  exact fdt_tag_next_offset_tok h.header h.stream.1 h.aligned (by omega) (by omega) prev

theorem Laid.tag_end {m : Mem} {o : Nat} (h : Laid m o []) (prev : Int) :
    fdt_tag_next_offset m (o : Int) prev = (FDT_END, ((o + 4 : Nat) : Int)) := by
  have h1 := h.inside
  have h2 := h.small
  simp only [streamSize] at h1 h2
  exact fdt_tag_next_offset_end h.header h.stream h.aligned (by omega) (by omega) prev

theorem Laid.node_next_offset {m : Mem} {o k : Nat} {ts : List Tok}
    (h : Laid m o (Tok.beginNode k :: ts)) :
    node_next_offset m (o : Int) = ((o + (Tok.beginNode k).size : Nat) : Int) := by
  have ha := h.aligned
  unfold Fdt.node_next_offset
  rw [h.tag]
  have h1 : ¬ ((o : Int) < 0 ∨ (o : Int) % 4 ≠ 0 ∨ (Tok.beginNode k).tag ≠ FDT_BEGIN_NODE) := by
    simp only [Tok.tag, ne_eq, not_true_eq_false, or_false, not_or, not_lt, not_not]
    omega
  simp only [h1, if_false]

theorem Laid.fdt_next_node {m : Mem} {o k : Nat} {ts : List Tok}
    (h : Laid m o (Tok.beginNode k :: ts)) (fuel : Nat) (track : Bool) (d : Int) :
    fdt_next_node m fuel (o : Int) track d
      = next_node_loop m track fuel ((o + (Tok.beginNode k).size : Nat) : Int) d := by
  unfold Fdt.fdt_next_node
  rw [h.node_next_offset]
  have h0 : (o : Int) ≥ 0 := by omega
  have h1 : ¬ (((o + (Tok.beginNode k).size : Nat) : Int) < 0) := by omega
  simp only [h0, h1, if_true, if_false]

theorem Laid.loop_end {m : Mem} {o : Nat} (h : Laid m o []) (track : Bool) (f : Nat) (d : Int) :
    next_node_loop m track (f + 1) (o : Int) d = some (-1, d) := by
  unfold next_node_loop
  simp only [h.tag_end, FDT_END_NODE, FDT_BEGIN_NODE, FDT_PROPERTY, FDT_END, FDT_NOP]
  simp only [Nat.reduceEqDiff, if_false, or_self, if_true]
  have h0 : ((o + 4 : Nat) : Int) ≥ 0 := by omega
  simp only [h0, true_or, if_true, FDT_ERR_NOTFOUND]

theorem Laid.loop_begin {m : Mem} {o k : Nat} {ts : List Tok}
    (h : Laid m o (Tok.beginNode k :: ts)) (track : Bool) (f : Nat) (d : Int) :
    next_node_loop m track (f + 1) (o : Int) d
      = some ((o : Int), if track then toInt32 (d + 1) else d) := by
  unfold next_node_loop
  simp only [h.tag, Tok.tag, FDT_END_NODE, FDT_BEGIN_NODE, FDT_PROPERTY, FDT_END, FDT_NOP]
  simp only [Nat.reduceEqDiff, if_false, or_self, if_true]

theorem Laid.loop_prop {m : Mem} {o len : Nat} {ts : List Tok}
    (h : Laid m o (Tok.prop len :: ts)) (track : Bool) (f : Nat) (d : Int) :
    next_node_loop m track (f + 1) (o : Int) d
      = next_node_loop m track f ((o + (Tok.prop len).size : Nat) : Int) d := by
  rw [next_node_loop]
  simp only [h.tag, Tok.tag, FDT_END_NODE, FDT_BEGIN_NODE, FDT_PROPERTY, FDT_END, FDT_NOP]
  simp only [Nat.reduceEqDiff, if_false, true_or, if_true]

theorem Laid.loop_nop {m : Mem} {o : Nat} {ts : List Tok}
    (h : Laid m o (Tok.nop :: ts)) (track : Bool) (f : Nat) (d : Int) :
    next_node_loop m track (f + 1) (o : Int) d
      = next_node_loop m track f ((o + Tok.nop.size : Nat) : Int) d := by
  rw [next_node_loop]
  simp only [h.tag, Tok.tag, FDT_END_NODE, FDT_BEGIN_NODE, FDT_PROPERTY, FDT_END, FDT_NOP]
  simp only [Nat.reduceEqDiff, if_false, or_true, if_true]

theorem Laid.loop_endNode {m : Mem} {o : Nat} {ts : List Tok}
    (h : Laid m o (Tok.endNode :: ts)) (track : Bool) (f : Nat) (d : Int) :
    next_node_loop m track (f + 1) (o : Int) d
      = if track then
          if toInt32 (d - 1) < 0 then some (((o + Tok.endNode.size : Nat) : Int), toInt32 (d - 1))
          else next_node_loop m track f ((o + Tok.endNode.size : Nat) : Int) (toInt32 (d - 1))
        else next_node_loop m track f ((o + Tok.endNode.size : Nat) : Int) d := by
  rw [next_node_loop]
  simp only [h.tag, Tok.tag, FDT_END_NODE, FDT_BEGIN_NODE, FDT_PROPERTY, FDT_END, FDT_NOP]
  simp only [Nat.reduceEqDiff, if_false, or_self, if_true]

theorem next_sibling_loop_succ (m : Mem) (fuel rounds : Nat) (offset depth : Int) :
    next_sibling_loop m fuel (rounds + 1) offset depth
      = sibling_step m fuel rounds (fdt_next_node m fuel offset true depth) := by
  rw [next_sibling_loop]; rfl

theorem node_sequence_succ (m : Mem) (fuel : Nat) (track : Bool) (rounds : Nat)
    (offset depth : Int) :
    node_sequence m fuel track (rounds + 1) offset depth
      = sequence_step m fuel track rounds (fdt_next_node m fuel offset track depth) := by
  rw [node_sequence]; rfl

/-- `fdt_first_child_node`'s use of the loop, started in front of the records `ts`
with depth 0, finds the first direct child. -/
theorem first_child_scan {m : Mem} :
    ∀ (ts : List Tok) (o : Nat), Laid m o ts → ∀ fuel, ts.length < fuel →
      first_child_step (next_node_loop m true fuel (o : Int) 0)
        = some (firstOr (childOffsets o 0 ts)) := by
  intro ts
  induction ts with
  | nil =>
    intro o h fuel hf
    obtain ⟨f, rfl⟩ : ∃ f, fuel = f + 1 := ⟨fuel - 1, by simp at hf; omega⟩
    rw [h.loop_end]
    simp [first_child_step, childOffsets, firstOr]
  | cons t ts ih =>
    intro o h fuel hf
    obtain ⟨f, rfl⟩ : ∃ f, fuel = f + 1 := ⟨fuel - 1, by simp at hf; omega⟩
    simp only [List.length_cons] at hf
    cases t with
    | beginNode k =>
      rw [h.loop_begin]
      have h1 : toInt32 1 = 1 := by decide
      have h0 : ¬ ((o : Int) < 0) := by omega
      simp [first_child_step, childOffsets, firstOr, h1, h0]
    | endNode =>
      rw [h.loop_endNode]
      have h1 : toInt32 (-1) = -1 := by decide
      simp [first_child_step, childOffsets, firstOr, h1]
    | prop len =>
      rw [h.loop_prop]
      simpa [childOffsets] using ih _ h.tail f (by omega)
    | nop =>
      rw [h.loop_nop]
      simpa [childOffsets, Tok.size] using ih _ h.tail f (by omega)

/-- One round of `next_sibling_loop` applied to the loop of `fdt_next_node`,
started in front of the records `ts` at depth `lvl`, finds the next record that
opens a node at depth 1, i.e. the next direct child. -/
theorem sibling_scan {m : Mem} :
    ∀ (ts : List Tok) (o lvl : Nat), Laid m o ts → lvl + ts.length < 2147483647 →
      ∀ fuel1 fuel rounds, ts.length < fuel1 → ts.length < fuel → ts.length < rounds →
      sibling_step m fuel rounds (next_node_loop m true fuel1 (o : Int) (lvl : Int))
        = some (firstOr (childOffsets o lvl ts)) := by
  intro ts
  induction ts with
  | nil =>
    intro o lvl h _ fuel1 fuel rounds hf1 _ _
    obtain ⟨f, rfl⟩ : ∃ f, fuel1 = f + 1 := ⟨fuel1 - 1, by simp at hf1; omega⟩
    rw [h.loop_end]
    simp [sibling_step, childOffsets, firstOr]
  | cons t ts ih =>
    intro o lvl h hl fuel1 fuel rounds hf1 hf hr
    obtain ⟨f, rfl⟩ : ∃ f, fuel1 = f + 1 := ⟨fuel1 - 1, by simp at hf1; omega⟩
    obtain ⟨r, rfl⟩ : ∃ r, rounds = r + 1 := ⟨rounds - 1, by simp at hr; omega⟩
    simp only [List.length_cons] at hf1 hf hr hl
    cases t with
    | beginNode k =>
      rw [h.loop_begin]
      have h0 : ¬ ((o : Int) < 0) := by omega
      cases lvl with
      | zero =>
        have h1 : toInt32 1 = 1 := by decide
        simp [sibling_step, childOffsets, firstOr, h1, h0]
      | succ l =>
        have h1 : toInt32 (((l + 1 : Nat) : Int) + 1) = ((l + 2 : Nat) : Int) := by
          unfold toInt32; omega
        have h2 : ¬ (((l + 2 : Nat) : Int) < 1) := by omega
        have h3 : ((l + 2 : Nat) : Int) > 1 := by omega
        simp only [if_true, h1, sibling_step, h0, h2, or_self, if_false, h3, childOffsets]
        rw [next_sibling_loop_succ, h.fdt_next_node]
        exact ih _ _ h.tail (by omega) fuel fuel r (by omega) (by omega) (by omega)
    | endNode =>
      rw [h.loop_endNode]
      cases lvl with
      | zero =>
        have h1 : toInt32 (-1) = -1 := by decide
        simp [sibling_step, childOffsets, firstOr, h1]
      | succ l =>
        have h1 : toInt32 (((l + 1 : Nat) : Int) - 1) = (l : Int) := by
          unfold toInt32; omega
        have h2 : ¬ ((l : Int) < 0) := by omega
        simp only [if_true, h1, h2, if_false, childOffsets]
        exact ih _ _ h.tail (by omega) f fuel (r + 1) (by omega) (by omega) (by omega)
    | prop len =>
      rw [h.loop_prop]
      simpa [childOffsets] using
        ih _ lvl h.tail (by omega) f fuel (r + 1) (by omega) (by omega) (by omega)
    | nop =>
      rw [h.loop_nop]
      simpa [childOffsets, Tok.size] using
        ih _ lvl h.tail (by omega) f fuel (r + 1) (by omega) (by omega) (by omega)

/-- Proper nesting is kept along the records. -/
theorem properlyNested_endNode {n : Nat} {ts : List Tok}
    (h : properlyNested n (Tok.endNode :: ts) = true) :
    ∃ n', n = n' + 1 ∧ properlyNested n' ts = true := by
  cases n with
  | zero => simp [properlyNested] at h
  | succ n' => exact ⟨n', rfl, by simpa [properlyNested] using h⟩

/-- One round of `node_sequence` applied to the loop of `fdt_next_node`, started in
front of the records `ts`, lists every node that begins in `ts`. -/
theorem sequence_scan {m : Mem} (track : Bool) :
    ∀ (ts : List Tok) (o n : Nat) (d : Int), Laid m o ts →
      (track = true → properlyNested n ts = true ∧ (n : Int) ≤ d ∧ d + ts.length < 2147483648) →
      ∀ fuel1 fuel rounds, ts.length < fuel1 → ts.length < fuel → ts.length < rounds →
      sequence_step m fuel track rounds (next_node_loop m track fuel1 (o : Int) d)
        = some (asInts (beginOffsets o ts)) := by
  intro ts
  induction ts with
  | nil =>
    intro o n d h _ fuel1 fuel rounds hf1 _ _
    obtain ⟨f, rfl⟩ : ∃ f, fuel1 = f + 1 := ⟨fuel1 - 1, by simp at hf1; omega⟩
    rw [h.loop_end]
    simp [sequence_step, beginOffsets, FDT_ERR_NOTFOUND, asInts]
  | cons t ts ih =>
    intro o n d h hd fuel1 fuel rounds hf1 hf hr
    obtain ⟨f, rfl⟩ : ∃ f, fuel1 = f + 1 := ⟨fuel1 - 1, by simp at hf1; omega⟩
    obtain ⟨r, rfl⟩ : ∃ r, rounds = r + 1 := ⟨rounds - 1, by simp at hr; omega⟩
    simp only [List.length_cons] at hf1 hf hr hd
    cases t with
    | beginNode k =>
      rw [h.loop_begin]
      have h0 : ¬ ((o : Int) = -FDT_ERR_NOTFOUND) := by simp only [FDT_ERR_NOTFOUND]; omega
      simp only [sequence_step, h0, if_false]
      rw [node_sequence_succ, h.fdt_next_node]
      have key := ih (o + (Tok.beginNode k).size) (n + 1) (if track then toInt32 (d + 1) else d)
        h.tail (fun ht => by
          obtain ⟨h1, h2, h3⟩ := hd ht
          have h4 : toInt32 (d + 1) = d + 1 := by unfold toInt32; omega
          simp only [ht, if_true, h4]
          refine ⟨by simpa [properlyNested] using h1, by push_cast; omega, by push_cast at h3; omega⟩)
        fuel fuel r (by omega) (by omega) (by omega)
      rw [key]
      simp [beginOffsets, asInts]
    | endNode =>
      rw [h.loop_endNode]
      cases track with
      | false =>
        simp only [Bool.false_eq_true, if_false, beginOffsets]
        exact ih _ n d h.tail (fun ht => by simp at ht) f fuel (r + 1)
          (by omega) (by omega) (by omega)
      | true =>
        obtain ⟨h1, h2, h3⟩ := hd rfl
        obtain ⟨n', rfl, hn'⟩ := properlyNested_endNode h1
        have h4 : toInt32 (d - 1) = d - 1 := by unfold toInt32; push_cast at h2 h3; omega
        have h5 : ¬ (d - 1 < 0) := by push_cast at h2; omega
        simp only [if_true, h4, h5, if_false, beginOffsets]
        exact ih _ n' (d - 1) h.tail (fun _ => ⟨hn', by push_cast at h2; omega,
          by push_cast at h3; omega⟩) f fuel (r + 1) (by omega) (by omega) (by omega)
    | prop len =>
      rw [h.loop_prop]
      simp only [beginOffsets]
      exact ih _ n d h.tail (fun ht => by
          obtain ⟨h1, h2, h3⟩ := hd ht
          exact ⟨by simpa [properlyNested] using h1, h2, by push_cast at h3; omega⟩)
        f fuel (r + 1) (by omega) (by omega) (by omega)
    | nop =>
      rw [h.loop_nop]
      simp only [beginOffsets]
      exact ih _ n d h.tail (fun ht => by
          obtain ⟨h1, h2, h3⟩ := hd ht
          exact ⟨by simpa [properlyNested] using h1, h2, by push_cast at h3; omega⟩)
        f fuel (r + 1) (by omega) (by omega) (by omega)

/-! ## Lists of offsets -/

/-- The first direct child found in `ts` heads a record list of its own, and the
remaining children are those found after it. -/
theorem childOffsets_cons {ts : List Tok} {o lvl x : Nat} {xs : List Nat}
    (h : childOffsets o lvl ts = x :: xs) :
    ∃ pre k post, ts = pre ++ Tok.beginNode k :: post ∧ x = o + streamSize pre ∧
      xs = childOffsets (x + (Tok.beginNode k).size) 1 post := by
  induction ts generalizing o lvl with
  | nil => simp [childOffsets] at h
  | cons t ts ih =>
    cases t with
    | beginNode k =>
      cases lvl with
      | zero =>
        simp only [childOffsets, List.cons.injEq] at h
        exact ⟨[], k, ts, rfl, by simp [streamSize, h.1], by rw [← h.1, h.2]⟩
      | succ l =>
        simp only [childOffsets] at h
        obtain ⟨pre, k', post, h1, h2, h3⟩ := ih h
        exact ⟨Tok.beginNode k :: pre, k', post, by simp [h1], by simp [streamSize, h2]; omega, h3⟩
    | endNode =>
      cases lvl with
      | zero => simp [childOffsets] at h
      | succ l =>
        simp only [childOffsets] at h
        obtain ⟨pre, k', post, h1, h2, h3⟩ := ih h
        exact ⟨Tok.endNode :: pre, k', post, by simp [h1],
          by simp [streamSize, h2, Tok.size]; omega, h3⟩
    | prop len =>
      simp only [childOffsets] at h
      obtain ⟨pre, k', post, h1, h2, h3⟩ := ih h
      exact ⟨Tok.prop len :: pre, k', post, by simp [h1], by simp [streamSize, h2]; omega, h3⟩
    | nop =>
      simp only [childOffsets] at h
      obtain ⟨pre, k', post, h1, h2, h3⟩ := ih h
      exact ⟨Tok.nop :: pre, k', post, by simp [h1],
        by simp [streamSize, h2, Tok.size]; omega, h3⟩

theorem childOffsets_ge (ts : List Tok) (o lvl : Nat) : ∀ x ∈ childOffsets o lvl ts, o ≤ x := by
  induction ts generalizing o lvl with
  | nil => simp [childOffsets]
  | cons t ts ih =>
    cases t with
    | beginNode k =>
      cases lvl with
      | zero =>
        intro x hx
        simp only [childOffsets, List.mem_cons] at hx
        rcases hx with rfl | hx
        · exact le_refl _
        · have := ih _ _ x hx; omega
      | succ l => intro x hx; simp only [childOffsets] at hx; have := ih _ _ x hx; omega
    | endNode =>
      cases lvl with
      | zero => simp [childOffsets]
      | succ l => intro x hx; simp only [childOffsets] at hx; have := ih _ _ x hx; omega
    | prop len => intro x hx; simp only [childOffsets] at hx; have := ih _ _ x hx; omega
    | nop => intro x hx; simp only [childOffsets] at hx; have := ih _ _ x hx; omega

/-- Children are listed in strictly increasing (document) order. -/
theorem childOffsets_increasing (ts : List Tok) (o lvl : Nat) :
    (childOffsets o lvl ts).Pairwise (· < ·) := by
  induction ts generalizing o lvl with
  | nil => simp [childOffsets]
  | cons t ts ih =>
    cases t with
    | beginNode k =>
      cases lvl with
      | zero =>
        simp only [childOffsets, List.pairwise_cons]
        refine ⟨fun x hx => ?_, ih _ _⟩
        have := childOffsets_ge ts _ _ x hx
        have := (Tok.beginNode k).size_spec
        omega
      | succ l => simpa [childOffsets] using ih _ _
    | endNode =>
      cases lvl with
      | zero => simp [childOffsets]
      | succ l => simpa [childOffsets] using ih _ _
    | prop len => simpa [childOffsets] using ih _ _
    | nop => simpa [childOffsets] using ih _ _

theorem beginOffsets_ge (ts : List Tok) (o : Nat) : ∀ x ∈ beginOffsets o ts, o ≤ x := by
  induction ts generalizing o with
  | nil => simp [beginOffsets]
  | cons t ts ih =>
    cases t with
    | beginNode k =>
      intro x hx
      simp only [beginOffsets, List.mem_cons] at hx
      rcases hx with rfl | hx
      · exact le_refl _
      · have := ih _ x hx; omega
    | endNode => intro x hx; simp only [beginOffsets] at hx; have := ih _ x hx; omega
    | prop len => intro x hx; simp only [beginOffsets] at hx; have := ih _ x hx; omega
    | nop => intro x hx; simp only [beginOffsets] at hx; have := ih _ x hx; omega

/-- Nodes are listed in strictly increasing (document) order, each once. -/
theorem beginOffsets_increasing (ts : List Tok) (o : Nat) :
    (beginOffsets o ts).Pairwise (· < ·) := by
  induction ts generalizing o with
  | nil => simp [beginOffsets]
  | cons t ts ih =>
    cases t with
    | beginNode k =>
      simp only [beginOffsets, List.pairwise_cons]
      refine ⟨fun x hx => ?_, ih _⟩
      have := beginOffsets_ge ts _ x hx
      have := (Tok.beginNode k).size_spec
      omega
    | endNode => simpa [beginOffsets] using ih _
    | prop len => simpa [beginOffsets] using ih _
    | nop => simpa [beginOffsets] using ih _

/-- Every direct child is one of the nodes of the record list. -/
theorem childOffsets_sublist (ts : List Tok) (o lvl : Nat) :
    (childOffsets o lvl ts).Sublist (beginOffsets o ts) := by
  induction ts generalizing o lvl with
  | nil => simp [childOffsets, beginOffsets]
  | cons t ts ih =>
    cases t with
    | beginNode k =>
      cases lvl with
      | zero => simpa [childOffsets, beginOffsets] using ih _ _
      | succ l =>
        simp only [childOffsets, beginOffsets]
        exact List.Sublist.cons _ (ih _ _)
    | endNode =>
      cases lvl with
      | zero => simp [childOffsets]
      | succ l => simpa [childOffsets, beginOffsets] using ih _ _
    | prop len => simpa [childOffsets, beginOffsets] using ih _ _
    | nop => simpa [childOffsets, beginOffsets] using ih _ _

/-! ## Children of a node -/

theorem fdt_first_child_node_laid {m : Mem} {o k : Nat} {ts : List Tok}
    (h : Laid m o (Tok.beginNode k :: ts)) (fuel : Nat) (hf : ts.length < fuel) :
    fdt_first_child_node m fuel (o : Int)
      = some (firstOr (childOffsets (o + (Tok.beginNode k).size) 0 ts)) := by
  have : fdt_first_child_node m fuel (o : Int)
      = first_child_step (fdt_next_node m fuel (o : Int) true 0) := rfl
  rw [this, h.fdt_next_node]
  exact first_child_scan ts _ h.tail fuel hf

theorem fdt_next_sibling_node_laid {m : Mem} {o k : Nat} {ts : List Tok}
    (h : Laid m o (Tok.beginNode k :: ts)) (fuel : Nat) (hf : ts.length + 1 < fuel) :
    fdt_next_sibling_node m fuel (o : Int)
      = some (firstOr (childOffsets (o + (Tok.beginNode k).size) 1 ts)) := by
  obtain ⟨r, rfl⟩ : ∃ r, fuel = r + 1 := ⟨fuel - 1, by omega⟩
  unfold fdt_next_sibling_node
  rw [next_sibling_loop_succ, h.fdt_next_node]
  have hl := length_le_streamSize ts
  have hs := h.tail.small
  exact sibling_scan ts _ 1 h.tail (by omega) (r + 1) (r + 1) r (by omega) (by omega) (by omega)

/-- From a direct child on, the chain of `fdt_next_sibling_node` lists that child
and the direct children that follow it. -/
theorem sibling_chain_laid {m : Mem} (fuel : Nat) :
    ∀ (n : Nat) (ts : List Tok) (o k rounds : Nat), ts.length ≤ n →
      Laid m o (Tok.beginNode k :: ts) → ts.length + 1 < fuel → ts.length + 1 < rounds →
      sibling_chain m fuel rounds (o : Int)
        = some (asInts (o :: childOffsets (o + (Tok.beginNode k).size) 1 ts)) := by
  intro n
  induction n with
  | zero =>
    intro ts o k rounds hn h hf hr
    obtain ⟨r, rfl⟩ : ∃ r, rounds = r + 1 := ⟨rounds - 1, by omega⟩
    obtain ⟨r', rfl⟩ : ∃ r', r = r' + 1 := ⟨r - 1, by omega⟩
    have hts : ts = [] := List.length_eq_zero.mp (by omega)
    subst hts
    have h0 : ¬ ((o : Int) = -FDT_ERR_NOTFOUND) := by simp only [FDT_ERR_NOTFOUND]; omega
    rw [sibling_chain]
    simp only [h0, if_false, fdt_next_sibling_node_laid h fuel hf, childOffsets, firstOr]
    simp [sibling_chain, asInts]
  | succ n ih =>
    intro ts o k rounds hn h hf hr
    obtain ⟨r, rfl⟩ : ∃ r, rounds = r + 1 := ⟨rounds - 1, by omega⟩
    obtain ⟨r', rfl⟩ : ∃ r', r = r' + 1 := ⟨r - 1, by omega⟩
    have h0 : ¬ ((o : Int) = -FDT_ERR_NOTFOUND) := by simp only [FDT_ERR_NOTFOUND]; omega
    rw [sibling_chain]
    simp only [h0, if_false, fdt_next_sibling_node_laid h fuel hf]
    cases hc : childOffsets (o + (Tok.beginNode k).size) 1 ts with
    | nil => simp [firstOr, sibling_chain, asInts]
    | cons x xs =>
      obtain ⟨pre, k', post, h1, h2, h3⟩ := childOffsets_cons hc
      subst h1
      have hx : Laid m x (Tok.beginNode k' :: post) := by
        rw [h2]; exact h.tail.drop pre
      have hlen : post.length ≤ n := by simp at hn; omega
      have hlen2 : post.length + 1 < fuel := by simp at hf; omega
      have hlen3 : post.length + 1 < r' + 1 := by simp at hr; omega
      simp only [firstOr]
      rw [ih post x k' (r' + 1) hlen hx hlen2 hlen3, ← h3]
      simp [asInts]

/-! ## Returned offsets are `int`s -/

theorem next_node_loop_int32 (m : Mem) (track : Bool) :
    ∀ (fuel : Nat) (no d r d' : Int), isInt32 no →
      next_node_loop m track fuel no d = some (r, d') → isInt32 r := by
  intro fuel
  induction fuel with
  | zero => intro no d r d' _ h; simp [next_node_loop] at h
  | succ k ih =>
    intro no d r d' hrg h
    unfold next_node_loop at h
    simp only [] at h
    have hR := FDT_TAGALIGN_range
    rcases fdt_tag_next_offset_cases m no no with
      ⟨_, ht⟩ | ⟨p, hp, ht | ⟨x, ht⟩ | ⟨x, ht⟩ | ht | ht | ht⟩ <;>
      simp only [ht, FDT_END, FDT_PROPERTY, FDT_NOP, FDT_BEGIN_NODE, FDT_END_NODE] at h <;>
      simp only [Nat.reduceEqDiff, or_self, or_true, true_or, if_false, if_true] at h
    · split_ifs at h with hc <;> simp only [Option.some.injEq, Prod.mk.injEq] at h
      · rw [← h.1]; decide
      · rw [← h.1]; exact hrg
    · split_ifs at h with hc <;> simp only [Option.some.injEq, Prod.mk.injEq] at h
      · rw [← h.1]; decide
      · rw [← h.1]; decide
    · simp only [Option.some.injEq, Prod.mk.injEq] at h
      rw [← h.1]; exact hrg
    · exact ih _ _ _ _ (hR x) h
    · split_ifs at h with h1 h2
      · simp only [Option.some.injEq, Prod.mk.injEq] at h
        rw [← h.1]; exact hR _
      · exact ih _ _ _ _ (hR _) h
      · exact ih _ _ _ _ (hR _) h
    · exact ih _ _ _ _ (hR _) h
    · split_ifs at h with hc <;> simp only [Option.some.injEq, Prod.mk.injEq] at h
      · rw [← h.1]; decide
      · rw [← h.1]; exact hR _

theorem node_next_offset_int32 (m : Mem) (o : Int) : isInt32 (node_next_offset m o) := by
  unfold node_next_offset
  split_ifs with hc
  · decide
  · have ht : (fdt_tag_next_offset m o o).1 = FDT_BEGIN_NODE := by
      by_contra hx; exact hc (Or.inr (Or.inr hx))
    rcases fdt_tag_next_offset_cases m o o with
      ⟨_, hn⟩ | ⟨p, hp, hn | ⟨x, hn⟩ | ⟨x, hn⟩ | hn | hn | hn⟩ <;>
      simp only [hn, FDT_END, FDT_PROPERTY, FDT_NOP, FDT_BEGIN_NODE, FDT_END_NODE] at ht ⊢ <;>
      first
        | (exact absurd ht (by decide))
        | (exact FDT_TAGALIGN_range x)

theorem fdt_next_node_int32 (m : Mem) (fuel : Nat) (off : Int) (track : Bool) (d r d' : Int)
    (h : fdt_next_node m fuel off track d = some (r, d')) : isInt32 r := by
  unfold fdt_next_node at h
  split_ifs at h with h1 h2
  · simp only [Option.some.injEq, Prod.mk.injEq] at h
    rw [← h.1]; exact node_next_offset_int32 m off
  · exact next_node_loop_int32 m track fuel _ d r d' (node_next_offset_int32 m off) h
  · exact next_node_loop_int32 m track fuel 0 d r d' (by decide) h

theorem fdt_first_child_node_int32 (m : Mem) (fuel : Nat) (off r : Int)
    (h : fdt_first_child_node m fuel off = some r) : isInt32 r := by
  unfold fdt_first_child_node at h
  cases hn : fdt_next_node m fuel off true 0 with
  | none => simp [hn] at h
  | some res =>
    obtain ⟨o, d'⟩ := res
    simp only [hn] at h
    split_ifs at h with hc <;> simp only [Option.some.injEq] at h
    · rw [← h]; decide
    · rw [← h]; exact fdt_next_node_int32 m fuel off true 0 o d' hn

theorem next_sibling_loop_int32 (m : Mem) (fuel : Nat) :
    ∀ (rounds : Nat) (off d r : Int), next_sibling_loop m fuel rounds off d = some r →
      isInt32 r := by
  intro rounds
  induction rounds with
  | zero => intro off d r h; simp [next_sibling_loop] at h
  | succ k ih =>
    intro off d r h
    unfold next_sibling_loop at h
    cases hn : fdt_next_node m fuel off true d with
    | none => simp [hn] at h
    | some res =>
      obtain ⟨o, d'⟩ := res
      simp only [hn] at h
      split_ifs at h with hc h2
      · simp only [Option.some.injEq] at h; rw [← h]; decide
      · exact ih _ _ _ h
      · simp only [Option.some.injEq] at h
        rw [← h]; exact fdt_next_node_int32 m fuel off true d o d' hn

/-- Whatever the memory holds, every offset in a chain of siblings is an `int`. -/
theorem sibling_chain_int32 (m : Mem) (fuel : Nat) :
    ∀ (rounds : Nat) (c : Int) (l : List Int), isInt32 c →
      sibling_chain m fuel rounds c = some l → ∀ x ∈ l, isInt32 x := by
  intro rounds
  induction rounds with
  | zero => intro c l _ h; simp [sibling_chain] at h
  | succ k ih =>
    intro c l hc h
    unfold sibling_chain at h
    split_ifs at h with h1
    · simp only [Option.some.injEq] at h; subst h; simp
    · cases hs : fdt_next_sibling_node m fuel c with
      | none => simp [hs] at h
      | some c2 =>
        simp only [hs] at h
        cases hr : sibling_chain m fuel k c2 with
        | none => simp [hr] at h
        | some l2 =>
          simp only [hr, Option.some.injEq] at h
          subst h
          intro x hx
          simp only [List.mem_cons] at hx
          rcases hx with rfl | hx
          · exact hc
          · exact ih c2 l2 (next_sibling_loop_int32 m fuel fuel c 1 c2 hs) hr x hx

theorem child_sequence_int32 (m : Mem) (fuel : Nat) (n : Int) (l : List Int)
    (h : child_sequence m fuel n = some l) : ∀ x ∈ l, isInt32 x := by
  unfold child_sequence at h
  cases hc : fdt_first_child_node m fuel n with
  | none => simp [hc] at h
  | some c =>
    simp only [hc] at h
    exact sibling_chain_int32 m fuel fuel c l (fdt_first_child_node_int32 m fuel n c hc) h

/-! ## Claim C9: enumerating the nodes with `fdt_next_node` -/

/-- C9 (counterexample): on the well-formed tree of scenario S4, whose nodes
begin at offsets 0 and 8, `fdt_next_node` with depth tracking, started at offset
0 with depth 0, returns 8, then 28, which is the offset of the `END` tag and not
of a node, and re-applied there returns -4 (BadOffset), not NotFound; started
with depth 1 it yields 8 and then NotFound, so offset 0 is never yielded.  On the
well-formed `giantBlob`, whose nodes begin at offsets 0 and 0x80000004, the first
call from offset 0 returns -11 (BadStructure). -/
theorem next_node_with_depth_from_root :
    WellFormed childBlob childToks ∧ beginOffsets 0 childToks = [0, 8] ∧
    fdt_next_node childBlob 5 0 true 0 = some (8, 1) ∧
    fdt_next_node childBlob 5 8 true 1 = some (28, -1) ∧
    fdt_tag_only childBlob 28 = FDT_END ∧
    fdt_next_node childBlob 5 28 true (-1) = some (-4, -1) ∧
    node_sequence childBlob 5 true 5 0 1 = some [8] ∧
    WellFormed giantBlob giantToks ∧ beginOffsets 0 giantToks = [0, 2147483652] ∧
    fdt_next_node giantBlob 8 0 false 0 = some (-11, 0) :=
  ⟨⟨by decide, ⟨_, _, rfl⟩, by decide, by decide, by decide⟩, by decide, by decide, by decide,
    by decide, by decide, by decide,
    ⟨by decide, ⟨_, _, rfl⟩, by decide, by decide, by decide⟩, by decide, by decide⟩

/-- C9 (amended): on a well-formed blob whose structure block, `END` tag
included, is shorter than `2^31` bytes, calling `fdt_next_node` at offset 0 and
again at each returned offset until it returns NotFound yields the offsets of
all `BEGIN_NODE` records after the root's, each once and in increasing order,
both without depth tracking and with depth tracking from an initial depth `d ≥ 1`
(small enough not to overflow); started at offset -1 (with `d ≥ 0` when
tracking) it yields the offsets of all `BEGIN_NODE` records, the root's included. -/
theorem next_node_enumerates_nodes (m : Mem) (ts : List Tok) (wf : WellFormed m ts)
    (h31 : streamSize ts + 4 < 2147483648) (fuel rounds : Nat) (hf : ts.length < fuel)
    (hr : ts.length + 1 < rounds) :
    (∀ d, node_sequence m fuel false rounds 0 d = some (asInts (beginOffsets 0 ts).tail)) ∧
    (∀ d : Int, 1 ≤ d → d + ts.length < 2147483648 →
      node_sequence m fuel true rounds 0 d = some (asInts (beginOffsets 0 ts).tail)) ∧
    (∀ d, node_sequence m fuel false rounds (-1) d = some (asInts (beginOffsets 0 ts))) ∧
    (∀ d : Int, 0 ≤ d → d + ts.length < 2147483648 →
      node_sequence m fuel true rounds (-1) d = some (asInts (beginOffsets 0 ts))) ∧
    (beginOffsets 0 ts).Pairwise (· < ·) ∧ (beginOffsets 0 ts).head? = some 0 := by
  obtain ⟨k, rest, rfl⟩ := wf.root
  obtain ⟨r, rfl⟩ : ∃ r, rounds = r + 1 := ⟨rounds - 1, by simp at hr; omega⟩
  have hl : Laid m 0 (Tok.beginNode k :: rest) := wf.laid h31
  have hn : properlyNested 1 rest = true := by simpa [properlyNested] using wf.nested
  have hn0 : properlyNested 0 (Tok.beginNode k :: rest) = true := wf.nested
  simp only [List.length_cons] at hf hr
  have hneg : ∀ track d, fdt_next_node m fuel (-1) track d = next_node_loop m track fuel 0 d := by
    intro track d; simp [fdt_next_node]
  have hfrom0 : ∀ track d, (track = true → (1 : Int) ≤ d ∧ d + rest.length < 2147483648) →
      node_sequence m fuel track (r + 1) 0 d
        = some (asInts (beginOffsets 0 (Tok.beginNode k :: rest)).tail) := by
    intro track d hd
    rw [node_sequence_succ]
    have := hl.fdt_next_node fuel track d
    simp only [Nat.cast_zero] at this
    rw [this]
    have key := sequence_scan track rest (0 + (Tok.beginNode k).size) 1 d hl.tail
      (fun ht => ⟨hn, by have := (hd ht).1; omega, (hd ht).2⟩) fuel fuel r (by omega) (by omega)
      (by omega)
    rw [key]
    simp [beginOffsets]
  have hfromneg : ∀ track d, (track = true → (0 : Int) ≤ d ∧ d + (rest.length + 1) < 2147483648) →
      node_sequence m fuel track (r + 1) (-1) d
        = some (asInts (beginOffsets 0 (Tok.beginNode k :: rest))) := by
    intro track d hd
    rw [node_sequence_succ, hneg]
    have key := sequence_scan track (Tok.beginNode k :: rest) 0 0 d hl
      (fun ht => ⟨hn0, by have := (hd ht).1; omega, by
        have := (hd ht).2; simp only [List.length_cons]; push_cast; omega⟩)
      fuel fuel r (by simp only [List.length_cons]; omega)
      (by simp only [List.length_cons]; omega) (by simp only [List.length_cons]; omega)
    simp only [Nat.cast_zero] at key
    exact key
  refine ⟨fun d => hfrom0 false d (fun h => by simp at h), fun d h1 h2 => hfrom0 true d (fun _ => ?_),
    fun d => hfromneg false d (fun h => by simp at h), fun d h1 h2 => hfromneg true d (fun _ => ?_),
    beginOffsets_increasing _ _, by simp [beginOffsets]⟩
  · exact ⟨h1, by simp only [List.length_cons] at h2; push_cast at h2; omega⟩
  · exact ⟨h1, by simp only [List.length_cons] at h2; push_cast at h2; omega⟩

/-- C9 (witness): on `familyBlob`, whose nodes begin at offsets 0, 8, 40 and 56, the
iteration from offset 0 with depth tracking from depth 1 yields 8, 40, 56. -/
theorem next_node_enumerates_nodes_witness :
    WellFormed familyBlob familyToks ∧
    node_sequence familyBlob 11 true 12 0 1 = some [8, 40, 56] ∧
    node_sequence familyBlob 11 true 12 0 1 = some (asInts (beginOffsets 0 familyToks).tail) :=
  ⟨⟨by decide, ⟨_, _, rfl⟩, by decide, by decide, by decide⟩, by decide,
    (next_node_enumerates_nodes familyBlob familyToks
      ⟨by decide, ⟨_, _, rfl⟩, by decide, by decide, by decide⟩ (by decide) 11 12 (by decide)
      (by decide)).2.1 1 (by decide) (by decide)⟩

/-! ## Claim C10: enumerating the children of a node -/

/-- C10 (counterexample): `giantBlob` is well formed and its root has one direct
child, at structure offset 0x80000004 = 2147483652, but the chain
`fdt_first_child_node`, `fdt_next_sibling_node`, … from the root is empty: the
offset after the root's property does not fit an `int`.  Whatever the memory
holds, no such chain contains the offset 2147483652. -/
theorem children_beyond_int_range :
    WellFormed giantBlob giantToks ∧
    giantToks = [] ++ Tok.beginNode 0 :: [.prop 0x7ffffff0, .beginNode 0, .endNode, .endNode] ∧
    childOffsets (streamSize [] + (Tok.beginNode 0).size) 0
      [.prop 0x7ffffff0, .beginNode 0, .endNode, .endNode] = [2147483652] ∧
    child_sequence giantBlob 8 0 = some [] ∧
    (∀ (m : Mem) (fuel : Nat) (n : Int) (l : List Int),
      child_sequence m fuel n = some l → (2147483652 : Int) ∉ l) :=
  ⟨⟨by decide, ⟨_, _, rfl⟩, by decide, by decide, by decide⟩, by decide, by decide, by decide,
    fun m fuel n l h hx => by
      have := child_sequence_int32 m fuel n l h _ hx
      exact absurd this (by decide)⟩

/-- C10 (amended): on a well-formed blob whose structure block, `END` tag
included, is shorter than `2^31` bytes, for every node (the record
`BEGIN_NODE` that follows the records `pre`, at offset `streamSize pre`), the
sequence `fdt_first_child_node`, `fdt_next_sibling_node`, … taken until the first
NotFound is exactly the list of the node's direct children, in increasing
(document) order; every one of them is a node of the blob. -/
theorem first_child_next_sibling_enumerate_children (m : Mem) (ts : List Tok)
    (wf : WellFormed m ts) (h31 : streamSize ts + 4 < 2147483648)
    (pre : List Tok) (k : Nat) (post : List Tok) (hts : ts = pre ++ Tok.beginNode k :: post)
    (fuel : Nat) (hf : ts.length + 2 ≤ fuel) :
    child_sequence m fuel (streamSize pre : Int)
      = some (asInts (childOffsets (streamSize pre + (Tok.beginNode k).size) 0 post)) ∧
    (childOffsets (streamSize pre + (Tok.beginNode k).size) 0 post).Pairwise (· < ·) ∧
    (childOffsets (streamSize pre + (Tok.beginNode k).size) 0 post).Sublist
      (beginOffsets 0 ts) := by
  subst hts
  have hl0 : Laid m 0 (pre ++ Tok.beginNode k :: post) := wf.laid h31
  have hl : Laid m (streamSize pre) (Tok.beginNode k :: post) := by
    simpa using hl0.drop pre
  simp only [List.length_append, List.length_cons] at hf
  refine ⟨?_, childOffsets_increasing _ _ _, ?_⟩
  · unfold child_sequence
    rw [fdt_first_child_node_laid hl fuel (by omega)]
    cases hc : childOffsets (streamSize pre + (Tok.beginNode k).size) 0 post with
    | nil =>
      obtain ⟨f, rfl⟩ : ∃ f, fuel = f + 1 := ⟨fuel - 1, by omega⟩
      simp [firstOr, sibling_chain, asInts]
    | cons x xs =>
      obtain ⟨pre2, k2, post2, h1, h2, h3⟩ := childOffsets_cons hc
      subst h1
      have hx : Laid m x (Tok.beginNode k2 :: post2) := by
        rw [h2]; exact hl.tail.drop pre2
      simp only [List.length_append, List.length_cons] at hf
      simp only [firstOr]
      rw [sibling_chain_laid fuel post2.length post2 x k2 fuel (le_refl _) hx (by omega)
        (by omega), ← h3]
  · have hb : ∀ (p : List Tok) (o : Nat) (q : List Tok),
        (beginOffsets (o + streamSize p) q).Sublist (beginOffsets o (p ++ q)) := by
      intro p
      induction p with
      | nil => intro o q; simp [streamSize]
      | cons t p ih =>
        intro o q
        have := ih (o + t.size) q
        rw [Nat.add_assoc] at this
        cases t <;> simp only [List.cons_append, beginOffsets, streamSize] <;>
          first | exact List.Sublist.cons _ this | exact this
    have h1 := childOffsets_sublist post (streamSize pre + (Tok.beginNode k).size) 0
    have h2 := hb pre 0 (Tok.beginNode k :: post)
    simp only [Nat.zero_add, beginOffsets] at h2
    exact (h1.trans (List.Sublist.cons _ (List.Sublist.refl _))).trans h2

/-- C10 (witness): on `familyBlob` the children of the root (offset 0) are found at
offsets 8 and 56; the grandchild at offset 40 is not among them. -/
theorem first_child_next_sibling_enumerate_children_witness :
    WellFormed familyBlob familyToks ∧
    child_sequence familyBlob 12 ((streamSize [] : Nat) : Int) = some [8, 56] ∧
    child_sequence familyBlob 12 ((streamSize [] : Nat) : Int)
      = some (asInts (childOffsets (streamSize [] + (Tok.beginNode 0).size) 0 familyToks.tail)) :=
  ⟨⟨by decide, ⟨_, _, rfl⟩, by decide, by decide, by decide⟩, by decide,
    (first_child_next_sibling_enumerate_children familyBlob familyToks
      ⟨by decide, ⟨_, _, rfl⟩, by decide, by decide, by decide⟩ (by decide) [] 0 familyToks.tail
      rfl 12 (by decide)).1⟩

/-! ## Claim C11: depth accounting of `fdt_next_node` -/

/-- Forgetting what was scanned gives back the loop of `fdt_next_node`. -/
theorem next_node_scan_erase (m : Mem) (track : Bool) :
    ∀ (fuel : Nat) (no d : Int) (seen : List Nat),
      (next_node_scan m track fuel no d seen).map (fun x => (x.1, x.2.1))
        = next_node_loop m track fuel no d := by
  intro fuel
  induction fuel with
  | zero => intro no d seen; rfl
  | succ k ih =>
    intro no d seen
    unfold next_node_scan next_node_loop
    simp only []
    split_ifs <;> first | rfl | exact ih _ _ _

theorem fdt_next_node_scan_erase (m : Mem) (fuel : Nat) (off : Int) (track : Bool) (d : Int) :
    (fdt_next_node_scan m fuel off track d).map (fun x => (x.1, x.2.1))
      = fdt_next_node m fuel off track d := by
  unfold fdt_next_node_scan fdt_next_node
  split_ifs <;> first | rfl | exact next_node_scan_erase m track fuel _ _ _

/-- Depth accounting of the loop: entered with depth `d` after `seen`, it ends
with `d + 1` minus the `END_NODE` tags passed when it stops at a `BEGIN_NODE`,
and with `d - 1` minus them when it stops at the `END_NODE` that takes the depth
below 0; that tag is read at the returned offset resp. just before it. -/
theorem next_node_scan_depth (m : Mem) :
    ∀ (fuel : Nat) (no d : Int) (seen : List Nat) (r d' : Int) (t : Nat) (s : List Nat),
      -2147483648 < d → d < 2147483647 →
      next_node_scan m true fuel no d seen = some (r, d', t, s) →
      ∃ e : Nat, s.count FDT_END_NODE = seen.count FDT_END_NODE + e ∧
        (t = FDT_BEGIN_NODE → d' = d + 1 - e ∧ (fdt_tag_next_offset m r r).1 = FDT_BEGIN_NODE) ∧
        (t = FDT_END_NODE → d' = d - e - 1 ∧ d' < 0 ∧ (0 ≤ d → d' = -1)) := by
  intro fuel
  induction fuel with
  | zero => intro no d seen r d' t s _ _ h; simp [next_node_scan] at h
  | succ k ih =>
    intro no d seen r d' t s hlo hhi h
    unfold next_node_scan at h
    simp only [] at h
    have hcount : ∀ tag : Nat, tag ≠ FDT_END_NODE →
        (seen ++ [tag]).count FDT_END_NODE = seen.count FDT_END_NODE := by
      intro tag htag
      simp [List.count_append, List.count_cons, htag]
    simp only [↓reduceIte] at h
    split_ifs at h with h1 h2 h3 h4 h5 h6
    · have hne : (fdt_tag_next_offset m no no).1 ≠ FDT_END_NODE := by
        rcases h1 with h1 | h1 <;> rw [h1] <;> decide
      obtain ⟨e, he, hb, hn⟩ := ih _ _ _ _ _ _ _ hlo hhi h
      exact ⟨e, by rw [he, hcount _ hne], hb, hn⟩
    · simp only [Option.some.injEq, Prod.mk.injEq] at h
      obtain ⟨rfl, rfl, rfl, rfl⟩ := h
      refine ⟨0, by simp, fun _ => ⟨?_, h2⟩, fun ht => ?_⟩
      · unfold toInt32; push_cast; omega
      · rw [h2] at ht; exact absurd ht (by decide)
    · simp only [Option.some.injEq, Prod.mk.injEq] at h
      obtain ⟨rfl, rfl, rfl, rfl⟩ := h
      have hd : toInt32 (d - 1) = d - 1 := by unfold toInt32; omega
      rw [hd] at h4
      refine ⟨0, by simp, fun ht => ?_, fun _ => ⟨by rw [hd]; push_cast; omega, by rw [hd]; exact h4,
        fun h0 => by rw [hd]; omega⟩⟩
      rw [h3] at ht; exact absurd ht (by decide)
    · have hd : toInt32 (d - 1) = d - 1 := by unfold toInt32; omega
      rw [hd] at h4 h
      obtain ⟨e, he, hb, hn⟩ := ih _ _ _ _ _ _ _ (by omega) (by omega) h
      have hc : (seen ++ [(fdt_tag_next_offset m no no).1]).count FDT_END_NODE
          = seen.count FDT_END_NODE + 1 := by
        simp [List.count_append, h3]
      refine ⟨e + 1, by rw [he, hc]; omega, fun ht => ?_, fun ht => ?_⟩
      · obtain ⟨h7, h8⟩ := hb ht
        exact ⟨by push_cast; omega, h8⟩
      · obtain ⟨h7, h8, h9⟩ := hn ht
        exact ⟨by push_cast; omega, h8, fun h0 => h9 (by omega)⟩
    · simp only [Option.some.injEq, Prod.mk.injEq] at h
      obtain ⟨-, -, rfl, rfl⟩ := h
      refine ⟨0, by simp, fun ht => ?_, fun ht => ?_⟩ <;>
        (rw [h5] at ht; exact absurd ht (by decide))
    · simp only [Option.some.injEq, Prod.mk.injEq] at h
      obtain ⟨-, -, rfl, rfl⟩ := h
      refine ⟨0, by simp, fun ht => ?_, fun ht => ?_⟩ <;>
        (rw [h5] at ht; exact absurd ht (by decide))
    · obtain ⟨e, he, hb, hn⟩ := ih _ _ _ _ _ _ _ hlo hhi h
      exact ⟨e, by rw [he, hcount _ h3], hb, hn⟩

/-- C11 (counterexample): on `rootOnlyBlob`, `fdt_next_node` called at the root
with depth tracking from the initial depth -1 returns at the root's `END_NODE`
because the depth dropped below 0, and the final depth is -2, not -1. -/
theorem next_node_final_depth_below_minus_one :
    fdt_check_header rootOnlyBlob = 0 ∧
    fdt_next_node rootOnlyBlob 3 0 true (-1) = some (12, -2) ∧
    fdt_next_node_scan rootOnlyBlob 3 0 true (-1) = some (12, -2, FDT_END_NODE, []) := by
  decide

/-- C11 (amended): for every blob, offset and initial depth `d` whose neighbours
`d - 1` and `d + 1` are `int`s, when `fdt_next_node` with depth tracking returns
the offset `r` of a `BEGIN_NODE`, the final depth is `d + 1 - e`, with `e` the
number of `END_NODE` tags among the tags scanned before `r` (the `PROPERTY` and
`NOP` tags among them do not count); when it returns because an `END_NODE` took
the depth below 0, the final depth is `d - e - 1`, which is negative, and is
exactly -1 when `d ≥ 0`. -/
theorem next_node_depth_accounting (m : Mem) (fuel : Nat) (off d r d' : Int) (t : Nat)
    (s : List Nat) (hlo : -2147483648 < d) (hhi : d < 2147483647)
    (h : fdt_next_node_scan m fuel off true d = some (r, d', t, s)) :
    fdt_next_node m fuel off true d = some (r, d') ∧
    (t = FDT_BEGIN_NODE →
      d' = d + 1 - s.count FDT_END_NODE ∧ (fdt_tag_next_offset m r r).1 = FDT_BEGIN_NODE) ∧
    (t = FDT_END_NODE → d' = d - s.count FDT_END_NODE - 1 ∧ d' < 0 ∧ (0 ≤ d → d' = -1)) := by
  refine ⟨by rw [← fdt_next_node_scan_erase, h]; rfl, ?_⟩
  unfold fdt_next_node_scan at h
  split_ifs at h with h1 h2
  · simp only [Option.some.injEq, Prod.mk.injEq] at h
    obtain ⟨-, -, rfl, rfl⟩ := h
    exact ⟨fun ht => absurd ht (by decide), fun ht => absurd ht (by decide)⟩
  · obtain ⟨e, he, hb, hn⟩ := next_node_scan_depth m fuel _ d [] r d' t s hlo hhi h
    simp only [List.count_nil, Nat.zero_add] at he
    rw [he]; exact ⟨hb, hn⟩
  · obtain ⟨e, he, hb, hn⟩ := next_node_scan_depth m fuel _ d [] r d' t s hlo hhi h
    simp only [List.count_nil, Nat.zero_add] at he
    rw [he]; exact ⟨hb, hn⟩

/-- C11 (witness): on `familyBlob`, from node "b" (offset 40) with initial depth 3,
two `END_NODE` tags are passed before node "c" at offset 56 is returned with
depth 3 + 1 - 2 = 2. -/
theorem next_node_depth_accounting_witness :
    fdt_next_node_scan familyBlob 9 40 true 3
      = some (56, 2, FDT_BEGIN_NODE, [FDT_END_NODE, FDT_END_NODE]) ∧
    fdt_next_node familyBlob 9 40 true 3 = some (56, 2) ∧
    (2 : Int) = 3 + 1 - ([FDT_END_NODE, FDT_END_NODE].count FDT_END_NODE : Nat) :=
  have h := next_node_depth_accounting familyBlob 9 40 3 56 2 FDT_BEGIN_NODE
    [FDT_END_NODE, FDT_END_NODE] (by decide) (by decide) (by decide)
  ⟨by decide, h.1, (h.2.1 rfl).1⟩

/-! ## Claim C12: `fdt_nodename_equal` -/

theorem memcmp_loop_eq_zero (cs ct : CStr) :
    ∀ (n i : Nat), memcmp_loop cs ct n i = 0 ↔ ∀ j, j < n → cs (i + j) % 256 = ct (i + j) % 256 := by
  intro n
  induction n with
  | zero => intro i; simp [memcmp_loop]
  | succ k ih =>
    intro i
    unfold memcmp_loop
    split_ifs with h
    · constructor
      · intro h0; exact absurd h0 h
      · intro hall
        have := hall 0 (by omega)
        simp only [Nat.add_zero] at this
        exact absurd (by omega) h
    · rw [ih]
      have h0 : cs i % 256 = ct i % 256 := by omega
      constructor
      · intro hall j hj
        cases j with
        | zero => simpa using h0
        | succ j =>
          have := hall j (by omega)
          rw [show i + (j + 1) = i + 1 + j by omega]; exact this
      · intro hall j hj
        have := hall (j + 1) (by omega)
        rw [show i + (j + 1) = i + 1 + j by omega] at this; exact this

theorem memchr_loop_eq_none (s : CStr) (c : Nat) :
    ∀ (n i : Nat), memchr_loop s c n i = none ↔ ∀ j, j < n → c % 256 ≠ s (i + j) % 256 := by
  intro n
  induction n with
  | zero => intro i; simp [memchr_loop]
  | succ k ih =>
    intro i
    unfold memchr_loop
    split_ifs with h
    · constructor
      · intro h0; simp at h0
      · intro hall; exact absurd h (by simpa using hall 0 (by omega))
    · rw [ih]
      constructor
      · intro hall j hj
        cases j with
        | zero => simpa using h
        | succ j =>
          have := hall j (by omega)
          rw [show i + (j + 1) = i + 1 + j by omega]; exact this
      · intro hall j hj
        have := hall (j + 1) (by omega)
        rw [show i + (j + 1) = i + 1 + j by omega] at this; exact this

theorem byteAt_mod (m : Mem) (a : Int) : byteAt m a % 256 = byteAt m a := by
  unfold byteAt; omega

/-- C12: for `len ≥ 0`, `fdt_nodename_equal` returns 1 exactly when `len + 1` bytes
can be projected at `offset + 4`, the first `len` of them equal `s[0..len)`, and
the byte at index `len` is NUL, or is '@' while `s[0..len)` holds no '@'; in
every other case it returns 0. -/
theorem fdt_nodename_equal_spec (m : Mem) (off : Int) (s : CStr) (len : Nat)
    (hlen : len < 2147483648) :
    (fdt_nodename_equal m off s len = 1 ↔
      ∃ p, fdt_offset_to_ptr m (toInt32 (off + 4)) (len + 1) = some p ∧
        (∀ i : Nat, i < len → byteAt m (p + i) = s i % 256) ∧
        (byteAt m (p + len) = 0 ∨
          (byteAt m (p + len) = 64 ∧ ∀ i, i < len → s i % 256 ≠ 64))) ∧
    (fdt_nodename_equal m off s len = 1 ∨ fdt_nodename_equal m off s len = 0) := by
  have hu : toU32 (toInt32 ((len : Int) + 1)) = len + 1 := by unfold toU32 toInt32; omega
  have hu2 : toU32 (len : Int) = len := toU32_natCast (by omega)
  unfold fdt_nodename_equal
  rw [hu]
  cases hp : fdt_offset_to_ptr m (toInt32 (off + 4)) (len + 1) with
  | none => simp
  | some p =>
    simp only [memcmp, Int.toNat_ofNat, memchr, hu2]
    have h1 := memcmp_loop_eq_zero (memStr m p) s len 0
    have h2 := memchr_loop_eq_none s 64 len 0
    simp only [Nat.zero_add, memStr, byteAt_mod] at h1 h2
    have h64 : (64 : Nat) % 256 = 64 := rfl
    rw [h64] at h2
    split_ifs with c1 c2 c3
    · refine ⟨⟨fun h => absurd h (by decide), ?_⟩, Or.inr rfl⟩
      rintro ⟨q, hq, hall, _⟩
      simp only [Option.some.injEq] at hq; subst hq
      exact absurd (h1.mpr hall) c1
    · refine ⟨⟨fun _ => ⟨p, rfl, h1.mp (by simpa using c1), Or.inl c2⟩, fun _ => rfl⟩, Or.inl rfl⟩
    · refine ⟨⟨fun _ => ⟨p, rfl, h1.mp (by simpa using c1), Or.inr ⟨c3.1, ?_⟩⟩, fun _ => rfl⟩,
        Or.inl rfl⟩
      intro i hi; exact fun hx => h2.mp c3.2 i hi hx.symm
    · refine ⟨⟨fun h => absurd h (by decide), ?_⟩, Or.inr rfl⟩
      rintro ⟨q, hq, hall, hor⟩
      simp only [Option.some.injEq] at hq; subst hq
      rcases hor with hz | ⟨h64', hno⟩
      · exact absurd hz c2
      · exact absurd ⟨h64', h2.mpr (fun i hi hx => hno i hi hx.symm)⟩ c3

/-- C12 (witness): for the node named "uart@9000000" of `uartBlob` (offset 8),
the names ("uart", 4) and ("uart@9000000", 12) match and ("uart@", 5) does not. -/
theorem fdt_nodename_equal_spec_witness :
    fdt_nodename_equal uartBlob 8 (strOfBytes [117, 97, 114, 116]) 4 = 1 ∧
    fdt_nodename_equal uartBlob 8
      (strOfBytes [117, 97, 114, 116, 64, 57, 48, 48, 48, 48, 48, 48]) 12 = 1 ∧
    fdt_nodename_equal uartBlob 8 (strOfBytes [117, 97, 114, 116, 64]) 5 = 0 ∧
    (fdt_nodename_equal uartBlob 8 (strOfBytes [117, 97, 114, 116]) (4 : Nat) = 1 ↔
      ∃ p, fdt_offset_to_ptr uartBlob (toInt32 (8 + 4)) (4 + 1) = some p ∧
        (∀ i : Nat, i < 4 → byteAt uartBlob (p + i) = strOfBytes [117, 97, 114, 116] i % 256) ∧
        (byteAt uartBlob (p + (4 : Nat)) = 0 ∨
          (byteAt uartBlob (p + (4 : Nat)) = 64 ∧
            ∀ i : Nat, i < 4 → strOfBytes [117, 97, 114, 116] i % 256 ≠ 64))) :=
  ⟨by decide, by decide, by decide,
    (fdt_nodename_equal_spec uartBlob 8 (strOfBytes [117, 97, 114, 116]) 4 (by decide)).1⟩

/-! ## Claim C14: `fdt_lookup_child_node_by_name` with a parent that is no node -/

/-- C14: on `childBlob`, which `fdt_check_header` accepts, a parent offset at an
`END_NODE` tag (20) and an unaligned parent offset (2) make
`fdt_lookup_child_node_by_name` return -1 (`-FDT_ERR_NOTFOUND`), and the negative
parent offset -1 makes it return 0; none of them yields -4
(`-FDT_ERR_BADOFFSET`), whereas `fdt_next_node` itself reports -4 for the first
two. -/
theorem lookup_child_by_name_bad_parent :
    fdt_check_header childBlob = 0 ∧
    (fdt_tag_next_offset childBlob 20 0).1 = FDT_END_NODE ∧
    fdt_next_node childBlob 9 20 true 0 = some (-FDT_ERR_BADOFFSET, 0) ∧
    fdt_next_node childBlob 9 2 true 0 = some (-FDT_ERR_BADOFFSET, 0) ∧
    fdt_lookup_child_node_by_name childBlob 9 20 (strOfBytes [99, 112, 117]) =
      some (-FDT_ERR_NOTFOUND) ∧
    fdt_lookup_child_node_by_name childBlob 9 2 (strOfBytes [99, 112, 117]) =
      some (-FDT_ERR_NOTFOUND) ∧
    fdt_lookup_child_node_by_name childBlob 9 (-1) (strOfBytes [99, 112, 117]) = some 0 ∧
    fdt_lookup_child_node_by_name childBlob 9 0 (strOfBytes [99, 112, 117]) = some 8 := by
  decide

/-! ## Claim C18: `fdt_lookup_node_by_phandle` and `-FDT_ERR_BADPHANDLE` -/

theorem fdt_tag_next_offset_ne_badphandle (m : Mem) (o prev : Int) (h : prev ≠ -6) :
    (fdt_tag_next_offset m o prev).2 ≠ -6 := by
  have hal : ∀ x, FDT_TAGALIGN x ≠ -6 := by
    intro x hx
    have := FDT_TAGALIGN_mod x
    rw [hx] at this; omega
  rcases fdt_tag_next_offset_cases m o prev with ⟨_, h1⟩ | ⟨p, _, h1 | ⟨x, h1⟩ | ⟨x, h1⟩ | h1 | h1 | h1⟩ <;>
    rw [h1] <;> simp only [FDT_ERR_BADSTRUCTURE] <;> first | exact h | exact hal _ | omega

theorem next_node_loop_ne_badphandle (m : Mem) (track : Bool) :
    ∀ (fuel : Nat) (no d r d' : Int), no ≠ -6 →
      next_node_loop m track fuel no d = some (r, d') → r ≠ -6 := by
  intro fuel
  induction fuel with
  | zero => intro no d r d' _ h; simp [next_node_loop] at h
  | succ k ih =>
    intro no d r d' hno h
    have hn := fdt_tag_next_offset_ne_badphandle m no no hno
    unfold next_node_loop at h
    simp only at h
    split_ifs at h <;>
      first
      | exact ih _ _ _ _ hn h
      | (simp only [Option.some.injEq, Prod.mk.injEq] at h
         obtain ⟨h1, _⟩ := h
         subst h1
         first | exact hno | exact hn | (simp only [FDT_ERR_NOTFOUND]; omega))

theorem fdt_next_node_ne_badphandle (m : Mem) (fuel : Nat) (off : Int) (track : Bool)
    (d r d' : Int) (h : fdt_next_node m fuel off track d = some (r, d')) : r ≠ -6 := by
  unfold fdt_next_node at h
  have hnn : node_next_offset m off ≠ -6 := by
    unfold node_next_offset
    split_ifs with hc
    · simp only [FDT_ERR_BADOFFSET]; omega
    · exact fdt_tag_next_offset_ne_badphandle m off off (by omega)
  split_ifs at h
  · simp only [Option.some.injEq, Prod.mk.injEq] at h
    rw [← h.1]; exact hnn
  · exact next_node_loop_ne_badphandle m track fuel _ _ _ _ hnn h
  · exact next_node_loop_ne_badphandle m track fuel _ _ _ _ (by omega) h

theorem phandle_loop_ne_badphandle (m : Mem) (fuel : Nat) (ph : Nat) (uninit : Int) :
    ∀ (rounds : Nat) (off r : Int), off ≠ -6 →
      phandle_loop m fuel ph uninit rounds off = some r → r ≠ -6 := by
  intro rounds
  induction rounds with
  | zero => intro off r _ h; simp [phandle_loop] at h
  | succ k ih =>
    intro off r hoff h
    unfold phandle_loop at h
    split_ifs at h with h0
    · cases hf : fdt_fetch_phandle m fuel off uninit with
      | none => rw [hf] at h; simp at h
      | some v =>
        rw [hf] at h
        simp only at h
        split_ifs at h
        · simp only [Option.some.injEq] at h; omega
        · cases hn : fdt_next_node m fuel off false 0 with
          | none => rw [hn] at h; simp at h
          | some x =>
            obtain ⟨o2, d2⟩ := x
            rw [hn] at h
            exact ih o2 r (fdt_next_node_ne_badphandle m fuel off false 0 o2 d2 hn) h
    · simp only [Option.some.injEq] at h; omega

/-- C18: whatever the blob, `fdt_lookup_node_by_phandle` returns -6
(`-FDT_ERR_BADPHANDLE`) when the 32-bit phandle is 0 or 0xFFFFFFFF, and for every
other phandle it does not return -6. -/
theorem fdt_lookup_node_by_phandle_badphandle (m : Mem) (fuel : Nat) (ph : Nat) (uninit : Int) :
    fdt_lookup_node_by_phandle m fuel ph uninit = some (-FDT_ERR_BADPHANDLE) ↔
      (ph % 4294967296 = 0 ∨ ph % 4294967296 = 4294967295) := by
  unfold fdt_lookup_node_by_phandle
  split_ifs with hc
  · simp [hc]
  · simp only [hc, iff_false]
    cases hn : fdt_next_node m fuel (-1) false 0 with
    | none => simp
    | some x =>
      obtain ⟨o, d⟩ := x
      simp only
      intro h
      exact phandle_loop_ne_badphandle m fuel _ uninit fuel o _
        (fdt_next_node_ne_badphandle m fuel (-1) false 0 o d hn) h (by simp [FDT_ERR_BADPHANDLE])

/-! ## Paths: components and the walk of `fdt_lookup_node_by_pathlen` -/

theorem components_nil : components [] = [] := rfl

theorem components_cons_slash (b : Nat) (rest : List Nat) (hb : b % 256 = 47) :
    components (b :: rest) = components rest := by
  simp [components, splitSlash, hb]

theorem splitSlash_append_slash (a : List Nat) (s : Nat) (b : List Nat) (hs : s % 256 = 47) :
    splitSlash (a ++ s :: b) = ((splitSlash a).1, (splitSlash a).2 ++ components b) := by
  induction a with
  | nil => simp [splitSlash, hs, components]
  | cons x a ih =>
    simp only [List.cons_append, splitSlash, ih]
    split_ifs <;> simp_all

theorem components_append_slash (a : List Nat) (s : Nat) (b : List Nat) (hs : s % 256 = 47) :
    components (a ++ s :: b) = components a ++ components b := by
  unfold components
  rw [splitSlash_append_slash a s b hs]
  simp only
  split_ifs <;> simp_all [components]

theorem splitSlash_noslash (c : List Nat) (h : ∀ b ∈ c, b % 256 ≠ 47) : splitSlash c = (c, []) := by
  induction c with
  | nil => rfl
  | cons x c ih =>
    have hx : x % 256 ≠ 47 := h x (List.mem_cons_self _ _)
    have := ih (fun b hb => h b (List.mem_cons_of_mem _ hb))
    simp [splitSlash, hx, this]

theorem components_noslash (c : List Nat) (hc : c ≠ []) (h : ∀ b ∈ c, b % 256 ≠ 47) :
    components c = [c] := by
  simp [components, splitSlash_noslash c h, hc]

/-- A component followed by nothing or by a '/' is the first component. -/
theorem components_append (c rest : List Nat) (hc : c ≠ []) (h : ∀ b ∈ c, b % 256 ≠ 47)
    (hrest : rest = [] ∨ ∃ s r, rest = s :: r ∧ s % 256 = 47) :
    components (c ++ rest) = c :: components rest := by
  rcases hrest with rfl | ⟨s, r, rfl, hs⟩
  · simp [components_noslash c hc h, components_nil]
  · rw [components_append_slash c s r hs, components_noslash c hc h, components_cons_slash s r hs]
    rfl

theorem components_replicate (k : Nat) : components (List.replicate k 47) = [] := by
  induction k with
  | zero => rfl
  | succ k ih => rw [List.replicate_succ, components_cons_slash _ _ (by decide), ih]

theorem components_replicate_append (k : Nat) (b : List Nat) :
    components (List.replicate k 47 ++ b) = components b := by
  induction k with
  | zero => simp
  | succ k ih => rw [List.replicate_succ, List.cons_append, components_cons_slash _ _ (by decide), ih]

theorem descend_append (m : Mem) (fuel : Nat) (xs ys : List (List Nat)) :
    ∀ off : Int, descend m fuel off (xs ++ ys) =
      match descend m fuel off xs with
      | none => none
      | some o => if o < 0 ∧ xs ≠ [] then some o else descend m fuel o ys := by
  induction xs with
  | nil => intro off; simp [descend]
  | cons c cs ih =>
    intro off
    simp only [List.cons_append, descend]
    cases hl : fdt_lookup_child_node_by_namelen m fuel off (strOfBytes c) c.length with
    | none => rfl
    | some o =>
      simp only
      split_ifs with h1
      · simp [h1]
      · rw [List.append_eq, ih o]
        cases hd : descend m fuel o cs with
        | none => rfl
        | some o2 =>
          simp only
          by_cases hcs : cs = []
          · subst hcs
            simp only [descend, Option.some.injEq] at hd
            subst hd
            simp [h1]
          · simp [hcs]

theorem memcmp_loop_congr (cs s t : CStr) :
    ∀ (n i : Nat), (∀ j, j < n → s (i + j) % 256 = t (i + j) % 256) →
      memcmp_loop cs s n i = memcmp_loop cs t n i := by
  intro n
  induction n with
  | zero => intro i _; rfl
  | succ k ih =>
    intro i h
    have h0 := h 0 (by omega)
    simp only [Nat.add_zero] at h0
    have h0' : ((s i : Int) % 256) = (t i : Int) % 256 := by omega
    unfold memcmp_loop
    rw [h0', ih (i + 1) (fun j hj => by
      have := h (j + 1) (by omega)
      rw [show i + (j + 1) = i + 1 + j by omega] at this; exact this)]

theorem memchr_loop_congr (s t : CStr) (c : Nat) :
    ∀ (n i : Nat), (∀ j, j < n → s (i + j) % 256 = t (i + j) % 256) →
      memchr_loop s c n i = memchr_loop t c n i := by
  intro n
  induction n with
  | zero => intro i _; rfl
  | succ k ih =>
    intro i h
    have h0 := h 0 (by omega)
    simp only [Nat.add_zero] at h0
    unfold memchr_loop
    rw [h0, ih (i + 1) (fun j hj => by
      have := h (j + 1) (by omega)
      rw [show i + (j + 1) = i + 1 + j by omega] at this; exact this)]

theorem fdt_nodename_equal_congr (m : Mem) (off : Int) (s t : CStr) (n : Nat)
    (hn : n < 2147483648) (h : ∀ j, j < n → s j % 256 = t j % 256) :
    fdt_nodename_equal m off s n = fdt_nodename_equal m off t n := by
  have hu2 : toU32 (n : Int) = n := toU32_natCast (by omega)
  unfold fdt_nodename_equal memcmp memchr
  rw [hu2]
  simp only [Int.toNat_ofNat]
  have h1 : ∀ cs, memcmp_loop cs s n 0 = memcmp_loop cs t n 0 := fun cs =>
    memcmp_loop_congr cs s t n 0 (fun j hj => by simpa using h j hj)
  have h2 : memchr_loop s 64 n 0 = memchr_loop t 64 n 0 :=
    memchr_loop_congr s t 64 n 0 (fun j hj => by simpa using h j hj)
  simp only [h1, h2]

theorem lookup_child_loop_congr (m : Mem) (fuel : Nat) (s t : CStr) (n : Nat)
    (hn : n < 2147483648) (h : ∀ j, j < n → s j % 256 = t j % 256) :
    ∀ (rounds : Nat) (off : Int),
      lookup_child_loop m fuel s n rounds off = lookup_child_loop m fuel t n rounds off := by
  intro rounds
  induction rounds with
  | zero => intro off; rfl
  | succ k ih =>
    intro off
    unfold lookup_child_loop
    rw [fdt_nodename_equal_congr m off s t n hn h]
    simp only [ih]

theorem fdt_lookup_child_node_by_namelen_congr (m : Mem) (fuel : Nat) (off : Int) (s t : CStr)
    (n : Nat) (hn : n < 2147483648) (h : ∀ j, j < n → s j % 256 = t j % 256) :
    fdt_lookup_child_node_by_namelen m fuel off s n =
      fdt_lookup_child_node_by_namelen m fuel off t n := by
  unfold fdt_lookup_child_node_by_namelen
  simp only [lookup_child_loop_congr m fuel s t n hn h]

theorem memchr_loop_spec (s : CStr) (c : Nat) :
    ∀ (n i0 : Nat), ∃ k, k ≤ n ∧ (∀ j, j < k → c % 256 ≠ s (i0 + j) % 256) ∧
      ((k = n ∧ memchr_loop s c n i0 = none) ∨
       (k < n ∧ c % 256 = s (i0 + k) % 256 ∧ memchr_loop s c n i0 = some (i0 + k))) := by
  intro n
  induction n with
  | zero => intro i0; exact ⟨0, le_refl _, fun j hj => absurd hj (by omega), Or.inl ⟨rfl, rfl⟩⟩
  | succ n ih =>
    intro i0
    unfold memchr_loop
    split_ifs with h
    · exact ⟨0, by omega, fun j hj => absurd hj (by omega), Or.inr ⟨by omega, h, rfl⟩⟩
    · obtain ⟨k, hk, hall, hor⟩ := ih (i0 + 1)
      refine ⟨k + 1, by omega, ?_, ?_⟩
      · intro j hj
        cases j with
        | zero => simpa using h
        | succ j =>
          have := hall j (by omega)
          rw [show i0 + (j + 1) = i0 + 1 + j by omega]; exact this
      · rcases hor with ⟨h1, h2⟩ | ⟨h1, h2, h3⟩
        · exact Or.inl ⟨by omega, h2⟩
        · refine Or.inr ⟨by omega, ?_, ?_⟩
          · rw [show i0 + (k + 1) = i0 + 1 + k by omega]; exact h2
          · rw [h3, show i0 + (k + 1) = i0 + 1 + k by omega]

theorem strOfBytes_drop (p : List Nat) (pos i : Nat) :
    strOfBytes p (pos + i) = strOfBytes (p.drop pos) i := by
  simp [strOfBytes, List.getD_eq_getElem?_getD, List.getElem?_drop]

theorem drop_eq_cons (p : List Nat) (pos : Nat) (h : pos < p.length) :
    p.drop pos = strOfBytes p pos :: p.drop (pos + 1) := by
  rw [List.drop_eq_getElem_cons h]
  simp [strOfBytes, List.getD_eq_getElem?_getD, List.getElem?_eq_getElem h]

theorem skip_slashes_spec (p : List Nat) :
    ∀ (fuel pos : Nat), pos < p.length → p.length - pos ≤ fuel →
      (skip_slashes (strOfBytes p) p.length fuel pos = some (Sum.inl ()) ∧
        components (p.drop pos) = []) ∨
      (∃ pos', skip_slashes (strOfBytes p) p.length fuel pos = some (Sum.inr pos') ∧
        pos ≤ pos' ∧ pos' < p.length ∧ strOfBytes p pos' % 256 ≠ 47 ∧
        components (p.drop pos) = components (p.drop pos')) := by
  intro fuel
  induction fuel with
  | zero => intro pos h1 h2; omega
  | succ k ih =>
    intro pos h1 h2
    unfold skip_slashes
    split_ifs with hs he
    · left
      refine ⟨rfl, ?_⟩
      have he' : pos + 1 = p.length := by exact_mod_cast he
      rw [drop_eq_cons p pos h1, components_cons_slash _ _ hs, he', List.drop_length,
        components_nil]
    · have he' : pos + 1 ≠ p.length := fun hx => he (by exact_mod_cast hx)
      rcases ih (pos + 1) (by omega) (by omega) with ⟨h3, h4⟩ | ⟨pos', h3, h4, h5, h6, h7⟩
      · left
        exact ⟨h3, by rw [drop_eq_cons p pos h1, components_cons_slash _ _ hs, h4]⟩
      · right
        exact ⟨pos', h3, by omega, h5, h6,
          by rw [drop_eq_cons p pos h1, components_cons_slash _ _ hs, h7]⟩
    · right
      exact ⟨pos, rfl, le_refl _, h1, hs, rfl⟩
theorem strOfBytes_take (l : List Nat) (k j : Nat) (hj : j < k) :
    strOfBytes (l.take k) j = strOfBytes l j := by
  simp [strOfBytes, List.getD_eq_getElem?_getD, List.getElem?_take, hj]

theorem mem_strOfBytes (l : List Nat) (b : Nat) (hb : b ∈ l) :
    ∃ j, j < l.length ∧ strOfBytes l j = b := by
  obtain ⟨j, hj, rfl⟩ := List.mem_iff_getElem.mp hb
  exact ⟨j, hj, by simp [strOfBytes, List.getD_eq_getElem?_getD, List.getElem?_eq_getElem hj]⟩

/-- The component the walk cuts at position `pos'` when the first '/' from there
on is `k` bytes away (or the path ends there). -/
theorem components_cut (p : List Nat) (pos' k : Nat) (hpos : pos' < p.length)
    (hk : k ≤ p.length - pos') (hfirst : strOfBytes p pos' % 256 ≠ 47)
    (hall : ∀ j, j < k → 47 % 256 ≠ strOfBytes p (pos' + j) % 256)
    (hor : k = p.length - pos' ∨ (k < p.length - pos' ∧ 47 % 256 = strOfBytes p (pos' + k) % 256)) :
    0 < k ∧ ((p.drop pos').take k).length = k ∧
    components (p.drop pos') = (p.drop pos').take k :: components (p.drop (pos' + k)) := by
  have hk0 : 0 < k := by
    rcases hor with h | ⟨_, h⟩
    · omega
    · rcases Nat.eq_zero_or_pos k with h0 | h0
      · subst h0; exact absurd h.symm (by simpa using hfirst)
      · exact h0
  have hl : ((p.drop pos').take k).length = k := by
    rw [List.length_take, List.length_drop]; omega
  refine ⟨hk0, hl, ?_⟩
  have hsplit : p.drop pos' = (p.drop pos').take k ++ p.drop (pos' + k) := by
    rw [show p.drop (pos' + k) = (p.drop pos').drop k by rw [List.drop_drop, Nat.add_comm]]
    exact (List.take_append_drop k _).symm
  have hne : (p.drop pos').take k ≠ [] := by
    intro h; rw [h] at hl; simp at hl; omega
  have hns : ∀ b ∈ (p.drop pos').take k, b % 256 ≠ 47 := by
    intro b hb
    obtain ⟨j, hj, rfl⟩ := mem_strOfBytes _ b hb
    rw [hl] at hj
    rw [strOfBytes_take _ k j hj, ← strOfBytes_drop]
    exact fun hx => hall j hj (by rw [hx])
  have hrest : p.drop (pos' + k) = [] ∨ ∃ s r, p.drop (pos' + k) = s :: r ∧ s % 256 = 47 := by
    rcases hor with h | ⟨h1, h2⟩
    · left; rw [List.drop_eq_nil_iff]; omega
    · right
      exact ⟨_, _, drop_eq_cons p (pos' + k) (by omega), h2.symm⟩
  calc components (p.drop pos')
      = components ((p.drop pos').take k ++ p.drop (pos' + k)) := by rw [← hsplit]
    _ = _ := components_append _ _ hne hns hrest

theorem path_walk_components (m : Mem) (fuel : Nat) (p : List Nat)
    (hlen : p.length < 2147483648) (hfuel : p.length ≤ fuel) :
    ∀ (rounds pos : Nat) (off : Int), pos ≤ p.length → p.length - pos < rounds →
      path_walk m fuel (strOfBytes p) p.length rounds pos off =
        descend m fuel off (components (p.drop pos)) := by
  intro rounds
  induction rounds with
  | zero => intro pos off _ h; omega
  | succ r ih =>
    intro pos off hpos hr
    unfold path_walk
    split_ifs with hlt
    · have hlt' : pos < p.length := by exact_mod_cast hlt
      rcases skip_slashes_spec p fuel pos hlt' (by omega) with
        ⟨h3, h4⟩ | ⟨pos', h3, h4, h5, h6, h7⟩
      · rw [h3, h4]; rfl
      · rw [h3, h7]
        simp only
        obtain ⟨k, hk, hall, hor⟩ :=
          memchr_loop_spec (fun i => strOfBytes p (pos' + i)) 47 (p.length - pos') 0
        simp only [Nat.zero_add] at hall hor
        have hn : toU32 (toInt32 ((p.length : Int) - (pos' : Int))) = p.length - pos' := by
          unfold toU32 toInt32; omega
        have key : ∀ slash : Int, slash = ((pos' + k : Nat) : Int) →
            (match fdt_lookup_child_node_by_namelen m fuel off
                (fun i => strOfBytes p (pos' + i)) (toInt32 (slash - (pos' : Int))) with
              | none => none
              | some offset =>
                if offset < 0 then some offset
                else path_walk m fuel (strOfBytes p) p.length r slash.toNat offset) =
            descend m fuel off (components (p.drop pos')) := by
          intro slash hs
          subst hs
          have hk2 : toInt32 (((pos' + k : Nat) : Int) - (pos' : Int)) = (k : Int) := by
            unfold toInt32; omega
          rw [hk2]
          obtain ⟨hk0, hl, hcomp⟩ := components_cut p pos' k h5 hk h6 hall
            (by rcases hor with ⟨h1, _⟩ | ⟨h1, h2, _⟩
                · exact Or.inl h1
                · exact Or.inr ⟨h1, h2⟩)
          rw [hcomp]
          unfold descend
          rw [hl]
          have hcongr : fdt_lookup_child_node_by_namelen m fuel off
              (fun i => strOfBytes p (pos' + i)) k =
              fdt_lookup_child_node_by_namelen m fuel off
                (strOfBytes ((p.drop pos').take k)) k := by
            apply fdt_lookup_child_node_by_namelen_congr m fuel off _ _ k (by omega)
            intro j hj
            rw [strOfBytes_take _ k j hj, ← strOfBytes_drop]
          rw [hcongr]
          cases hc : fdt_lookup_child_node_by_namelen m fuel off
              (strOfBytes ((p.drop pos').take k)) k with
          | none => rfl
          | some o =>
            simp only
            split_ifs with ho
            · rfl
            · rw [Int.toNat_ofNat]
              exact ih (pos' + k) o (by omega) (by omega)
        rcases hor with ⟨h1, h2⟩ | ⟨h1, h2, h3⟩
        · have hm : memchr (fun i => strOfBytes p (pos' + i)) 47
              (toInt32 ((p.length : Int) - (pos' : Int))) = none := by
            unfold memchr; rw [hn]; exact h2
          rw [hm]
          exact key (p.length : Int) (by subst h1; omega)
        · have hm : memchr (fun i => strOfBytes p (pos' + i)) 47
              (toInt32 ((p.length : Int) - (pos' : Int))) = some k := by
            unfold memchr; rw [hn]; exact h3
          rw [hm]
          exact key ((pos' + k : Nat) : Int) rfl
    · have : pos = p.length := by
        have : ¬ pos < p.length := fun hx => hlt (by exact_mod_cast hx)
        omega
      subst this
      simp [components_nil, descend]

/-- An absolute path is resolved by descending from the root through its
components. -/
theorem fdt_lookup_node_by_pathlen_absolute (m : Mem) (fuel : Nat) (uninit : Int) (d : Nat)
    (p : List Nat) (habs : strOfBytes p 0 % 256 = 47) (hlen : p.length < 2147483648)
    (hfuel : p.length < fuel) :
    fdt_lookup_node_by_pathlen m fuel uninit (d + 1) (strOfBytes p) p.length =
      descend m fuel 0 (components p) := by
  unfold fdt_lookup_node_by_pathlen
  rw [if_neg (by simpa using habs)]
  have := path_walk_components m fuel p hlen (by omega) fuel 0 0 (by omega) (by omega)
  simpa using this

theorem strlen_loop_strOfBytes (l : List Nat) (hnul : ∀ b ∈ l, b % 256 ≠ 0) :
    ∀ (fuel i : Nat), i ≤ l.length → l.length - i < fuel →
      strlen_loop (strOfBytes l) fuel i = some l.length := by
  intro fuel
  induction fuel with
  | zero => intro i _ h; omega
  | succ k ih =>
    intro i hi hk
    unfold strlen_loop
    rcases Nat.lt_or_ge i l.length with h | h
    · have hb : strOfBytes l i % 256 ≠ 0 := by
        have : strOfBytes l i ∈ l := by
          simp [strOfBytes, List.getD_eq_getElem?_getD, List.getElem?_eq_getElem h]
        exact hnul _ this
      rw [if_pos hb]
      exact ih (i + 1) (by omega) (by omega)
    · have hb : strOfBytes l i = 0 := by
        simp [strOfBytes, List.getD_eq_getElem?_getD, List.getElem?_eq_none h]
      rw [hb, if_neg (by decide)]
      congr 1; omega

theorem strlen_strOfBytes (l : List Nat) (fuel : Nat) (hnul : ∀ b ∈ l, b % 256 ≠ 0)
    (hlen : l.length < 2147483648) (hfuel : l.length < fuel) :
    strlen (strOfBytes l) fuel = some (l.length : Int) := by
  unfold strlen
  rw [strlen_loop_strOfBytes l hnul fuel 0 (by omega) (by omega)]
  simp only [Option.some.injEq]
  exact toInt32_natCast (by omega)

/-! ## Claim C15: a path and its last component -/

/-- C15: when the absolute path `p` resolves to the node `o ≥ 0`, and `c` is a
non-empty component without '/', `fdt_lookup_node_by_pathlen` of `p ++ "/" ++ c`
returns what `fdt_lookup_child_node_by_namelen (o, c, |c|)` returns; and when
neither string holds a NUL byte, the same holds of `fdt_lookup_node_by_path` and
`fdt_lookup_child_node_by_name` (so for "/a/b", "/a" and "b"). -/
theorem lookup_by_pathlen_append_component (m : Mem) (fuel : Nat) (uninit : Int) (d : Nat)
    (p c : List Nat) (o : Int)
    (habs : strOfBytes p 0 % 256 = 47) (hc : c ≠ []) (hns : ∀ b ∈ c, b % 256 ≠ 47)
    (hlen : (p ++ 47 :: c).length < 2147483648) (hfuel : (p ++ 47 :: c).length < fuel)
    (hp : fdt_lookup_node_by_pathlen m fuel uninit (d + 1) (strOfBytes p) p.length = some o)
    (ho : 0 ≤ o) :
    fdt_lookup_node_by_pathlen m fuel uninit (d + 1) (strOfBytes (p ++ 47 :: c))
        (p ++ 47 :: c).length =
      fdt_lookup_child_node_by_namelen m fuel o (strOfBytes c) c.length ∧
    ((∀ b ∈ p ++ c, b % 256 ≠ 0) →
      fdt_lookup_node_by_path m fuel uninit (d + 1) (strOfBytes p) = some o ∧
      fdt_lookup_node_by_path m fuel uninit (d + 1) (strOfBytes (p ++ 47 :: c)) =
        fdt_lookup_child_node_by_name m fuel o (strOfBytes c)) := by
  have hl : (p ++ 47 :: c).length = p.length + c.length + 1 := by simp; omega
  have habs2 : strOfBytes (p ++ 47 :: c) 0 % 256 = 47 := by
    cases p with
    | nil => simp [strOfBytes] at habs
    | cons x p => simpa [strOfBytes] using habs
  have hmain : fdt_lookup_node_by_pathlen m fuel uninit (d + 1) (strOfBytes (p ++ 47 :: c))
        (p ++ 47 :: c).length =
      fdt_lookup_child_node_by_namelen m fuel o (strOfBytes c) c.length := by
    rw [fdt_lookup_node_by_pathlen_absolute m fuel uninit d _ habs2 hlen hfuel,
      components_append_slash p 47 c (by decide), components_noslash c hc hns, descend_append]
    rw [fdt_lookup_node_by_pathlen_absolute m fuel uninit d p habs (by omega) (by omega)] at hp
    rw [hp]
    simp only
    rw [if_neg (by omega)]
    unfold descend
    cases fdt_lookup_child_node_by_namelen m fuel o (strOfBytes c) c.length with
    | none => rfl
    | some o2 => simp only [descend]; split_ifs <;> rfl
  refine ⟨hmain, fun hnul => ?_⟩
  have hnp : ∀ b ∈ p, b % 256 ≠ 0 := fun b hb => hnul b (List.mem_append_left _ hb)
  have hnc : ∀ b ∈ c, b % 256 ≠ 0 := fun b hb => hnul b (List.mem_append_right _ hb)
  have hnpc : ∀ b ∈ p ++ 47 :: c, b % 256 ≠ 0 := by
    intro b hb
    rcases List.mem_append.mp hb with h | h
    · exact hnp b h
    · rcases List.mem_cons.mp h with h | h
      · subst h; decide
      · exact hnc b h
  unfold fdt_lookup_node_by_path fdt_lookup_child_node_by_name
  rw [strlen_strOfBytes p fuel hnp (by omega) (by omega),
    strlen_strOfBytes c fuel hnc (by omega) (by omega),
    strlen_strOfBytes _ fuel hnpc hlen hfuel]
  exact ⟨hp, hmain⟩

/-- C15 (witness): in `familyBlob`, "/a" is the node at 8 and "/a/b" is its child
"b" at 40. -/
theorem lookup_by_pathlen_append_component_witness :
    fdt_lookup_node_by_path familyBlob 9 0 1 (strOfBytes [47, 97]) = some 8 ∧
    fdt_lookup_child_node_by_name familyBlob 9 8 (strOfBytes [98]) = some 40 ∧
    fdt_lookup_node_by_path familyBlob 9 0 1 (strOfBytes ([47, 97] ++ 47 :: [98])) =
      fdt_lookup_child_node_by_name familyBlob 9 8 (strOfBytes [98]) :=
  ⟨by decide, by decide,
    ((lookup_by_pathlen_append_component familyBlob 9 0 0 [47, 97] [98] 8 (by decide)
      (by decide) (by decide) (by decide) (by decide) (by decide) (by decide)).2
        (by decide)).2⟩

/-! ## Claim C16: empty path components -/

theorem components_append_replicate (b : List Nat) (j : Nat) :
    components (b ++ List.replicate j 47) = components b := by
  cases j with
  | zero => simp
  | succ j =>
    rw [List.replicate_succ, components_append_slash b 47 _ (by decide), components_replicate,
      List.append_nil]

/-- C16: for an absolute path `a ++ "/" ++ b`, putting a run of `k + 1` '/' in
place of that '/' and appending `j` trailing '/' leaves the result of
`fdt_lookup_node_by_pathlen` unchanged, and a path of `k + 1` characters '/'
resolves to the root, offset 0. -/
theorem lookup_by_pathlen_skips_empty_components (m : Mem) (fuel : Nat) (uninit : Int) (d : Nat)
    (a b : List Nat) (k j : Nat)
    (habs : strOfBytes (a ++ 47 :: b) 0 % 256 = 47)
    (hlen : (a ++ List.replicate (k + 1) 47 ++ b ++ List.replicate j 47).length < 2147483648)
    (hfuel : (a ++ List.replicate (k + 1) 47 ++ b ++ List.replicate j 47).length < fuel) :
    fdt_lookup_node_by_pathlen m fuel uninit (d + 1)
        (strOfBytes (a ++ List.replicate (k + 1) 47 ++ b ++ List.replicate j 47))
        (a ++ List.replicate (k + 1) 47 ++ b ++ List.replicate j 47).length =
      fdt_lookup_node_by_pathlen m fuel uninit (d + 1) (strOfBytes (a ++ 47 :: b))
        (a ++ 47 :: b).length ∧
    fdt_lookup_node_by_pathlen m fuel uninit (d + 1) (strOfBytes (List.replicate (k + 1) 47))
        (List.replicate (k + 1) 47).length = some 0 := by
  have hl : (a ++ List.replicate (k + 1) 47 ++ b ++ List.replicate j 47).length =
      a.length + (k + 1) + b.length + j := by simp; omega
  have hl2 : (a ++ 47 :: b).length = a.length + b.length + 1 := by simp; omega
  have hl3 : (List.replicate (k + 1) 47).length = k + 1 := by simp
  have hform : a ++ List.replicate (k + 1) 47 ++ b ++ List.replicate j 47 =
      a ++ 47 :: (List.replicate k 47 ++ (b ++ List.replicate j 47)) := by
    simp [List.replicate_succ]
  have habs2 : strOfBytes (a ++ List.replicate (k + 1) 47 ++ b ++ List.replicate j 47) 0 % 256
      = 47 := by
    rw [hform]
    cases a with
    | nil => rfl
    | cons x a => simpa [strOfBytes] using habs
  constructor
  · rw [fdt_lookup_node_by_pathlen_absolute m fuel uninit d _ habs2 hlen hfuel,
      fdt_lookup_node_by_pathlen_absolute m fuel uninit d _ habs (by omega) (by omega),
      hform, components_append_slash a 47 _ (by decide), components_replicate_append,
      components_append_replicate, components_append_slash a 47 b (by decide)]
  · rw [fdt_lookup_node_by_pathlen_absolute m fuel uninit d (List.replicate (k + 1) 47) rfl
        (by omega) (by omega),
      components_replicate]
    rfl

/-- C16 (witness): in `childBlob`, "//cpu@0/" resolves like "/cpu@0", to the node
at 8, and "//" resolves to the root. -/
theorem lookup_by_pathlen_skips_empty_components_witness :
    fdt_lookup_node_by_pathlen childBlob 9 0 1 (strOfBytes [47, 99, 112, 117, 64, 48]) 6 =
      some 8 ∧
    fdt_lookup_node_by_pathlen childBlob 9 0 1
        (strOfBytes ([] ++ List.replicate (1 + 1) 47 ++ [99, 112, 117, 64, 48] ++
          List.replicate 1 47))
        ([] ++ List.replicate (1 + 1) 47 ++ [99, 112, 117, 64, 48] ++
          List.replicate 1 47).length =
      fdt_lookup_node_by_pathlen childBlob 9 0 1
        (strOfBytes ([] ++ 47 :: [99, 112, 117, 64, 48]))
        ([] ++ 47 :: [99, 112, 117, 64, 48]).length ∧
    fdt_lookup_node_by_pathlen childBlob 9 0 1 (strOfBytes (List.replicate (1 + 1) 47))
        (List.replicate (1 + 1) 47).length = some 0 :=
  ⟨by decide,
    lookup_by_pathlen_skips_empty_components childBlob 9 0 0 [] [99, 112, 117, 64, 48] 1 1
      (by decide) (by decide) (by decide)⟩

/-! ## Claim C13: `fdt_lookup_child_node_by_namelen` -/

/-- From a direct child on, the loop of `fdt_lookup_child_node_by_namelen` returns
the first match among that child and the direct children that follow it. -/
theorem lookup_child_loop_laid {m : Mem} (fuel : Nat) (name : CStr) (namelen : Int) :
    ∀ (n : Nat) (ts : List Tok) (o k rounds : Nat), ts.length ≤ n →
      Laid m o (Tok.beginNode k :: ts) → 0 < o → ts.length + 1 < fuel → ts.length + 1 < rounds →
      lookup_child_loop m fuel name namelen rounds (o : Int)
        = some (firstMatch m name namelen (o :: childOffsets (o + (Tok.beginNode k).size) 1 ts)) := by
  intro n
  induction n with
  | zero =>
    intro ts o k rounds hn h ho hf hr
    obtain ⟨r, rfl⟩ : ∃ r, rounds = r + 1 := ⟨rounds - 1, by omega⟩
    obtain ⟨r', rfl⟩ : ∃ r', r = r' + 1 := ⟨r - 1, by omega⟩
    have hts : ts = [] := List.length_eq_zero.mp (by omega)
    subst hts
    have h0 : (o : Int) > 0 := by omega
    rw [lookup_child_loop]
    simp only [h0, if_true, fdt_next_sibling_node_laid h fuel hf, childOffsets, firstOr,
      firstMatch]
    split_ifs
    · rfl
    · simp [lookup_child_loop, FDT_ERR_NOTFOUND]
  | succ n ih =>
    intro ts o k rounds hn h ho hf hr
    obtain ⟨r, rfl⟩ : ∃ r, rounds = r + 1 := ⟨rounds - 1, by omega⟩
    obtain ⟨r', rfl⟩ : ∃ r', r = r' + 1 := ⟨r - 1, by omega⟩
    have h0 : (o : Int) > 0 := by omega
    rw [lookup_child_loop]
    simp only [h0, if_true, fdt_next_sibling_node_laid h fuel hf, firstMatch]
    split_ifs
    · rfl
    · cases hc : childOffsets (o + (Tok.beginNode k).size) 1 ts with
      | nil => simp [firstOr, lookup_child_loop, firstMatch, FDT_ERR_NOTFOUND]
      | cons x xs =>
        obtain ⟨pre, k', post, h1, h2, h3⟩ := childOffsets_cons hc
        subst h1
        have hx : Laid m x (Tok.beginNode k' :: post) := by
          rw [h2]; exact h.tail.drop pre
        have hlen : post.length ≤ n := by simp at hn; omega
        have hlen2 : post.length + 1 < fuel := by simp at hf; omega
        have hlen3 : post.length + 1 < r' + 1 := by simp at hr; omega
        simp only [firstOr]
        rw [ih post x k' (r' + 1) hlen hx (by omega) hlen2 hlen3, ← h3]

/-- C13 (counterexample): `giantBlob` is well formed and its root has one direct
child, at structure offset 0x80000004 = 2147483652, whose name is the empty
string (the byte after its tag is NUL, inside the blob); looking up the name ""
of length 0 under the root nevertheless returns -1 (NotFound). -/
theorem lookup_child_beyond_int_range :
    WellFormed giantBlob giantToks ∧
    childOffsets (streamSize [] + (Tok.beginNode 0).size) 0
      [.prop 0x7ffffff0, .beginNode 0, .endNode, .endNode] = [2147483652] ∧
    byteAt giantBlob ((FDT_STRUCT giantBlob : Int) + 2147483652 + 4) = 0 ∧
    (FDT_STRUCT giantBlob : Int) + 2147483652 + 4 + 1 ≤ FDT_TOTALSIZE giantBlob ∧
    fdt_lookup_child_node_by_namelen giantBlob 8 0 (strOfBytes []) 0 =
      some (-FDT_ERR_NOTFOUND) :=
  ⟨⟨by decide, ⟨_, _, rfl⟩, by decide, by decide, by decide⟩, by decide, by decide, by decide,
    by decide⟩

/-- C13 (amended): on a well-formed blob whose structure block, `END` tag
included, is shorter than `2^31` bytes, for every node (the record `BEGIN_NODE`
that follows the records `pre`, at offset `streamSize pre`), every name and
every length, `fdt_lookup_child_node_by_namelen` returns the first of the node's
direct children, in document order, that `fdt_nodename_equal` accepts, and -1
(NotFound) when it accepts none. -/
theorem lookup_child_by_namelen_first_match (m : Mem) (ts : List Tok)
    (wf : WellFormed m ts) (h31 : streamSize ts + 4 < 2147483648)
    (pre : List Tok) (k : Nat) (post : List Tok) (hts : ts = pre ++ Tok.beginNode k :: post)
    (fuel : Nat) (hf : ts.length + 2 ≤ fuel) (name : CStr) (namelen : Int) :
    fdt_lookup_child_node_by_namelen m fuel (streamSize pre : Int) name namelen
      = some (firstMatch m name namelen
          (childOffsets (streamSize pre + (Tok.beginNode k).size) 0 post)) := by
  subst hts
  have hl0 : Laid m 0 (pre ++ Tok.beginNode k :: post) := wf.laid h31
  have hl : Laid m (streamSize pre) (Tok.beginNode k :: post) := by
    simpa using hl0.drop pre
  simp only [List.length_append, List.length_cons] at hf
  unfold fdt_lookup_child_node_by_namelen
  rw [fdt_first_child_node_laid hl fuel (by omega)]
  cases hc : childOffsets (streamSize pre + (Tok.beginNode k).size) 0 post with
  | nil =>
    obtain ⟨f, rfl⟩ : ∃ f, fuel = f + 1 := ⟨fuel - 1, by omega⟩
    simp [firstOr, lookup_child_loop, firstMatch, FDT_ERR_NOTFOUND]
  | cons x xs =>
    obtain ⟨pre2, k2, post2, h1, h2, h3⟩ := childOffsets_cons hc
    subst h1
    have hx : Laid m x (Tok.beginNode k2 :: post2) := by
      rw [h2]; exact hl.tail.drop pre2
    have hsz := (Tok.beginNode k).size_spec
    simp only [firstOr]
    simp only [List.length_append, List.length_cons] at hf
    rw [lookup_child_loop_laid fuel name namelen post2.length post2 x k2 fuel (le_refl _) hx
      (by omega) (by omega) (by omega), ← h3]

/-- C13 (witness): in `childBlob`, whose root has the one child "cpu@0" at offset
8, the names "cpu@0" and "cpu" find that child and "cpux" finds none. -/
theorem lookup_child_by_namelen_first_match_witness :
    WellFormed childBlob childToks ∧
    fdt_lookup_child_node_by_namelen childBlob 9 0 (strOfBytes [99, 112, 117, 64, 48]) 5
      = some 8 ∧
    fdt_lookup_child_node_by_namelen childBlob 9 0 (strOfBytes [99, 112, 117]) 3 = some 8 ∧
    fdt_lookup_child_node_by_namelen childBlob 9 0 (strOfBytes [99, 112, 117, 120]) 4
      = some (-1) ∧
    fdt_lookup_child_node_by_namelen childBlob 9 ((streamSize [] : Nat) : Int)
        (strOfBytes [99, 112, 117]) 3
      = some (firstMatch childBlob (strOfBytes [99, 112, 117]) 3
          (childOffsets (streamSize [] + (Tok.beginNode 0).size) 0 childToks.tail)) :=
  ⟨⟨by decide, ⟨_, _, rfl⟩, by decide, by decide, by decide⟩, by decide, by decide, by decide,
    lookup_child_by_namelen_first_match childBlob childToks
      ⟨by decide, ⟨_, _, rfl⟩, by decide, by decide, by decide⟩ (by decide) [] 0 childToks.tail
      rfl 9 (by decide) (strOfBytes [99, 112, 117]) 3⟩

/-! ## Property lookup on well-formed blobs -/

theorem propOffsets_cons {ts : List Tok} {o x : Nat} {xs : List Nat}
    (h : propOffsets o ts = x :: xs) :
    ∃ pre len post, ts = pre ++ Tok.prop len :: post ∧ x = o + streamSize pre ∧
      xs = propOffsets (x + (Tok.prop len).size) post := by
  induction ts generalizing o with
  | nil => simp [propOffsets] at h
  | cons t ts ih =>
    cases t with
    | beginNode k => simp [propOffsets] at h
    | endNode => simp [propOffsets] at h
    | prop len =>
      simp only [propOffsets, List.cons.injEq] at h
      obtain ⟨h1, h2⟩ := h
      subst h1
      exact ⟨[], len, ts, rfl, by simp [streamSize], h2.symm⟩
    | nop =>
      simp only [propOffsets] at h
      obtain ⟨pre, len, post, h1, h2, h3⟩ := ih h
      refine ⟨Tok.nop :: pre, len, post, by rw [h1]; rfl, ?_, h3⟩
      simp only [streamSize, Tok.size]; omega

/-- The loop of `lookup_valid_property` on stored records: it stops at the first
property of the node, or with an error when the node has none (left). -/
theorem lookup_valid_property_loop_laid {m : Mem} :
    ∀ (ts : List Tok) (o : Nat), Laid m o ts → ∀ (fuel : Nat) (prev : Int), ts.length < fuel →
      ∃ r, lookup_valid_property_loop m fuel (o : Int) prev = some r ∧
        (propOffsets o ts = [] → r < 0) ∧
        (∀ x xs, propOffsets o ts = x :: xs → r = (x : Int)) := by
  intro ts
  induction ts with
  | nil =>
    intro o h fuel prev hf
    obtain ⟨f, rfl⟩ : ∃ f, fuel = f + 1 := ⟨fuel - 1, by simp at hf; omega⟩
    refine ⟨-FDT_ERR_BADSTRUCTURE, ?_, fun _ => by decide, fun x xs hx => by simp [propOffsets] at hx⟩
    unfold lookup_valid_property_loop
    simp only [h.tag_end, FDT_END, FDT_PROPERTY, FDT_NOP]
    simp only [Nat.reduceEqDiff, if_false, if_true]
    rw [if_pos (by omega)]
  | cons t ts ih =>
    intro o h fuel prev hf
    obtain ⟨f, rfl⟩ : ∃ f, fuel = f + 1 := ⟨fuel - 1, by omega⟩
    cases t with
    | beginNode k =>
      refine ⟨-FDT_ERR_NOTFOUND, ?_, fun _ => by decide, fun x xs hx => by simp [propOffsets] at hx⟩
      unfold lookup_valid_property_loop
      simp only [h.tag, Tok.tag, FDT_END, FDT_PROPERTY, FDT_NOP, FDT_BEGIN_NODE]
      simp only [Nat.reduceEqDiff, if_false]
    | endNode =>
      refine ⟨-FDT_ERR_NOTFOUND, ?_, fun _ => by decide, fun x xs hx => by simp [propOffsets] at hx⟩
      unfold lookup_valid_property_loop
      simp only [h.tag, Tok.tag, FDT_END, FDT_PROPERTY, FDT_NOP, FDT_END_NODE]
      simp only [Nat.reduceEqDiff, if_false]
    | prop len =>
      refine ⟨(o : Int), ?_, fun hx => by simp [propOffsets] at hx, fun x xs hx => ?_⟩
      · unfold lookup_valid_property_loop
        simp only [h.tag, Tok.tag, if_true]
      · simp only [propOffsets, List.cons.injEq] at hx
        rw [hx.1]
    | nop =>
      obtain ⟨r, h1, h2, h3⟩ := ih (o + 4) h.tail f ((o + 4 : Nat) : Int)
        (by simp at hf; omega)
      refine ⟨r, ?_, fun hx => h2 (by simpa [propOffsets] using hx),
        fun x xs hx => h3 x xs (by simpa [propOffsets] using hx)⟩
      unfold lookup_valid_property_loop
      simp only [h.tag, Tok.tag, Tok.size, FDT_END, FDT_PROPERTY, FDT_NOP]
      simp only [Nat.reduceEqDiff, if_false, if_true]
      exact h1

theorem Laid.property_next_offset {m : Mem} {o len : Nat} {ts : List Tok}
    (h : Laid m o (Tok.prop len :: ts)) :
    property_next_offset m (o : Int) = ((o + (Tok.prop len).size : Nat) : Int) := by
  have ha := h.aligned
  unfold Fdt.property_next_offset
  rw [h.tag]
  have h1 : ¬ ((o : Int) < 0 ∨ (o : Int) % 4 ≠ 0 ∨ (Tok.prop len).tag ≠ FDT_PROPERTY) := by
    simp only [Tok.tag, ne_eq, not_true_eq_false, or_false, not_or, not_lt, not_not]
    omega
  simp only [h1, if_false]

theorem Laid.propLen {m : Mem} {o len : Nat} {ts : List Tok}
    (h : Laid m o (Tok.prop len :: ts)) : propLen m o = len := by
  have := h.stream.1.2
  unfold Fdt.propLen
  rw [← this]
  congr 1

theorem Laid.fdt_property_entry {m : Mem} {o len : Nat} {ts : List Tok}
    (h : Laid m o (Tok.prop len :: ts)) :
    fdt_property_entry m (o : Int)
      = (some ((FDT_STRUCT m : Int) + o), toInt32 (Fdt.propLen m o)) := by
  unfold Fdt.fdt_property_entry
  rw [h.property_next_offset, if_neg (by omega)]
  simp only [Fdt.propLen]

theorem Laid.fdt_next_property {m : Mem} {o len : Nat} {ts : List Tok}
    (h : Laid m o (Tok.prop len :: ts)) (fuel : Nat) (uninit : Int) (hf : ts.length < fuel) :
    ∃ r, fdt_next_property m fuel (o : Int) uninit = some r ∧
      (propOffsets (o + (Tok.prop len).size) ts = [] → r < 0) ∧
      (∀ x xs, propOffsets (o + (Tok.prop len).size) ts = x :: xs → r = (x : Int)) := by
  unfold Fdt.fdt_next_property
  rw [h.property_next_offset, if_neg (by omega)]
  exact lookup_valid_property_loop_laid ts _ h.tail fuel uninit hf

theorem Laid.fdt_first_property {m : Mem} {o k : Nat} {ts : List Tok}
    (h : Laid m o (Tok.beginNode k :: ts)) (fuel : Nat) (uninit : Int) (hf : ts.length < fuel) :
    ∃ r, fdt_first_property m fuel (o : Int) uninit = some r ∧
      (propOffsets (o + (Tok.beginNode k).size) ts = [] → r < 0) ∧
      (∀ x xs, propOffsets (o + (Tok.beginNode k).size) ts = x :: xs → r = (x : Int)) := by
  unfold Fdt.fdt_first_property
  rw [h.node_next_offset, if_neg (by omega)]
  exact lookup_valid_property_loop_laid ts _ h.tail fuel uninit hf
theorem strlen_loop_first (s : CStr) :
    ∀ (fuel i L : Nat), i ≤ L → L - i < fuel → s L % 256 = 0 →
      ∃ L', strlen_loop s fuel i = some L' ∧ i ≤ L' ∧ L' ≤ L ∧ s L' % 256 = 0 ∧
        ∀ j, i ≤ j → j < L' → s j % 256 ≠ 0 := by
  intro fuel
  induction fuel with
  | zero => intro i L _ h; omega
  | succ k ih =>
    intro i L hi hk hL
    unfold strlen_loop
    split_ifs with h
    · have hne : i ≠ L := fun hx => h (hx ▸ hL)
      obtain ⟨L', h1, h2, h3, h4, h5⟩ := ih (i + 1) L (by omega) (by omega) hL
      refine ⟨L', h1, by omega, h3, h4, fun j hj1 hj2 => ?_⟩
      rcases Nat.eq_or_lt_of_le hj1 with hx | hx
      · subst hx; exact h
      · exact h5 j (by omega) hj2
    · exact ⟨i, rfl, le_refl _, hi, by simpa using h, fun j hj1 hj2 => absurd hj2 (by omega)⟩

theorem nameIs_iff (m : Mem) (a : Int) (name : CStr) (n : Nat) :
    nameIs m a name n = true ↔
      (∀ i, i < n → byteAt m (a + i) = name i % 256 ∧ byteAt m (a + i) ≠ 0) ∧
        byteAt m (a + n) = 0 := by
  simp [nameIs, List.all_eq_true]

/-- The test `strlen(prop_name) == namelen && memcmp(prop_name, name, namelen) == 0`
on a terminated property name. -/
theorem name_match (m : Mem) (fuel : Nat) (x : Nat) (name : CStr) (n : Nat)
    (hn : n < 2147483648) (hterm : NamesTerminated m fuel [x]) :
    ∃ l, strlen (memStr m (fdt_string m
        (toInt32 (fdt32_to_cpu m ((FDT_STRUCT m : Int) + x + 8))))) fuel = some l ∧
      ((l = (n : Int) ∧ memcmp (memStr m (fdt_string m
          (toInt32 (fdt32_to_cpu m ((FDT_STRUCT m : Int) + x + 8))))) name n = 0) ↔
        nameIs m (propNameAddr m x) name n = true) := by
  obtain ⟨hoff, L, hL1, hL2, hL3⟩ := hterm x (List.mem_singleton.mpr rfl)
  have haddr : fdt_string m (toInt32 (fdt32_to_cpu m ((FDT_STRUCT m : Int) + x + 8)))
      = propNameAddr m x := by
    unfold fdt_string propNameAddr
    rw [toInt32_natCast (by omega)]
  rw [haddr]
  obtain ⟨L', h1, _, h3, h4, h5⟩ := strlen_loop_first (memStr m (propNameAddr m x)) fuel 0 L
    (by omega) (by omega) (by simp only [memStr, byteAt_mod]; exact hL3)
  simp only [memStr, byteAt_mod] at h4 h5
  refine ⟨(L' : Int), ?_, ?_⟩
  · unfold strlen
    rw [h1]
    simp only [Option.some.injEq]
    exact toInt32_natCast (by omega)
  · unfold memcmp
    rw [Int.toNat_ofNat, memcmp_loop_eq_zero, nameIs_iff]
    simp only [Nat.zero_add, memStr, byteAt_mod]
    constructor
    · rintro ⟨hl, hall⟩
      have hl' : L' = n := by exact_mod_cast hl
      subst hl'
      exact ⟨fun i hi => ⟨hall i hi, h5 i (by omega) hi⟩, h4⟩
    · rintro ⟨hall, hz⟩
      have hl' : L' = n := by
        rcases Nat.lt_trichotomy L' n with hx | hx | hx
        · exact absurd h4 (hall L' hx).2
        · exact hx
        · exact absurd hz (h5 n (by omega) hx)
      exact ⟨by exact_mod_cast hl', fun i hi => (hall i hi).1⟩

/-- From a property of a node on, the loop of `fdt_lookup_property_entry_by_namelen`
returns the first property, among that one and those that follow it in the
node, whose name is `name[0..n)`, with its length; and no record when there is
none. -/
theorem lookup_property_loop_laid {m : Mem} (fuel : Nat) (name : CStr) (n : Nat)
    (hn : n < 2147483648) (uninit : Int) :
    ∀ (k : Nat) (ts : List Tok) (o len rounds : Nat), ts.length ≤ k →
      Laid m o (Tok.prop len :: ts) → 0 < o →
      NamesTerminated m fuel (o :: propOffsets (o + (Tok.prop len).size) ts) →
      ts.length < fuel → ts.length + 1 < rounds →
      ∃ res, lookup_property_loop m fuel name n uninit rounds (o : Int) = some res ∧
        (∀ y, findProp m name n (o :: propOffsets (o + (Tok.prop len).size) ts) = some y →
          res = (some ((FDT_STRUCT m : Int) + y), toInt32 (propLen m y))) ∧
        (findProp m name n (o :: propOffsets (o + (Tok.prop len).size) ts) = none →
          res.1 = none) := by
  intro k
  induction k with
  | zero =>
    intro ts o len rounds hk h ho hnt hf hr
    obtain ⟨r, rfl⟩ : ∃ r, rounds = r + 1 := ⟨rounds - 1, by omega⟩
    obtain ⟨r', rfl⟩ : ∃ r', r = r' + 1 := ⟨r - 1, by omega⟩
    have hts : ts = [] := List.length_eq_zero.mp (by omega)
    subst hts
    obtain ⟨l, hl1, hl2⟩ := name_match m fuel o name n hn
      (fun x hx => hnt x (by rw [List.mem_singleton.mp hx]; exact List.mem_cons_self _ _))
    obtain ⟨nx, hx1, hx2, hx3⟩ := h.fdt_next_property fuel uninit hf
    have hnx : nx < 0 := hx2 (by simp [propOffsets])
    rw [lookup_property_loop]
    simp only [show (o : Int) > 0 by omega, if_true, h.fdt_property_entry, hl1, propOffsets,
      findProp]
    by_cases hm : nameIs m (propNameAddr m o) name n = true
    · rw [if_pos (hl2.mpr hm)]
      refine ⟨_, rfl, ?_, ?_⟩
      · intro y hy; simp only [hm, if_true, Option.some.injEq] at hy; subst hy; rfl
      · intro hy; simp [hm] at hy
    · rw [if_neg (fun hx => hm (hl2.mp hx)), hx1]
      simp only [lookup_property_loop, show ¬ (nx > 0) by omega, if_false]
      refine ⟨_, rfl, ?_, ?_⟩
      · intro y hy; simp [hm] at hy
      · intro _; rfl
  | succ k ih =>
    intro ts o len rounds hk h ho hnt hf hr
    obtain ⟨r, rfl⟩ : ∃ r, rounds = r + 1 := ⟨rounds - 1, by omega⟩
    obtain ⟨r', rfl⟩ : ∃ r', r = r' + 1 := ⟨r - 1, by omega⟩
    obtain ⟨l, hl1, hl2⟩ := name_match m fuel o name n hn
      (fun x hx => hnt x (by rw [List.mem_singleton.mp hx]; exact List.mem_cons_self _ _))
    obtain ⟨nx, hx1, hx2, hx3⟩ := h.fdt_next_property fuel uninit hf
    rw [lookup_property_loop]
    simp only [show (o : Int) > 0 by omega, if_true, h.fdt_property_entry, hl1, findProp]
    by_cases hm : nameIs m (propNameAddr m o) name n = true
    · rw [if_pos (hl2.mpr hm)]
      refine ⟨_, rfl, ?_, ?_⟩
      · intro y hy; simp only [hm, if_true, Option.some.injEq] at hy; subst hy; rfl
      · intro hy; simp [hm] at hy
    · rw [if_neg (fun hx => hm (hl2.mp hx)), hx1]
      simp only [hm, Bool.false_eq_true, if_false]
      cases hc : propOffsets (o + (Tok.prop len).size) ts with
      | nil =>
        have hnx : nx < 0 := hx2 hc
        simp only [lookup_property_loop, show ¬ (nx > 0) by omega, if_false, findProp]
        exact ⟨_, rfl, fun y hy => by simp at hy, fun _ => rfl⟩
      | cons x xs =>
        have hnx : nx = (x : Int) := hx3 x xs hc
        obtain ⟨pre, len', post, h1, h2, h3⟩ := propOffsets_cons hc
        subst h1
        have hxl : Laid m x (Tok.prop len' :: post) := by
          rw [h2]; exact h.tail.drop pre
        have hsz := (Tok.prop len).size_spec
        have hlen : post.length ≤ k := by simp at hk; omega
        have hlen2 : post.length < fuel := by simp at hf; omega
        have hlen3 : post.length + 1 < r' + 1 := by simp at hr; omega
        have hnt2 : NamesTerminated m fuel (x :: propOffsets (x + (Tok.prop len').size) post) := by
          intro y hy
          apply hnt y
          rw [hc, h3]
          exact List.mem_cons_of_mem _ hy
        rw [hnx, h3]
        exact ih post x len' (r' + 1) hlen hxl (by omega) hnt2 hlen2 hlen3

/-- On a node, `fdt_lookup_property_value_by_namelen` returns the value and the
length of the node's first property whose name is `name[0..n)`, and no value
when the node has none. -/
theorem fdt_lookup_property_value_laid {m : Mem} {o k : Nat} {ts : List Tok}
    (h : Laid m o (Tok.beginNode k :: ts)) (fuel : Nat) (name : CStr) (n : Nat)
    (hn : n < 2147483648) (uninit : Int)
    (hnt : NamesTerminated m fuel (propOffsets (o + (Tok.beginNode k).size) ts))
    (hf : ts.length + 1 < fuel) :
    ∃ res, fdt_lookup_property_value_by_namelen m fuel (o : Int) name n uninit = some res ∧
      (∀ y, findProp m name n (propOffsets (o + (Tok.beginNode k).size) ts) = some y →
        res = (some (propValueAddr m y), toInt32 (propLen m y))) ∧
      (findProp m name n (propOffsets (o + (Tok.beginNode k).size) ts) = none →
        res.1 = none) := by
  obtain ⟨r, hr1, hr2, hr3⟩ := h.fdt_first_property fuel uninit (by omega)
  obtain ⟨f, rfl⟩ : ∃ f, fuel = f + 1 := ⟨fuel - 1, by omega⟩
  unfold fdt_lookup_property_value_by_namelen fdt_lookup_property_entry_by_namelen
  rw [hr1]
  simp only
  cases hc : propOffsets (o + (Tok.beginNode k).size) ts with
  | nil =>
    have hneg : r < 0 := hr2 hc
    simp only [lookup_property_loop, show ¬ (r > 0) by omega, if_false, findProp]
    exact ⟨_, rfl, fun y hy => by simp at hy, fun _ => rfl⟩
  | cons x xs =>
    have hrx : r = (x : Int) := hr3 x xs hc
    obtain ⟨pre, len, post, h1, h2, h3⟩ := propOffsets_cons hc
    subst h1
    have hxl : Laid m x (Tok.prop len :: post) := by
      rw [h2]; exact h.tail.drop pre
    have hsz := (Tok.beginNode k).size_spec
    have hnt2 : NamesTerminated m (f + 1) (x :: propOffsets (x + (Tok.prop len).size) post) := by
      rw [← h3, ← hc]; exact hnt
    obtain ⟨res, hres1, hres2, hres3⟩ := lookup_property_loop_laid (f + 1) name n hn uninit
      post.length post x len (f + 1) (le_refl _) hxl (by omega) hnt2
      (by simp at hf; omega) (by simp at hf; omega)
    rw [hrx, hres1]
    rw [h3]
    cases hfp : findProp m name n (x :: propOffsets (x + (Tok.prop len).size) post) with
    | none =>
      have := hres3 hfp
      obtain ⟨r1, r2⟩ := res
      simp only at this
      subst this
      exact ⟨_, rfl, fun y hy => by simp at hy, fun _ => rfl⟩
    | some y =>
      rw [hres2 y hfp]
      refine ⟨_, rfl, fun y' hy' => ?_, fun hy' => by simp at hy'⟩
      simp only [Option.some.injEq] at hy'
      subst hy'
      simp only [propValueAddr]

theorem toInt32_eq_four (v : Nat) (hv : v < 4294967296) : toInt32 v = 4 ↔ v = 4 := by
  unfold toInt32; omega

theorem propLen_lt (m : Mem) (x : Nat) : propLen m x < 4294967296 := fdt32_to_cpu_lt m _

/-- On a node, `fdt_fetch_phandle` computes `fetch_phandle_spec` of the node's
properties. -/
theorem fdt_fetch_phandle_laid {m : Mem} {o k : Nat} {ts : List Tok}
    (h : Laid m o (Tok.beginNode k :: ts)) (fuel : Nat) (uninit : Int)
    (hnt : NamesTerminated m fuel (propOffsets (o + (Tok.beginNode k).size) ts))
    (hf : ts.length + 1 < fuel) :
    fdt_fetch_phandle m fuel (o : Int) uninit
      = some (fetch_phandle_spec m (propOffsets (o + (Tok.beginNode k).size) ts)) := by
  obtain ⟨res1, ha1, ha2, ha3⟩ :=
    fdt_lookup_property_value_laid h fuel phandleName 7 (by decide) uninit hnt hf
  obtain ⟨res2, hb1, hb2, hb3⟩ :=
    fdt_lookup_property_value_laid h fuel linuxPhandleName 13 (by decide) uninit hnt hf
  simp only [Nat.cast_ofNat] at ha1 hb1
  have second : (match fdt_lookup_property_value_by_namelen m fuel (o : Int) linuxPhandleName 13
        uninit with
      | none => none
      | some (some php, 4) => some (fdt32_to_cpu m php)
      | some (_, _) => some 0) =
      some (match findProp m linuxPhandleName 13 (propOffsets (o + (Tok.beginNode k).size) ts) with
        | some y => if propLen m y = 4 then fdt32_to_cpu m (propValueAddr m y) else 0
        | none => 0) := by
    rw [hb1]
    cases hfp : findProp m linuxPhandleName 13 (propOffsets (o + (Tok.beginNode k).size) ts) with
    | none =>
      have := hb3 hfp
      obtain ⟨r1, r2⟩ := res2
      simp only at this
      subst this
      rfl
    | some y =>
      rw [hb2 y hfp]
      by_cases h4 : propLen m y = 4
      · have e4 : toInt32 ((4 : Nat) : Int) = 4 := toInt32_natCast (by decide)
        simp only [h4, e4, if_true]
      · have : toInt32 (propLen m y) ≠ 4 := fun hx =>
          h4 ((toInt32_eq_four _ (propLen_lt m y)).mp hx)
        simp only [h4, if_false]
        split
        · rename_i heq; simp at heq
        · rename_i heq
          simp only [Option.some.injEq, Prod.mk.injEq] at heq
          exact absurd heq.2 this
        · rfl
  unfold fdt_fetch_phandle fetch_phandle_spec
  rw [ha1]
  cases hfp : findProp m phandleName 7 (propOffsets (o + (Tok.beginNode k).size) ts) with
  | none =>
    have := ha3 hfp
    obtain ⟨r1, r2⟩ := res1
    simp only at this
    subst this
    simp only
    exact second
  | some y =>
    rw [ha2 y hfp]
    by_cases h4 : propLen m y = 4
    · have e4 : toInt32 ((4 : Nat) : Int) = 4 := toInt32_natCast (by decide)
      simp only [h4, e4, if_true]
    · have : toInt32 (propLen m y) ≠ 4 := fun hx =>
        h4 ((toInt32_eq_four _ (propLen_lt m y)).mp hx)
      simp only [h4, if_false]
      split
      · rename_i heq; simp at heq
      · rename_i heq
        simp only [Option.some.injEq, Prod.mk.injEq] at heq
        exact absurd heq.2 this
      · exact second

/-! ## Claim C19: `fdt_fetch_phandle` -/

/-- C19 (counterexample): `giantTreeBlob` is well formed and its root has two
properties, at structure offsets 8 and 0x80000004 = 2147483652; the second is
named "phandle", has length 4 and the value 00 00 00 07, so the root's phandle
is 7; `fdt_fetch_phandle` on the root nevertheless returns 0, because the offset
of that property does not fit an `int`. -/
theorem fetch_phandle_beyond_int_range :
    WellFormed giantTreeBlob giantTreeToks ∧
    propOffsets (streamSize [] + (Tok.beginNode 0).size) giantTreeToks.tail = [8, 2147483652] ∧
    nameIs giantTreeBlob (propNameAddr giantTreeBlob 2147483652) phandleName 7 = true ∧
    propLen giantTreeBlob 2147483652 = 4 ∧
    fdt32_to_cpu giantTreeBlob (propValueAddr giantTreeBlob 2147483652) = 7 ∧
    fetch_phandle_spec giantTreeBlob [8, 2147483652] = 7 ∧
    fdt_fetch_phandle giantTreeBlob 12 0 0 = some 0 :=
  ⟨⟨by decide, ⟨_, _, rfl⟩, by decide, by decide, by decide⟩, by decide, by decide, by decide,
    by decide, by decide, by decide⟩

/-- C19 (amended): on a well-formed blob whose structure block, `END` tag
included, is shorter than `2^31` bytes, for every node (the record `BEGIN_NODE`
that follows the records `pre`, at offset `streamSize pre`) whose property names
are NUL-terminated strings at name offsets below `2^31`, `fdt_fetch_phandle`
returns the big-endian word that is the value of the node's property `phandle`
when there is one of length 4, else that of `linux,phandle` when there is one of
length 4, else 0. -/
theorem fetch_phandle_value (m : Mem) (ts : List Tok)
    (wf : WellFormed m ts) (h31 : streamSize ts + 4 < 2147483648)
    (pre : List Tok) (k : Nat) (post : List Tok) (hts : ts = pre ++ Tok.beginNode k :: post)
    (fuel : Nat) (hf : ts.length + 2 ≤ fuel) (uninit : Int)
    (hnt : NamesTerminated m fuel (propOffsets (streamSize pre + (Tok.beginNode k).size) post)) :
    fdt_fetch_phandle m fuel (streamSize pre : Int) uninit
      = some (fetch_phandle_spec m
          (propOffsets (streamSize pre + (Tok.beginNode k).size) post)) := by
  subst hts
  have hl0 : Laid m 0 (pre ++ Tok.beginNode k :: post) := wf.laid h31
  have hl : Laid m (streamSize pre) (Tok.beginNode k :: post) := by
    simpa using hl0.drop pre
  simp only [List.length_append, List.length_cons] at hf
  exact fdt_fetch_phandle_laid hl fuel uninit hnt (by omega)

/-- C19 (witness): in `aliasBlob` the node "uart@9000000", at offset 64, has the
property `phandle = 00 00 00 07`, and `fdt_fetch_phandle` returns 7 for it; the
root has no phandle property and gets 0. -/
theorem fetch_phandle_value_witness :
    WellFormed aliasBlob aliasToks ∧
    fdt_fetch_phandle aliasBlob 12 64 0 = some 7 ∧
    fdt_fetch_phandle aliasBlob 12 0 0 = some 0 ∧
    fdt_fetch_phandle aliasBlob 12 ((streamSize (aliasToks.take 5) : Nat) : Int) 0
      = some (fetch_phandle_spec aliasBlob
          (propOffsets (streamSize (aliasToks.take 5) + (Tok.beginNode 12).size)
            (aliasToks.drop 6))) :=
  ⟨⟨by decide, ⟨_, _, rfl⟩, by decide, by decide, by decide⟩, by decide, by decide,
    fetch_phandle_value aliasBlob aliasToks
      ⟨by decide, ⟨_, _, rfl⟩, by decide, by decide, by decide⟩ (by decide)
      (aliasToks.take 5) 12 (aliasToks.drop 6) (by decide) 12 (by decide) 0
      (by unfold NamesTerminated; decide)⟩

/-! ## Claim C20: `fdt_lookup_node_by_phandle` -/

theorem nodesWithProps_fst : ∀ (ts : List Tok) (o : Nat),
    (nodesWithProps o ts).map Prod.fst = beginOffsets o ts := by
  intro ts
  induction ts with
  | nil => intro o; rfl
  | cons t ts ih =>
    intro o
    cases t <;> simp [nodesWithProps, beginOffsets, ih]

/-- On every node of stored records `fdt_fetch_phandle` computes the phandle of
the node's properties. -/
theorem fdt_fetch_phandle_nodes {m : Mem} (fuel : Nat) (uninit : Int) :
    ∀ (ts : List Tok) (o : Nat), Laid m o ts →
      (∀ np ∈ nodesWithProps o ts, NamesTerminated m fuel np.2) → ts.length < fuel →
      ∀ np ∈ nodesWithProps o ts,
        fdt_fetch_phandle m fuel (np.1 : Int) uninit = some (fetch_phandle_spec m np.2) := by
  intro ts
  induction ts with
  | nil => intro o _ _ _ np hnp; simp [nodesWithProps] at hnp
  | cons t ts ih =>
    intro o h hnt hf np hnp
    simp only [List.length_cons] at hf
    cases t with
    | beginNode k =>
      simp only [nodesWithProps, List.mem_cons] at hnp
      rcases hnp with rfl | hnp
      · exact fdt_fetch_phandle_laid h fuel uninit
          (hnt (o, propOffsets (o + (Tok.beginNode k).size) ts) (by simp [nodesWithProps]))
          (by omega)
      · exact ih _ h.tail (fun np' hnp' => hnt np' (by simp [nodesWithProps, hnp']))
          (by omega) np hnp
    | endNode =>
      exact ih _ h.tail (fun np' hnp' => hnt np' (by simpa [nodesWithProps] using hnp'))
        (by omega) np (by simpa [nodesWithProps] using hnp)
    | prop len =>
      exact ih _ h.tail (fun np' hnp' => hnt np' (by simpa [nodesWithProps] using hnp'))
        (by omega) np (by simpa [nodesWithProps] using hnp)
    | nop =>
      exact ih _ h.tail (fun np' hnp' => hnt np' (by simpa [nodesWithProps] using hnp'))
        (by omega) np (by simpa [nodesWithProps] using hnp)

/-- The loop of `fdt_lookup_node_by_phandle` applied to the loop of
`fdt_next_node`, started in front of the records `ts`, stops at the first node
that begins in `ts` and has the phandle `ph`. -/
theorem phandle_scan {m : Mem} (fuel : Nat) (ph : Nat) (uninit : Int) :
    ∀ (ts : List Tok) (o : Nat) (d : Int), Laid m o ts →
      (∀ np ∈ nodesWithProps o ts, NamesTerminated m fuel np.2) →
      ∀ fuel1 rounds, ts.length < fuel1 → ts.length + 1 < fuel → ts.length < rounds →
      (match next_node_loop m false fuel1 (o : Int) d with
        | none => none
        | some (offset, _) => phandle_loop m fuel ph uninit rounds offset)
        = some (firstWithPhandle m ph (nodesWithProps o ts)) := by
  intro ts
  induction ts with
  | nil =>
    intro o d h _ fuel1 rounds hf1 _ hr
    obtain ⟨f, rfl⟩ : ∃ f, fuel1 = f + 1 := ⟨fuel1 - 1, by simp at hf1; omega⟩
    obtain ⟨r, rfl⟩ : ∃ r, rounds = r + 1 := ⟨rounds - 1, by simp at hr; omega⟩
    rw [h.loop_end]
    simp [phandle_loop, nodesWithProps, firstWithPhandle, FDT_ERR_NOTFOUND]
  | cons t ts ih =>
    intro o d h hnt fuel1 rounds hf1 hf hr
    obtain ⟨f, rfl⟩ : ∃ f, fuel1 = f + 1 := ⟨fuel1 - 1, by simp at hf1; omega⟩
    obtain ⟨r, rfl⟩ : ∃ r, rounds = r + 1 := ⟨rounds - 1, by simp at hr; omega⟩
    simp only [List.length_cons] at hf1 hf hr
    cases t with
    | beginNode k =>
      rw [h.loop_begin]
      have hfetch := fdt_fetch_phandle_laid h fuel uninit
        (hnt (o, propOffsets (o + (Tok.beginNode k).size) ts) (by simp [nodesWithProps]))
        (by omega)
      simp only [phandle_loop, show (o : Int) ≥ 0 by omega, if_true, hfetch,
        nodesWithProps, firstWithPhandle]
      split_ifs with hm
      · rfl
      · rw [h.fdt_next_node]
        exact ih _ 0 h.tail (fun np' hnp' => hnt np' (by simp [nodesWithProps, hnp']))
          fuel r (by omega) (by omega) (by omega)
    | endNode =>
      rw [h.loop_endNode]
      simp only [Bool.false_eq_true, if_false]
      simpa [nodesWithProps, Tok.size] using
        ih _ d h.tail (fun np' hnp' => hnt np' (by simpa [nodesWithProps] using hnp'))
          f (r + 1) (by omega) (by omega) (by omega)
    | prop len =>
      rw [h.loop_prop]
      simpa [nodesWithProps] using
        ih _ d h.tail (fun np' hnp' => hnt np' (by simpa [nodesWithProps] using hnp'))
          f (r + 1) (by omega) (by omega) (by omega)
    | nop =>
      rw [h.loop_nop]
      simpa [nodesWithProps, Tok.size] using
        ih _ d h.tail (fun np' hnp' => hnt np' (by simpa [nodesWithProps] using hnp'))
          f (r + 1) (by omega) (by omega) (by omega)

/-- C20 (counterexample): `giantTreeBlob` is well formed and the first of its
nodes with the phandle 7 is the root, offset 0 (its property `phandle`, of
length 4 and value 00 00 00 07, lies at structure offset 0x80000004);
`fdt_lookup_node_by_phandle (7)` nevertheless returns -11, which is neither that
node nor -1 (NotFound). -/
theorem lookup_by_phandle_beyond_int_range :
    WellFormed giantTreeBlob giantTreeToks ∧
    nodesWithProps 0 giantTreeToks = [(0, [8, 2147483652]), (2147483668, [2147483680])] ∧
    fetch_phandle_spec giantTreeBlob [8, 2147483652] = 7 ∧
    firstWithPhandle giantTreeBlob 7 (nodesWithProps 0 giantTreeToks) = 0 ∧
    fdt_lookup_node_by_phandle giantTreeBlob 12 7 0 = some (-11) :=
  ⟨⟨by decide, ⟨_, _, rfl⟩, by decide, by decide, by decide⟩, by decide, by decide, by decide,
    by decide⟩

/-- C20 (amended): on a well-formed blob whose structure block, `END` tag
included, is shorter than `2^31` bytes and whose property names are
NUL-terminated strings at name offsets below `2^31`, for every 32-bit `ph` other
than 0 and 0xFFFFFFFF, `fdt_lookup_node_by_phandle` returns the first node in
document order, the root included, whose phandle is `ph`, and -1 (NotFound) when
there is none; the nodes come in increasing order of offset, so the first is the
smallest, and the phandle of each is what `fdt_fetch_phandle` returns for it. -/
theorem lookup_by_phandle_first_node (m : Mem) (ts : List Tok)
    (wf : WellFormed m ts) (h31 : streamSize ts + 4 < 2147483648)
    (fuel : Nat) (hf : ts.length + 2 ≤ fuel) (uninit : Int)
    (hnt : ∀ np ∈ nodesWithProps 0 ts, NamesTerminated m fuel np.2)
    (ph : Nat) (hph : ph < 4294967296) (h0 : ph ≠ 0) (h1 : ph ≠ 4294967295) :
    fdt_lookup_node_by_phandle m fuel ph uninit
      = some (firstWithPhandle m ph (nodesWithProps 0 ts)) ∧
    (nodesWithProps 0 ts).map Prod.fst = beginOffsets 0 ts ∧
    (beginOffsets 0 ts).Pairwise (· < ·) ∧
    (∀ np ∈ nodesWithProps 0 ts,
      fdt_fetch_phandle m fuel (np.1 : Int) uninit = some (fetch_phandle_spec m np.2)) := by
  have hl : Laid m 0 ts := wf.laid h31
  refine ⟨?_, nodesWithProps_fst ts 0, beginOffsets_increasing _ _,
    fdt_fetch_phandle_nodes fuel uninit ts 0 hl hnt (by omega)⟩
  have hmod : ph % 4294967296 = ph := Nat.mod_eq_of_lt hph
  unfold fdt_lookup_node_by_phandle
  rw [hmod, if_neg (by omega)]
  have hneg : fdt_next_node m fuel (-1) false 0 = next_node_loop m false fuel 0 0 := by
    simp [fdt_next_node]
  rw [hneg]
  exact phandle_scan fuel ph uninit ts 0 0 hl hnt fuel fuel (by omega) (by omega) (by omega)

/-- C20 (witness): in `aliasBlob` the node "uart@9000000", at offset 64, has
`phandle = 00 00 00 07`, and `fdt_lookup_node_by_phandle (7)` returns 64; no node
has the phandle 8, which gives -1. -/
theorem lookup_by_phandle_first_node_witness :
    WellFormed aliasBlob aliasToks ∧
    fdt_lookup_node_by_phandle aliasBlob 12 7 0 = some 64 ∧
    fdt_lookup_node_by_phandle aliasBlob 12 8 0 = some (-1) ∧
    fdt_lookup_node_by_phandle aliasBlob 12 7 0
      = some (firstWithPhandle aliasBlob 7 (nodesWithProps 0 aliasToks)) :=
  ⟨⟨by decide, ⟨_, _, rfl⟩, by decide, by decide, by decide⟩, by decide, by decide,
    (lookup_by_phandle_first_node aliasBlob aliasToks
      ⟨by decide, ⟨_, _, rfl⟩, by decide, by decide, by decide⟩ (by decide) 12 (by decide) 0
      (by unfold NamesTerminated; decide) 7 (by decide) (by decide) (by decide)).1⟩

/-! ## Alias expansion -/

theorem skip_slashes_congr (s t : CStr) (L : Nat) (h : ∀ i, i < L → s i % 256 = t i % 256) :
    ∀ (fuel pos : Nat), pos < L →
      skip_slashes s L fuel pos = skip_slashes t L fuel pos := by
  intro fuel
  induction fuel with
  | zero => intro pos _; rfl
  | succ k ih =>
    intro pos hpos
    unfold skip_slashes
    rw [h pos hpos]
    split_ifs with h1 h2
    · rfl
    · exact ih (pos + 1) (by
        have : pos + 1 ≠ L := fun hx => h2 (by exact_mod_cast hx)
        omega)
    · rfl

theorem skip_slashes_bound (s : CStr) (L : Nat) :
    ∀ (fuel pos pos' : Nat), pos < L → skip_slashes s L fuel pos = some (Sum.inr pos') →
      pos' < L := by
  intro fuel
  induction fuel with
  | zero => intro pos pos' _ h; simp [skip_slashes] at h
  | succ k ih =>
    intro pos pos' hpos h
    unfold skip_slashes at h
    split_ifs at h with h1 h2
    · simp at h
    · exact ih (pos + 1) pos' (by
        have : pos + 1 ≠ L := fun hx => h2 (by exact_mod_cast hx)
        omega) h
    · simp only [Option.some.injEq, Sum.inr.injEq] at h
      omega

theorem path_walk_congr (m : Mem) (fuel : Nat) (s t : CStr) (L : Nat) (hL : L < 2147483648)
    (h : ∀ i, i < L → s i % 256 = t i % 256) :
    ∀ (rounds pos : Nat) (off : Int),
      path_walk m fuel s L rounds pos off = path_walk m fuel t L rounds pos off := by
  intro rounds
  induction rounds with
  | zero => intro pos off; rfl
  | succ r ih =>
    intro pos off
    unfold path_walk
    split_ifs with hlt
    · have hlt' : pos < L := by exact_mod_cast hlt
      rw [skip_slashes_congr s t L h fuel pos hlt']
      cases hs : skip_slashes t L fuel pos with
      | none => rfl
      | some x =>
        cases x with
        | inl u => rfl
        | inr pos' =>
          have hp' : pos' < L := skip_slashes_bound t L fuel pos pos' hlt' hs
          simp only
          have hn : toU32 (toInt32 ((L : Int) - (pos' : Int))) = L - pos' := by
            unfold toU32 toInt32; omega
          have hmem : memchr (fun i => s (pos' + i)) 47 (toInt32 ((L : Int) - (pos' : Int)))
              = memchr (fun i => t (pos' + i)) 47 (toInt32 ((L : Int) - (pos' : Int))) := by
            unfold memchr
            rw [hn]
            apply memchr_loop_congr
            intro j hj
            simp only [Nat.zero_add]
            exact h (pos' + j) (by omega)
          rw [hmem]
          obtain ⟨k, hk, _, hor⟩ :=
            memchr_loop_spec (fun i => t (pos' + i)) 47 (L - pos') 0
          have key : ∀ slash : Int, slash = ((pos' + k : Nat) : Int) →
              (match fdt_lookup_child_node_by_namelen m fuel off (fun i => s (pos' + i))
                  (toInt32 (slash - (pos' : Int))) with
                | none => none
                | some offset =>
                  if offset < 0 then some offset
                  else path_walk m fuel s L r slash.toNat offset) =
              (match fdt_lookup_child_node_by_namelen m fuel off (fun i => t (pos' + i))
                  (toInt32 (slash - (pos' : Int))) with
                | none => none
                | some offset =>
                  if offset < 0 then some offset
                  else path_walk m fuel t L r slash.toNat offset) := by
            intro slash hsl
            subst hsl
            have hk2 : toInt32 (((pos' + k : Nat) : Int) - (pos' : Int)) = (k : Int) := by
              unfold toInt32; omega
            rw [hk2, fdt_lookup_child_node_by_namelen_congr m fuel off (fun i => s (pos' + i))
              (fun i => t (pos' + i)) k (by omega) (fun j hj => by
                exact h (pos' + j) (by omega))]
            simp only [ih]
          rcases hor with ⟨h1, h2⟩ | ⟨h1, _, h3⟩
          · have hm : memchr (fun i => t (pos' + i)) 47
                (toInt32 ((L : Int) - (pos' : Int))) = none := by
              unfold memchr; rw [hn]; exact h2
            rw [hm]
            exact key (L : Int) (by subst h1; omega)
          · have hm : memchr (fun i => t (pos' + i)) 47
                (toInt32 ((L : Int) - (pos' : Int))) = some k := by
              unfold memchr; rw [hn]; simpa using h3
            rw [hm]
            exact key ((pos' + k : Nat) : Int) rfl
    · rfl

/-- An absolute path read from memory is resolved like the list of its bytes. -/
theorem fdt_lookup_node_by_pathlen_congr (m : Mem) (fuel : Nat) (uninit : Int) (d : Nat)
    (s t : CStr) (L : Nat) (hL : L < 2147483648) (h : ∀ i, i < L → s i % 256 = t i % 256)
    (hs : s 0 % 256 = 47) (ht : t 0 % 256 = 47) :
    fdt_lookup_node_by_pathlen m fuel uninit (d + 1) s L =
      fdt_lookup_node_by_pathlen m fuel uninit (d + 1) t L := by
  unfold fdt_lookup_node_by_pathlen
  rw [if_neg (by simpa using hs), if_neg (by simpa using ht)]
  exact path_walk_congr m fuel s t L hL h fuel 0 0

theorem nameIs_congr (m : Mem) (a : Int) (s t : CStr) (n : Nat)
    (h : ∀ i, i < n → s i % 256 = t i % 256) : nameIs m a s n = nameIs m a t n := by
  rw [Bool.eq_iff_iff, nameIs_iff, nameIs_iff]
  constructor
  · rintro ⟨h1, h2⟩
    exact ⟨fun i hi => ⟨by rw [← h i hi]; exact (h1 i hi).1, (h1 i hi).2⟩, h2⟩
  · rintro ⟨h1, h2⟩
    exact ⟨fun i hi => ⟨by rw [h i hi]; exact (h1 i hi).1, (h1 i hi).2⟩, h2⟩

theorem findProp_congr (m : Mem) (s t : CStr) (n : Nat)
    (h : ∀ i, i < n → s i % 256 = t i % 256) (l : List Nat) :
    findProp m s n l = findProp m t n l := by
  induction l with
  | nil => rfl
  | cons x xs ih => simp only [findProp, nameIs_congr m _ s t n h, ih]

/-- The length `strlen` finds for a string stored in memory. -/
theorem strlen_of_nameIs (m : Mem) (a : Int) (v : CStr) (n : Nat) (fuel : Nat)
    (h : nameIs m a v n = true) (hn : n < 2147483648) (hf : n < fuel) :
    strlen (memStr m a) fuel = some (n : Int) := by
  rw [nameIs_iff] at h
  obtain ⟨L', h1, _, h3, h4, h5⟩ := strlen_loop_first (memStr m a) fuel 0 n
    (by omega) (by omega) (by simp only [memStr, byteAt_mod]; exact h.2)
  simp only [memStr, byteAt_mod] at h4 h5
  have hl : L' = n := by
    rcases Nat.lt_or_ge L' n with hx | hx
    · exact absurd h4 (h.1 L' hx).2
    · omega
  subst hl
  unfold strlen
  rw [h1]
  simp only [Option.some.injEq]
  exact toInt32_natCast (by omega)

theorem fdt_lookup_child_node_by_namelen_laid {m : Mem} {o k : Nat} {ts : List Tok}
    (h : Laid m o (Tok.beginNode k :: ts)) (fuel : Nat) (hf : ts.length + 2 ≤ fuel)
    (name : CStr) (namelen : Int) :
    fdt_lookup_child_node_by_namelen m fuel (o : Int) name namelen
      = some (firstMatch m name namelen (childOffsets (o + (Tok.beginNode k).size) 0 ts)) := by
  unfold fdt_lookup_child_node_by_namelen
  rw [fdt_first_child_node_laid h fuel (by omega)]
  cases hc : childOffsets (o + (Tok.beginNode k).size) 0 ts with
  | nil =>
    obtain ⟨f, rfl⟩ : ∃ f, fuel = f + 1 := ⟨fuel - 1, by omega⟩
    simp [firstOr, lookup_child_loop, firstMatch, FDT_ERR_NOTFOUND]
  | cons x xs =>
    obtain ⟨pre2, k2, post2, h1, h2, h3⟩ := childOffsets_cons hc
    subst h1
    have hx : Laid m x (Tok.beginNode k2 :: post2) := by
      rw [h2]; exact h.tail.drop pre2
    have hsz := (Tok.beginNode k).size_spec
    simp only [firstOr]
    simp only [List.length_append, List.length_cons] at hf
    rw [lookup_child_loop_laid fuel name namelen post2.length post2 x k2 fuel (le_refl _) hx
      (by omega) (by omega) (by omega), ← h3]

theorem childOffsets_mem {x : Nat} : ∀ (ts : List Tok) (o lvl : Nat), x ∈ childOffsets o lvl ts →
    ∃ pre k post, ts = pre ++ Tok.beginNode k :: post ∧ x = o + streamSize pre := by
  intro ts
  induction ts with
  | nil => intro o lvl h; simp [childOffsets] at h
  | cons t ts ih =>
    intro o lvl h
    have step : ∀ o' lvl', x ∈ childOffsets o' lvl' ts → o' = o + t.size →
        ∃ pre k post, t :: ts = pre ++ Tok.beginNode k :: post ∧ x = o + streamSize pre := by
      intro o' lvl' hx ho'
      obtain ⟨pre, k, post, h1, h2⟩ := ih o' lvl' hx
      refine ⟨t :: pre, k, post, by rw [h1]; rfl, ?_⟩
      simp only [streamSize]; omega
    cases t with
    | beginNode k =>
      cases lvl with
      | zero =>
        simp only [childOffsets, List.mem_cons] at h
        rcases h with rfl | h
        · exact ⟨[], k, ts, rfl, by simp [streamSize]⟩
        · exact step _ _ h rfl
      | succ l => simp only [childOffsets] at h; exact step _ _ h rfl
    | endNode =>
      cases lvl with
      | zero => simp [childOffsets] at h
      | succ l => simp only [childOffsets] at h; exact step _ _ h rfl
    | prop len => simp only [childOffsets] at h; exact step _ _ h rfl
    | nop => simp only [childOffsets] at h; exact step _ _ h rfl

theorem firstMatch_cases (m : Mem) (name : CStr) (namelen : Int) (l : List Nat) :
    firstMatch m name namelen l = -FDT_ERR_NOTFOUND ∨
      ∃ x ∈ l, firstMatch m name namelen l = (x : Int) := by
  induction l with
  | nil => exact Or.inl rfl
  | cons y ys ih =>
    unfold firstMatch
    split_ifs
    · exact Or.inr ⟨y, List.mem_cons_self _ _, rfl⟩
    · rcases ih with h | ⟨x, hx, h⟩
      · exact Or.inl h
      · exact Or.inr ⟨x, List.mem_cons_of_mem _ hx, h⟩

/-- Descending from a node of stored records always gives a result. -/
theorem descend_total {m : Mem} {ts : List Tok} (hl0 : Laid m 0 ts) (fuel : Nat)
    (hf : ts.length + 2 ≤ fuel) :
    ∀ (cs : List (List Nat)) (pre : List Tok) (k : Nat) (post : List Tok),
      ts = pre ++ Tok.beginNode k :: post →
      ∃ r, descend m fuel (streamSize pre : Int) cs = some r := by
  intro cs
  induction cs with
  | nil => intro pre k post _; exact ⟨_, rfl⟩
  | cons c cs ih =>
    intro pre k post hts
    have hl : Laid m (streamSize pre) (Tok.beginNode k :: post) := by
      have := hl0
      rw [hts] at this
      simpa using this.drop pre
    have hlen : post.length + 2 ≤ fuel := by
      rw [hts] at hf; simp only [List.length_append, List.length_cons] at hf; omega
    unfold descend
    rw [fdt_lookup_child_node_by_namelen_laid hl fuel hlen]
    simp only
    rcases firstMatch_cases m (strOfBytes c) c.length
        (childOffsets (streamSize pre + (Tok.beginNode k).size) 0 post) with h | ⟨x, hx, h⟩
    · rw [h]; exact ⟨_, by rw [if_pos (by decide)]⟩
    · rw [h, if_neg (by omega)]
      obtain ⟨pre2, k2, post2, h1, h2⟩ := childOffsets_mem post _ 0 hx
      have := ih (pre ++ Tok.beginNode k :: pre2) k2 post2 (by rw [hts, h1]; simp)
      rw [streamSize_append] at this
      simp only [streamSize] at this
      rw [h2]
      rw [show streamSize pre + (Tok.beginNode k).size + streamSize pre2
        = streamSize pre + ((Tok.beginNode k).size + streamSize pre2) by omega]
      exact this

theorem fdt_lookup_node_by_pathlen_walk (m : Mem) (fuel : Nat) (uninit : Int) (d : Nat)
    (path : CStr) (pathlen : Int) (h : path 0 % 256 = 47) :
    fdt_lookup_node_by_pathlen m fuel uninit (d + 1) path pathlen =
      path_walk m fuel path pathlen fuel 0 0 := by
  unfold fdt_lookup_node_by_pathlen
  rw [if_neg (by simpa using h)]

theorem strOfBytes_append_left (a r : List Nat) (i : Nat) (hi : i < a.length) :
    strOfBytes (a ++ r) i = strOfBytes a i := by
  simp [strOfBytes, List.getD_eq_getElem?_getD, List.getElem?_append_left hi]

theorem strOfBytes_mem (a : List Nat) (i : Nat) (hi : i < a.length) : strOfBytes a i ∈ a := by
  simp [strOfBytes, List.getD_eq_getElem?_getD, List.getElem?_eq_getElem hi]

/-- Where `memchr` finds the first '/' of an alias name followed by a remainder. -/
theorem memchr_alias (a r : List Nat) (ha : ∀ b ∈ a, b % 256 ≠ 47)
    (hr : r = [] ∨ ∃ r', r = 47 :: r') (hlen : (a ++ r).length < 2147483648) :
    (match memchr (strOfBytes (a ++ r)) 47 ((a ++ r).length : Int) with
      | none => ((a ++ r).length : Int)
      | some i => (i : Int)) = (a.length : Int) := by
  have hu : toU32 (((a ++ r).length : Nat) : Int) = (a ++ r).length := toU32_natCast (by omega)
  unfold memchr
  rw [hu]
  obtain ⟨k, hk, hall, hor⟩ := memchr_loop_spec (strOfBytes (a ++ r)) 47 (a ++ r).length 0
  simp only [Nat.zero_add] at hall hor
  have hge : a.length ≤ k := by
    rcases hor with ⟨h1, _⟩ | ⟨h1, h2, _⟩
    · rw [h1]; simp
    · by_contra hlt
      have hlt' : k < a.length := by omega
      rw [strOfBytes_append_left a r k hlt'] at h2
      exact ha _ (strOfBytes_mem a k hlt') h2.symm
  rcases hr with rfl | ⟨r', rfl⟩
  · rcases hor with ⟨h1, h2⟩ | ⟨h1, _, _⟩
    · rw [h2]; simp
    · simp at h1; omega
  · have hle : k ≤ a.length := by
      by_contra hgt
      have := hall a.length (by omega)
      apply this
      have hget : strOfBytes (a ++ 47 :: r') a.length = 47 := by
        have h0 := strOfBytes_drop (a ++ 47 :: r') a.length 0
        rw [List.drop_left, Nat.add_zero] at h0
        rw [h0]; rfl
      rw [hget]
    have hka : k = a.length := by omega
    rcases hor with ⟨h1, _⟩ | ⟨_, _, h3⟩
    · simp at h1; omega
    · rw [h3, hka]

theorem memchr_alias_cases (a r : List Nat) (ha : ∀ b ∈ a, b % 256 ≠ 47)
    (hr : r = [] ∨ ∃ r', r = 47 :: r') (hlen : (a ++ r).length < 2147483648) :
    (r = [] ∧ memchr (strOfBytes (a ++ r)) 47 ((a ++ r).length : Int) = none) ∨
      memchr (strOfBytes (a ++ r)) 47 ((a ++ r).length : Int) = some a.length := by
  have h := memchr_alias a r ha hr hlen
  cases hm : memchr (strOfBytes (a ++ r)) 47 ((a ++ r).length : Int) with
  | none =>
    rw [hm] at h
    have h2 : (((a ++ r).length : Nat) : Int) = (a.length : Int) := h
    rw [List.length_append] at h2
    left
    exact ⟨List.length_eq_zero.mp (by omega), rfl⟩
  | some i =>
    rw [hm] at h
    have h2 : (i : Int) = (a.length : Int) := h
    right; rw [show i = a.length by omega]

/-- The alias branch of `fdt_lookup_node_by_pathlen` on stored records. -/
theorem alias_branch {m : Mem} {ts : List Tok} (hl0 : Laid m 0 ts) (fuel : Nat)
    (hf : ts.length + 2 ≤ fuel) (uninit : Int) (d : Nat)
    (pre : List Tok) (k : Nat) (post : List Tok) (hts : ts = pre ++ Tok.beginNode k :: post)
    (hal : fdt_lookup_node_by_pathlen m fuel uninit (d + 2) aliasesPath 8
      = some (streamSize pre : Int))
    (hnt : NamesTerminated m fuel (propOffsets (streamSize pre + (Tok.beginNode k).size) post))
    (a v r : List Nat) (x : Nat) (ha : a ≠ []) (has : ∀ b ∈ a, b % 256 ≠ 47)
    (hx : findProp m (strOfBytes a) a.length
      (propOffsets (streamSize pre + (Tok.beginNode k).size) post) = some x)
    (hv : nameIs m (propValueAddr m x) (strOfBytes v) v.length = true)
    (hvabs : strOfBytes v 0 % 256 = 47)
    (hr : r = [] ∨ ∃ r', r = 47 :: r')
    (hlen1 : (a ++ r).length < 2147483648) (hlen2 : v.length < 2147483648)
    (hfuel1 : (a ++ r).length < fuel) (hfuel2 : v.length < fuel)
    (o : Int) (ho : descend m fuel 0 (components v) = some o) :
    fdt_lookup_node_by_pathlen m fuel uninit (d + 2) (strOfBytes (a ++ r)) (a ++ r).length =
      if o < 0 then some o else descend m fuel o (components r) := by
  have hl : Laid m (streamSize pre) (Tok.beginNode k :: post) := by
    have := hl0
    rw [hts] at this
    simpa using this.drop pre
  have hpost : post.length + 1 < fuel := by
    rw [hts] at hf; simp only [List.length_append, List.length_cons] at hf; omega
  have hF1 : strOfBytes (a ++ r) 0 % 256 ≠ 47 := by
    cases a with
    | nil => exact absurd rfl ha
    | cons a0 a' => exact has a0 (List.mem_cons_self _ _)
  have hal' : fdt_lookup_node_by_pathlen m fuel uninit (d + 1) aliasesPath 8
      = some (streamSize pre : Int) := by
    rw [fdt_lookup_node_by_pathlen_walk m fuel uninit d aliasesPath 8 rfl,
      ← fdt_lookup_node_by_pathlen_walk m fuel uninit (d + 1) aliasesPath 8 rfl]
    exact hal
  have hna : a.length < 2147483648 := by simp at hlen1; omega
  obtain ⟨res, hres1, hres2, _⟩ := fdt_lookup_property_value_laid hl fuel
    (strOfBytes (a ++ r)) a.length hna uninit hnt hpost
  have hfind : findProp m (strOfBytes (a ++ r)) a.length
      (propOffsets (streamSize pre + (Tok.beginNode k).size) post) = some x := by
    rw [findProp_congr m (strOfBytes (a ++ r)) (strOfBytes a) a.length
      (fun i hi => by rw [strOfBytes_append_left a r i hi])]
    exact hx
  have hres := hres2 x hfind
  have hstrlen := strlen_of_nameIs m (propValueAddr m x) (strOfBytes v) v.length fuel hv hlen2
    hfuel2
  have hvne : 0 < v.length := by
    cases v with
    | nil => simp [strOfBytes] at hvabs
    | cons v0 v' => simp
  have hvbytes := (nameIs_iff m _ _ _).mp hv
  have hmem0 : memStr m (propValueAddr m x) 0 % 256 = 47 := by
    have := (hvbytes.1 0 hvne).1
    simp only [memStr, byteAt_mod]
    rw [this]; exact hvabs
  have hlookv : fdt_lookup_node_by_pathlen m fuel uninit (d + 1) (memStr m (propValueAddr m x))
      v.length = some o := by
    rw [fdt_lookup_node_by_pathlen_congr m fuel uninit d (memStr m (propValueAddr m x))
      (strOfBytes v) v.length hlen2
      (fun i hi => by simp only [memStr, byteAt_mod]; exact (hvbytes.1 i hi).1)
      hmem0 hvabs,
      fdt_lookup_node_by_pathlen_absolute m fuel uninit d v hvabs hlen2 hfuel2]
    exact ho
  have hwalk : path_walk m fuel (strOfBytes (a ++ r)) (a ++ r).length fuel a.length o
      = descend m fuel o (components r) := by
    have := path_walk_components m fuel (a ++ r) hlen1 (by omega) fuel a.length o
      (by simp) (by omega)
    rw [List.drop_left] at this
    exact this
  have key : ∀ slash : Int, slash = (a.length : Int) →
      (match fdt_lookup_node_by_pathlen m fuel uninit (d + 1) aliasesPath 8 with
        | none => none
        | some aliasoffset =>
          if aliasoffset < 0 then some (-FDT_ERR_BADPATH)
          else
            match fdt_lookup_property_value_by_namelen m fuel aliasoffset (strOfBytes (a ++ r))
                (toInt32 slash) uninit with
            | none => none
            | some (none, _) => some (-FDT_ERR_BADPATH)
            | some (some alias_path, _) =>
              match strlen (memStr m alias_path) fuel with
              | none => none
              | some l =>
                match fdt_lookup_node_by_pathlen m fuel uninit (d + 1) (memStr m alias_path) l with
                | none => none
                | some offset =>
                  if offset < 0 then some offset
                  else path_walk m fuel (strOfBytes (a ++ r)) (a ++ r).length fuel
                    slash.toNat offset) =
      if o < 0 then some o else descend m fuel o (components r) := by
    intro slash hs
    subst hs
    rw [hal']
    simp only
    rw [if_neg (by omega), toInt32_natCast (by omega), hres1, hres]
    simp only
    rw [hstrlen]
    simp only
    rw [hlookv]
    simp only
    rw [Int.toNat_ofNat, hwalk]
  rw [fdt_lookup_node_by_pathlen, if_pos hF1]
  rcases memchr_alias_cases a r has hr hlen1 with ⟨hr0, hm⟩ | hm
  · rw [hm]
    exact key ((a ++ r).length : Int) (by subst hr0; simp)
  · rw [hm]
    exact key (a.length : Int) rfl
/-! ## Claim C17: paths that start with an alias -/

/-- C17 (counterexample): three well-formed blobs on which an alias is not
expanded.  In `slashAliasBlob` the node "/aliases" (offset 8) has the property
`s/t = "/"`, and "/" resolves to the root, but the path "s/t" gives -5
(BadPath): the alias name is cut at its '/'.  The same node has the property
with the empty name and the value "/aliases", which resolves to 8, but the empty
name followed by the remainder "/" resolves to the root, not to what
"/aliases" ++ "/" resolves to.  In `giantTreeBlob` the root's child "aliases",
at structure offset 0x80000014 = 2147483668, has the property `s = "/"`, and "/"
resolves to the root, but the path "s" gives -5: the node "/aliases" lies beyond
the offsets an `int` holds. -/
theorem alias_not_expanded :
    (WellFormed slashAliasBlob slashAliasToks ∧
      fdt_lookup_node_by_pathlen slashAliasBlob 12 0 2 aliasesPath 8 = some 8 ∧
      propOffsets 20 (slashAliasToks.drop 2) = [20, 36] ∧
      nameIs slashAliasBlob (propNameAddr slashAliasBlob 20) (strOfBytes [115, 47, 116]) 3 = true ∧
      nameIs slashAliasBlob (propValueAddr slashAliasBlob 20) (strOfBytes [47]) 1 = true ∧
      fdt_lookup_node_by_pathlen slashAliasBlob 12 0 2 (strOfBytes ([47] ++ [])) 1 = some 0 ∧
      fdt_lookup_node_by_pathlen slashAliasBlob 12 0 2 (strOfBytes ([115, 47, 116] ++ [])) 3
        = some (-FDT_ERR_BADPATH)) ∧
    (nameIs slashAliasBlob (propNameAddr slashAliasBlob 36) (strOfBytes []) 0 = true ∧
      nameIs slashAliasBlob (propValueAddr slashAliasBlob 36) aliasesPath 8 = true ∧
      fdt_lookup_node_by_pathlen slashAliasBlob 12 0 2 (strOfBytes ([] ++ [47])) 1 = some 0 ∧
      fdt_lookup_node_by_pathlen slashAliasBlob 12 0 2
        (strOfBytes ([47, 97, 108, 105, 97, 115, 101, 115] ++ [47])) 9 = some 8) ∧
    (WellFormed giantTreeBlob giantTreeToks ∧
      childOffsets 8 0 giantTreeToks.tail = [2147483668] ∧
      nameIs giantTreeBlob ((FDT_STRUCT giantTreeBlob : Int) + 2147483668 + 4)
        (strOfBytes [97, 108, 105, 97, 115, 101, 115]) 7 = true ∧
      propOffsets 2147483680 (giantTreeToks.drop 4) = [2147483680] ∧
      nameIs giantTreeBlob (propNameAddr giantTreeBlob 2147483680) (strOfBytes [115]) 1 = true ∧
      nameIs giantTreeBlob (propValueAddr giantTreeBlob 2147483680) (strOfBytes [47]) 1 = true ∧
      fdt_lookup_node_by_pathlen giantTreeBlob 12 0 2 (strOfBytes ([47] ++ [])) 1 = some 0 ∧
      fdt_lookup_node_by_pathlen giantTreeBlob 12 0 2 (strOfBytes ([115] ++ [])) 1
        = some (-FDT_ERR_BADPATH)) :=
  ⟨⟨⟨by decide, ⟨_, _, rfl⟩, by decide, by decide, by decide⟩, by decide, by decide, by decide,
      by decide, by decide, by decide⟩,
    ⟨by decide, by decide, by decide, by decide⟩,
    ⟨⟨by decide, ⟨_, _, rfl⟩, by decide, by decide, by decide⟩, by decide, by decide, by decide,
      by decide, by decide, by decide, by decide⟩⟩

/-- C17 (amended): on a well-formed blob whose structure block, `END` tag
included, is shorter than `2^31` bytes, let the path "/aliases" resolve to a
node whose property names are NUL-terminated strings at name offsets below
`2^31`, and let that node have a property named `a`, where `a` is not empty and
holds no '/', whose value is the NUL-terminated absolute path `v`.  Then for
every remainder `r` that is empty or starts with '/' (the paths being shorter
than `2^31`), `fdt_lookup_node_by_pathlen` of `v` returns some `o`, and of
`a ++ r` it returns `o` when `o` is an error, and otherwise what it returns for
`v ++ r`. -/
theorem alias_path_expansion (m : Mem) (ts : List Tok)
    (wf : WellFormed m ts) (h31 : streamSize ts + 4 < 2147483648)
    (fuel : Nat) (hf : ts.length + 2 ≤ fuel) (uninit : Int) (d : Nat)
    (pre : List Tok) (k : Nat) (post : List Tok) (hts : ts = pre ++ Tok.beginNode k :: post)
    (hal : fdt_lookup_node_by_pathlen m fuel uninit (d + 2) aliasesPath 8
      = some (streamSize pre : Int))
    (hnt : NamesTerminated m fuel (propOffsets (streamSize pre + (Tok.beginNode k).size) post))
    (a v r : List Nat) (x : Nat) (ha : a ≠ []) (has : ∀ b ∈ a, b % 256 ≠ 47)
    (hx : findProp m (strOfBytes a) a.length
      (propOffsets (streamSize pre + (Tok.beginNode k).size) post) = some x)
    (hv : nameIs m (propValueAddr m x) (strOfBytes v) v.length = true)
    (hvabs : strOfBytes v 0 % 256 = 47)
    (hr : r = [] ∨ ∃ r', r = 47 :: r')
    (hlen1 : (a ++ r).length < 2147483648) (hlen2 : (v ++ r).length < 2147483648)
    (hfuel1 : (a ++ r).length < fuel) (hfuel2 : (v ++ r).length < fuel) :
    ∃ o, fdt_lookup_node_by_pathlen m fuel uninit (d + 2) (strOfBytes v) v.length = some o ∧
      fdt_lookup_node_by_pathlen m fuel uninit (d + 2) (strOfBytes (a ++ r)) (a ++ r).length =
        if o < 0 then some o
        else fdt_lookup_node_by_pathlen m fuel uninit (d + 2) (strOfBytes (v ++ r))
          (v ++ r).length := by
  have hl0 : Laid m 0 ts := wf.laid h31
  obtain ⟨k0, rest, hroot⟩ := wf.root
  obtain ⟨o, ho⟩ := descend_total hl0 fuel hf (components v) [] k0 rest (by simpa using hroot)
  have ho' : descend m fuel 0 (components v) = some o := by simpa [streamSize] using ho
  have hvl : v.length ≤ (v ++ r).length := by simp
  have hvne : 0 < v.length := by
    cases v with
    | nil => simp [strOfBytes] at hvabs
    | cons v0 v' => simp
  have hvrabs : strOfBytes (v ++ r) 0 % 256 = 47 := by
    rw [strOfBytes_append_left v r 0 hvne]; exact hvabs
  have hcomp : components (v ++ r) = components v ++ components r := by
    rcases hr with rfl | ⟨r', rfl⟩
    · simp [components_nil]
    · rw [components_append_slash v 47 r' (by decide), components_cons_slash 47 r' (by decide)]
  refine ⟨o, ?_, ?_⟩
  · rw [fdt_lookup_node_by_pathlen_absolute m fuel uninit (d + 1) v hvabs (by omega) (by omega)]
    exact ho'
  · rw [alias_branch hl0 fuel hf uninit d pre k post hts hal hnt a v r x ha has hx hv hvabs hr
      hlen1 (by omega) hfuel1 (by omega) o ho',
      fdt_lookup_node_by_pathlen_absolute m fuel uninit (d + 1) (v ++ r) hvrabs hlen2 hfuel2,
      hcomp, descend_append, ho']
    simp only
    split_ifs with h1 h2
    · rfl
    · exact absurd h2.1 h1
    · rfl

/-- C17 (witness): in `aliasBlob` the node "/aliases" (offset 8) has the property
`serial0 = "/soc/uart@9000000"`; the paths "serial0" and "/soc/uart@9000000"
both resolve to the node at offset 64. -/
theorem alias_path_expansion_witness :
    WellFormed aliasBlob aliasToks ∧
    fdt_lookup_node_by_path aliasBlob 20 0 2 (strOfBytes [115, 101, 114, 105, 97, 108, 48])
      = some 64 ∧
    fdt_lookup_node_by_path aliasBlob 20 0 2
      (strOfBytes [47, 115, 111, 99, 47, 117, 97, 114, 116, 64, 57, 48, 48, 48, 48, 48, 48])
      = some 64 ∧
    ∃ o, fdt_lookup_node_by_pathlen aliasBlob 20 0 (0 + 2)
        (strOfBytes [47, 115, 111, 99, 47, 117, 97, 114, 116, 64, 57, 48, 48, 48, 48, 48, 48])
        [47, 115, 111, 99, 47, 117, 97, 114, 116, 64, 57, 48, 48, 48, 48, 48, 48].length
          = some o ∧
      fdt_lookup_node_by_pathlen aliasBlob 20 0 (0 + 2)
        (strOfBytes ([115, 101, 114, 105, 97, 108, 48] ++ []))
        ([115, 101, 114, 105, 97, 108, 48] ++ []).length =
        if o < 0 then some o
        else fdt_lookup_node_by_pathlen aliasBlob 20 0 (0 + 2)
          (strOfBytes ([47, 115, 111, 99, 47, 117, 97, 114, 116, 64, 57, 48, 48, 48, 48, 48, 48]
            ++ []))
          ([47, 115, 111, 99, 47, 117, 97, 114, 116, 64, 57, 48, 48, 48, 48, 48, 48] ++ []).length :=
  ⟨⟨by decide, ⟨_, _, rfl⟩, by decide, by decide, by decide⟩, by decide, by decide,
    alias_path_expansion aliasBlob aliasToks
      ⟨by decide, ⟨_, _, rfl⟩, by decide, by decide, by decide⟩ (by decide) 20 (by decide) 0 0
      [Tok.beginNode 0] 7 (aliasToks.drop 2) (by decide) (by decide)
      (by unfold NamesTerminated; decide)
      [115, 101, 114, 105, 97, 108, 48]
      [47, 115, 111, 99, 47, 117, 97, 114, 116, 64, 57, 48, 48, 48, 48, 48, 48] [] 20
      (by decide) (by decide) (by decide) (by decide) (by decide) (Or.inl rfl)
      (by decide) (by decide) (by decide) (by decide)⟩

/-! ## Claim C22: results of the lookups by value lie after the start offset -/

/-- C22: `wrapRootBlob` is accepted by `fdt_check_header`, and from the start
offset 0 `fdt_next_node` returns 0 again, because the `len` field 0xFFFFFFDC of
the property at offset 24 wraps the next offset to 0.  So
`fdt_lookup_node_by_property_value (0, "compatible", "x\0", 2)` and
`fdt_lookup_node_by_compatible (0, "x")` both return the root, offset 0, which is
not greater than the start offset. -/
theorem lookup_by_value_returns_start :
    fdt_check_header wrapRootBlob = 0 ∧
    fdt_tag_next_offset wrapRootBlob 24 24 = (FDT_PROPERTY, 0) ∧
    fdt_next_node wrapRootBlob 20 0 false 0 = some (0, 0) ∧
    fdt_lookup_node_by_property_value wrapRootBlob 20 0 compatibleName (strOfBytes [120, 0]) 2 0
      = some 0 ∧
    fdt_lookup_node_by_compatible wrapRootBlob 20 0 (strOfBytes [120]) 0 = some 0 := by
  decide

/-! ## Claim C23: `fdt_node_check_compatible` -/

/-- C23: in `listBlob` the root has `compatible = "foo\0bar\0"`, for which
`fdt_node_check_compatible` returns 0 on "bar" and 1 on "baz", as claimed; but it
also returns 0 on the empty string, which the list does not hold, and for the
node at offset 28, whose `compatible` is the three bytes "bar" without a NUL, it
returns 0 on "bar", which that value does not list either: both times
`fdt_stringlist_contains` compares one byte more than the value has. -/
theorem check_compatible_reads_past_value :
    WellFormed listBlob listToks ∧
    fdt_node_check_compatible listBlob 20 0 (strOfBytes [98, 97, 114]) 0 = some 0 ∧
    fdt_node_check_compatible listBlob 20 0 (strOfBytes [98, 97, 122]) 0 = some 1 ∧
    fdt_lookup_property_value_by_name listBlob 20 0 compatibleName 0 = some (some 60, 8) ∧
    fdt_node_check_compatible listBlob 20 0 (strOfBytes []) 0 = some 0 ∧
    fdt_lookup_property_value_by_name listBlob 20 28 compatibleName 0 = some (some 88, 3) ∧
    fdt_node_check_compatible listBlob 20 28 (strOfBytes [98, 97, 114]) 0 = some 0 :=
  ⟨⟨by decide, ⟨_, _, rfl⟩, by decide, by decide, by decide⟩, by decide, by decide, by decide,
    by decide, by decide, by decide⟩

/-! ## Claim C24: `fdt_stringlist_contains` -/

/-- C24: for the buffer "bar" of length 3 followed by a zero byte,
`fdt_stringlist_contains` returns 1 on "bar", although the buffer holds no
NUL-terminated string; and for the buffer "foo\0" of length 4 followed by a zero
byte it returns 1 on the empty string.  On "foo\0bar\0" it returns 1 for "bar"
and 0 for "baz". -/
theorem stringlist_contains_reads_past_buffer :
    fdt_stringlist_contains (strOfBytes [98, 97, 114, 0]) 3 (strOfBytes [98, 97, 114]) 9
      = some 1 ∧
    fdt_stringlist_contains (strOfBytes [102, 111, 111, 0, 0]) 4 (strOfBytes []) 9 = some 1 ∧
    fdt_stringlist_contains (strOfBytes [102, 111, 111, 0, 98, 97, 114, 0]) 8
      (strOfBytes [98, 97, 114]) 9 = some 1 ∧
    fdt_stringlist_contains (strOfBytes [102, 111, 111, 0, 98, 97, 114, 0]) 8
      (strOfBytes [98, 97, 122]) 9 = some 0 := by
  decide

/-! ## Claim C26: string lists of a property the node does not have -/

/-- C26: in `listBlob` the root has no property `empty`: the lookup of its value
returns NULL with -1 (NotFound) in the length, and `fdt_stringlist_get` passes
that on; but `fdt_stringlist_count` and `fdt_stringlist_search` return 1, the
negation of that length. -/
theorem stringlist_of_missing_property :
    WellFormed listBlob listToks ∧
    propOffsets 8 listToks.tail = [8] ∧
    findProp listBlob (strOfBytes [101, 109, 112, 116, 121]) 5 [8] = none ∧
    fdt_lookup_property_value_by_name listBlob 20 0 (strOfBytes [101, 109, 112, 116, 121]) 0
      = some (none, -FDT_ERR_NOTFOUND) ∧
    fdt_stringlist_get listBlob 20 0 (strOfBytes [101, 109, 112, 116, 121]) 0 0
      = some (none, -FDT_ERR_NOTFOUND) ∧
    fdt_stringlist_count listBlob 20 0 (strOfBytes [101, 109, 112, 116, 121]) 0 = some 1 ∧
    fdt_stringlist_search listBlob 20 0 (strOfBytes [101, 109, 112, 116, 121])
      (strOfBytes [102, 111, 111]) 0 = some 1 :=
  ⟨⟨by decide, ⟨_, _, rfl⟩, by decide, by decide, by decide⟩, by decide, by decide, by decide,
    by decide, by decide, by decide⟩

/-! ## Property lookup on properly nested records -/

theorem properlyNested_append {pre l : List Tok} :
    ∀ {d : Nat}, properlyNested d (pre ++ l) = true → ∃ d', properlyNested d' l = true := by
  induction pre with
  | nil => intro d h; exact ⟨d, h⟩
  | cons t pre ih =>
    intro d h
    cases t with
    | beginNode k => exact ih (d := d + 1) (by simpa [properlyNested] using h)
    | endNode =>
      cases d with
      | zero => simp [properlyNested] at h
      | succ d => exact ih (d := d) (by simpa [properlyNested] using h)
    | prop len => exact ih (d := d) (by simpa [properlyNested] using h)
    | nop => exact ih (d := d) (by simpa [properlyNested] using h)

/-- The body of a node of a properly nested stream is itself nested one level
down. -/
theorem properlyNested_body {pre post : List Tok} {k d : Nat}
    (h : properlyNested d (pre ++ Tok.beginNode k :: post) = true) :
    ∃ d', properlyNested (d' + 1) post = true := by
  obtain ⟨d', hd'⟩ := properlyNested_append h
  exact ⟨d', by simpa [properlyNested] using hd'⟩

theorem propOffsets_cons_nested {ts : List Tok} {o x d : Nat} {xs : List Nat}
    (h : propOffsets o ts = x :: xs) (hn : properlyNested d ts = true) :
    ∃ pre len post, ts = pre ++ Tok.prop len :: post ∧ x = o + streamSize pre ∧
      xs = propOffsets (x + (Tok.prop len).size) post ∧ properlyNested d post = true := by
  induction ts generalizing o with
  | nil => simp [propOffsets] at h
  | cons t ts ih =>
    cases t with
    | beginNode k => simp [propOffsets] at h
    | endNode => simp [propOffsets] at h
    | prop len =>
      simp only [propOffsets, List.cons.injEq] at h
      obtain ⟨h1, h2⟩ := h
      subst h1
      exact ⟨[], len, ts, rfl, by simp [streamSize], h2.symm, by simpa [properlyNested] using hn⟩
    | nop =>
      simp only [propOffsets] at h
      obtain ⟨pre, len, post, h1, h2, h3, h4⟩ := ih h (by simpa [properlyNested] using hn)
      refine ⟨Tok.nop :: pre, len, post, by rw [h1]; rfl, ?_, h3, h4⟩
      simp only [streamSize, Tok.size]; omega

/-- The loop of `lookup_valid_property` inside a node of a properly nested
stream: it stops at the first property, or with NotFound. -/
theorem lookup_valid_property_loop_nested {m : Mem} :
    ∀ (ts : List Tok) (o d : Nat), Laid m o ts → properlyNested (d + 1) ts = true →
      ∀ (fuel : Nat) (prev : Int), ts.length < fuel →
      lookup_valid_property_loop m fuel (o : Int) prev = some (firstOr (propOffsets o ts)) := by
  intro ts
  induction ts with
  | nil => intro o d _ hn; simp [properlyNested] at hn
  | cons t ts ih =>
    intro o d h hn fuel prev hf
    obtain ⟨f, rfl⟩ : ∃ f, fuel = f + 1 := ⟨fuel - 1, by omega⟩
    cases t with
    | beginNode k =>
      unfold lookup_valid_property_loop
      simp only [h.tag, Tok.tag, FDT_END, FDT_PROPERTY, FDT_NOP, FDT_BEGIN_NODE]
      simp only [Nat.reduceEqDiff, if_false, propOffsets, firstOr]
    | endNode =>
      unfold lookup_valid_property_loop
      simp only [h.tag, Tok.tag, FDT_END, FDT_PROPERTY, FDT_NOP, FDT_END_NODE]
      simp only [Nat.reduceEqDiff, if_false, propOffsets, firstOr]
    | prop len =>
      unfold lookup_valid_property_loop
      simp only [h.tag, Tok.tag, if_true, propOffsets, firstOr]
    | nop =>
      have := ih (o + 4) d h.tail (by simpa [properlyNested] using hn) f ((o + 4 : Nat) : Int)
        (by simp at hf; omega)
      unfold lookup_valid_property_loop
      simp only [h.tag, Tok.tag, Tok.size, FDT_END, FDT_PROPERTY, FDT_NOP]
      simp only [Nat.reduceEqDiff, if_false, if_true, propOffsets]
      exact this

theorem Laid.propLen_small {m : Mem} {o len : Nat} {ts : List Tok}
    (h : Laid m o (Tok.prop len :: ts)) :
    toInt32 (Fdt.propLen m o) = (Fdt.propLen m o : Int) ∧ Fdt.propLen m o < 2147483648 := by
  have h1 := h.propLen
  have h2 := h.small
  have h3 := (Tok.prop len).size_spec
  simp only [streamSize] at h2
  have h4 : len ≤ (Tok.prop len).size := by simp only [Tok.size]; omega
  have h5 : Fdt.propLen m o < 2147483648 := by omega
  exact ⟨toInt32_natCast h5, h5⟩

/-- From a property of a node on, in a properly nested stream, the loop of
`fdt_lookup_property_entry_by_namelen` returns the first property, among that one
and those that follow it in the node, whose name is `name[0..n)`, with its
length; and NULL with NotFound when there is none. -/
theorem lookup_property_loop_nested {m : Mem} (fuel : Nat) (name : CStr) (n : Nat)
    (hn : n < 2147483648) (uninit : Int) :
    ∀ (k : Nat) (ts : List Tok) (o len d rounds : Nat), ts.length ≤ k →
      Laid m o (Tok.prop len :: ts) → 0 < o → properlyNested (d + 1) ts = true →
      NamesTerminated m fuel (o :: propOffsets (o + (Tok.prop len).size) ts) →
      ts.length < fuel → ts.length + 1 < rounds →
      lookup_property_loop m fuel name n uninit rounds (o : Int) =
        some (entryResult m
          (findProp m name n (o :: propOffsets (o + (Tok.prop len).size) ts))) := by
  intro k
  induction k with
  | zero =>
    intro ts o len d rounds hk h ho hnest hnt hf hr
    have hts : ts = [] := List.length_eq_zero.mp (by omega)
    subst hts
    simp [properlyNested] at hnest
  | succ k ih =>
    intro ts o len d rounds hk h ho hnest hnt hf hr
    obtain ⟨r, rfl⟩ : ∃ r, rounds = r + 1 := ⟨rounds - 1, by omega⟩
    obtain ⟨r', rfl⟩ : ∃ r', r = r' + 1 := ⟨r - 1, by omega⟩
    obtain ⟨l, hl1, hl2⟩ := name_match m fuel o name n hn
      (fun x hx => hnt x (by rw [List.mem_singleton.mp hx]; exact List.mem_cons_self _ _))
    have hnx : fdt_next_property m fuel (o : Int) uninit
        = some (firstOr (propOffsets (o + (Tok.prop len).size) ts)) := by
      unfold fdt_next_property
      rw [h.property_next_offset, if_neg (by omega)]
      exact lookup_valid_property_loop_nested ts _ d h.tail hnest fuel uninit hf
    rw [lookup_property_loop]
    simp only [show (o : Int) > 0 by omega, if_true, h.fdt_property_entry, hl1, findProp]
    by_cases hm : nameIs m (propNameAddr m o) name n = true
    · rw [if_pos (hl2.mpr hm)]
      simp only [hm, if_true, entryResult, h.propLen_small.1]
    · rw [if_neg (fun hx => hm (hl2.mp hx)), hnx]
      simp only [hm, Bool.false_eq_true, if_false]
      cases hc : propOffsets (o + (Tok.prop len).size) ts with
      | nil =>
        simp only [firstOr, lookup_property_loop, FDT_ERR_NOTFOUND, findProp, entryResult]
        rfl
      | cons x xs =>
        obtain ⟨pre, len', post, h1, h2, h3, h4⟩ := propOffsets_cons_nested hc hnest
        subst h1
        have hxl : Laid m x (Tok.prop len' :: post) := by
          rw [h2]; exact h.tail.drop pre
        have hsz := (Tok.prop len).size_spec
        have hlen : post.length ≤ k := by simp at hk; omega
        have hlen2 : post.length < fuel := by simp at hf; omega
        have hlen3 : post.length + 1 < r' + 1 := by simp at hr; omega
        have hnt2 : NamesTerminated m fuel (x :: propOffsets (x + (Tok.prop len').size) post) := by
          intro y hy
          apply hnt y
          rw [hc, h3]
          exact List.mem_cons_of_mem _ hy
        simp only [firstOr]
        rw [h3]
        exact ih post x len' d (r' + 1) hlen hxl (by omega) h4 hnt2 hlen2 hlen3

/-- On a node of a properly nested stream, `fdt_lookup_property_entry_by_namelen`
returns the node's first property whose name is `name[0..n)`. -/
theorem fdt_lookup_property_entry_nested {m : Mem} {o k d : Nat} {ts : List Tok}
    (h : Laid m o (Tok.beginNode k :: ts)) (hnest : properlyNested (d + 1) ts = true)
    (fuel : Nat) (name : CStr) (n : Nat) (hn : n < 2147483648) (uninit : Int)
    (hnt : NamesTerminated m fuel (propOffsets (o + (Tok.beginNode k).size) ts))
    (hf : ts.length + 1 < fuel) :
    fdt_lookup_property_entry_by_namelen m fuel (o : Int) name n uninit =
      some (entryResult m
        (findProp m name n (propOffsets (o + (Tok.beginNode k).size) ts))) := by
  obtain ⟨f, rfl⟩ : ∃ f, fuel = f + 1 := ⟨fuel - 1, by omega⟩
  have hfirst : fdt_first_property m (f + 1) (o : Int) uninit
      = some (firstOr (propOffsets (o + (Tok.beginNode k).size) ts)) := by
    unfold fdt_first_property
    rw [h.node_next_offset, if_neg (by omega)]
    exact lookup_valid_property_loop_nested ts _ d h.tail hnest (f + 1) uninit (by omega)
  unfold fdt_lookup_property_entry_by_namelen
  rw [hfirst]
  simp only
  cases hc : propOffsets (o + (Tok.beginNode k).size) ts with
  | nil =>
    simp only [firstOr, lookup_property_loop, FDT_ERR_NOTFOUND, findProp, entryResult]
    rfl
  | cons x xs =>
    obtain ⟨pre, len, post, h1, h2, h3, h4⟩ := propOffsets_cons_nested hc hnest
    subst h1
    have hxl : Laid m x (Tok.prop len :: post) := by
      rw [h2]; exact h.tail.drop pre
    have hsz := (Tok.beginNode k).size_spec
    have hnt2 : NamesTerminated m (f + 1) (x :: propOffsets (x + (Tok.prop len).size) post) := by
      rw [← h3, ← hc]; exact hnt
    simp only [firstOr]
    rw [h3]
    exact lookup_property_loop_nested (f + 1) name n hn uninit post.length post x len d (f + 1)
      (le_refl _) hxl (by omega) h4 hnt2 (by simp at hf; omega) (by simp at hf; omega)

theorem nameIs_length_unique (m : Mem) (a : Int) (s t : CStr) (k n : Nat)
    (hk : nameIs m a s k = true) (hkn : k ≠ n) : nameIs m a t n = false := by
  rw [Bool.eq_false_iff]
  intro hn
  rw [nameIs_iff] at hk hn
  rcases Nat.lt_or_gt_of_ne hkn with h | h
  · exact (hn.1 k h).2 hk.2
  · exact (hk.1 n h).2 hn.2

/-! ## Claim C30: `fdt_lookup_property_entry_by_namelen` -/

/-- C30 (counterexample): `giantListBlob` is well formed and its root has two
properties, at structure offsets 8 and 0x80000004 = 2147483652; the second is
named "compatible" and has length 8, and it is the first with that name; but
`fdt_lookup_property_entry_by_namelen` of "compatible" on the root returns NULL,
with -13 in the length: the offset of that property does not fit an `int`. -/
theorem lookup_property_entry_beyond_int_range :
    WellFormed giantListBlob giantListToks ∧
    propOffsets (streamSize [] + (Tok.beginNode 0).size) giantListToks.tail = [8, 2147483652] ∧
    nameIs giantListBlob (propNameAddr giantListBlob 2147483652) compatibleName 10 = true ∧
    propLen giantListBlob 2147483652 = 8 ∧
    findProp giantListBlob compatibleName 10 [8, 2147483652] = some 2147483652 ∧
    fdt_lookup_property_entry_by_namelen giantListBlob 20 0 compatibleName 10 0
      = some (none, -13) :=
  ⟨⟨by decide, ⟨_, _, rfl⟩, by decide, by decide, by decide⟩, by decide, by decide, by decide,
    by decide, by decide⟩

/-- C30 (amended): on a well-formed blob whose structure block, `END` tag
included, is shorter than `2^31` bytes, for every node (the record `BEGIN_NODE`
that follows the records `pre`, at offset `streamSize pre`) whose property names
are NUL-terminated strings at name offsets below `2^31`, every name and every
length `n ≥ 0`, `fdt_lookup_property_entry_by_namelen` returns the first property
of the node whose name in the strings block has length exactly `n` and equals
`name[0..n)`, with the decoded `len` of that property, and NULL with -1
(NotFound) when there is none; a stored name of another length, such as a proper
prefix or a proper extension of `name[0..n)`, does not match. -/
theorem lookup_property_entry_by_namelen_first_match (m : Mem) (ts : List Tok)
    (wf : WellFormed m ts) (h31 : streamSize ts + 4 < 2147483648)
    (pre : List Tok) (k : Nat) (post : List Tok) (hts : ts = pre ++ Tok.beginNode k :: post)
    (fuel : Nat) (hf : ts.length + 2 ≤ fuel) (uninit : Int)
    (hnt : NamesTerminated m fuel (propOffsets (streamSize pre + (Tok.beginNode k).size) post))
    (name : CStr) (n : Nat) (hn : n < 2147483648) :
    fdt_lookup_property_entry_by_namelen m fuel (streamSize pre : Int) name n uninit =
      some (entryResult m
        (findProp m name n (propOffsets (streamSize pre + (Tok.beginNode k).size) post))) ∧
    (∀ (y : Nat) (s : CStr) (j : Nat), nameIs m (propNameAddr m y) s j = true → j ≠ n →
      nameIs m (propNameAddr m y) name n = false) := by
  subst hts
  have hl0 : Laid m 0 (pre ++ Tok.beginNode k :: post) := wf.laid h31
  have hl : Laid m (streamSize pre) (Tok.beginNode k :: post) := by
    simpa using hl0.drop pre
  obtain ⟨d, hd⟩ := properlyNested_body wf.nested
  simp only [List.length_append, List.length_cons] at hf
  exact ⟨fdt_lookup_property_entry_nested hl hd fuel name n hn uninit hnt (by omega),
    fun y s j hj hne => nameIs_length_unique m _ s name j n hj hne⟩

/-- C30 (witness): in `listBlob` the node at offset 28 has the properties
`compatible`, `empty` and `tail`; the name "tail" finds the record at address
40 + 64 with length 6, and its proper prefix "tai" and "tails" find nothing. -/
theorem lookup_property_entry_by_namelen_first_match_witness :
    WellFormed listBlob listToks ∧
    fdt_lookup_property_entry_by_namelen listBlob 20 28 (strOfBytes [116, 97, 105, 108]) 4 0
      = some (some 104, 6) ∧
    fdt_lookup_property_entry_by_namelen listBlob 20 28 (strOfBytes [116, 97, 105, 108]) 3 0
      = some (none, -1) ∧
    fdt_lookup_property_entry_by_namelen listBlob 20 28 (strOfBytes [116, 97, 105, 108, 115]) 5 0
      = some (none, -1) ∧
    fdt_lookup_property_entry_by_namelen listBlob 20
        ((streamSize (listToks.take 2) : Nat) : Int) (strOfBytes [116, 97, 105, 108])
        ((4 : Nat) : Int) 0 =
      some (entryResult listBlob
        (findProp listBlob (strOfBytes [116, 97, 105, 108]) 4
          (propOffsets (streamSize (listToks.take 2) + (Tok.beginNode 1).size)
            (listToks.drop 3)))) :=
  ⟨⟨by decide, ⟨_, _, rfl⟩, by decide, by decide, by decide⟩, by decide, by decide, by decide,
    (lookup_property_entry_by_namelen_first_match listBlob listToks
      ⟨by decide, ⟨_, _, rfl⟩, by decide, by decide, by decide⟩ (by decide)
      (listToks.take 2) 1 (listToks.drop 3) (by decide) 20 (by decide) 0
      (by unfold NamesTerminated; decide) (strOfBytes [116, 97, 105, 108]) 4 (by decide)).1⟩

/-! ## Lookup by property value on well-formed blobs -/

theorem beginOffsets_append (pre l : List Tok) :
    ∀ o, beginOffsets o (pre ++ l) = beginOffsets o pre ++ beginOffsets (o + streamSize pre) l := by
  induction pre with
  | nil => intro o; simp [beginOffsets, streamSize]
  | cons t pre ih =>
    intro o
    cases t <;> simp [beginOffsets, streamSize, ih, Nat.add_assoc]

theorem nodesWithProps_suffix (pre l : List Tok) :
    ∀ o, ∀ np ∈ nodesWithProps (o + streamSize pre) l, np ∈ nodesWithProps o (pre ++ l) := by
  induction pre with
  | nil => intro o np h; simpa [streamSize] using h
  | cons t pre ih =>
    intro o np h
    have h2 : np ∈ nodesWithProps (o + t.size) (pre ++ l) := by
      apply ih
      simpa [streamSize, Nat.add_assoc] using h
    cases t with
    | beginNode k => simp only [List.cons_append, nodesWithProps]; exact List.mem_cons_of_mem _ h2
    | endNode => simpa [nodesWithProps] using h2
    | prop len => simpa [nodesWithProps] using h2
    | nop => simpa [nodesWithProps] using h2

theorem findProp_mem {m : Mem} {name : CStr} {n y : Nat} :
    ∀ {l : List Nat}, findProp m name n l = some y → y ∈ l := by
  intro l
  induction l with
  | nil => intro h; simp [findProp] at h
  | cons x xs ih =>
    intro h
    unfold findProp at h
    split_ifs at h
    · simp only [Option.some.injEq] at h; subst h; exact List.mem_cons_self _ _
    · exact List.mem_cons_of_mem _ (ih h)

theorem propLen_small_of_mem {m : Mem} :
    ∀ (ts : List Tok) (o : Nat), Laid m o ts → ∀ y ∈ propOffsets o ts,
      propLen m y < 2147483648 := by
  intro ts
  induction ts with
  | nil => intro o _ y hy; simp [propOffsets] at hy
  | cons t ts ih =>
    intro o h y hy
    cases t with
    | beginNode k => simp [propOffsets] at hy
    | endNode => simp [propOffsets] at hy
    | prop len =>
      simp only [propOffsets, List.mem_cons] at hy
      rcases hy with rfl | hy
      · exact h.propLen_small.2
      · exact ih _ h.tail y hy
    | nop =>
      simp only [propOffsets] at hy
      exact ih _ h.tail y hy

theorem valueIs_iff (m : Mem) (y : Nat) (val : CStr) (vallen : Nat) :
    valueIs m y val vallen = true ↔
      propLen m y = vallen ∧ ∀ i, i < vallen → byteAt m (propValueAddr m y + i) = val i % 256 := by
  simp [valueIs, List.all_eq_true]

/-- On a node, the test of `fdt_lookup_node_by_property_value` holds exactly when
the node has the named property with the given value. -/
theorem propvalue_match_laid {m : Mem} {o k : Nat} {ts : List Tok}
    (h : Laid m o (Tok.beginNode k :: ts)) (fuel : Nat) (name : CStr) (n : Nat)
    (hn : n < 2147483648) (uninit : Int)
    (hnt : NamesTerminated m fuel (propOffsets (o + (Tok.beginNode k).size) ts))
    (hf : ts.length + 1 < fuel) (val : CStr) (vallen : Nat) :
    ∃ v len, fdt_lookup_property_value_by_namelen m fuel (o : Int) name n uninit = some (v, len) ∧
      propvalue_match m val vallen v len
        = nodeHasValue m name n val vallen (propOffsets (o + (Tok.beginNode k).size) ts) := by
  obtain ⟨res, h1, h2, h3⟩ := fdt_lookup_property_value_laid h fuel name n hn uninit hnt hf
  obtain ⟨v, len⟩ := res
  refine ⟨v, len, h1, ?_⟩
  unfold nodeHasValue
  cases hfp : findProp m name n (propOffsets (o + (Tok.beginNode k).size) ts) with
  | none =>
    have := h3 hfp
    simp only at this
    subst this
    rfl
  | some y =>
    have := h2 y hfp
    simp only [Prod.mk.injEq] at this
    rw [this.1, this.2]
    have hsmall := propLen_small_of_mem ts _ h.tail y (findProp_mem hfp)
    rw [toInt32_natCast hsmall]
    simp only [propvalue_match, memcmp, Int.toNat_ofNat]
    rw [Bool.eq_iff_iff, decide_eq_true_iff, valueIs_iff, memcmp_loop_eq_zero]
    simp only [Nat.zero_add, memStr, byteAt_mod, Nat.cast_inj]
    constructor
    · rintro ⟨h4, h5⟩
      exact ⟨h4, fun i hi => h5 i (by omega)⟩
    · rintro ⟨h4, h5⟩
      exact ⟨h4, fun i hi => h5 i (by omega)⟩

/-- The loop of `fdt_lookup_node_by_property_value` applied to the loop of
`fdt_next_node`, started in front of the records `ts`, stops at the first node
that begins in `ts` and has the named property with the given value. -/
theorem propvalue_scan {m : Mem} (fuel : Nat) (pn : List Nat) (hnul : ∀ b ∈ pn, b % 256 ≠ 0)
    (hpn : pn.length < 2147483648) (hpf : pn.length < fuel) (val : CStr) (vallen : Nat)
    (uninit : Int) :
    ∀ (ts : List Tok) (o : Nat) (d : Int), Laid m o ts →
      (∀ np ∈ nodesWithProps o ts, NamesTerminated m fuel np.2) →
      ∀ fuel1 rounds, ts.length < fuel1 → ts.length + 1 < fuel → ts.length < rounds →
      (match next_node_loop m false fuel1 (o : Int) d with
        | none => none
        | some (offset, _) =>
          propvalue_loop m fuel (strOfBytes pn) val vallen uninit rounds offset)
        = some (firstWithValue m (strOfBytes pn) pn.length val vallen (nodesWithProps o ts)) := by
  intro ts
  induction ts with
  | nil =>
    intro o d h _ fuel1 rounds hf1 _ hr
    obtain ⟨f, rfl⟩ : ∃ f, fuel1 = f + 1 := ⟨fuel1 - 1, by simp at hf1; omega⟩
    obtain ⟨r, rfl⟩ : ∃ r, rounds = r + 1 := ⟨rounds - 1, by simp at hr; omega⟩
    rw [h.loop_end]
    simp [propvalue_loop, nodesWithProps, firstWithValue, FDT_ERR_NOTFOUND]
  | cons t ts ih =>
    intro o d h hnt fuel1 rounds hf1 hf hr
    obtain ⟨f, rfl⟩ : ∃ f, fuel1 = f + 1 := ⟨fuel1 - 1, by simp at hf1; omega⟩
    obtain ⟨r, rfl⟩ : ∃ r, rounds = r + 1 := ⟨rounds - 1, by simp at hr; omega⟩
    simp only [List.length_cons] at hf1 hf hr
    cases t with
    | beginNode k =>
      rw [h.loop_begin]
      obtain ⟨v, len, hv1, hv2⟩ := propvalue_match_laid h fuel (strOfBytes pn) pn.length hpn uninit
        (hnt (o, propOffsets (o + (Tok.beginNode k).size) ts) (by simp [nodesWithProps]))
        (by omega) val vallen
      simp only [propvalue_loop, show (o : Int) ≥ 0 by omega, if_true,
        strlen_strOfBytes pn fuel hnul hpn hpf, hv1, hv2, nodesWithProps, firstWithValue]
      split_ifs with hm
      · rfl
      · rw [h.fdt_next_node]
        exact ih _ 0 h.tail (fun np' hnp' => hnt np' (by simp [nodesWithProps, hnp']))
          fuel r (by omega) (by omega) (by omega)
    | endNode =>
      rw [h.loop_endNode]
      simp only [Bool.false_eq_true, if_false]
      simpa [nodesWithProps, Tok.size] using
        ih _ d h.tail (fun np' hnp' => hnt np' (by simpa [nodesWithProps] using hnp'))
          f (r + 1) (by omega) (by omega) (by omega)
    | prop len =>
      rw [h.loop_prop]
      simpa [nodesWithProps] using
        ih _ d h.tail (fun np' hnp' => hnt np' (by simpa [nodesWithProps] using hnp'))
          f (r + 1) (by omega) (by omega) (by omega)
    | nop =>
      rw [h.loop_nop]
      simpa [nodesWithProps, Tok.size] using
        ih _ d h.tail (fun np' hnp' => hnt np' (by simpa [nodesWithProps] using hnp'))
          f (r + 1) (by omega) (by omega) (by omega)

/-! ## Claim C21: `fdt_lookup_node_by_property_value` -/

/-- C21 (counterexample): `giantListBlob` is well formed and its root has the
property `compatible` with the 8 bytes "foo\0bar\0" as its value (at structure
offset 0x80000004), so the root is the first node with that value; but
`fdt_lookup_node_by_property_value (-1, "compatible", "foo\0bar\0", 8)` returns
-11, which is neither the root nor -1 (NotFound). -/
theorem lookup_by_property_value_beyond_int_range :
    WellFormed giantListBlob giantListToks ∧
    nodesWithProps 0 giantListToks = [(0, [8, 2147483652])] ∧
    findProp giantListBlob compatibleName 10 [8, 2147483652] = some 2147483652 ∧
    valueIs giantListBlob 2147483652 (strOfBytes [102, 111, 111, 0, 98, 97, 114, 0]) 8 = true ∧
    firstWithValue giantListBlob compatibleName 10 (strOfBytes [102, 111, 111, 0, 98, 97, 114, 0]) 8
      (nodesWithProps 0 giantListToks) = 0 ∧
    fdt_lookup_node_by_property_value giantListBlob 20 (-1) compatibleName
      (strOfBytes [102, 111, 111, 0, 98, 97, 114, 0]) 8 0 = some (-11) :=
  ⟨⟨by decide, ⟨_, _, rfl⟩, by decide, by decide, by decide⟩, by decide, by decide, by decide,
    by decide, by decide⟩

/-- C21 (amended): on a well-formed blob whose structure block, `END` tag
included, is shorter than `2^31` bytes and whose property names are
NUL-terminated strings at name offsets below `2^31`, for every property name
`pn` without NUL, every `val` and every `vallen ≥ 0`:
`fdt_lookup_node_by_property_value` from -1 returns the first node in document
order, the root included, that has the property named `pn` with a value of
`vallen` bytes equal to `val`; from the offset of a node (the `BEGIN_NODE` after
the records `pre`) it returns the first such node among those that begin after
it; both times -1 (NotFound) when there is none.  The nodes are listed in
increasing order of offset. -/
theorem lookup_by_property_value_first_node (m : Mem) (ts : List Tok)
    (wf : WellFormed m ts) (h31 : streamSize ts + 4 < 2147483648)
    (fuel : Nat) (hf : ts.length + 2 ≤ fuel) (uninit : Int)
    (hnt : ∀ np ∈ nodesWithProps 0 ts, NamesTerminated m fuel np.2)
    (pn : List Nat) (hnul : ∀ b ∈ pn, b % 256 ≠ 0) (hpn : pn.length < 2147483648)
    (hpf : pn.length < fuel) (val : CStr) (vallen : Nat) :
    fdt_lookup_node_by_property_value m fuel (-1) (strOfBytes pn) val vallen uninit
      = some (firstWithValue m (strOfBytes pn) pn.length val vallen (nodesWithProps 0 ts)) ∧
    (∀ (pre : List Tok) (k : Nat) (post : List Tok), ts = pre ++ Tok.beginNode k :: post →
      fdt_lookup_node_by_property_value m fuel (streamSize pre : Int) (strOfBytes pn) val vallen
          uninit
        = some (firstWithValue m (strOfBytes pn) pn.length val vallen
            (nodesWithProps (streamSize pre + (Tok.beginNode k).size) post)) ∧
      (nodesWithProps (streamSize pre + (Tok.beginNode k).size) post).map Prod.fst
        = beginOffsets (streamSize pre + (Tok.beginNode k).size) post ∧
      beginOffsets 0 ts = beginOffsets 0 pre ++
        streamSize pre :: beginOffsets (streamSize pre + (Tok.beginNode k).size) post) ∧
    (nodesWithProps 0 ts).map Prod.fst = beginOffsets 0 ts ∧
    (beginOffsets 0 ts).Pairwise (· < ·) := by
  have hl : Laid m 0 ts := wf.laid h31
  refine ⟨?_, ?_, nodesWithProps_fst ts 0, beginOffsets_increasing _ _⟩
  · unfold fdt_lookup_node_by_property_value
    have hneg : fdt_next_node m fuel (-1) false 0 = next_node_loop m false fuel 0 0 := by
      simp [fdt_next_node]
    rw [hneg]
    exact propvalue_scan fuel pn hnul hpn hpf val vallen uninit ts 0 0 hl hnt fuel fuel
      (by omega) (by omega) (by omega)
  · intro pre k post hts
    subst hts
    have hl2 : Laid m (streamSize pre) (Tok.beginNode k :: post) := by
      simpa using hl.drop pre
    simp only [List.length_append, List.length_cons] at hf
    refine ⟨?_, nodesWithProps_fst _ _, ?_⟩
    · unfold fdt_lookup_node_by_property_value
      rw [hl2.fdt_next_node]
      refine propvalue_scan fuel pn hnul hpn hpf val vallen uninit post _ 0 hl2.tail ?_ fuel fuel
        (by omega) (by omega) (by omega)
      intro np hnp
      apply hnt np
      have := nodesWithProps_suffix (pre ++ [Tok.beginNode k]) post 0 np
        (by simpa [streamSize_append, streamSize] using hnp)
      simpa using this
    · rw [beginOffsets_append]
      simp [beginOffsets]

/-- C21 (witness): in `listBlob` the value "foo\0bar\0" of `compatible` is found
at the root from -1 and nowhere from 0, and the value "bar" of length 3 at the
node at offset 28. -/
theorem lookup_by_property_value_first_node_witness :
    WellFormed listBlob listToks ∧
    fdt_lookup_node_by_property_value listBlob 20 (-1) compatibleName
      (strOfBytes [102, 111, 111, 0, 98, 97, 114, 0]) 8 0 = some 0 ∧
    fdt_lookup_node_by_property_value listBlob 20 0 compatibleName
      (strOfBytes [102, 111, 111, 0, 98, 97, 114, 0]) 8 0 = some (-1) ∧
    fdt_lookup_node_by_property_value listBlob 20 (-1) compatibleName
      (strOfBytes [98, 97, 114]) 3 0 = some 28 ∧
    fdt_lookup_node_by_property_value listBlob 20 (-1)
        (strOfBytes [99, 111, 109, 112, 97, 116, 105, 98, 108, 101])
        (strOfBytes [98, 97, 114]) ((3 : Nat) : Int) 0
      = some (firstWithValue listBlob (strOfBytes [99, 111, 109, 112, 97, 116, 105, 98, 108, 101])
          [99, 111, 109, 112, 97, 116, 105, 98, 108, 101].length (strOfBytes [98, 97, 114]) 3
          (nodesWithProps 0 listToks)) :=
  ⟨⟨by decide, ⟨_, _, rfl⟩, by decide, by decide, by decide⟩, by decide, by decide, by decide,
    (lookup_by_property_value_first_node listBlob listToks
      ⟨by decide, ⟨_, _, rfl⟩, by decide, by decide, by decide⟩ (by decide) 20 (by decide) 0
      (by unfold NamesTerminated; decide) [99, 111, 109, 112, 97, 116, 105, 98, 108, 101]
      (by decide) (by decide) (by decide) (strOfBytes [98, 97, 114]) 3).1⟩

/-! ## String lists: the bytes of a value and their entries -/

theorem memBytes_length (m : Mem) (a : Int) (K : Nat) : (memBytes m a K).length = K := by
  simp [memBytes]

theorem memBytes_succ (m : Mem) (a : Int) (K : Nat) :
    memBytes m a (K + 1) = byteAt m a :: memBytes m (a + 1) K := by
  unfold memBytes
  rw [List.range_succ_eq_map]
  simp only [List.map_cons, List.map_map, List.cons.injEq]
  refine ⟨by simp, ?_⟩
  apply List.map_congr_left
  intro i _
  simp only [Function.comp, Int.ofNat_eq_coe, Nat.cast_succ]
  congr 1; ring

theorem memBytes_lt (m : Mem) (a : Int) (K : Nat) : ∀ b ∈ memBytes m a K, b < 256 := by
  intro b hb
  simp only [memBytes, List.mem_map, List.mem_range] at hb
  obtain ⟨i, _, rfl⟩ := hb
  unfold byteAt; omega

theorem memBytes_getElem (m : Mem) (a : Int) (K i : Nat) (h : i < (memBytes m a K).length) :
    (memBytes m a K)[i] = byteAt m (a + i) := by
  simp [memBytes]

theorem strnlen_loop_spec (s : CStr) :
    ∀ (n i : Nat), ∃ j, strnlen_loop s n i = i + j ∧ j ≤ n ∧
      (∀ t, t < j → s (i + t) % 256 ≠ 0) ∧ (j < n → s (i + j) % 256 = 0) := by
  intro n
  induction n with
  | zero => intro i; exact ⟨0, rfl, le_refl _, fun t ht => absurd ht (by omega), fun h => absurd h (by omega)⟩
  | succ n ih =>
    intro i
    unfold strnlen_loop
    split_ifs with h
    · obtain ⟨j, h1, h2, h3, h4⟩ := ih (i + 1)
      refine ⟨j + 1, by rw [h1]; omega, by omega, ?_, ?_⟩
      · intro t ht
        cases t with
        | zero => simpa using h
        | succ t =>
          have := h3 t (by omega)
          rw [show i + (t + 1) = i + 1 + t by omega]; exact this
      · intro hj
        have := h4 (by omega)
        rw [show i + (j + 1) = i + 1 + j by omega]; exact this
    · exact ⟨0, rfl, by omega, fun t ht => absurd ht (by omega), fun _ => by simpa using h⟩

/-- The first entry of a stretch of memory whose first NUL, if any, is at index `j`. -/
theorem firstEntry_memBytes (m : Mem) :
    ∀ (j K : Nat) (p : Int), j ≤ K → (∀ t : Nat, t < j → byteAt m (p + t) ≠ 0) →
      (j < K → byteAt m (p + j) = 0) →
      firstEntry (memBytes m p K) =
        if j < K then some (memBytes m p j, memBytes m (p + ((j + 1 : Nat) : Int)) (K - (j + 1)))
        else none := by
  intro j
  induction j with
  | zero =>
    intro K p _ _ hz
    cases K with
    | zero => simp [memBytes, firstEntry]
    | succ K =>
      have h0 : byteAt m p = 0 := by simpa using hz (by omega)
      rw [memBytes_succ, if_pos (by omega)]
      simp [firstEntry, h0, memBytes]
  | succ j ih =>
    intro K p hjK hnz hz
    cases K with
    | zero => omega
    | succ K =>
      have h0 : byteAt m p ≠ 0 := by simpa using hnz 0 (by omega)
      have := ih K (p + 1) (by omega)
        (fun t ht => by
          have := hnz (t + 1) (by omega)
          rw [show p + 1 + (t : Int) = p + ((t + 1 : Nat) : Int) by push_cast; ring]; exact this)
        (fun hj => by
          have := hz (by omega)
          rw [show p + 1 + (j : Int) = p + ((j + 1 : Nat) : Int) by push_cast; ring]; exact this)
      rw [memBytes_succ]
      unfold firstEntry
      rw [if_neg h0, this]
      by_cases hj : j < K
      · rw [if_pos hj, if_pos (by omega), memBytes_succ]
        simp only [Option.some.injEq, Prod.mk.injEq, true_and]
        rw [show p + 1 + ((j + 1 : Nat) : Int) = p + ((j + 1 + 1 : Nat) : Int) by push_cast; ring,
          show K + 1 - (j + 1 + 1) = K - (j + 1) by omega]
      · rw [if_neg hj, if_neg (by omega)]

theorem firstEntry_some {l e r : List Nat} (h : firstEntry l = some (e, r)) :
    l = e ++ 0 :: r ∧ (∀ b ∈ e, b ≠ 0) := by
  induction l generalizing e with
  | nil => simp [firstEntry] at h
  | cons b rest ih =>
    unfold firstEntry at h
    split_ifs at h with hb
    · simp only [Option.some.injEq, Prod.mk.injEq] at h
      obtain ⟨rfl, rfl⟩ := h
      exact ⟨by simp [hb], by simp⟩
    · cases hf : firstEntry rest with
      | none => rw [hf] at h; simp at h
      | some x =>
        obtain ⟨e', r'⟩ := x
        rw [hf] at h
        simp only [Option.some.injEq, Prod.mk.injEq] at h
        obtain ⟨rfl, rfl⟩ := h
        obtain ⟨h1, h2⟩ := ih hf
        refine ⟨by rw [h1]; rfl, ?_⟩
        intro c hc
        rcases List.mem_cons.mp hc with rfl | hc
        · exact hb
        · exact h2 c hc

theorem firstEntry_none {l : List Nat} (h : firstEntry l = none) : ∀ b ∈ l, b ≠ 0 := by
  induction l with
  | nil => simp
  | cons b rest ih =>
    unfold firstEntry at h
    split_ifs at h with hb
    cases hf : firstEntry rest with
    | none =>
      intro c hc
      rcases List.mem_cons.mp hc with rfl | hc
      · exact hb
      · exact ih hf c hc
    | some x => rw [hf] at h; simp at h

theorem unterminated_cons (x : Nat) {l : List Nat} (h : l ≠ []) :
    unterminated (x :: l) = unterminated l := by
  cases l with
  | nil => exact absurd rfl h
  | cons c rest => rfl

theorem unterminated_append_nul (e r : List Nat) :
    unterminated (e ++ 0 :: r) = unterminated r := by
  induction e with
  | nil =>
    cases r with
    | nil => rfl
    | cons c rest => rfl
  | cons x e ih =>
    rw [List.cons_append, unterminated_cons x (by simp), ih]

theorem unterminated_of_no_nul {l : List Nat} (hl : l ≠ []) (h : ∀ b ∈ l, b ≠ 0) :
    unterminated l = true := by
  induction l with
  | nil => exact absurd rfl hl
  | cons x l ih =>
    cases l with
    | nil => simpa [unterminated] using h x (List.mem_cons_self _ _)
    | cons c rest =>
      rw [unterminated_cons x (by simp)]
      exact ih (by simp) (fun b hb => h b (List.mem_cons_of_mem _ hb))

theorem unterminated_iff (l : List Nat) :
    unterminated l = true ↔ l ≠ [] ∧ l.getLast? ≠ some 0 := by
  induction l with
  | nil => simp [unterminated]
  | cons x l ih =>
    cases l with
    | nil => simp [unterminated]
    | cons c rest =>
      rw [unterminated_cons x (by simp), ih]
      simp [List.getLast?_cons_cons]

theorem count_nul_append (e r : List Nat) (h : ∀ b ∈ e, b ≠ 0) :
    (e ++ 0 :: r).count 0 = r.count 0 + 1 := by
  rw [List.count_append, List.count_cons_self, List.count_eq_zero.mpr (fun hx => h 0 hx rfl)]
  omega

theorem count_nul_none {l : List Nat} (h : ∀ b ∈ l, b ≠ 0) : l.count 0 = 0 :=
  List.count_eq_zero.mpr (fun hx => h 0 hx rfl)

/-- One round of the string-list loops at address `p` with `K > 0` bytes left:
either no NUL is left and the length computed exceeds what is left, or the first
NUL is at index `j` and the length computed is `j + 1`. -/
theorem scan_step (m : Mem) (p : Int) (K : Nat) (hK0 : 0 < K) (hK : K + 1 < 2147483648) :
    (firstEntry (memBytes m p K) = none ∧
      toInt32 (strnlen (memStr m p) (toInt32 (p + (K : Int) - p)) + 1) = ((K + 1 : Nat) : Int)) ∨
    (∃ j, j < K ∧
      firstEntry (memBytes m p K)
        = some (memBytes m p j, memBytes m (p + ((j + 1 : Nat) : Int)) (K - (j + 1))) ∧
      toInt32 (strnlen (memStr m p) (toInt32 (p + (K : Int) - p)) + 1) = ((j + 1 : Nat) : Int) ∧
      (∀ t : Nat, t < j → byteAt m (p + t) ≠ 0) ∧ byteAt m (p + j) = 0) := by
  have hc : toInt32 (p + (K : Int) - p) = (K : Int) := by
    rw [show p + (K : Int) - p = (K : Int) by ring]; exact toInt32_natCast (by omega)
  obtain ⟨j, h1, h2, h3, h4⟩ := strnlen_loop_spec (memStr m p) K 0
  simp only [Nat.zero_add, memStr, byteAt_mod] at h1 h3 h4
  have hs : strnlen (memStr m p) (toInt32 (p + (K : Int) - p)) = (j : Int) := by
    unfold strnlen
    rw [hc, toU32_natCast (by omega), h1]
    exact toInt32_natCast (by omega)
  have hlen : toInt32 (strnlen (memStr m p) (toInt32 (p + (K : Int) - p)) + 1)
      = ((j + 1 : Nat) : Int) := by
    rw [hs]
    have := toInt32_natCast (o := j + 1) (by omega)
    simpa using this
  have hfe := firstEntry_memBytes m j K p h2 h3 h4
  by_cases hj : j < K
  · rw [if_pos hj] at hfe
    exact Or.inr ⟨j, hj, hfe, hlen, h3, h4 hj⟩
  · rw [if_neg hj] at hfe
    have : j = K := by omega
    subst this
    exact Or.inl ⟨hfe, hlen⟩

/-! ## String lists: the loops of `fdt_stringlist_count`, `_search` and `_get` -/

theorem memBytes_zero (m : Mem) (p : Int) : memBytes m p 0 = [] := rfl

theorem entriesFrom_nil (f pos : Nat) : entriesFrom f pos [] = [] := by
  cases f <;> rfl

theorem stringlist_count_loop_spec (m : Mem) :
    ∀ (fuel K : Nat) (p c : Int), K < fuel → K + 1 < 2147483648 → 0 ≤ c →
      c + K < 2147483648 →
      stringlist_count_loop m (p + (K : Int)) fuel p c =
        some (if unterminated (memBytes m p K) = true then -FDT_ERR_BADVALUE
          else c + (((memBytes m p K).count 0 : Nat) : Int)) := by
  intro fuel
  induction fuel with
  | zero => intro K p c h; omega
  | succ f ih =>
    intro K p c hf hK hc0 hc
    rw [stringlist_count_loop]
    by_cases hK0 : K = 0
    · subst hK0
      simp [memBytes_zero, unterminated]
    · rw [if_pos (by omega)]
      simp only []
      rcases scan_step m p K (by omega) hK with ⟨hfe, hlen⟩ | ⟨j, hj, hfe, hlen, _, _⟩
      · rw [hlen, if_pos (by push_cast; omega)]
        have hne : memBytes m p K ≠ [] := by
          intro hx
          have := memBytes_length m p K
          rw [hx] at this; simp at this; omega
        rw [unterminated_of_no_nul hne (firstEntry_none hfe), if_pos rfl]
      · rw [hlen, if_neg (by push_cast; omega)]
        have hc1 : toInt32 (c + 1) = c + 1 := toInt32_id (by unfold isInt32; omega)
        have he : p + (K : Int) = p + ((j + 1 : Nat) : Int) + ((K - (j + 1) : Nat) : Int) := by
          omega
        rw [hc1, he, ih (K - (j + 1)) _ (c + 1) (by omega) (by omega) (by omega) (by omega)]
        obtain ⟨hl, hnz⟩ := firstEntry_some hfe
        rw [hl, unterminated_append_nul, count_nul_append _ _ hnz]
        split_ifs
        · rfl
        · simp only [Option.some.injEq]; push_cast; ring

/-- An entry of `j` bytes at address `p` passes the test of `fdt_stringlist_search`
exactly when it is the string searched for. -/
theorem entry_match (m : Mem) (p : Int) (j : Nat) (s : List Nat)
    (hs : ∀ b ∈ s, b ≠ 0 ∧ b < 256) (hnz : ∀ t : Nat, t < j → byteAt m (p + t) ≠ 0)
    (hz : byteAt m (p + j) = 0) :
    (((j + 1 : Nat) : Int) = ((s.length + 1 : Nat) : Int) ∧
      memcmp (memStr m p) (strOfBytes s) ((j + 1 : Nat) : Int) = 0) ↔ memBytes m p j = s := by
  unfold memcmp
  rw [Int.toNat_ofNat, memcmp_loop_eq_zero]
  simp only [Nat.zero_add, memStr, byteAt_mod]
  have hget : ∀ i, i < s.length → strOfBytes s i % 256 = strOfBytes s i ∧ strOfBytes s i ∈ s := by
    intro i hi
    have hm := strOfBytes_mem s i hi
    exact ⟨Nat.mod_eq_of_lt (hs _ hm).2, hm⟩
  constructor
  · rintro ⟨h1, h2⟩
    have hj : j = s.length := by omega
    apply List.ext_getElem
    · rw [memBytes_length]; exact hj
    · intro i hi1 hi2
      rw [memBytes_getElem]
      have := h2 i (by omega)
      rw [this, (hget i hi2).1]
      simp [strOfBytes, List.getD_eq_getElem?_getD, List.getElem?_eq_getElem hi2]
  · intro h
    have hj : j = s.length := by rw [← h, memBytes_length]
    refine ⟨by omega, ?_⟩
    intro i hi
    rcases Nat.lt_or_ge i j with hlt | hge
    · have hi2 : i < s.length := by omega
      have hb : i < (memBytes m p j).length := by rw [memBytes_length]; exact hlt
      have h3 : (memBytes m p j)[i] = byteAt m (p + i) := memBytes_getElem m p j i hb
      rw [← h3, (hget i hi2).1]
      simp [strOfBytes, List.getD_eq_getElem?_getD, List.getElem?_eq_getElem hi2, h]
    · have : i = j := by omega
      subst this
      rw [hz, hj]
      simp [strOfBytes, List.getD_eq_getElem?_getD]
theorem stringlist_search_loop_spec (m : Mem) (s : List Nat) (hs : ∀ b ∈ s, b ≠ 0 ∧ b < 256) :
    ∀ (fuel K f2 pos idx : Nat) (p : Int), K < fuel → K + 1 < 2147483648 →
      idx + K < 2147483648 → K ≤ f2 →
      stringlist_search_loop m (p + (K : Int)) (strOfBytes s) ((s.length + 1 : Nat) : Int) fuel p
          (idx : Int) =
        some (searchResult s idx (entriesFrom f2 pos (memBytes m p K))
          (unterminated (memBytes m p K))) := by
  intro fuel
  induction fuel with
  | zero => intro K f2 pos idx p h; omega
  | succ f ih =>
    intro K f2 pos idx p hf hK hidx hf2
    rw [stringlist_search_loop]
    by_cases hK0 : K = 0
    · subst hK0
      simp [memBytes_zero, entriesFrom_nil, searchResult, indexFrom, unterminated]
    · rw [if_pos (by omega)]
      simp only []
      obtain ⟨g, rfl⟩ : ∃ g, f2 = g + 1 := ⟨f2 - 1, by omega⟩
      rcases scan_step m p K (by omega) hK with ⟨hfe, hlen⟩ | ⟨j, hj, hfe, hlen, hnz, hz⟩
      · rw [hlen, if_pos (by push_cast; omega)]
        have hne : memBytes m p K ≠ [] := by
          intro hx
          have := memBytes_length m p K
          rw [hx] at this; simp at this; omega
        rw [unterminated_of_no_nul hne (firstEntry_none hfe)]
        simp [entriesFrom, hfe, searchResult, indexFrom]
      · rw [hlen, if_neg (by push_cast; omega)]
        have hmatch := entry_match m p j s hs hnz hz
        obtain ⟨hl, _⟩ := firstEntry_some hfe
        have hu : unterminated (memBytes m p K)
            = unterminated (memBytes m (p + ((j + 1 : Nat) : Int)) (K - (j + 1))) := by
          rw [hl, unterminated_append_nul]
        have hent : entriesFrom (g + 1) pos (memBytes m p K)
            = (pos, memBytes m p j) :: entriesFrom g (pos + (memBytes m p j).length + 1)
                (memBytes m (p + ((j + 1 : Nat) : Int)) (K - (j + 1))) := by
          simp only [entriesFrom, hfe]
        rw [hent, hu]
        by_cases he : memBytes m p j = s
        · rw [if_pos (hmatch.mpr he)]
          simp [searchResult, indexFrom, he]
        · rw [if_neg (fun hx => he (hmatch.mp hx))]
          have hi1 : toInt32 ((idx : Int) + 1) = ((idx + 1 : Nat) : Int) := by
            have := toInt32_natCast (o := idx + 1) (by omega)
            simpa using this
          have hend : p + (K : Int) = p + ((j + 1 : Nat) : Int) + ((K - (j + 1) : Nat) : Int) := by
            omega
          rw [hi1, hend, ih (K - (j + 1)) g (pos + (memBytes m p j).length + 1) (idx + 1) _
            (by omega) (by omega) (by omega) (by omega)]
          simp [searchResult, indexFrom, he]

theorem stringlist_get_loop_spec (m : Mem) (a : Int) :
    ∀ (fuel K f2 pos idx : Nat), K < fuel → K + 1 < 2147483648 → idx < 2147483648 → K ≤ f2 →
      stringlist_get_loop m (a + (pos : Int) + (K : Int)) fuel (a + (pos : Int)) (idx : Int) =
        some (getResult a (unterminated (memBytes m (a + (pos : Int)) K))
          ((entriesFrom f2 pos (memBytes m (a + (pos : Int)) K))[idx]?)) := by
  intro fuel
  induction fuel with
  | zero => intro K f2 pos idx h; omega
  | succ f ih =>
    intro K f2 pos idx hf hK hidx hf2
    rw [stringlist_get_loop]
    by_cases hK0 : K = 0
    · subst hK0
      simp [memBytes_zero, entriesFrom_nil, getResult, unterminated]
    · rw [if_pos (by omega)]
      simp only []
      obtain ⟨g, rfl⟩ : ∃ g, f2 = g + 1 := ⟨f2 - 1, by omega⟩
      rcases scan_step m (a + (pos : Int)) K (by omega) hK with
        ⟨hfe, hlen⟩ | ⟨j, hj, hfe, hlen, hnz, hz⟩
      · rw [hlen, if_pos (by push_cast; omega)]
        have hne : memBytes m (a + (pos : Int)) K ≠ [] := by
          intro hx
          have := memBytes_length m (a + (pos : Int)) K
          rw [hx] at this; simp at this; omega
        rw [unterminated_of_no_nul hne (firstEntry_none hfe)]
        simp [entriesFrom, hfe, getResult]
      · rw [hlen, if_neg (by push_cast; omega)]
        obtain ⟨hl, _⟩ := firstEntry_some hfe
        have hu : unterminated (memBytes m (a + (pos : Int)) K)
            = unterminated (memBytes m (a + (pos : Int) + ((j + 1 : Nat) : Int)) (K - (j + 1))) := by
          rw [hl, unterminated_append_nul]
        have hent : entriesFrom (g + 1) pos (memBytes m (a + (pos : Int)) K)
            = (pos, memBytes m (a + (pos : Int)) j) ::
                entriesFrom g (pos + (memBytes m (a + (pos : Int)) j).length + 1)
                  (memBytes m (a + (pos : Int) + ((j + 1 : Nat) : Int)) (K - (j + 1))) := by
          simp only [entriesFrom, hfe]
        rw [hent, hu]
        cases idx with
        | zero =>
          simp only [Nat.cast_zero, if_true, List.getElem?_cons_zero, getResult, memBytes_length]
          have : toInt32 (((j + 1 : Nat) : Int) - 1) = (j : Int) := by
            have := toInt32_natCast (o := j) (by omega)
            simpa using this
          rw [this]
        | succ i =>
          have hne0 : ¬ (((i + 1 : Nat) : Int) = 0) := by omega
          rw [if_neg hne0]
          have hi1 : toInt32 (((i + 1 : Nat) : Int) - 1) = (i : Int) := by
            have := toInt32_natCast (o := i) (by omega)
            simpa using this
          have hp : a + (pos : Int) + ((j + 1 : Nat) : Int)
              = a + ((pos + (memBytes m (a + (pos : Int)) j).length + 1 : Nat) : Int) := by
            rw [memBytes_length]; push_cast; ring
          have hend : a + (pos : Int) + (K : Int)
              = a + ((pos + (memBytes m (a + (pos : Int)) j).length + 1 : Nat) : Int)
                + ((K - (j + 1) : Nat) : Int) := by
            rw [memBytes_length]; omega
          rw [hi1, hend, hp, ih (K - (j + 1)) g _ i (by omega) (by omega) (by omega) (by omega)]
          simp only [List.getElem?_cons_succ]

theorem stringlist_get_loop_none (m : Mem) :
    ∀ (fuel K : Nat) (p idx : Int), K < fuel → K + 1 < 2147483648 →
      (∀ t : Nat, t ≤ K → (idx - t) % 4294967296 ≠ 0) →
      ∃ e, stringlist_get_loop m (p + (K : Int)) fuel p idx = some (none, e) := by
  intro fuel
  induction fuel with
  | zero => intro K p idx h; omega
  | succ f ih =>
    intro K p idx hf hK hidx
    rw [stringlist_get_loop]
    by_cases hK0 : K = 0
    · subst hK0
      exact ⟨-FDT_ERR_NOTFOUND, by simp⟩
    · rw [if_pos (by omega)]
      simp only []
      rcases scan_step m p K (by omega) hK with ⟨hfe, hlen⟩ | ⟨j, hj, hfe, hlen, hnz, hz⟩
      · rw [hlen, if_pos (by push_cast; omega)]
        exact ⟨_, rfl⟩
      · rw [hlen, if_neg (by push_cast; omega)]
        have h0 : idx ≠ 0 := by
          intro hx
          have := hidx 0 (by omega)
          rw [hx] at this
          simp at this
        rw [if_neg h0]
        have hend : p + (K : Int) = p + ((j + 1 : Nat) : Int) + ((K - (j + 1) : Nat) : Int) := by
          omega
        rw [hend]
        apply ih (K - (j + 1)) _ _ (by omega) (by omega)
        intro t ht
        have := hidx (t + 1) (by omega)
        unfold toInt32
        push_cast at this
        omega

/-! ## String lists of a property of a node -/

theorem propLen_bound_of_mem {m : Mem} :
    ∀ (ts : List Tok) (o : Nat), Laid m o ts → ∀ y ∈ propOffsets o ts,
      propLen m y + 12 < 2147483648 := by
  intro ts
  induction ts with
  | nil => intro o _ y hy; simp [propOffsets] at hy
  | cons t ts ih =>
    intro o h y hy
    cases t with
    | beginNode k => simp [propOffsets] at hy
    | endNode => simp [propOffsets] at hy
    | prop len =>
      simp only [propOffsets, List.mem_cons] at hy
      rcases hy with rfl | hy
      · have h1 := h.propLen
        have h2 := h.small
        simp only [streamSize, Tok.size] at h2
        omega
      · exact ih _ h.tail y hy
    | nop =>
      simp only [propOffsets] at hy
      exact ih _ h.tail y hy

/-- On a node that has the property named `pn`, at structure offset `y`,
`fdt_lookup_property_value_by_name` returns its value and its length. -/
theorem fdt_lookup_property_value_by_name_laid {m : Mem} {o k : Nat} {ts : List Tok}
    (h : Laid m o (Tok.beginNode k :: ts)) (fuel : Nat) (pn : List Nat)
    (hnul : ∀ b ∈ pn, b % 256 ≠ 0) (hpn : pn.length < 2147483648) (hpf : pn.length < fuel)
    (uninit : Int)
    (hnt : NamesTerminated m fuel (propOffsets (o + (Tok.beginNode k).size) ts))
    (hf : ts.length + 1 < fuel) (y : Nat)
    (hfp : findProp m (strOfBytes pn) pn.length (propOffsets (o + (Tok.beginNode k).size) ts)
      = some y) :
    fdt_lookup_property_value_by_name m fuel (o : Int) (strOfBytes pn) uninit
      = some (some (propValueAddr m y), (propLen m y : Int)) ∧
    propLen m y + 12 < 2147483648 := by
  have hb := propLen_bound_of_mem ts _ h.tail y (findProp_mem hfp)
  refine ⟨?_, hb⟩
  obtain ⟨res, h1, h2, _⟩ :=
    fdt_lookup_property_value_laid h fuel (strOfBytes pn) pn.length hpn uninit hnt hf
  unfold fdt_lookup_property_value_by_name
  rw [strlen_strOfBytes pn fuel hnul hpn hpf]
  simp only
  rw [h1, h2 y hfp, toInt32_natCast (by omega)]

theorem fdt_stringlist_count_of_lookup (m : Mem) (fuel : Nat) (o : Int) (name : CStr)
    (uninit : Int) (y : Nat)
    (hlook : fdt_lookup_property_value_by_name m fuel o name uninit
      = some (some (propValueAddr m y), (propLen m y : Int)))
    (hb : propLen m y + 1 < 2147483648) (hK : propLen m y < fuel) :
    fdt_stringlist_count m fuel o name uninit =
      some (if unterminated (valueBytes m y) = true then -FDT_ERR_BADVALUE
        else (((valueBytes m y).count 0 : Nat) : Int)) := by
  unfold fdt_stringlist_count
  rw [hlook]
  simp only
  rw [stringlist_count_loop_spec m fuel (propLen m y) (propValueAddr m y) 0 hK hb (le_refl _)
    (by omega)]
  simp only [valueBytes, zero_add]

theorem fdt_stringlist_search_of_lookup (m : Mem) (fuel : Nat) (o : Int) (name : CStr)
    (uninit : Int) (y : Nat)
    (hlook : fdt_lookup_property_value_by_name m fuel o name uninit
      = some (some (propValueAddr m y), (propLen m y : Int)))
    (hb : propLen m y + 1 < 2147483648) (hK : propLen m y < fuel)
    (s : List Nat) (hs : ∀ b ∈ s, b ≠ 0 ∧ b < 256) (hsl : s.length + 1 < 2147483648)
    (hsf : s.length < fuel) :
    fdt_stringlist_search m fuel o name (strOfBytes s) uninit =
      some (searchResult s 0 (stringEntries (valueBytes m y)) (unterminated (valueBytes m y))) := by
  unfold fdt_stringlist_search
  rw [hlook]
  simp only
  rw [strlen_strOfBytes s fuel (fun b hb => by
    have := hs b hb
    rw [Nat.mod_eq_of_lt this.2]; exact this.1) (by omega) hsf]
  simp only
  have hl1 : toInt32 ((s.length : Int) + 1) = ((s.length + 1 : Nat) : Int) := by
    have := toInt32_natCast (o := s.length + 1) hsl
    simpa using this
  rw [hl1]
  have := stringlist_search_loop_spec m s hs fuel (propLen m y) (propLen m y) 0 0
    (propValueAddr m y) hK hb (by omega) (le_refl _)
  simp only [Nat.cast_zero] at this
  rw [this]
  simp only [stringEntries, valueBytes, memBytes_length]

theorem fdt_stringlist_get_of_lookup (m : Mem) (fuel : Nat) (o : Int) (name : CStr)
    (uninit : Int) (y : Nat)
    (hlook : fdt_lookup_property_value_by_name m fuel o name uninit
      = some (some (propValueAddr m y), (propLen m y : Int)))
    (hb : propLen m y + 1 < 2147483648) (hK : propLen m y < fuel)
    (i : Nat) (hi : i < 2147483648) :
    fdt_stringlist_get m fuel o name (i : Int) uninit =
      some (getResult (propValueAddr m y) (unterminated (valueBytes m y))
        ((stringEntries (valueBytes m y))[i]?)) := by
  unfold fdt_stringlist_get
  rw [hlook]
  simp only
  have := stringlist_get_loop_spec m (propValueAddr m y) fuel (propLen m y) (propLen m y) 0 i
    hK hb hi (le_refl _)
  simp only [Nat.cast_zero, add_zero] at this
  rw [this]
  simp only [stringEntries, valueBytes, memBytes_length]

theorem fdt_stringlist_get_negative_of_lookup (m : Mem) (fuel : Nat) (o : Int) (name : CStr)
    (uninit : Int) (y : Nat)
    (hlook : fdt_lookup_property_value_by_name m fuel o name uninit
      = some (some (propValueAddr m y), (propLen m y : Int)))
    (hb : propLen m y + 1 < 2147483648) (hK : propLen m y < fuel)
    (i : Int) (hi0 : i < 0) (hi : -2147483648 ≤ i) :
    ∃ e, fdt_stringlist_get m fuel o name i uninit = some (none, e) := by
  unfold fdt_stringlist_get
  rw [hlook]
  simp only
  exact stringlist_get_loop_none m fuel (propLen m y) (propValueAddr m y) i hK hb
    (fun t ht => by omega)

theorem entriesFrom_length :
    ∀ (f pos : Nat) (l : List Nat), l.length ≤ f → (entriesFrom f pos l).length = l.count 0 := by
  intro f
  induction f with
  | zero =>
    intro pos l hl
    have : l = [] := List.length_eq_zero.mp (by omega)
    subst this; rfl
  | succ f ih =>
    intro pos l hl
    unfold entriesFrom
    cases hfe : firstEntry l with
    | none => simp [count_nul_none (firstEntry_none hfe)]
    | some x =>
      obtain ⟨e, r⟩ := x
      obtain ⟨h1, h2⟩ := firstEntry_some hfe
      simp only [List.length_cons]
      rw [ih _ r (by rw [h1] at hl; simp at hl; omega), h1, count_nul_append _ _ h2]

/-- The entries listed are where they are said to be: the bytes from the index
on are the entry, and a NUL follows them. -/
theorem entriesFrom_at (V : List Nat) :
    ∀ (f pos : Nat) (l : List Nat), V.drop pos = l → ∀ x ∈ entriesFrom f pos l,
      (V.drop x.1).take x.2.length = x.2 ∧ V[x.1 + x.2.length]? = some 0 := by
  intro f
  induction f with
  | zero => intro pos l _ x hx; simp [entriesFrom] at hx
  | succ f ih =>
    intro pos l hl x hx
    unfold entriesFrom at hx
    cases hfe : firstEntry l with
    | none => rw [hfe] at hx; simp at hx
    | some y =>
      obtain ⟨e, r⟩ := y
      rw [hfe] at hx
      obtain ⟨h1, _⟩ := firstEntry_some hfe
      simp only [List.mem_cons] at hx
      rcases hx with rfl | hx
      · simp only
        constructor
        · rw [hl, h1]; simp
        · have : V[pos + e.length]? = (V.drop pos)[e.length]? := by
            rw [List.getElem?_drop]
          rw [this, hl, h1, List.getElem?_append_right (le_refl _)]
          simp
      · apply ih (pos + e.length + 1) r ?_ x hx
        have : V.drop (pos + e.length + 1) = (V.drop pos).drop (e.length + 1) := by
          rw [List.drop_drop, Nat.add_assoc]
        rw [this, hl, h1]
        simp

theorem indexFrom_spec (s : List Nat) :
    ∀ (es : List (Nat × List Nat)) (i0 : Nat),
      (∀ j, indexFrom s i0 es = some j →
        i0 ≤ j ∧ (es[j - i0]?).map Prod.snd = some s ∧
          ∀ i, i < j - i0 → (es[i]?).map Prod.snd ≠ some s) ∧
      (indexFrom s i0 es = none → ∀ e ∈ es, e.2 ≠ s) := by
  intro es
  induction es with
  | nil => intro i0; simp [indexFrom]
  | cons e es ih =>
    intro i0
    unfold indexFrom
    split_ifs with he
    · refine ⟨fun j hj => ?_, fun h => by simp at h⟩
      simp only [Option.some.injEq] at hj
      subst hj
      simp [he]
    · obtain ⟨h1, h2⟩ := ih (i0 + 1)
      refine ⟨fun j hj => ?_, fun h x hx => ?_⟩
      · obtain ⟨h3, h4, h5⟩ := h1 j hj
        refine ⟨by omega, ?_, ?_⟩
        · rw [show j - i0 = (j - (i0 + 1)) + 1 by omega, List.getElem?_cons_succ]; exact h4
        · intro i hi
          cases i with
          | zero => simpa using he
          | succ i =>
            rw [List.getElem?_cons_succ]
            exact h5 i (by omega)
      · rcases List.mem_cons.mp hx with rfl | hx
        · exact he
        · exact h2 h x hx

theorem getResult_fst (a : Int) (u : Bool) (x : Option (Nat × List Nat)) :
    (getResult a u x).1 ≠ none ↔ x ≠ none := by
  cases x <;> simp [getResult]

theorem count_nul_pos (l : List Nat) (hne : l ≠ []) (hu : unterminated l = false) :
    1 ≤ l.count 0 := by
  have h1 : ¬ (l ≠ [] ∧ l.getLast? ≠ some 0) := by
    rw [← unterminated_iff]; simp [hu]
  have h2 : l.getLast? = some 0 := by
    by_contra h; exact h1 ⟨hne, h⟩
  have h3 : (0 : Nat) ∈ l := List.mem_of_getLast?_eq_some h2
  exact List.count_pos_iff.mpr h3

theorem unterminated_false_of (l : List Nat) (h : l = [] ∨ l.getLast? = some 0) :
    unterminated l = false := by
  cases hu : unterminated l with
  | false => rfl
  | true =>
    have := (unterminated_iff l).mp hu
    rcases h with h | h
    · exact absurd h this.1
    · exact absurd h this.2

/-! ## Claim C25: `fdt_stringlist_count` -/

/-- C25 (counterexample): `giantListBlob` is well formed and its root has the
property "compatible", at structure offset 2147483652, whose value is
"foo\0bar\0": it ends with a NUL and holds two NUL bytes; but
`fdt_stringlist_count` returns 13, not 2: the offset of the property does not
fit an `int`, the lookup fails with -13, and the sign of that is turned. -/
theorem stringlist_count_beyond_int_range :
    WellFormed giantListBlob giantListToks ∧
    propOffsets (streamSize [] + (Tok.beginNode 0).size) giantListToks.tail = [8, 2147483652] ∧
    findProp giantListBlob compatibleName 10 [8, 2147483652] = some 2147483652 ∧
    valueBytes giantListBlob 2147483652 = [102, 111, 111, 0, 98, 97, 114, 0] ∧
    (valueBytes giantListBlob 2147483652).count 0 = 2 ∧
    fdt_stringlist_count giantListBlob 20 0 compatibleName 0 = some 13 :=
  ⟨⟨by decide, ⟨_, _, rfl⟩, by decide, by decide, by decide⟩, by decide, by decide, by decide,
    by decide, by decide⟩

/-- C25 (amended): on a well-formed blob whose structure block, `END` tag
included, is shorter than `2^31` bytes, for every node (the record `BEGIN_NODE`
that follows the records `pre`) whose property names are NUL-terminated, and
every name `pn` that finds a property of the node, at structure offset `y`,
with value `V = valueBytes m y`: `fdt_stringlist_count` returns the number of
NUL bytes of `V` when `V` is empty or its last byte is NUL, and -15 (BadValue)
when `V` is not empty and its last byte is not NUL. -/
theorem stringlist_count_nul_bytes (m : Mem) (ts : List Tok)
    (wf : WellFormed m ts) (h31 : streamSize ts + 4 < 2147483648)
    (pre : List Tok) (k : Nat) (post : List Tok) (hts : ts = pre ++ Tok.beginNode k :: post)
    (fuel : Nat) (hf : ts.length + 2 ≤ fuel) (uninit : Int)
    (hnt : NamesTerminated m fuel (propOffsets (streamSize pre + (Tok.beginNode k).size) post))
    (pn : List Nat) (hnul : ∀ b ∈ pn, b % 256 ≠ 0) (hpn : pn.length < 2147483648)
    (hpf : pn.length < fuel) (y : Nat)
    (hfp : findProp m (strOfBytes pn) pn.length
      (propOffsets (streamSize pre + (Tok.beginNode k).size) post) = some y)
    (hK : propLen m y < fuel) :
    ((valueBytes m y = [] ∨ (valueBytes m y).getLast? = some 0) →
      fdt_stringlist_count m fuel (streamSize pre : Int) (strOfBytes pn) uninit
        = some (((valueBytes m y).count 0 : Nat) : Int)) ∧
    ((valueBytes m y ≠ [] ∧ (valueBytes m y).getLast? ≠ some 0) →
      fdt_stringlist_count m fuel (streamSize pre : Int) (strOfBytes pn) uninit
        = some (-15)) := by
  subst hts
  have hl0 : Laid m 0 (pre ++ Tok.beginNode k :: post) := wf.laid h31
  have hl : Laid m (streamSize pre) (Tok.beginNode k :: post) := by
    simpa using hl0.drop pre
  simp only [List.length_append, List.length_cons] at hf
  obtain ⟨hlook, hb⟩ := fdt_lookup_property_value_by_name_laid hl fuel pn hnul hpn hpf uninit
    hnt (by omega) y hfp
  have hc := fdt_stringlist_count_of_lookup m fuel _ _ uninit y hlook (by omega) hK
  constructor
  · intro hV
    rw [hc, unterminated_false_of _ hV]
    simp
  · intro hV
    rw [hc, (unterminated_iff _).mpr hV]
    simp [FDT_ERR_BADVALUE]

/-- C25 (witness): in `listBlob` the root has `compatible = "foo\0bar\0"`, and
the count is 2; the node at offset 28 has `compatible = "bar"` without a NUL,
and the count is -15, and the empty property `empty`, and the count is 0. -/
theorem stringlist_count_nul_bytes_witness :
    WellFormed listBlob listToks ∧
    valueBytes listBlob 8 = [102, 111, 111, 0, 98, 97, 114, 0] ∧
    fdt_stringlist_count listBlob 20 0 compatibleName 0 = some 2 ∧
    valueBytes listBlob 36 = [98, 97, 114] ∧
    fdt_stringlist_count listBlob 20 28 compatibleName 0 = some (-15) ∧
    valueBytes listBlob 52 = [] ∧
    fdt_stringlist_count listBlob 20 28 (strOfBytes [101, 109, 112, 116, 121]) 0 = some 0 ∧
    fdt_stringlist_count listBlob 20 ((streamSize ([] : List Tok) : Nat) : Int)
        (strOfBytes [99, 111, 109, 112, 97, 116, 105, 98, 108, 101]) 0
      = some (((valueBytes listBlob 8).count 0 : Nat) : Int) :=
  ⟨⟨by decide, ⟨_, _, rfl⟩, by decide, by decide, by decide⟩, by decide, by decide, by decide,
    by decide, by decide, by decide,
    (stringlist_count_nul_bytes listBlob listToks
      ⟨by decide, ⟨_, _, rfl⟩, by decide, by decide, by decide⟩ (by decide)
      [] 0 listToks.tail (by decide) 20 (by decide) 0
      (by unfold NamesTerminated; decide) [99, 111, 109, 112, 97, 116, 105, 98, 108, 101]
      (by decide) (by decide) (by decide) 8 (by decide) (by decide)).1 (Or.inr (by decide))⟩

/-! ## Claim C27: `fdt_stringlist_search` -/

/-- C27 (counterexample): in the well-formed `giantListBlob` the root has
`compatible = "foo\0bar\0"`, at structure offset 2147483652, and "bar" is its
entry of index 1; but `fdt_stringlist_search` of "bar" returns 13. -/
theorem stringlist_search_beyond_int_range :
    WellFormed giantListBlob giantListToks ∧
    findProp giantListBlob compatibleName 10
      (propOffsets (streamSize [] + (Tok.beginNode 0).size) giantListToks.tail)
      = some 2147483652 ∧
    stringEntries (valueBytes giantListBlob 2147483652)
      = [(0, [102, 111, 111]), (4, [98, 97, 114])] ∧
    searchResult [98, 97, 114] 0 (stringEntries (valueBytes giantListBlob 2147483652))
      (unterminated (valueBytes giantListBlob 2147483652)) = 1 ∧
    fdt_stringlist_search giantListBlob 20 0 compatibleName (strOfBytes [98, 97, 114]) 0
      = some 13 :=
  ⟨⟨by decide, ⟨_, _, rfl⟩, by decide, by decide, by decide⟩, by decide, by decide, by decide,
    by decide⟩

/-- C27 (amended): on a well-formed blob whose structure block, `END` tag
included, is shorter than `2^31` bytes, for every node whose property names are
NUL-terminated, every name `pn` that finds a property of the node, at structure
offset `y`, and every string `s` of non-zero bytes: `fdt_stringlist_search`
returns the zero-based index of the first NUL-terminated entry of the value
equal to `s` when there is one (no entry before it equals `s`), even if the
value ends with an unterminated tail; when no NUL-terminated entry equals `s`
it returns -1 (NotFound) if the value is empty or ends with a NUL, and -15
(BadValue) if the value ends with an unterminated tail. -/
theorem stringlist_search_first_index (m : Mem) (ts : List Tok)
    (wf : WellFormed m ts) (h31 : streamSize ts + 4 < 2147483648)
    (pre : List Tok) (k : Nat) (post : List Tok) (hts : ts = pre ++ Tok.beginNode k :: post)
    (fuel : Nat) (hf : ts.length + 2 ≤ fuel) (uninit : Int)
    (hnt : NamesTerminated m fuel (propOffsets (streamSize pre + (Tok.beginNode k).size) post))
    (pn : List Nat) (hnul : ∀ b ∈ pn, b % 256 ≠ 0) (hpn : pn.length < 2147483648)
    (hpf : pn.length < fuel) (y : Nat)
    (hfp : findProp m (strOfBytes pn) pn.length
      (propOffsets (streamSize pre + (Tok.beginNode k).size) post) = some y)
    (hK : propLen m y < fuel)
    (s : List Nat) (hs : ∀ b ∈ s, b ≠ 0 ∧ b < 256) (hsl : s.length + 1 < 2147483648)
    (hsf : s.length < fuel) :
    fdt_stringlist_search m fuel (streamSize pre : Int) (strOfBytes pn) (strOfBytes s) uninit
      = some (searchResult s 0 (stringEntries (valueBytes m y))
          (unterminated (valueBytes m y))) ∧
    (∀ j, indexFrom s 0 (stringEntries (valueBytes m y)) = some j →
      searchResult s 0 (stringEntries (valueBytes m y)) (unterminated (valueBytes m y)) = j ∧
      ((stringEntries (valueBytes m y))[j]?).map Prod.snd = some s ∧
      ∀ i, i < j → ((stringEntries (valueBytes m y))[i]?).map Prod.snd ≠ some s) ∧
    (indexFrom s 0 (stringEntries (valueBytes m y)) = none →
      (∀ e ∈ stringEntries (valueBytes m y), e.2 ≠ s) ∧
      ((valueBytes m y = [] ∨ (valueBytes m y).getLast? = some 0) →
        searchResult s 0 (stringEntries (valueBytes m y)) (unterminated (valueBytes m y))
          = -1) ∧
      ((valueBytes m y ≠ [] ∧ (valueBytes m y).getLast? ≠ some 0) →
        searchResult s 0 (stringEntries (valueBytes m y)) (unterminated (valueBytes m y))
          = -15)) := by
  subst hts
  have hl0 : Laid m 0 (pre ++ Tok.beginNode k :: post) := wf.laid h31
  have hl : Laid m (streamSize pre) (Tok.beginNode k :: post) := by
    simpa using hl0.drop pre
  simp only [List.length_append, List.length_cons] at hf
  obtain ⟨hlook, hb⟩ := fdt_lookup_property_value_by_name_laid hl fuel pn hnul hpn hpf uninit
    hnt (by omega) y hfp
  obtain ⟨h1, h2⟩ := indexFrom_spec s (stringEntries (valueBytes m y)) 0
  refine ⟨fdt_stringlist_search_of_lookup m fuel _ _ uninit y hlook (by omega) hK s hs hsl hsf,
    fun j hj => ?_, fun hn => ⟨h2 hn, fun hV => ?_, fun hV => ?_⟩⟩
  · obtain ⟨_, h3, h4⟩ := h1 j hj
    refine ⟨by simp [searchResult, hj], by simpa using h3, fun i hi => h4 i (by omega)⟩
  · simp [searchResult, hn, unterminated_false_of _ hV, FDT_ERR_NOTFOUND]
  · simp [searchResult, hn, (unterminated_iff _).mpr hV, FDT_ERR_BADVALUE]

/-- C27 (witness): in `listBlob`, searching the root's `compatible =
"foo\0bar\0"` for "bar" gives 1 and for "baz" gives -1; in the node at offset 28,
searching `compatible = "bar"` (no NUL) for "bar" gives -15, and searching
`tail = "foo\0ba"` gives 0 for "foo" and -15 for "ba". -/
theorem stringlist_search_first_index_witness :
    WellFormed listBlob listToks ∧
    fdt_stringlist_search listBlob 20 0 compatibleName (strOfBytes [98, 97, 114]) 0 = some 1 ∧
    fdt_stringlist_search listBlob 20 0 compatibleName (strOfBytes [98, 97, 122]) 0
      = some (-1) ∧
    fdt_stringlist_search listBlob 20 28 compatibleName (strOfBytes [98, 97, 114]) 0
      = some (-15) ∧
    fdt_stringlist_search listBlob 20 28 (strOfBytes [116, 97, 105, 108])
      (strOfBytes [102, 111, 111]) 0 = some 0 ∧
    fdt_stringlist_search listBlob 20 28 (strOfBytes [116, 97, 105, 108])
      (strOfBytes [98, 97]) 0 = some (-15) ∧
    fdt_stringlist_search listBlob 20 ((streamSize ([] : List Tok) : Nat) : Int)
        (strOfBytes [99, 111, 109, 112, 97, 116, 105, 98, 108, 101])
        (strOfBytes [98, 97, 114]) 0
      = some (searchResult [98, 97, 114] 0 (stringEntries (valueBytes listBlob 8))
          (unterminated (valueBytes listBlob 8))) :=
  ⟨⟨by decide, ⟨_, _, rfl⟩, by decide, by decide, by decide⟩, by decide, by decide, by decide,
    by decide, by decide,
    (stringlist_search_first_index listBlob listToks
      ⟨by decide, ⟨_, _, rfl⟩, by decide, by decide, by decide⟩ (by decide)
      [] 0 listToks.tail (by decide) 20 (by decide) 0
      (by unfold NamesTerminated; decide) [99, 111, 109, 112, 97, 116, 105, 98, 108, 101]
      (by decide) (by decide) (by decide) 8 (by decide) (by decide)
      [98, 97, 114] (by decide) (by decide) (by decide)).1⟩

/-! ## Claim C28: `fdt_stringlist_get` -/

/-- C28 (counterexample): in the well-formed `giantListBlob` the root has
`compatible = "foo\0bar\0"`, at structure offset 2147483652, with two
NUL-terminated entries, "bar" being the one of index 1; but `fdt_stringlist_get`
at index 1 returns NULL, with -13 in the length. -/
theorem stringlist_get_beyond_int_range :
    WellFormed giantListBlob giantListToks ∧
    findProp giantListBlob compatibleName 10
      (propOffsets (streamSize [] + (Tok.beginNode 0).size) giantListToks.tail)
      = some 2147483652 ∧
    stringEntries (valueBytes giantListBlob 2147483652)
      = [(0, [102, 111, 111]), (4, [98, 97, 114])] ∧
    fdt_stringlist_get giantListBlob 20 0 compatibleName 1 0 = some (none, -13) :=
  ⟨⟨by decide, ⟨_, _, rfl⟩, by decide, by decide, by decide⟩, by decide, by decide, by decide⟩

/-- C28 (amended): on a well-formed blob whose structure block, `END` tag
included, is shorter than `2^31` bytes, for every node whose property names are
NUL-terminated, every name `pn` that finds a property of the node, at structure
offset `y`, with value `V`, and every index `0 ≤ i < 2^31`: when `V` has more
than `i` NUL-terminated entries, `fdt_stringlist_get` returns the address of the
first byte of the entry of index `i` and its length without the NUL (the bytes
of `V` from there on are the entry, followed by a NUL); otherwise it returns
NULL, with -1 (NotFound) when `V` is empty or ends with a NUL, and with -15
(BadValue) when `V` ends with an unterminated tail. The NUL-terminated entries
are as many as the NUL bytes of `V`. -/
theorem stringlist_get_entry (m : Mem) (ts : List Tok)
    (wf : WellFormed m ts) (h31 : streamSize ts + 4 < 2147483648)
    (pre : List Tok) (k : Nat) (post : List Tok) (hts : ts = pre ++ Tok.beginNode k :: post)
    (fuel : Nat) (hf : ts.length + 2 ≤ fuel) (uninit : Int)
    (hnt : NamesTerminated m fuel (propOffsets (streamSize pre + (Tok.beginNode k).size) post))
    (pn : List Nat) (hnul : ∀ b ∈ pn, b % 256 ≠ 0) (hpn : pn.length < 2147483648)
    (hpf : pn.length < fuel) (y : Nat)
    (hfp : findProp m (strOfBytes pn) pn.length
      (propOffsets (streamSize pre + (Tok.beginNode k).size) post) = some y)
    (hK : propLen m y < fuel) (i : Nat) (hi : i < 2147483648) :
    (∀ e, (stringEntries (valueBytes m y))[i]? = some e →
      fdt_stringlist_get m fuel (streamSize pre : Int) (strOfBytes pn) (i : Int) uninit
        = some (some (propValueAddr m y + e.1), (e.2.length : Int)) ∧
      ((valueBytes m y).drop e.1).take e.2.length = e.2 ∧
      (valueBytes m y)[e.1 + e.2.length]? = some 0) ∧
    ((stringEntries (valueBytes m y)).length ≤ i →
      ((valueBytes m y = [] ∨ (valueBytes m y).getLast? = some 0) →
        fdt_stringlist_get m fuel (streamSize pre : Int) (strOfBytes pn) (i : Int) uninit
          = some (none, -1)) ∧
      ((valueBytes m y ≠ [] ∧ (valueBytes m y).getLast? ≠ some 0) →
        fdt_stringlist_get m fuel (streamSize pre : Int) (strOfBytes pn) (i : Int) uninit
          = some (none, -15))) ∧
    (stringEntries (valueBytes m y)).length = (valueBytes m y).count 0 := by
  subst hts
  have hl0 : Laid m 0 (pre ++ Tok.beginNode k :: post) := wf.laid h31
  have hl : Laid m (streamSize pre) (Tok.beginNode k :: post) := by
    simpa using hl0.drop pre
  simp only [List.length_append, List.length_cons] at hf
  obtain ⟨hlook, hb⟩ := fdt_lookup_property_value_by_name_laid hl fuel pn hnul hpn hpf uninit
    hnt (by omega) y hfp
  have hg := fdt_stringlist_get_of_lookup m fuel _ _ uninit y hlook (by omega) hK i hi
  refine ⟨fun e he => ?_, fun hle => ⟨fun hV => ?_, fun hV => ?_⟩,
    entriesFrom_length _ 0 _ (le_refl _)⟩
  · refine ⟨?_, entriesFrom_at (valueBytes m y) (valueBytes m y).length 0
      (valueBytes m y) (by simp) e (List.getElem?_mem he)⟩
    rw [hg, he]; rfl
  · rw [hg, List.getElem?_eq_none hle, unterminated_false_of _ hV]
    simp [getResult, FDT_ERR_NOTFOUND]
  · rw [hg, List.getElem?_eq_none hle, (unterminated_iff _).mpr hV]
    simp [getResult, FDT_ERR_BADVALUE]

/-- C28 (witness): in `listBlob` the root has `compatible = "foo\0bar\0"` at
address 60: index 1 gives address 64 ("bar") with length 3, index 2 gives NULL
with -1; in the node at offset 28, `tail = "foo\0ba"` at address 116 gives
"foo" with length 3 at index 0 and NULL with -15 at index 1. -/
theorem stringlist_get_entry_witness :
    WellFormed listBlob listToks ∧
    stringEntries (valueBytes listBlob 8) = [(0, [102, 111, 111]), (4, [98, 97, 114])] ∧
    fdt_stringlist_get listBlob 20 0 compatibleName 1 0 = some (some 64, 3) ∧
    fdt_stringlist_get listBlob 20 0 compatibleName 2 0 = some (none, -1) ∧
    fdt_stringlist_get listBlob 20 28 (strOfBytes [116, 97, 105, 108]) 0 0
      = some (some 116, 3) ∧
    fdt_stringlist_get listBlob 20 28 (strOfBytes [116, 97, 105, 108]) 1 0
      = some (none, -15) ∧
    fdt_stringlist_get listBlob 20 ((streamSize ([] : List Tok) : Nat) : Int)
        (strOfBytes [99, 111, 109, 112, 97, 116, 105, 98, 108, 101]) ((1 : Nat) : Int) 0
      = some (some (propValueAddr listBlob 8 + ((4 : Nat), [98, 97, 114]).1),
          ((((4 : Nat), [98, 97, 114]).2.length : Nat) : Int)) :=
  ⟨⟨by decide, ⟨_, _, rfl⟩, by decide, by decide, by decide⟩, by decide, by decide, by decide,
    by decide, by decide,
    ((stringlist_get_entry listBlob listToks
      ⟨by decide, ⟨_, _, rfl⟩, by decide, by decide, by decide⟩ (by decide)
      [] 0 listToks.tail (by decide) 20 (by decide) 0
      (by unfold NamesTerminated; decide) [99, 111, 109, 112, 97, 116, 105, 98, 108, 101]
      (by decide) (by decide) (by decide) 8 (by decide) (by decide) 1 (by decide)).1
      (4, [98, 97, 114]) (by decide)).1⟩

/-! ## Claim C29: `fdt_stringlist_count` against `fdt_stringlist_get` -/

/-- C29 (counterexample): in the well-formed `listBlob`, (a) the node at offset
28 has the empty property `empty`: the count is 0, and the entries of index -1
and 0 are both NULL; (b) the same node has `tail = "foo\0ba"`: the count is -15,
the entry of index 0 is not NULL and that of index 1 is; (c) the root has no
property `empty`: the count is 1 and the entries of index 0 and 1 are NULL;
(d) in the well-formed `giantListBlob`, the root's `compatible` is beyond the
`int` range: the count is 13, and the entries of index 12 and 13 are NULL. -/
theorem stringlist_count_get_mismatch :
    WellFormed listBlob listToks ∧
    (findProp listBlob (strOfBytes [101, 109, 112, 116, 121]) 5 [36, 52, 64] = some 52 ∧
      valueBytes listBlob 52 = [] ∧
      fdt_stringlist_count listBlob 20 28 (strOfBytes [101, 109, 112, 116, 121]) 0 = some 0 ∧
      fdt_stringlist_get listBlob 20 28 (strOfBytes [101, 109, 112, 116, 121]) (0 - 1) 0
        = some (none, -1) ∧
      fdt_stringlist_get listBlob 20 28 (strOfBytes [101, 109, 112, 116, 121]) 0 0
        = some (none, -1)) ∧
    (findProp listBlob (strOfBytes [116, 97, 105, 108]) 4 [36, 52, 64] = some 64 ∧
      valueBytes listBlob 64 = [102, 111, 111, 0, 98, 97] ∧
      fdt_stringlist_count listBlob 20 28 (strOfBytes [116, 97, 105, 108]) 0 = some (-15) ∧
      fdt_stringlist_get listBlob 20 28 (strOfBytes [116, 97, 105, 108]) (1 - 1) 0
        = some (some 116, 3) ∧
      fdt_stringlist_get listBlob 20 28 (strOfBytes [116, 97, 105, 108]) 1 0
        = some (none, -15)) ∧
    (findProp listBlob (strOfBytes [101, 109, 112, 116, 121]) 5 [8] = none ∧
      fdt_stringlist_count listBlob 20 0 (strOfBytes [101, 109, 112, 116, 121]) 0 = some 1 ∧
      fdt_stringlist_get listBlob 20 0 (strOfBytes [101, 109, 112, 116, 121]) (1 - 1) 0
        = some (none, -1) ∧
      fdt_stringlist_get listBlob 20 0 (strOfBytes [101, 109, 112, 116, 121]) 1 0
        = some (none, -1)) ∧
    WellFormed giantListBlob giantListToks ∧
    (findProp giantListBlob compatibleName 10 [8, 2147483652] = some 2147483652 ∧
      fdt_stringlist_count giantListBlob 20 0 compatibleName 0 = some 13 ∧
      fdt_stringlist_get giantListBlob 20 0 compatibleName (13 - 1) 0 = some (none, -13) ∧
      fdt_stringlist_get giantListBlob 20 0 compatibleName 13 0 = some (none, -13)) :=
  ⟨⟨by decide, ⟨_, _, rfl⟩, by decide, by decide, by decide⟩,
    ⟨by decide, by decide, by decide, by decide, by decide⟩,
    ⟨by decide, by decide, by decide, by decide, by decide⟩,
    ⟨by decide, by decide, by decide, by decide⟩,
    ⟨by decide, ⟨_, _, rfl⟩, by decide, by decide, by decide⟩,
    ⟨by decide, by decide, by decide, by decide⟩⟩

/-- C29 (amended): on a well-formed blob whose structure block, `END` tag
included, is shorter than `2^31` bytes, for every node whose property names are
NUL-terminated, every name `pn` that finds a property of the node whose value
`V` is empty or ends with a NUL, and every `i` with `-2^31 < i < 2^31`, not 0
when `V` is empty: `fdt_stringlist_count`, `fdt_stringlist_get` at `i - 1` and
`fdt_stringlist_get` at `i` all return, and the count is `i` if and only if the
entry of index `i - 1` is not NULL and the entry of index `i` is NULL. -/
theorem stringlist_count_iff_get (m : Mem) (ts : List Tok)
    (wf : WellFormed m ts) (h31 : streamSize ts + 4 < 2147483648)
    (pre : List Tok) (k : Nat) (post : List Tok) (hts : ts = pre ++ Tok.beginNode k :: post)
    (fuel : Nat) (hf : ts.length + 2 ≤ fuel) (uninit : Int)
    (hnt : NamesTerminated m fuel (propOffsets (streamSize pre + (Tok.beginNode k).size) post))
    (pn : List Nat) (hnul : ∀ b ∈ pn, b % 256 ≠ 0) (hpn : pn.length < 2147483648)
    (hpf : pn.length < fuel) (y : Nat)
    (hfp : findProp m (strOfBytes pn) pn.length
      (propOffsets (streamSize pre + (Tok.beginNode k).size) post) = some y)
    (hK : propLen m y < fuel)
    (hV : valueBytes m y = [] ∨ (valueBytes m y).getLast? = some 0)
    (i : Int) (hi1 : -2147483648 < i) (hi2 : i < 2147483648)
    (hne : valueBytes m y = [] → i ≠ 0) :
    ∃ c g1 g2,
      fdt_stringlist_count m fuel (streamSize pre : Int) (strOfBytes pn) uninit = some c ∧
      fdt_stringlist_get m fuel (streamSize pre : Int) (strOfBytes pn) (i - 1) uninit
        = some g1 ∧
      fdt_stringlist_get m fuel (streamSize pre : Int) (strOfBytes pn) i uninit = some g2 ∧
      (c = i ↔ g1.1 ≠ none ∧ g2.1 = none) := by
  subst hts
  have hl0 : Laid m 0 (pre ++ Tok.beginNode k :: post) := wf.laid h31
  have hl : Laid m (streamSize pre) (Tok.beginNode k :: post) := by
    simpa using hl0.drop pre
  simp only [List.length_append, List.length_cons] at hf
  obtain ⟨hlook, hb⟩ := fdt_lookup_property_value_by_name_laid hl fuel pn hnul hpn hpf uninit
    hnt (by omega) y hfp
  have hu := unterminated_false_of _ hV
  have hc := fdt_stringlist_count_of_lookup m fuel _ _ uninit y hlook (by omega) hK
  rw [hu] at hc
  simp only [Bool.false_eq_true, ↓reduceIte] at hc
  have hlen : (stringEntries (valueBytes m y)).length = (valueBytes m y).count 0 :=
    entriesFrom_length _ 0 _ (le_refl _)
  have hget : ∀ j : Nat, j < 2147483648 →
      ∃ g, fdt_stringlist_get m fuel (streamSize pre : Int) (strOfBytes pn) (j : Int) uninit
        = some g ∧ (g.1 ≠ none ↔ j < (valueBytes m y).count 0) := by
    intro j hj
    refine ⟨_, fdt_stringlist_get_of_lookup m fuel _ _ uninit y hlook (by omega) hK j hj, ?_⟩
    rw [getResult_fst, ← hlen]
    constructor
    · intro h
      by_contra hc2
      exact h (List.getElem?_eq_none (by omega))
    · intro h
      rw [List.getElem?_eq_getElem h]
      simp
  have hneg : ∀ j : Int, j < 0 → -2147483648 ≤ j →
      ∃ e, fdt_stringlist_get m fuel (streamSize pre : Int) (strOfBytes pn) j uninit
        = some (none, e) :=
    fun j h1 h2 =>
      fdt_stringlist_get_negative_of_lookup m fuel _ _ uninit y hlook (by omega) hK j h1 h2
  rcases lt_trichotomy i 0 with hi | hi | hi
  · obtain ⟨e1, he1⟩ := hneg (i - 1) (by omega) (by omega)
    obtain ⟨e2, he2⟩ := hneg i hi (by omega)
    refine ⟨_, _, _, hc, he1, he2, ?_⟩
    simp only [ne_eq, not_true_eq_false, false_and, iff_false]
    omega
  · subst hi
    obtain ⟨e1, he1⟩ := hneg (0 - 1) (by omega) (by omega)
    obtain ⟨g2, hg2, _⟩ := hget 0 (by omega)
    refine ⟨_, _, _, hc, he1, by simpa using hg2, ?_⟩
    simp only [ne_eq, not_true_eq_false, false_and, iff_false]
    have hne2 : valueBytes m y ≠ [] := fun h => hne h rfl
    have := count_nul_pos _ hne2 hu
    omega
  · obtain ⟨j, rfl⟩ : ∃ j : Nat, i = (j : Int) + 1 := ⟨(i - 1).toNat, by omega⟩
    obtain ⟨g1, hg1, h1⟩ := hget j (by omega)
    obtain ⟨g2, hg2, h2⟩ := hget (j + 1) (by omega)
    have e1 : (j : Int) + 1 - 1 = (j : Int) := by omega
    refine ⟨_, _, _, hc, by rw [e1]; exact hg1, by simpa using hg2, ?_⟩
    rw [h1]
    have h3 : g2.1 = none ↔ ¬ (j + 1 < (valueBytes m y).count 0) := by
      rw [← h2]; simp
    rw [h3]
    omega

/-- C29 (witness): in `listBlob` the root has `compatible = "foo\0bar\0"`; with
`i = 2` the count is 2, the entry of index 1 is not NULL and that of index 2 is. -/
theorem stringlist_count_iff_get_witness :
    WellFormed listBlob listToks ∧
    fdt_stringlist_count listBlob 20 0 compatibleName 0 = some 2 ∧
    fdt_stringlist_get listBlob 20 0 compatibleName (2 - 1) 0 = some (some 64, 3) ∧
    fdt_stringlist_get listBlob 20 0 compatibleName 2 0 = some (none, -1) ∧
    ∃ c g1 g2,
      fdt_stringlist_count listBlob 20 ((streamSize ([] : List Tok) : Nat) : Int)
        (strOfBytes [99, 111, 109, 112, 97, 116, 105, 98, 108, 101]) 0 = some c ∧
      fdt_stringlist_get listBlob 20 ((streamSize ([] : List Tok) : Nat) : Int)
        (strOfBytes [99, 111, 109, 112, 97, 116, 105, 98, 108, 101]) (2 - 1) 0 = some g1 ∧
      fdt_stringlist_get listBlob 20 ((streamSize ([] : List Tok) : Nat) : Int)
        (strOfBytes [99, 111, 109, 112, 97, 116, 105, 98, 108, 101]) 2 0 = some g2 ∧
      (c = 2 ↔ g1.1 ≠ none ∧ g2.1 = none) :=
  ⟨⟨by decide, ⟨_, _, rfl⟩, by decide, by decide, by decide⟩, by decide, by decide, by decide,
    stringlist_count_iff_get listBlob listToks
      ⟨by decide, ⟨_, _, rfl⟩, by decide, by decide, by decide⟩ (by decide)
      [] 0 listToks.tail (by decide) 20 (by decide) 0
      (by unfold NamesTerminated; decide) [99, 111, 109, 112, 97, 116, 105, 98, 108, 101]
      (by decide) (by decide) (by decide) 8 (by decide) (by decide)
      (Or.inr (by decide)) 2 (by decide) (by decide) (fun h => by decide)⟩

/-! ## Big-endian 64-bit loads -/

theorem or_eq_add_of_dvd (x y i : Nat) (h1 : 2 ^ i ∣ x) (h2 : y < 2 ^ i) : x ||| y = x + y := by
  obtain ⟨a, rfl⟩ := h1
  exact (Nat.mul_add_lt_is_or h2 a).symm

/-- The shifts and ors of `fdt64_to_cpu` compute the big-endian number. -/
theorem fdt64_to_cpu_eq_be64 (m : Mem) (a : Int) : fdt64_to_cpu m a = be64 m a := by
  have hb : ∀ x : Int, byteAt m x < 256 := fun x => by unfold byteAt; omega
  have h0 := hb a
  have h1 := hb (a + 1)
  have h2 := hb (a + 2)
  have h3 := hb (a + 3)
  have h4 := hb (a + 4)
  have h5 := hb (a + 5)
  have h6 := hb (a + 6)
  have h7 := hb (a + 7)
  unfold fdt64_to_cpu be64
  simp only [List.range, List.range.loop, List.map, List.foldl, Int.ofNat_eq_coe, Nat.cast_ofNat,
    Nat.cast_zero, add_zero, Nat.cast_one, zero_mul, zero_add, Nat.shiftLeft_eq]
  generalize byteAt m a = b0 at *
  generalize byteAt m (a + 1) = b1 at *
  generalize byteAt m (a + 2) = b2 at *
  generalize byteAt m (a + 3) = b3 at *
  generalize byteAt m (a + 4) = b4 at *
  generalize byteAt m (a + 5) = b5 at *
  generalize byteAt m (a + 6) = b6 at *
  generalize byteAt m (a + 7) = b7 at *
  rw [or_eq_add_of_dvd (b0 * 2 ^ 56) (b1 * 2 ^ 48) 56 (by omega) (by omega)]
  rw [or_eq_add_of_dvd (b0 * 2 ^ 56 + b1 * 2 ^ 48) (b2 * 2 ^ 40) 48 (by omega) (by omega)]
  rw [or_eq_add_of_dvd (b0 * 2 ^ 56 + b1 * 2 ^ 48 + b2 * 2 ^ 40) (b3 * 2 ^ 32) 40 (by omega)
    (by omega)]
  rw [or_eq_add_of_dvd (b0 * 2 ^ 56 + b1 * 2 ^ 48 + b2 * 2 ^ 40 + b3 * 2 ^ 32) (b4 * 2 ^ 24) 32
    (by omega) (by omega)]
  rw [or_eq_add_of_dvd (b0 * 2 ^ 56 + b1 * 2 ^ 48 + b2 * 2 ^ 40 + b3 * 2 ^ 32 + b4 * 2 ^ 24)
    (b5 * 2 ^ 16) 24 (by omega) (by omega)]
  rw [or_eq_add_of_dvd
    (b0 * 2 ^ 56 + b1 * 2 ^ 48 + b2 * 2 ^ 40 + b3 * 2 ^ 32 + b4 * 2 ^ 24 + b5 * 2 ^ 16)
    (b6 * 2 ^ 8) 16 (by omega) (by omega)]
  rw [or_eq_add_of_dvd
    (b0 * 2 ^ 56 + b1 * 2 ^ 48 + b2 * 2 ^ 40 + b3 * 2 ^ 32 + b4 * 2 ^ 24 + b5 * 2 ^ 16
      + b6 * 2 ^ 8) b7 8 (by omega) (by omega)]
  omega

theorem fdt_check_header_cases (m : Mem) :
    fdt_check_header m = 0 ∨ fdt_check_header m = -9 ∨ fdt_check_header m = -10 := by
  unfold fdt_check_header FDT_ERR_BADVERSION FDT_ERR_BADMAGIC
  split_ifs <;> simp

theorem fdt_check_header_neg_iff (m : Mem) : fdt_check_header m < 0 ↔ fdt_check_header m ≠ 0 := by
  rcases fdt_check_header_cases m with h | h | h <;> rw [h] <;> decide

/-! ## Claim C32: `fdt_num_mem_rsv` -/

theorem num_mem_rsv_loop_spec (m : Mem) (k : Nat) (hk : k < 2147483648)
    (hnz : ∀ i : Nat, i < k → fdt64_to_cpu m (FDT_RSVMEM_ENTRY m i + 8) ≠ 0)
    (hz : fdt64_to_cpu m (FDT_RSVMEM_ENTRY m k + 8) = 0) :
    ∀ j, j ≤ k → ∀ fuel, j < fuel →
      num_mem_rsv_loop m fuel ((k - j : Nat) : Int) = some (k : Int) := by
  intro j
  induction j with
  | zero =>
    intro _ fuel hf
    obtain ⟨f, rfl⟩ : ∃ f, fuel = f + 1 := ⟨fuel - 1, by omega⟩
    unfold num_mem_rsv_loop
    simp only [Nat.sub_zero, hz, ne_eq, not_true_eq_false, if_false]
  | succ j ih =>
    intro hj fuel hf
    obtain ⟨f, rfl⟩ : ∃ f, fuel = f + 1 := ⟨fuel - 1, by omega⟩
    unfold num_mem_rsv_loop
    rw [if_pos (hnz (k - (j + 1)) (by omega))]
    have hstep : toInt32 (((k - (j + 1) : Nat) : Int) + 1) = ((k - j : Nat) : Int) := by
      unfold toInt32; omega
    rw [hstep]
    exact ih (by omega) f (by omega)

/-- C32: for every blob whose reservation map, at `off_mem_rsvmap`, holds inside
`totalsize` an entry `k` whose big-endian 64-bit size field (the 8 bytes at
`off_mem_rsvmap + 16k + 8`) is 0, every entry before it having a size that is
not 0, `fdt_num_mem_rsv` returns `k`.  Only size fields are read: nothing is
asked of the address field of any entry. -/
theorem num_mem_rsv_first_zero_size (m : Mem) (k : Nat)
    (hin : FDT_RSVMEM m + 16 * k + 16 ≤ FDT_TOTALSIZE m)
    (hnz : ∀ i : Nat, i < k → be64 m ((FDT_RSVMEM m : Int) + 16 * (i : Int) + 8) ≠ 0)
    (hz : be64 m ((FDT_RSVMEM m : Int) + 16 * (k : Int) + 8) = 0)
    (fuel : Nat) (hf : k < fuel) :
    fdt_num_mem_rsv m fuel = some (k : Int) := by
  have hT := FDT_TOTALSIZE_lt m
  have := num_mem_rsv_loop_spec m k (by omega)
    (fun i hi => by rw [fdt64_to_cpu_eq_be64]; exact hnz i hi)
    (by rw [fdt64_to_cpu_eq_be64]; exact hz) k (le_refl k) fuel hf
  simpa [fdt_num_mem_rsv] using this

/-- C32 (witness): the map of `rsvBlob` holds `(0x40000000, 0x00100000)` and
`(0, 0)`, and the count is 1; it is 1 as well when the terminating entry is
`(0x1234, 0)`. -/
theorem num_mem_rsv_first_zero_size_witness :
    be64 rsvBlob ((FDT_RSVMEM rsvBlob : Int) + 16 * 0) = 0x40000000 ∧
    be64 rsvBlob ((FDT_RSVMEM rsvBlob : Int) + 16 * 0 + 8) = 0x00100000 ∧
    be64 rsvBlob ((FDT_RSVMEM rsvBlob : Int) + 16 * 1 + 8) = 0 ∧
    fdt_num_mem_rsv rsvBlob 5 = some 1 ∧
    be64 rsvSentinelBlob ((FDT_RSVMEM rsvSentinelBlob : Int) + 16 * 1) = 0x1234 ∧
    fdt_num_mem_rsv rsvSentinelBlob 5 = some ((1 : Nat) : Int) :=
  ⟨by decide, by decide, by decide, by decide, by decide,
    num_mem_rsv_first_zero_size rsvSentinelBlob 1 (by decide) (by decide) (by decide) 5
      (by decide)⟩

/-! ## Claim C33: `fdt_rsvmem_entry` -/

/-- C33: on a blob accepted by `fdt_check_header`, `fdt_rsvmem_entry` returns 0
for every `n` and stores the big-endian 64-bit numbers found at
`off_mem_rsvmap + 16n` and `off_mem_rsvmap + 16n + 8` in `*address` and `*size`;
on a rejected blob it returns a negative value (-9) and leaves `*address` and
`*size` as they were. -/
theorem rsvmem_entry_decodes (m : Mem) (n : Int) (address size : Nat) :
    (fdt_check_header m = 0 →
      fdt_rsvmem_entry m n address size =
        (0, be64 m ((FDT_RSVMEM m : Int) + 16 * n), be64 m ((FDT_RSVMEM m : Int) + 16 * n + 8))) ∧
    (fdt_check_header m ≠ 0 →
      (fdt_rsvmem_entry m n address size).1 < 0 ∧
      (fdt_rsvmem_entry m n address size).2 = (address, size)) := by
  constructor
  · intro h
    unfold fdt_rsvmem_entry FDT_RSVMEM_ENTRY
    rw [h, fdt64_to_cpu_eq_be64, fdt64_to_cpu_eq_be64]
    simp
  · intro h
    have := (fdt_check_header_neg_iff m).mpr h
    unfold fdt_rsvmem_entry
    rw [if_pos this]
    exact ⟨by simp [FDT_ERR_BADMAGIC], rfl⟩

/-- C33 (witness): entry 0 of `rsvBlob` is `(0x40000000, 0x00100000)`, and on
`rejectedBlob` the call returns -9 and leaves the outputs as they were. -/
theorem rsvmem_entry_decodes_witness :
    fdt_check_header rsvBlob = 0 ∧
    fdt_rsvmem_entry rsvBlob 0 7 7 = (0, 0x40000000, 0x00100000) ∧
    fdt_check_header rejectedBlob ≠ 0 ∧
    fdt_rsvmem_entry rejectedBlob 0 7 7 = (-9, 7, 7) ∧
    fdt_rsvmem_entry rsvBlob 0 7 7 =
      (0, be64 rsvBlob ((FDT_RSVMEM rsvBlob : Int) + 16 * 0),
        be64 rsvBlob ((FDT_RSVMEM rsvBlob : Int) + 16 * 0 + 8)) :=
  ⟨by decide, by decide, by decide, by decide,
    (rsvmem_entry_decodes rsvBlob 0 7 7).1 (by decide)⟩

/-! ## Claim C34: `fdt_move` and the size of the buffer -/

set_option maxRecDepth 100000 in
/-- C34: `rootOnlyBlob` is accepted and has `totalsize = 56`.  With `bufsize = -1`,
which is less than 56, `fdt_move` does not return -3 (NoSpace): it returns 0 and
copies the 56 bytes to the buffer (here at `fdt + 64`, where the bytes were 0
before).  With `bufsize = 55` it returns -3, with `bufsize = 56` it returns 0,
and on `rejectedBlob` it returns the header error -9. -/
theorem fdt_move_negative_bufsize :
    fdt_check_header rootOnlyBlob = 0 ∧ FDT_TOTALSIZE rootOnlyBlob = 56 ∧
    toU32 (-1) = 4294967295 ∧
    byteAt rootOnlyBlob 64 = 0 ∧ byteAt rootOnlyBlob 67 = 0 ∧
    (fdt_move rootOnlyBlob 64 (-1) 57).map (fun r => (r.1, byteAt r.2 64, byteAt r.2 67))
      = some (0, 0xd0, 0xed) ∧
    (fdt_move rootOnlyBlob 64 55 57).map (fun r => (r.1, byteAt r.2 64, byteAt r.2 67))
      = some (-3, 0, 0) ∧
    (fdt_move rootOnlyBlob 64 56 57).map (fun r => (r.1, byteAt r.2 64, byteAt r.2 67))
      = some (0, 0xd0, 0xed) ∧
    (fdt_move rejectedBlob 64 56 57).map (fun r => (r.1, byteAt r.2 64, byteAt r.2 67))
      = some (-9, 0, 0) :=
  ⟨by decide, by decide, by decide, by decide, by decide, by decide, by decide, by decide,
    by decide⟩

/-! ## Claim C36: `fdt_string` and offsets outside the strings block -/

/-- C36: `fdt_string` never returns NULL: whatever the offset, it returns
`fdt + off_dt_strings + stroffset`.  In `rootOnlyBlob`, where
`off_dt_strings = totalsize = 56`, the offsets -1 and 1000 give the addresses
`fdt + 55` and `fdt + 1056`; and for the property of `farNameBlob`, whose name
offset is 0x1000 in a blob of 72 bytes, `fdt_property_value` hands out the name
pointer `fdt + 4164`. -/
theorem fdt_string_never_null :
    (∀ (m : Mem) (stroffset : Int), fdt_string_ptr m stroffset
      = some ((FDT_STRING m : Int) + stroffset)) ∧
    FDT_STRING rootOnlyBlob = 56 ∧ FDT_TOTALSIZE rootOnlyBlob = 56 ∧
    fdt_string_ptr rootOnlyBlob (-1) = some 55 ∧
    fdt_string_ptr rootOnlyBlob 1000 = some 1056 ∧
    fdt_check_header farNameBlob = 0 ∧ streamAt farNameBlob 0 farNameToks ∧
    FDT_STRING farNameBlob = 68 ∧ FDT_TOTALSIZE farNameBlob = 72 ∧
    fdt_property_value farNameBlob 8 none = (some 60, some 4164, 0) :=
  ⟨fun _ _ => rfl, by decide, by decide, by decide, by decide, by decide, by decide, by decide,
    by decide, by decide⟩

/-! ## Claim C37: the checks of `fdt_offset_to_ptr` in exact arithmetic -/

/-- C37: for every blob, every `int` `off` and every 32-bit `len`, with
`u = toU32 off` (`off` modulo `2^32`): `fdt_offset_to_ptr` equals the projection
worded with checked arithmetic; it returns a pointer exactly when the header is
accepted, `u + len ≤ totalsize` and `off_dt_struct + u + len ≤ totalsize`, the
sums being exact; the pointer is `fdt + off_dt_struct + off`; it returns NULL
when a sum exceeds `2^32 - 1`; and when `totalsize < 2^31` it returns NULL for
every negative `off`. -/
theorem fdt_offset_to_ptr_checked (m : Mem) (off : Int) (len : Nat) (hoff : isInt32 off)
    (hlen : len < 4294967296) :
    fdt_offset_to_ptr m off len = offset_to_view_checked m off len ∧
    ((fdt_offset_to_ptr m off len).isSome = true ↔
      fdt_check_header m = 0 ∧ toU32 off + len ≤ FDT_TOTALSIZE m ∧
        FDT_STRUCT m + toU32 off + len ≤ FDT_TOTALSIZE m) ∧
    (∀ p, fdt_offset_to_ptr m off len = some p → p = (FDT_STRUCT m : Int) + off) ∧
    (toU32 off + len ≥ 4294967296 ∨ FDT_STRUCT m + toU32 off + len ≥ 4294967296 →
      fdt_offset_to_ptr m off len = none) ∧
    (FDT_TOTALSIZE m < 2147483648 → off < 0 → fdt_offset_to_ptr m off len = none) := by
  have hT := FDT_TOTALSIZE_lt m
  have hS := FDT_STRUCT_lt m
  have hU := toU32_lt off
  have hl : len % 4294967296 = len := Nat.mod_eq_of_lt hlen
  have hh := fdt_check_header_neg_iff m
  have key : ∀ p, fdt_offset_to_ptr m off len = some p ↔
      (fdt_check_header m = 0 ∧ toU32 off + len ≤ FDT_TOTALSIZE m ∧
        FDT_STRUCT m + toU32 off + len ≤ FDT_TOTALSIZE m ∧ p = (FDT_STRUCT m : Int) + off) := by
    intro p
    rw [fdt_offset_to_ptr_eq_some, hl, hh]
    constructor
    · rintro ⟨h1, h2, h3, h4⟩; exact ⟨by simpa using h1, h2, by omega, h4⟩
    · rintro ⟨h1, h2, h3, h4⟩; exact ⟨by simpa using h1, h2, by omega, h4⟩
  have hnone : (¬ (fdt_check_header m = 0 ∧ toU32 off + len ≤ FDT_TOTALSIZE m ∧
      FDT_STRUCT m + toU32 off + len ≤ FDT_TOTALSIZE m)) → fdt_offset_to_ptr m off len = none := by
    intro hn
    cases hp : fdt_offset_to_ptr m off len with
    | none => rfl
    | some p => exact absurd ((key p).mp hp) (fun h => hn ⟨h.1, h.2.1, h.2.2.1⟩)
  refine ⟨?_, ?_, fun p hp => ((key p).mp hp).2.2.2, fun h => hnone (by omega), ?_⟩
  · by_cases hc : fdt_check_header m = 0 ∧ toU32 off + len ≤ FDT_TOTALSIZE m ∧
        FDT_STRUCT m + toU32 off + len ≤ FDT_TOTALSIZE m
    · rw [(key _).mpr ⟨hc.1, hc.2.1, hc.2.2, rfl⟩]
      unfold offset_to_view_checked checkedAdd
      rw [if_neg (by simp [hc.1]), if_pos (by omega)]
      simp only
      rw [if_neg (by omega), if_pos (by omega)]
      simp only
      rw [if_pos (by omega)]
      simp only
      rw [if_neg (by omega)]
    · rw [hnone hc]
      unfold offset_to_view_checked checkedAdd
      by_cases h1 : fdt_check_header m = 0
      · rw [if_neg (by simp [h1])]
        by_cases h2 : toU32 off + len < 4294967296
        · rw [if_pos h2]
          simp only
          by_cases h3 : toU32 off + len > FDT_TOTALSIZE m
          · rw [if_pos h3]
          · rw [if_neg h3]
            by_cases h4 : FDT_STRUCT m + toU32 off < 4294967296
            · rw [if_pos h4]
              simp only
              by_cases h5 : FDT_STRUCT m + toU32 off + len < 4294967296
              · rw [if_pos h5]
                simp only
                rw [if_pos (by
                  by_contra h6
                  exact hc ⟨h1, by omega, by omega⟩)]
              · rw [if_neg h5]
            · rw [if_neg h4]
        · rw [if_neg h2]
      · rw [if_pos h1]
  · cases hp : fdt_offset_to_ptr m off len with
    | none =>
      simp only [Option.isSome_none, Bool.false_eq_true, false_iff]
      intro hc
      have := (key ((FDT_STRUCT m : Int) + off)).mpr ⟨hc.1, hc.2.1, hc.2.2, rfl⟩
      rw [hp] at this
      exact absurd this (by simp)
    | some p =>
      simp only [Option.isSome_some, true_iff]
      have := (key p).mp hp
      exact ⟨this.1, this.2.1, this.2.2.1⟩
  · intro h31 hneg
    apply hnone
    have hu : (toU32 off : Int) = off + 4294967296 := toU32_of_neg hneg hoff
    have ho := hoff.1
    omega

/-- C37 (witness): in `rootOnlyBlob` (`totalsize = 56`, `off_dt_struct = 40`) the
offset 12 with length 4 gives the address 52, the offset 16 with length 4 gives
NULL, and so does the offset -4 with length 4. -/
theorem fdt_offset_to_ptr_checked_witness :
    fdt_offset_to_ptr rootOnlyBlob 12 4 = some 52 ∧
    fdt_offset_to_ptr rootOnlyBlob 16 4 = none ∧
    fdt_offset_to_ptr rootOnlyBlob (-4) 4 = none ∧
    fdt_offset_to_ptr rootOnlyBlob (-4) 4 = offset_to_view_checked rootOnlyBlob (-4) 4 :=
  ⟨by decide, by decide, by decide,
    (fdt_offset_to_ptr_checked rootOnlyBlob (-4) 4 (by decide) (by decide)).1⟩

/-! ## Claim C39: forward progress of the tag walker -/

theorem next_node_loop_stall (track : Bool) (d : Int) :
    ∀ fuel, next_node_loop negLenBlob track fuel 8 d = none := by
  have h : fdt_tag_next_offset negLenBlob 8 8 = (3, 8) := by decide
  intro fuel
  induction fuel with
  | zero => rfl
  | succ f ih =>
    unfold next_node_loop
    simp only [h, FDT_PROPERTY, true_or, if_true]
    exact ih

/-- C39: `negLenBlob` and `wrapRootBlob` are accepted by `fdt_check_header`.  In
the first the property at offset 8 has `len = 0xfffffff4`, and the tag walker
reports the next offset 8, the offset it was called with; in the second the
property at offset 24 has `len = 0xffffffdc` and the next offset reported is 0.
On the first blob `fdt_next_node` called at the root never returns: whatever
the number of rounds its loop is given, it is still at offset 8. -/
theorem tag_walker_without_progress :
    fdt_check_header negLenBlob = 0 ∧
    fdt_tag_next_offset negLenBlob 8 0 = (FDT_PROPERTY, 8) ∧
    fdt_check_header wrapRootBlob = 0 ∧
    fdt_tag_next_offset wrapRootBlob 24 0 = (FDT_PROPERTY, 0) ∧
    ∀ (fuel : Nat) (track : Bool) (depth : Int),
      fdt_next_node negLenBlob fuel 0 track depth = none := by
  refine ⟨by decide, by decide, by decide, by decide, fun fuel track depth => ?_⟩
  have h : node_next_offset negLenBlob 0 = 8 := by decide
  unfold fdt_next_node
  rw [h]
  simp only [ge_iff_le, le_refl, if_true]
  rw [if_neg (by decide)]
  exact next_node_loop_stall track depth fuel

/-! ## Claim C40: an alias whose value is its own name -/

theorem self_alias_laid :
    Laid selfAliasBlob 8 [Tok.beginNode 7, Tok.prop 2, Tok.endNode, Tok.endNode] := by
  have hwf : WellFormed selfAliasBlob selfAliasToks :=
    ⟨by decide, ⟨_, _, rfl⟩, by decide, by decide, by decide⟩
  have hl0 : Laid selfAliasBlob 0 ([Tok.beginNode 0]
      ++ [Tok.beginNode 7, Tok.prop 2, Tok.endNode, Tok.endNode]) := hwf.laid (by decide)
  exact hl0.drop [Tok.beginNode 0]

theorem self_alias_recursion : ∀ (d : Nat) (path : CStr), path 0 % 256 = 97 →
    fdt_lookup_node_by_pathlen selfAliasBlob 40 0 d path 1 = none := by
  intro d
  induction d with
  | zero => intro path _; rfl
  | succ d ih =>
    intro path hp
    cases d with
    | zero =>
      rw [fdt_lookup_node_by_pathlen, if_pos (by omega)]
      rfl
    | succ d' =>
      have hal : fdt_lookup_node_by_pathlen selfAliasBlob 40 0 (d' + 1) aliasesPath 8
          = some 8 := by
        rw [fdt_lookup_node_by_pathlen_walk selfAliasBlob 40 0 d' aliasesPath 8 rfl]
        decide
      have hm : memchr path 47 1 = none := by
        have h1 : toU32 1 = 1 := by decide
        unfold memchr
        rw [h1]
        unfold memchr_loop
        rw [if_neg (by omega)]
        rfl
      obtain ⟨res, hres1, hres2, _⟩ := fdt_lookup_property_value_laid self_alias_laid 40
        path 1 (by decide) 0 (by unfold NamesTerminated; decide) (by decide)
      have hfind : findProp selfAliasBlob path 1
          (propOffsets (8 + (Tok.beginNode 7).size) [Tok.prop 2, Tok.endNode, Tok.endNode])
          = some 20 := by
        rw [findProp_congr selfAliasBlob path (strOfBytes [97]) 1 (fun i hi => by
          have : i = 0 := by omega
          subst this
          rw [hp]; rfl)]
        decide
      have hres := hres2 20 hfind
      have hv : (some (propValueAddr selfAliasBlob 20), toInt32 (propLen selfAliasBlob 20))
          = ((some 72 : Option Int), (2 : Int)) := by decide
      rw [hv] at hres
      have hstrlen : strlen (memStr selfAliasBlob 72) 40 = some 1 := by decide
      have hrec := ih (memStr selfAliasBlob 72) (by decide)
      have key : ∀ slash : Int, slash = 1 →
          (match fdt_lookup_node_by_pathlen selfAliasBlob 40 0 (d' + 1) aliasesPath 8 with
            | none => none
            | some aliasoffset =>
              if aliasoffset < 0 then some (-FDT_ERR_BADPATH)
              else
                match fdt_lookup_property_value_by_namelen selfAliasBlob 40 aliasoffset path
                    (toInt32 slash) 0 with
                | none => none
                | some (none, _) => some (-FDT_ERR_BADPATH)
                | some (some alias_path, _) =>
                  match strlen (memStr selfAliasBlob alias_path) 40 with
                  | none => none
                  | some l =>
                    match fdt_lookup_node_by_pathlen selfAliasBlob 40 0 (d' + 1)
                        (memStr selfAliasBlob alias_path) l with
                    | none => none
                    | some offset =>
                      if offset < 0 then some offset
                      else path_walk selfAliasBlob 40 path 1 40 slash.toNat offset) = none := by
        intro slash hs
        subst hs
        rw [hal]
        simp only
        rw [if_neg (by omega), show toInt32 1 = 1 by decide]
        have hres1b : fdt_lookup_property_value_by_namelen selfAliasBlob 40 8 path 1 0
            = some res := hres1
        rw [hres1b, hres]
        simp only
        rw [hstrlen]
        simp only
        rw [hrec]
      rw [fdt_lookup_node_by_pathlen, if_pos (by omega), hm]
      exact key 1 rfl

/-- C40: `selfAliasBlob` is well formed; its node "/aliases" (offset 8) has the
property `a`, whose value is the NUL-terminated string "a" (address 72, length
2).  Given the path "a", `fdt_lookup_node_by_pathlen` looks the alias up, finds
the value "a" and calls itself on it, in the same state as before: whatever the
depth of recursion it is allowed, it does not return. -/
theorem self_alias_never_returns :
    WellFormed selfAliasBlob selfAliasToks ∧
    (∀ d, fdt_lookup_node_by_pathlen selfAliasBlob 40 0 (d + 1) aliasesPath 8 = some 8) ∧
    fdt_lookup_property_value_by_namelen selfAliasBlob 40 8 (strOfBytes [97]) 1 0
      = some (some 72, 2) ∧
    memBytes selfAliasBlob 72 2 = [97, 0] ∧
    ∀ depth, fdt_lookup_node_by_pathlen selfAliasBlob 40 0 depth (strOfBytes [97]) 1 = none :=
  ⟨⟨by decide, ⟨_, _, rfl⟩, by decide, by decide, by decide⟩,
    fun d => by
      rw [fdt_lookup_node_by_pathlen_walk selfAliasBlob 40 0 d aliasesPath 8 rfl]
      decide,
    by decide, by decide, fun depth => self_alias_recursion depth (strOfBytes [97]) rfl⟩

/-! ## Claim C35: `fdt_move` copies the blob, overlap or not -/

theorem memmove_up_spec :
    ∀ (n fuel : Nat) (m : Mem) (tmp s : Int), n < fuel → n < 2147483648 → tmp ≤ s →
      ∃ m2, memmove_up fuel m (n : Int) tmp s = some m2 ∧
        (∀ i : Nat, i < n → m2 (tmp + i) = byteAt m (s + i)) ∧
        (∀ x : Int, (x < tmp ∨ tmp + n ≤ x) → m2 x = m x) := by
  intro n
  induction n with
  | zero =>
    intro fuel m tmp s hf _ _
    obtain ⟨f, rfl⟩ : ∃ f, fuel = f + 1 := ⟨fuel - 1, by omega⟩
    refine ⟨m, ?_, fun i hi => absurd hi (by omega), fun _ _ => rfl⟩
    unfold memmove_up
    simp
  | succ n ih =>
    intro fuel m tmp s hf hn hts
    obtain ⟨f, rfl⟩ : ∃ f, fuel = f + 1 := ⟨fuel - 1, by omega⟩
    obtain ⟨m2, h1, h2, h3⟩ := ih f (store m tmp (byteAt m s)) (tmp + 1) (s + 1) (by omega)
      (by omega) (by omega)
    refine ⟨m2, ?_, fun i hi => ?_, fun x hx => ?_⟩
    · unfold memmove_up
      rw [if_pos (by push_cast; omega)]
      have : toInt32 (((n + 1 : Nat) : Int) - 1) = (n : Int) := by unfold toInt32; omega
      rw [this]
      exact h1
    · cases i with
      | zero =>
        have := h3 tmp (Or.inl (by omega))
        simp only [Nat.cast_zero, add_zero]
        rw [this]
        simp [store]
      | succ j =>
        have := h2 j (by omega)
        have e1 : tmp + ((j + 1 : Nat) : Int) = tmp + 1 + (j : Int) := by push_cast; ring
        have e2 : s + ((j + 1 : Nat) : Int) = s + 1 + (j : Int) := by push_cast; ring
        rw [e1, e2, this]
        unfold byteAt store
        rw [if_neg (by omega)]
    · have := h3 x (by omega)
      rw [this]
      unfold store
      rw [if_neg (by omega)]

theorem memmove_down_spec :
    ∀ (n fuel : Nat) (m : Mem) (tmp s : Int), n < fuel → n < 2147483648 → s < tmp →
      ∃ m2, memmove_down fuel m (n : Int) tmp s = some m2 ∧
        (∀ i : Nat, i < n → m2 (tmp - 1 - i) = byteAt m (s - 1 - i)) ∧
        (∀ x : Int, (x < tmp - n ∨ tmp ≤ x) → m2 x = m x) := by
  intro n
  induction n with
  | zero =>
    intro fuel m tmp s hf _ _
    obtain ⟨f, rfl⟩ : ∃ f, fuel = f + 1 := ⟨fuel - 1, by omega⟩
    refine ⟨m, ?_, fun i hi => absurd hi (by omega), fun _ _ => rfl⟩
    unfold memmove_down
    simp
  | succ n ih =>
    intro fuel m tmp s hf hn hts
    obtain ⟨f, rfl⟩ : ∃ f, fuel = f + 1 := ⟨fuel - 1, by omega⟩
    obtain ⟨m2, h1, h2, h3⟩ := ih f (store m (tmp - 1) (byteAt m (s - 1))) (tmp - 1) (s - 1)
      (by omega) (by omega) (by omega)
    refine ⟨m2, ?_, fun i hi => ?_, fun x hx => ?_⟩
    · unfold memmove_down
      rw [if_pos (by push_cast; omega)]
      have : toInt32 (((n + 1 : Nat) : Int) - 1) = (n : Int) := by unfold toInt32; omega
      rw [this]
      exact h1
    · cases i with
      | zero =>
        have := h3 (tmp - 1) (Or.inr (by omega))
        simp only [Nat.cast_zero, sub_zero]
        rw [this]
        simp [store]
      | succ j =>
        have := h2 j (by omega)
        have e1 : tmp - 1 - ((j + 1 : Nat) : Int) = tmp - 1 - 1 - (j : Int) := by
          push_cast; ring
        have e2 : s - 1 - ((j + 1 : Nat) : Int) = s - 1 - 1 - (j : Int) := by push_cast; ring
        rw [e1, e2, this]
        unfold byteAt store
        rw [if_neg (by omega)]
    · have := h3 x (by push_cast at hx; omega)
      rw [this]
      unfold store
      rw [if_neg (by push_cast at hx; omega)]

/-- The function `memmove` on regions that may overlap. -/
theorem memmove_spec (m : Mem) (dest src : Int) (n fuel : Nat) (hf : n < fuel)
    (hn : n < 2147483648) :
    ∃ m2, memmove m dest src (n : Int) fuel = some m2 ∧
      (∀ i : Nat, i < n → m2 (dest + i) = byteAt m (src + i)) ∧
      (∀ x : Int, (x < dest ∨ dest + n ≤ x) → m2 x = m x) := by
  unfold memmove
  split_ifs with h
  · exact memmove_up_spec n fuel m dest src hf hn h
  · obtain ⟨m2, h1, h2, h3⟩ := memmove_down_spec n fuel m (dest + n) (src + n) hf hn
      (by omega)
    refine ⟨m2, h1, fun i hi => ?_, fun x hx => h3 x (by omega)⟩
    have := h2 (n - 1 - i) (by omega)
    have e1 : dest + (n : Int) - 1 - ((n - 1 - i : Nat) : Int) = dest + i := by omega
    have e2 : src + (n : Int) - 1 - ((n - 1 - i : Nat) : Int) = src + i := by omega
    rw [e1, e2] at this
    exact this

/-- C35: for every memory, every blob accepted by `fdt_check_header` with
`totalsize < 2^31` and every destination address `buf` (before, after or at the
blob, overlapping it or not), `fdt_move(fdt, buf, totalsize)` returns 0; after
it the `totalsize` bytes from `buf` on are the bytes the blob had before the
call, and every byte outside `buf[0..totalsize)` is unchanged. -/
theorem fdt_move_copies_blob (m : Mem) (hdr : fdt_check_header m = 0)
    (hT : FDT_TOTALSIZE m < 2147483648) (buf : Int) (fuel : Nat) (hf : FDT_TOTALSIZE m < fuel) :
    ∃ m2, fdt_move m buf (FDT_TOTALSIZE m : Int) fuel = some (0, m2) ∧
      (∀ i : Nat, i < FDT_TOTALSIZE m → byteAt m2 (buf + i) = byteAt m (i : Int)) ∧
      (∀ x : Int, (x < buf ∨ buf + (FDT_TOTALSIZE m : Int) ≤ x) → m2 x = m x) := by
  obtain ⟨m2, h1, h2, h3⟩ := memmove_spec m buf 0 (FDT_TOTALSIZE m) fuel hf hT
  refine ⟨m2, ?_, fun i hi => ?_, h3⟩
  · unfold fdt_move
    rw [if_neg (by simp [hdr]), toU32_natCast (by omega), if_neg (by omega),
      toInt32_natCast hT, h1]
  · have := h2 i hi
    rw [zero_add] at this
    unfold byteAt at this ⊢
    rw [this]
    omega

set_option maxRecDepth 100000 in
/-- C35 (witness): `rootOnlyBlob` (`totalsize = 56`) moved by 4 bytes upwards, by
4 bytes downwards and onto itself: each time the call returns 0 and the 56
bytes at the destination are those the blob had. -/
theorem fdt_move_copies_blob_witness :
    (fdt_move rootOnlyBlob 4 56 57).map
        (fun r => (r.1, (List.range 56).map (fun i => byteAt r.2 (4 + Int.ofNat i))))
      = some (0, (List.range 56).map (fun i => byteAt rootOnlyBlob (Int.ofNat i))) ∧
    (fdt_move rootOnlyBlob (-4) 56 57).map
        (fun r => (r.1, (List.range 56).map (fun i => byteAt r.2 (-4 + Int.ofNat i))))
      = some (0, (List.range 56).map (fun i => byteAt rootOnlyBlob (Int.ofNat i))) ∧
    (fdt_move rootOnlyBlob 0 56 57).map
        (fun r => (r.1, (List.range 56).map (fun i => byteAt r.2 (Int.ofNat i))))
      = some (0, (List.range 56).map (fun i => byteAt rootOnlyBlob (Int.ofNat i))) ∧
    ∃ m2, fdt_move rootOnlyBlob 4 ((FDT_TOTALSIZE rootOnlyBlob : Nat) : Int) 57 = some (0, m2) ∧
      (∀ i : Nat, i < FDT_TOTALSIZE rootOnlyBlob →
        byteAt m2 (4 + i) = byteAt rootOnlyBlob (i : Int)) ∧
      (∀ x : Int, (x < 4 ∨ 4 + (FDT_TOTALSIZE rootOnlyBlob : Int) ≤ x) →
        m2 x = rootOnlyBlob x) :=
  ⟨by decide, by decide, by decide,
    fdt_move_copies_blob rootOnlyBlob (by decide) (by decide) 4 57 (by decide)⟩

/-! ## Claim C38: the results of `fdt_tag_next_offset` -/

theorem FDT_TAGALIGN_toInt32 (x : Int) : FDT_TAGALIGN (toInt32 x) = toInt32 (align4 x) := by
  unfold FDT_TAGALIGN align4 toInt32
  omega

theorem align4_toInt32_add (a b c : Int) :
    toInt32 (align4 (toInt32 a + b + c)) = toInt32 (align4 (a + b + c)) := by
  unfold align4 toInt32
  omega

/-- C38 (counterexample): two accepted blobs.  In `unalignedBlob` the tag word
at the unaligned offset 21 is projectable and reads `NOP`; the tag walker
returns the next offset 28, not 21 + 4.  In `giantNameBlob` the tag at offset
0x7ffffff8 is `BEGIN_NODE`, and its name "abc" and the NUL after it lie inside
the blob, so that `n = 3` and the aligned offset after the name is
`2^31`; the tag walker returns `-2^31`. -/
theorem next_tag_unaligned_or_beyond_int_range :
    fdt_check_header unalignedBlob = 0 ∧
    fdt_offset_to_ptr unalignedBlob 21 FDT_TAGSIZE = some 61 ∧
    fdt32_to_cpu unalignedBlob 61 = FDT_NOP ∧
    fdt_tag_next_offset unalignedBlob 21 0 = (FDT_NOP, 28) ∧
    fdt_check_header giantNameBlob = 0 ∧
    fdt_offset_to_ptr giantNameBlob 0x7ffffff8 FDT_TAGSIZE = some (40 + 0x7ffffff8) ∧
    fdt32_to_cpu giantNameBlob (40 + 0x7ffffff8) = FDT_BEGIN_NODE ∧
    memBytes giantNameBlob (40 + 0x7ffffff8 + 4) 4 = [97, 98, 99, 0] ∧
    FDT_STRUCT giantNameBlob + 0x7ffffff8 + 4 + 3 + 1 ≤ FDT_TOTALSIZE giantNameBlob ∧
    align4 (0x7ffffff8 + 4 + 3 + 1) = 2147483648 ∧
    fdt_tag_next_offset giantNameBlob 0x7ffffff8 0 = (FDT_BEGIN_NODE, -2147483648) :=
  ⟨by decide, by decide, by decide, by decide, by decide, by decide, by decide, by decide,
    by decide, by decide, by decide⟩

/-- C38 (amended): for every blob accepted by `fdt_check_header`, every `int`
`off` at which the 4-byte tag word is projectable (at address `p`), and whatever
`*next_offset` held, `fdt_tag_next_offset` returns: for the tag 1, when
`off ≥ 0` and the name has `n` bytes before its first NUL, the NUL lying inside
the blob and below offset `2^31`: `BEGIN_NODE` and `align4(off + 4 + n + 1)`
reduced to an `int`; for the tag 3, when the `len` word is projectable (at
address `q`): `PROPERTY` and `align4(off + 12 + len)` reduced to an `int`; for
the tags 2, 4 and 9: the tag and `align4(off + 4)` reduced to an `int`, which is
`off + 4` when `off` is a multiple of 4 below `2^31 - 4`; for every other tag
value: `END` and -11 (BadStructure). -/
theorem next_tag_results (m : Mem) (hdr : fdt_check_header m = 0) (off : Int)
    (hoff : isInt32 off) (p : Int) (hp : fdt_offset_to_ptr m off FDT_TAGSIZE = some p)
    (prev : Int) :
    (fdt32_to_cpu m p = FDT_BEGIN_NODE → ∀ n : Nat, 0 ≤ off → off + 4 + n + 1 < 2147483648 →
      (FDT_STRUCT m : Int) + off + 4 + n + 1 ≤ FDT_TOTALSIZE m →
      (∀ i : Nat, i < n → byteAt m (p + 4 + i) ≠ 0) → byteAt m (p + 4 + n) = 0 →
      fdt_tag_next_offset m off prev = (FDT_BEGIN_NODE, toInt32 (align4 (off + 4 + n + 1)))) ∧
    (fdt32_to_cpu m p = FDT_PROPERTY → ∀ q, fdt_offset_to_ptr m (toInt32 (off + 4)) 4 = some q →
      fdt_tag_next_offset m off prev
        = (FDT_PROPERTY, toInt32 (align4 (off + 12 + fdt32_to_cpu m q)))) ∧
    (fdt32_to_cpu m p = FDT_END_NODE ∨ fdt32_to_cpu m p = FDT_NOP ∨ fdt32_to_cpu m p = FDT_END →
      fdt_tag_next_offset m off prev = (fdt32_to_cpu m p, toInt32 (align4 (off + 4))) ∧
      (off % 4 = 0 → off + 4 < 2147483648 → toInt32 (align4 (off + 4)) = off + 4)) ∧
    (fdt32_to_cpu m p ≠ FDT_BEGIN_NODE → fdt32_to_cpu m p ≠ FDT_PROPERTY →
      fdt32_to_cpu m p ≠ FDT_END_NODE → fdt32_to_cpu m p ≠ FDT_NOP →
      fdt32_to_cpu m p ≠ FDT_END →
      fdt_tag_next_offset m off prev = (FDT_END, -11)) := by
  have hpa : p = (FDT_STRUCT m : Int) + off := (tag_ptr_bound hp).2
  refine ⟨fun ht n h0 h31 hin hnz hz => ?_, fun ht q hq => ?_, fun ht => ⟨?_, fun h4 h31 => ?_⟩,
    fun h1 h2 h3 h4 h5 => ?_⟩
  · obtain ⟨o, rfl⟩ : ∃ o : Nat, off = (o : Int) := ⟨off.toNat, by omega⟩
    subst hpa
    have hs := skip_name_tok hdr (o := o) (k := n)
      (fun i hi => by
        have := hnz i hi
        intro hx; apply this; rw [← hx]; congr 1)
      (by rw [← hz]; congr 1) (by omega) (by omega) n (le_refl n)
      (FDT_TOTALSIZE m + 1) (by omega)
    simp only [Nat.sub_self, Nat.add_zero] at hs
    have h4 : toInt32 ((o : Int) + 4) = ((o + 4 : Nat) : Int) := by unfold toInt32; omega
    unfold fdt_tag_next_offset
    simp only [hp, ht, h4, if_true, hs]
    have e : ((o + 4 + n + 1 : Nat) : Int) = toInt32 ((o : Int) + 4 + n + 1) := by
      unfold toInt32; omega
    rw [e, FDT_TAGALIGN_toInt32]
  · unfold fdt_tag_next_offset
    simp only [hp, ht, hq, FDT_PROPERTY, FDT_BEGIN_NODE]
    simp only [Nat.reduceEqDiff, if_false, if_true]
    rw [FDT_TAGALIGN_toInt32, align4_toInt32_add]
    rw [show off + 4 + (12 - 4 : Int) + (fdt32_to_cpu m q : Int)
      = off + 12 + fdt32_to_cpu m q by ring]
  · unfold fdt_tag_next_offset
    simp only [hp]
    rcases ht with ht | ht | ht <;>
      simp only [ht, FDT_PROPERTY, FDT_BEGIN_NODE, FDT_END_NODE, FDT_NOP, FDT_END] <;>
      simp only [Nat.reduceEqDiff, if_false, if_true, true_or, or_true] <;>
      rw [FDT_TAGALIGN_toInt32]
  · have := hoff.1
    unfold align4 toInt32
    omega
  · unfold fdt_tag_next_offset
    simp only [hp]
    rw [if_neg h1, if_neg h2, if_neg (by
      rintro (h | h | h)
      · exact h3 h
      · exact h5 h
      · exact h4 h)]
    rfl

/-- C38 (witness): in `familyBlob` the tag at offset 8 is `BEGIN_NODE` with the
name "a" (`n = 1`): the next offset is 16; at 16 a `NOP`: 20; at 20 a property
with `len = 5`: 40; and in `unalignedBlob` the unaligned offset 21 gives
`align4(25) = 28`. -/
theorem next_tag_results_witness :
    fdt_tag_next_offset familyBlob 8 0 = (FDT_BEGIN_NODE, 16) ∧
    fdt_tag_next_offset familyBlob 16 0 = (FDT_NOP, 20) ∧
    fdt_tag_next_offset familyBlob 20 0 = (FDT_PROPERTY, 40) ∧
    fdt_tag_next_offset unalignedBlob 21 0 = (FDT_NOP, 28) ∧
    fdt_tag_next_offset familyBlob 8 0
      = (FDT_BEGIN_NODE, toInt32 (align4 (8 + 4 + ((1 : Nat) : Int) + 1))) :=
  ⟨by decide, by decide, by decide, by decide,
    (next_tag_results familyBlob (by decide) 8 (by decide) 48 (by decide) 0).1 (by decide) 1
      (by decide) (by decide) (by decide) (by decide) (by decide)⟩

/-! ## Enumerating the properties of a node -/

/-- The loop of `lookup_valid_property` on stored records: it stops at the first
property, or with the value that closes the properties. -/
theorem lookup_valid_property_loop_closing {m : Mem} :
    ∀ (ts : List Tok) (o : Nat), Laid m o ts → ∀ (fuel : Nat) (prev : Int), ts.length < fuel →
      ∃ r, lookup_valid_property_loop m fuel (o : Int) prev = some r ∧
        (propOffsets o ts = [] → r = closing ts) ∧
        (∀ x xs, propOffsets o ts = x :: xs → r = (x : Int)) := by
  intro ts
  induction ts with
  | nil =>
    intro o h fuel prev hf
    obtain ⟨f, rfl⟩ : ∃ f, fuel = f + 1 := ⟨fuel - 1, by simp at hf; omega⟩
    refine ⟨-FDT_ERR_BADSTRUCTURE, ?_, fun _ => rfl, fun x xs hx => by simp [propOffsets] at hx⟩
    unfold lookup_valid_property_loop
    simp only [h.tag_end, FDT_END, FDT_PROPERTY, FDT_NOP]
    simp only [Nat.reduceEqDiff, if_false, if_true]
    rw [if_pos (by omega)]
  | cons t ts ih =>
    intro o h fuel prev hf
    obtain ⟨f, rfl⟩ : ∃ f, fuel = f + 1 := ⟨fuel - 1, by omega⟩
    cases t with
    | beginNode k =>
      refine ⟨-FDT_ERR_NOTFOUND, ?_, fun _ => rfl, fun x xs hx => by simp [propOffsets] at hx⟩
      unfold lookup_valid_property_loop
      simp only [h.tag, Tok.tag, FDT_END, FDT_PROPERTY, FDT_NOP, FDT_BEGIN_NODE]
      simp only [Nat.reduceEqDiff, if_false]
    | endNode =>
      refine ⟨-FDT_ERR_NOTFOUND, ?_, fun _ => rfl, fun x xs hx => by simp [propOffsets] at hx⟩
      unfold lookup_valid_property_loop
      simp only [h.tag, Tok.tag, FDT_END, FDT_PROPERTY, FDT_NOP, FDT_END_NODE]
      simp only [Nat.reduceEqDiff, if_false]
    | prop len =>
      refine ⟨(o : Int), ?_, fun hx => by simp [propOffsets] at hx, fun x xs hx => ?_⟩
      · unfold lookup_valid_property_loop
        simp only [h.tag, Tok.tag, if_true]
      · simp only [propOffsets, List.cons.injEq] at hx
        rw [hx.1]
    | nop =>
      obtain ⟨r, h1, h2, h3⟩ := ih (o + 4) h.tail f ((o + 4 : Nat) : Int)
        (by simp at hf; omega)
      refine ⟨r, ?_, fun hx => by rw [h2 (by simpa [propOffsets] using hx)]; rfl,
        fun x xs hx => h3 x xs (by simpa [propOffsets] using hx)⟩
      unfold lookup_valid_property_loop
      simp only [h.tag, Tok.tag, Tok.size, FDT_END, FDT_PROPERTY, FDT_NOP]
      simp only [Nat.reduceEqDiff, if_false, if_true]
      exact h1

theorem asInts_cons (x : Nat) (l : List Nat) : asInts (x :: l) = (x : Int) :: asInts l := rfl

/-- From the result of `lookup_valid_property` on, `fdt_next_property` walks the
properties of the node. -/
theorem property_chain_laid {m : Mem} (fuel : Nat) (uninit : Int) :
    ∀ (ts : List Tok) (o : Nat), Laid m o ts → ∀ (rounds : Nat) (r : Int), ts.length < fuel →
      ts.length < rounds → (propOffsets o ts = [] → r = closing ts) →
      (∀ x xs, propOffsets o ts = x :: xs → r = (x : Int)) →
      property_chain m fuel uninit rounds r = some (asInts (propOffsets o ts), closing ts) := by
  intro ts
  induction ts with
  | nil =>
    intro o h rounds r _ hr h1 _
    obtain ⟨k, rfl⟩ : ∃ k, rounds = k + 1 := ⟨rounds - 1, by simp at hr; omega⟩
    rw [h1 rfl]
    rfl
  | cons t ts ih =>
    intro o h rounds r hf hr h1 h2
    simp only [List.length_cons] at hf hr
    obtain ⟨k, rfl⟩ : ∃ k, rounds = k + 1 := ⟨rounds - 1, by omega⟩
    cases t with
    | beginNode j => rw [h1 rfl]; rfl
    | endNode => rw [h1 rfl]; rfl
    | nop =>
      exact ih (o + 4) h.tail (k + 1) r (by omega) (by omega)
        (fun hx => h1 (by simpa [propOffsets] using hx))
        (fun x xs hx => h2 x xs (by simpa [propOffsets] using hx))
    | prop len =>
      have hr0 : r = (o : Int) := h2 o _ rfl
      subst hr0
      obtain ⟨r2, hn1, hn2, hn3⟩ := lookup_valid_property_loop_closing ts _ h.tail fuel uninit
        (by omega)
      have hnext : fdt_next_property m fuel (o : Int) uninit = some r2 := by
        unfold fdt_next_property
        rw [h.property_next_offset, if_neg (by omega)]
        exact hn1
      have := ih (o + (Tok.prop len).size) h.tail k r2 (by omega) (by omega) hn2 hn3
      unfold property_chain
      rw [if_neg (by omega), hnext]
      simp only
      rw [this]
      rfl

theorem property_sequence_laid {m : Mem} {o k : Nat} {ts : List Tok}
    (h : Laid m o (Tok.beginNode k :: ts)) (fuel : Nat) (uninit : Int) (hf : ts.length < fuel) :
    property_sequence m fuel uninit (o : Int)
      = some (asInts (propOffsets (o + (Tok.beginNode k).size) ts), closing ts) := by
  obtain ⟨r, h1, h2, h3⟩ := lookup_valid_property_loop_closing ts _ h.tail fuel uninit hf
  have hfirst : fdt_first_property m fuel (o : Int) uninit = some r := by
    unfold fdt_first_property
    rw [h.node_next_offset, if_neg (by omega)]
    exact h1
  unfold property_sequence
  rw [hfirst]
  exact property_chain_laid fuel uninit ts _ h.tail fuel r hf hf h2 h3

theorem closing_nested : ∀ (ts : List Tok) (d : Nat), properlyNested (d + 1) ts = true →
    closing ts = -1 := by
  intro ts
  induction ts with
  | nil => intro d h; simp [properlyNested] at h
  | cons t ts ih =>
    intro d h
    cases t with
    | beginNode k => rfl
    | endNode => rfl
    | prop len => exact ih d (by simpa [properlyNested] using h)
    | nop => exact ih d (by simpa [properlyNested] using h)

theorem closing_cases (ts : List Tok) : closing ts = -1 ∨ closing ts = -11 := by
  induction ts with
  | nil => right; rfl
  | cons t ts ih => cases t <;> first | exact ih | (left; rfl)

theorem closingRecs_eraseNops (l : List Rec) : closingRecs (eraseNops l) = closingRecs l := by
  induction l with
  | nil => rfl
  | cons r l ih =>
    cases r with
    | node name => simp [eraseNops, closingRecs]
    | endNode => simp [eraseNops, closingRecs]
    | prop name value =>
      simp only [eraseNops, List.filter, ne_eq, reduceCtorEq, not_false_eq_true, decide_True,
        closingRecs]
      exact ih
    | nop =>
      simp only [eraseNops, List.filter, ne_eq, not_true_eq_false, decide_False, closingRecs]
      exact ih

theorem closing_recordsAt (m : Mem) (bound : Nat) : ∀ (ts : List Tok) (o : Nat),
    closingRecs (recordsAt m bound o ts) = closing ts := by
  intro ts
  induction ts with
  | nil => intro o; rfl
  | cons t ts ih =>
    intro o
    cases t with
    | beginNode k => rfl
    | endNode => rfl
    | prop len => simp only [recordsAt, closingRecs, closing]; exact ih _
    | nop => simp only [recordsAt, closingRecs, closing]; exact ih _

/-- The bytes before the first NUL of a stored string. -/
theorem stringAt_eq (m : Mem) : ∀ (L bound : Nat) (a : Int), L < bound →
    (∀ j : Nat, j < L → byteAt m (a + j) ≠ 0) → byteAt m (a + L) = 0 →
    stringAt m bound a = memBytes m a L := by
  intro L
  induction L with
  | zero =>
    intro bound a hb _ hz
    obtain ⟨b, rfl⟩ : ∃ b, bound = b + 1 := ⟨bound - 1, by omega⟩
    unfold stringAt
    rw [memBytes_succ]
    simp only [Nat.cast_zero, add_zero] at hz
    simp [List.takeWhile, hz, memBytes]
  | succ L ih =>
    intro bound a hb hnz hz
    obtain ⟨b, rfl⟩ : ∃ b, bound = b + 1 := ⟨bound - 1, by omega⟩
    have h0 : byteAt m a ≠ 0 := by simpa using hnz 0 (by omega)
    have := ih b (a + 1) (by omega)
      (fun j hj => by
        have := hnz (j + 1) (by omega)
        intro hx; apply this; rw [← hx]; congr 1; push_cast; ring)
      (by rw [← hz]; congr 1; push_cast; ring)
    unfold stringAt at this ⊢
    rw [memBytes_succ, memBytes_succ]
    rw [List.takeWhile_cons_of_pos (by simpa using h0), this]

/-- What a caller reads at a stored property whose name is terminated. -/
theorem property_content_laid {m : Mem} {o len : Nat} {ts : List Tok}
    (h : Laid m o (Tok.prop len :: ts)) (fuel : Nat) (hnt : NamesTerminated m fuel [o]) :
    property_content m fuel (o : Int)
      = some (stringAt m fuel (propNameAddr m o), valueBytes m o) := by
  obtain ⟨hoff, L, hL1, hL2, hL3⟩ := hnt o (List.mem_singleton.mpr rfl)
  obtain ⟨L', h1, _, h3, h4, h5⟩ := strlen_loop_first (memStr m (propNameAddr m o)) fuel 0 L
    (by omega) (by omega) (by simp only [memStr, byteAt_mod]; exact hL3)
  simp only [memStr, byteAt_mod] at h4 h5
  have hstr : strlen (memStr m (propNameAddr m o)) fuel = some (L' : Int) := by
    unfold strlen
    rw [h1]
    simp only [Option.some.injEq]
    exact toInt32_natCast (by omega)
  have hname : fdt_string_ptr m (toInt32 (fdt32_to_cpu m ((FDT_STRUCT m : Int) + o + 8)))
      = some (propNameAddr m o) := by
    unfold fdt_string_ptr fdt_string propNameAddr
    rw [toInt32_natCast (by omega)]
  have hsa := stringAt_eq m L' fuel (propNameAddr m o) (by omega)
    (fun j hj => h5 j (by omega) hj) h4
  unfold property_content fdt_property_value
  rw [h.fdt_property_entry]
  simp only
  rw [hname]
  simp only
  rw [hstr]
  simp only
  rw [h.propLen_small.1, hsa]
  simp only [Int.toNat_ofNat, valueBytes, propValueAddr]

theorem property_contents_records {m : Mem} (fuel : Nat) :
    ∀ (ts : List Tok) (o : Nat), Laid m o ts → NamesTerminated m fuel (propOffsets o ts) →
      (asInts (propOffsets o ts)).map (property_content m fuel)
        = (leadingProps (eraseNops (recordsAt m fuel o ts))).map some := by
  intro ts
  induction ts with
  | nil => intro o _ _; rfl
  | cons t ts ih =>
    intro o h hnt
    cases t with
    | beginNode k => simp [propOffsets, recordsAt, eraseNops, leadingProps, asInts]
    | endNode => simp [propOffsets, recordsAt, eraseNops, leadingProps, asInts]
    | nop =>
      have := ih (o + 4) h.tail (by simpa [propOffsets] using hnt)
      simp only [propOffsets, recordsAt, eraseNops, List.filter, ne_eq, not_true_eq_false,
        decide_False] at this ⊢
      exact this
    | prop len =>
      have hnt1 : NamesTerminated m fuel [o] := fun x hx => by
        rw [List.mem_singleton.mp hx]
        exact hnt o (by simp [propOffsets])
      have hnt2 : NamesTerminated m fuel (propOffsets (o + (Tok.prop len).size) ts) :=
        fun x hx => hnt x (by simp [propOffsets, hx])
      have := ih (o + (Tok.prop len).size) h.tail hnt2
      simp only [propOffsets, recordsAt, eraseNops, List.filter, ne_eq, reduceCtorEq,
        not_false_eq_true, decide_True, leadingProps, asInts_cons, List.map_cons] at this ⊢
      rw [property_content_laid h fuel hnt1, this]

/-- The names and values read from a node: the leading properties of its body
once the `NOP` records are left out. -/
theorem property_contents_laid {m : Mem} {o k : Nat} {ts : List Tok}
    (h : Laid m o (Tok.beginNode k :: ts)) (fuel : Nat) (uninit : Int) (hf : ts.length < fuel)
    (hnt : NamesTerminated m fuel (propOffsets (o + (Tok.beginNode k).size) ts)) :
    property_contents m fuel uninit (o : Int)
      = some ((leadingProps (eraseNops (recordsAt m fuel (o + (Tok.beginNode k).size) ts))).map
          some, closingRecs (eraseNops (recordsAt m fuel (o + (Tok.beginNode k).size) ts))) := by
  unfold property_contents
  rw [property_sequence_laid h fuel uninit hf]
  simp only
  rw [property_contents_records fuel ts _ h.tail hnt, closingRecs_eraseNops, closing_recordsAt]

theorem closing_badstructure_iff (ts : List Tok) :
    closing ts = -11 ↔ ∀ t ∈ ts, t = Tok.nop ∨ ∃ len, t = Tok.prop len := by
  induction ts with
  | nil => simp [closing, FDT_ERR_BADSTRUCTURE]
  | cons t ts ih =>
    cases t with
    | beginNode k => simp [closing, FDT_ERR_NOTFOUND]
    | endNode => simp [closing, FDT_ERR_NOTFOUND]
    | prop len => simp only [closing, List.mem_cons, forall_eq_or_imp]; simp [ih]
    | nop => simp only [closing, List.mem_cons, forall_eq_or_imp]; simp [ih]

/-! ## Claim C31: `fdt_first_property` and `fdt_next_property` -/

/-- C31 (counterexample): `giantListBlob` is well formed and its root has two
properties, at structure offsets 8 and 0x80000004 = 2147483652, followed by the
root's `END_NODE`; but `fdt_first_property` followed by `fdt_next_property`
yields the offset 8 only and then -2147483644, which is not -1 (NotFound): the
offset of the second property does not fit an `int`. -/
theorem property_enumeration_beyond_int_range :
    WellFormed giantListBlob giantListToks ∧
    propOffsets (streamSize [] + (Tok.beginNode 0).size) giantListToks.tail = [8, 2147483652] ∧
    closing giantListToks.tail = -1 ∧
    property_sequence giantListBlob 20 0 0 = some ([8], -2147483644) :=
  ⟨⟨by decide, ⟨_, _, rfl⟩, by decide, by decide, by decide⟩, by decide, by decide, by decide⟩

/-- C31 (amended): on a blob with an accepted header whose records `ts`, and the
`END` tag after them, are stored from `off_dt_struct` on inside `totalsize` and
below offset `2^31`, for every node (the record `BEGIN_NODE` that follows the
records `pre`, its body being `post`): `fdt_first_property` followed by repeated
`fdt_next_property` yields exactly the offsets of the `PROPERTY` records found,
`NOP`s apart, before the first other record of the body, in order; then it
yields -1 (NotFound) when that record is a `BEGIN_NODE` or an `END_NODE`, which
is so whenever the records are properly nested, and -11 (BadStructure) when the
body holds only properties and `NOP`s up to the `END` tag.  When the names of
these properties are NUL-terminated, the names and values read at the offsets
are those of the leading properties of the body with its `NOP` records left
out; so two such nodes, of the same blob or of two, whose bodies hold the same
records once the `NOP`s are left out, give the same names and values and end
with the same value. -/
theorem property_enumeration (m : Mem) (ts : List Tok) (hdr : fdt_check_header m = 0)
    (hs : streamAt m 0 ts) (hin : FDT_STRUCT m + streamSize ts + 4 ≤ FDT_TOTALSIZE m)
    (h31 : streamSize ts + 4 < 2147483648)
    (pre : List Tok) (k : Nat) (post : List Tok) (hts : ts = pre ++ Tok.beginNode k :: post)
    (fuel : Nat) (hf : ts.length + 2 ≤ fuel) (uninit : Int) :
    property_sequence m fuel uninit (streamSize pre : Int)
      = some (asInts (propOffsets (streamSize pre + (Tok.beginNode k).size) post),
          closing post) ∧
    (closing post = -1 ∨ closing post = -11) ∧
    (properlyNested 0 ts = true → closing post = -1) ∧
    (closing post = -11 ↔ ∀ t ∈ post, t = Tok.nop ∨ ∃ len, t = Tok.prop len) ∧
    (NamesTerminated m fuel (propOffsets (streamSize pre + (Tok.beginNode k).size) post) →
      property_contents m fuel uninit (streamSize pre : Int)
        = some ((leadingProps (eraseNops
              (recordsAt m fuel (streamSize pre + (Tok.beginNode k).size) post))).map some,
            closingRecs (eraseNops
              (recordsAt m fuel (streamSize pre + (Tok.beginNode k).size) post))) ∧
      ∀ (m2 : Mem) (ts2 pre2 : List Tok) (k2 : Nat) (post2 : List Tok),
        fdt_check_header m2 = 0 → streamAt m2 0 ts2 →
        FDT_STRUCT m2 + streamSize ts2 + 4 ≤ FDT_TOTALSIZE m2 →
        streamSize ts2 + 4 < 2147483648 → ts2 = pre2 ++ Tok.beginNode k2 :: post2 →
        ts2.length + 2 ≤ fuel →
        NamesTerminated m2 fuel (propOffsets (streamSize pre2 + (Tok.beginNode k2).size) post2) →
        eraseNops (recordsAt m fuel (streamSize pre + (Tok.beginNode k).size) post)
          = eraseNops (recordsAt m2 fuel (streamSize pre2 + (Tok.beginNode k2).size) post2) →
        property_contents m fuel uninit (streamSize pre : Int)
          = property_contents m2 fuel uninit (streamSize pre2 : Int)) := by
  have laid : ∀ (m : Mem) (ts pre : List Tok) (k : Nat) (post : List Tok),
      fdt_check_header m = 0 → streamAt m 0 ts →
      FDT_STRUCT m + streamSize ts + 4 ≤ FDT_TOTALSIZE m → streamSize ts + 4 < 2147483648 →
      ts = pre ++ Tok.beginNode k :: post → Laid m (streamSize pre) (Tok.beginNode k :: post) := by
    intro m ts pre k post hdr hs hin h31 hts
    have hl0 : Laid m 0 ts := ⟨hdr, rfl, hs, by omega, by omega⟩
    rw [hts] at hl0
    simpa using hl0.drop pre
  have hl := laid m ts pre k post hdr hs hin h31 hts
  have hlen : post.length < fuel := by
    rw [hts] at hf; simp only [List.length_append, List.length_cons] at hf; omega
  refine ⟨property_sequence_laid hl fuel uninit hlen, closing_cases post, fun hn => ?_,
    closing_badstructure_iff post, fun hnt => ⟨?_, ?_⟩⟩
  · rw [hts] at hn
    obtain ⟨d, hd⟩ := properlyNested_body hn
    exact closing_nested post d hd
  · exact property_contents_laid hl fuel uninit hlen hnt
  · intro m2 ts2 pre2 k2 post2 hdr2 hs2 hin2 h312 hts2 hf2 hnt2 heq
    have hl2 := laid m2 ts2 pre2 k2 post2 hdr2 hs2 hin2 h312 hts2
    have hlen2 : post2.length < fuel := by
      rw [hts2] at hf2; simp only [List.length_append, List.length_cons] at hf2; omega
    rw [property_contents_laid hl fuel uninit hlen hnt,
      property_contents_laid hl2 fuel uninit hlen2 hnt2, heq]

/-- C31 (witness): the root of `nopPropsBlob` holds `NOP`, the property `a`,
two `NOP`s, the property `bb` and a `NOP`: the offsets enumerated are 12 and 36,
then -1; the names and values read are those of `plainPropsBlob`, which holds
the same properties without any `NOP`.  In `openNodeBlob` the `END` tag follows
the property, and the enumeration ends with -11. -/
theorem property_enumeration_witness :
    property_sequence nopPropsBlob 20 0 0 = some ([12, 36], -1) ∧
    property_sequence plainPropsBlob 20 0 0 = some ([8, 24], -1) ∧
    property_contents plainPropsBlob 20 0 0
      = some ([some ([97], [1, 2, 3, 4]), some ([98, 98], [120, 0])], -1) ∧
    fdt_check_header openNodeBlob = 0 ∧ streamAt openNodeBlob 0 openNodeToks ∧
    property_sequence openNodeBlob 20 0 0 = some ([12], -11) ∧
    property_contents nopPropsBlob 20 0 ((streamSize ([] : List Tok) : Nat) : Int)
      = property_contents plainPropsBlob 20 0 ((streamSize ([] : List Tok) : Nat) : Int) :=
  ⟨by decide, by decide, by decide, by decide, by decide, by decide,
    ((property_enumeration nopPropsBlob nopPropsToks (by decide) (by decide) (by decide)
      (by decide) [] 0 nopPropsToks.tail (by decide) 20 (by decide) 0).2.2.2.2
      (by unfold NamesTerminated; decide)).2 plainPropsBlob plainPropsToks [] 0
      plainPropsToks.tail (by decide) (by decide) (by decide) (by decide) (by decide)
      (by decide) (by unfold NamesTerminated; decide)
      ((show eraseNops (recordsAt nopPropsBlob 20 (streamSize [] + (Tok.beginNode 0).size)
          nopPropsToks.tail)
            = [Rec.prop [97] [1, 2, 3, 4], Rec.prop [98, 98] [120, 0], Rec.endNode] by
          decide).trans
        (show eraseNops (recordsAt plainPropsBlob 20 (streamSize [] + (Tok.beginNode 0).size)
          plainPropsToks.tail)
            = [Rec.prop [97] [1, 2, 3, 4], Rec.prop [98, 98] [120, 0], Rec.endNode] by
          decide).symm)⟩

end Fdt
